import Mathlib

/-!
# Key Value Store (Laczen/kvs): a shallow embedding of `lib/src/kvs.c`

The embedding follows `src/lib/src/kvs.c` and `src/lib/include/kvs/kvs.h` function by
function.  Machine integers are natural numbers; 32-bit wrap-around is written
explicitly (`u32`) where the C code can overflow (the wrap counter, the `next`
offset computed while decoding a header, the bound checks of the reads).  The memory device is a list of bytes
together with the two backends of `src/zephyr/subsys/kvs` (EEPROM: no erase, `sync`
stamps a 4-byte end marker; flash: `prog` at a block base wipes the block, `sync`
does nothing).  Loops that the C code does not bound take a `fuel` argument and
report exhaustion as `none`.
-/

namespace KVS

/-! ## Constants (`enum kvs_constants`, `enum kvs_error_codes`, `enum kvs_stop_codes`) -/

def KVS_FILLCHAR : Nat := 0xFF
def KVS_HDRSIZE : Nat := 4
def KVS_HDRKEYMASK : Nat := 0xFF
def KVS_HDRKEYSHIFT : Nat := 0
def KVS_HDRVALMASK : Nat := 0xFFFF
def KVS_HDRVALSHIFT : Nat := 8
def KVS_KVCRCSIZE : Nat := 4
def KVS_KVCRCINIT : Nat := 0
def KVS_BUFSIZE : Nat := 16
def KVS_WRAPCNTSIZE : Nat := 4

def KVS_ENOENT : Int := 2
def KVS_EIO : Int := 5
def KVS_EAGAIN : Int := 11
def KVS_EINVAL : Int := 22
def KVS_ENOSPC : Int := 28
def KVS_DONE : Int := 1

/-- Truncation to `uint32_t`. -/
def u32 (n : Nat) : Nat := n % 4294967296

/-- `KVS_MIN(a, b)`. -/
def KVS_MIN (a b : Nat) : Nat := if a < b then a else b

/-- `KVS_ALIGNDOWN(num, align)`: `num & ~(align - 1)` on 32-bit operands. -/
def KVS_ALIGNDOWN (num align : Nat) : Nat :=
  num &&& (4294967295 ^^^ (align - 1))

/-- `KVS_ALIGNUP(num, align)`: `(num + (align - 1)) & ~(align - 1)` on 32-bit operands. -/
def KVS_ALIGNUP (num align : Nat) : Nat :=
  u32 (num + (align - 1)) &&& (4294967295 ^^^ (align - 1))

/-! ## Little-endian codec and checksums -/

/-- `get_le32`: the four bytes of `buf` as a little-endian 32-bit number. -/
def get_le32 (buf : List Nat) : Nat :=
  buf.getD 0 0 + (buf.getD 1 0 <<< 8) + (buf.getD 2 0 <<< 16) + (buf.getD 3 0 <<< 24)

/-- `put_le32`: the four little-endian bytes of a 32-bit number. -/
def put_le32 (value : Nat) : List Nat :=
  [value &&& 0x000000ff, (value &&& 0x0000ff00) >>> 8,
   (value &&& 0x00ff0000) >>> 16, (value &&& 0xff000000) >>> 24]

def kvs_crc8_ccitt_table : List Nat :=
  [0x00, 0x07, 0x0e, 0x09, 0x1c, 0x1b, 0x12, 0x15,
   0x38, 0x3f, 0x36, 0x31, 0x24, 0x23, 0x2a, 0x2d]

/-- One nibble step of `crc8`: `crc = (crc << 4) ^ table[crc >> 4]` stored in a `uint8_t`. -/
def crc8_nibble (crc : Nat) : Nat :=
  ((crc <<< 4) ^^^ kvs_crc8_ccitt_table.getD (crc >>> 4) 0) % 256

/-- `crc8(crc, buf, len)` with `len = buf.length`. -/
def crc8 (crc : Nat) (buf : List Nat) : Nat :=
  buf.foldl (fun c b => crc8_nibble (crc8_nibble (c ^^^ b))) crc

def kvs_crc32_table : List Nat :=
  [0x00000000, 0x1db71064, 0x3b6e20c8, 0x26d930ac,
   0x76dc4190, 0x6b6b51f4, 0x4db26158, 0x5005713c,
   0xedb88320, 0xf00f9344, 0xd6d6a3e8, 0xcb61b38c,
   0x9b64c2b0, 0x86d3d2d4, 0xa00ae278, 0xbdbdf21c]

/-- The loop body of `crc32` for one byte. -/
def crc32_byte (crc byte : Nat) : Nat :=
  let c1 := (crc >>> 4) ^^^ kvs_crc32_table.getD ((crc ^^^ byte) &&& 0x0f) 0
  (c1 >>> 4) ^^^ kvs_crc32_table.getD ((c1 ^^^ (byte >>> 4)) &&& 0x0f) 0

/-- `crc32(crc, buf, len)` with `len = buf.length`; `~` is the 32-bit complement. -/
def crc32 (crc : Nat) (buf : List Nat) : Nat :=
  4294967295 ^^^ (buf.foldl crc32_byte (4294967295 ^^^ crc))

/-! ## Store, configuration and memory device -/

/-- The two memory backends of `src/zephyr/subsys/kvs`. -/
inductive Backend where
  /-- `kvs_backend_eeprom.c`: `prog` writes in place, `sync` stamps four zero bytes. -/
  | eeprom
  /-- `kvs_backend_flash.c`: `prog` at a block base wipes the block, `sync` is a no-op. -/
  | flash
  deriving DecidableEq, Repr

/-- `struct kvs_cfg`: the constant part of a store.  `progFail off` tells whether the
device refuses to program at offset `off` (a worn-out cell); it is `false` everywhere
on a healthy device. -/
structure Cfg where
  bsz : Nat
  bcnt : Nat
  bspr : Nat
  psz : Nat
  backend : Backend
  progFail : Nat → Bool
  /-- The value an uninitialised `uint32_t` local (`wrapcnt` in `walk`) happens to hold. -/
  uninit : Nat

/-- `struct kvs_data` together with the bytes of the memory device (`dev`) and of the
program buffer `cfg->pbuf` (`pbuf`). -/
structure Kvs where
  dev : List Nat
  pbuf : List Nat
  ready : Bool
  pos : Nat
  bend : Nat
  wrapcnt : Nat
  cookie : Option (List Nat)
  csz : Nat
  deriving DecidableEq, Repr

/-- `struct kvs_ent` without the back pointer to the store. -/
structure Ent where
  start : Nat
  next : Nat
  he_hdr : Nat
  deriving DecidableEq, Repr

/-- `entry_get_klen`. -/
def entry_get_klen (ent : Ent) : Nat := (ent.he_hdr >>> KVS_HDRKEYSHIFT) &&& KVS_HDRKEYMASK

/-- `entry_get_vlen`. -/
def entry_get_vlen (ent : Ent) : Nat := (ent.he_hdr >>> KVS_HDRVALSHIFT) &&& KVS_HDRVALMASK

/-- `hdr_get_data`. -/
def hdr_get_data (hdr : Nat) : Nat :=
  hdr &&& ((KVS_HDRVALMASK <<< KVS_HDRVALSHIFT) ||| (KVS_HDRKEYMASK <<< KVS_HDRKEYSHIFT))

/-- `entry_set_len`: the header word without its checksum. -/
def entry_set_len (klen vlen : Nat) : Nat :=
  ((vlen &&& KVS_HDRVALMASK) <<< KVS_HDRVALSHIFT) |||
    ((klen &&& KVS_HDRKEYMASK) <<< KVS_HDRKEYSHIFT)

/-- `kvs_dev_read`: the backend `read`, `-EINVAL` when `(off + len) > be->size`.  The sum
of the `uint32_t off` and the `size_t len` is a 32-bit sum (`size_t` has 32 bits on the
targets of the library) and wraps around.  A read that passes the test gets the bytes the
device holds from `off` on, `len` of them unless the device ends before. -/
def kvs_dev_read (k : Kvs) (off len : Nat) : Except Int (List Nat) :=
  if u32 (off + len) > k.dev.length then .error (-KVS_EINVAL)
  else .ok ((k.dev.drop off).take len)

/-- Overwrite `dev` with `data` from offset `off` on. -/
def memWrite (dev : List Nat) (off : Nat) (data : List Nat) : List Nat :=
  dev.take off ++ data ++ dev.drop (off + data.length)

/-- The flash backend wipes the block when its first byte is programmed. -/
def flashErase (cfg : Cfg) (dev : List Nat) (off : Nat) : List Nat :=
  if off % cfg.bsz = 0 then
    (memWrite dev off (List.replicate cfg.bsz KVS_FILLCHAR)).take dev.length
  else dev

/-- `kvs_dev_prog`: the backend `prog`; returns the return code and the new device. -/
def kvs_dev_prog (cfg : Cfg) (k : Kvs) (off : Nat) (data : List Nat) : Int × Kvs :=
  if off + data.length > k.dev.length then (-KVS_EINVAL, k)
  else if cfg.progFail off then (- KVS_EIO, k)
  else
    match cfg.backend with
    | .eeprom => (0, { k with dev := memWrite k.dev off data })
    | .flash => (0, { k with dev := memWrite (flashErase cfg k.dev off) off data })

/-- `kvs_dev_comp`: the backend `comp`, a read-back compare. -/
def kvs_dev_comp (k : Kvs) (off : Nat) (data : List Nat) : Int :=
  match kvs_dev_read k off data.length with
  | .error rc => rc
  | .ok d => if d = data then 0 else - KVS_EIO

/-- `kvs_dev_sync`: the EEPROM backend writes the end marker at `pos`, the flash backend
does nothing. -/
def kvs_dev_sync (cfg : Cfg) (k : Kvs) : Int × Kvs :=
  match cfg.backend with
  | .flash => (0, k)
  | .eeprom =>
    if k.pos > k.dev.length then (-KVS_EINVAL, k)
    else if k.pos + 4 > k.dev.length then (0, k)
    else (0, { k with dev := memWrite k.dev k.pos [0, 0, 0, 0] })

/-! ## Entry codec -/

/-- `entry_read`: the sums `ent->start + off + len` and `ent->start + off` are 32-bit sums
and wrap around. -/
def entry_read (k : Kvs) (ent : Ent) (off len : Nat) : Except Int (List Nat) :=
  if u32 (ent.start + off + len) > ent.next then .error (-KVS_EINVAL)
  else kvs_dev_read k (u32 (ent.start + off)) len

/-- `entry_data_read`: `KVS_HDRSIZE + off` is a 32-bit sum. -/
def entry_data_read (k : Kvs) (ent : Ent) (off len : Nat) : Except Int (List Nat) :=
  entry_read k ent (u32 (KVS_HDRSIZE + off)) len

/-- Program followed by the read-back compare, as `entry_write` does it twice. -/
def prog_comp (cfg : Cfg) (k : Kvs) (off : Nat) (data : List Nat) : Int × Kvs :=
  match kvs_dev_prog cfg k off data with
  | (rc, k1) => if rc ≠ 0 then (rc, k1) else (kvs_dev_comp k1 off data, k1)

/-- The `end:` label of `entry_write` and `entry_write_fill`: after a write failure the
write position is moved to the end of the block. -/
def poison (k : Kvs) : Kvs := { k with pos := k.bend }

/-- First stage of `entry_write` ("fill remaining part of program buffer and write if
needed"): `off` is the device offset of the program unit, `rem` the room left in the
program buffer.  Returns the return code, the store, the device offset and the data
still to be written. -/
def entry_write_rem (cfg : Cfg) (k : Kvs) (off rem : Nat) (data : List Nat) :
    Int × Kvs × Nat × List Nat :=
  if rem ≠ 0 then
    let wrlen := KVS_MIN data.length rem
    let k1 : Kvs := { k with pbuf := memWrite k.pbuf (cfg.psz - rem) (data.take wrlen) }
    if wrlen = rem then
      match prog_comp cfg k1 off (k1.pbuf.take cfg.psz) with
      | (rc, k2) =>
        if rc ≠ 0 then (rc, k2, off, data) else (0, k2, off + cfg.psz, data.drop wrlen)
    else (0, k1, off, data.drop wrlen)
  else (0, k, off, data)

/-- Second stage of `entry_write` ("perform direct write if possible").  Returns the
return code, the store and the data still to be written. -/
def entry_write_direct (cfg : Cfg) (k : Kvs) (off : Nat) (data : List Nat) :
    Int × Kvs × List Nat :=
  if data.length ≥ cfg.psz then
    let wrlen := KVS_ALIGNDOWN data.length cfg.psz
    match prog_comp cfg k off (data.take wrlen) with
    | (rc, k1) => if rc ≠ 0 then (rc, k1, data) else (0, k1, data.drop wrlen)
  else (0, k, data)

/-- Third stage of `entry_write` ("add remaining part to program buffer"). -/
def entry_write_tail (k : Kvs) (data : List Nat) : Kvs :=
  if data.length ≠ 0 then { k with pbuf := memWrite k.pbuf 0 data } else k

/-- `entry_write`: the program-granularity-aware writer; `data.length` is `len`.  On a
failure of the device the write position is moved to the end of the block. -/
def entry_write (cfg : Cfg) (k : Kvs) (ent : Ent) (off : Nat) (data : List Nat) :
    Int × Kvs :=
  let psz := cfg.psz
  let rem := KVS_ALIGNUP off psz - off
  if ent.next - ent.start < off + data.length then (-KVS_EINVAL, k)
  else if data.length = 0 then (0, k)
  else
    match entry_write_rem cfg k (ent.start + KVS_ALIGNDOWN off psz) rem data with
    | (rc1, k1, off2, data2) =>
      if rc1 ≠ 0 then (rc1, poison k1)
      else
        match entry_write_direct cfg k1 off2 data2 with
        | (rc2, k2, data3) =>
          if rc2 ≠ 0 then (rc2, poison k2) else (0, entry_write_tail k2 data3)

/-- `entry_write_fill`: pad the program buffer with the fill byte and program it. -/
def entry_write_fill (cfg : Cfg) (k : Kvs) (ent : Ent) (off : Nat) : Int × Kvs :=
  let psz := cfg.psz
  let rem := KVS_ALIGNUP off psz - off
  if rem = 0 then (0, k)
  else if ent.next - ent.start < off then (-KVS_EINVAL, k)
  else
    let k1 : Kvs :=
      { k with pbuf := memWrite k.pbuf (psz - rem) (List.replicate rem KVS_FILLCHAR) }
    match kvs_dev_prog cfg k1 (ent.start + KVS_ALIGNDOWN off psz) (k1.pbuf.take psz) with
    | (rc, k2) => if rc ≠ 0 then (rc, poison k2) else (0, k2)

/-- `entry_hdr_add_crc`: the CRC-8 runs over the four bytes of `d & 0xffffff` as they lie
in memory on a little-endian machine. -/
def entry_hdr_add_crc (d : Nat) : Nat :=
  let e := d &&& 0xffffff
  let crc := crc8 0 (put_le32 e)
  d ||| (crc <<< 24)

/-- `entry_get_param`: decode the header bytes `hdr` of the entry starting at `ent.start`;
`ent.next` holds the end of the block on entry. -/
def entry_get_param (cfg : Cfg) (ent : Ent) (hdr : List Nat) : Int × Ent :=
  let psz := cfg.psz
  let he_hdr := get_le32 hdr
  if he_hdr ≠ entry_hdr_add_crc (hdr_get_data he_hdr) then (-KVS_EINVAL, ent)
  else
    let ent1 := { ent with he_hdr := he_hdr }
    let next0 := u32 (ent.start + KVS_HDRSIZE + KVS_KVCRCSIZE - 1)
    let next1 := u32 (next0 + (entry_get_klen ent1 + entry_get_vlen ent1))
    let next := u32 (KVS_ALIGNDOWN next1 psz + psz)
    if next > ent1.next ∨ next < ent1.start then (-KVS_EINVAL, ent1)
    else (0, { ent1 with next := next })

/-- `entry_get_info`: read and decode the header at `ent.start`. -/
def entry_get_info (cfg : Cfg) (k : Kvs) (ent : Ent) : Int × Ent :=
  let ent1 : Ent := { ent with next := KVS_ALIGNDOWN ent.start cfg.bsz + cfg.bsz }
  match entry_read k ent1 0 KVS_HDRSIZE with
  | .error _ => (-KVS_ENOENT, ent1)
  | .ok hdr =>
    match entry_get_param cfg ent1 hdr with
    | (rc, ent2) => if rc ≠ 0 then (-KVS_ENOENT, ent2) else (0, ent2)

/-- `entry_get_wrapcnt`: the wrap counter of a block header entry; `wrapcnt` is left as
it was when the entry has a key or cannot be read. -/
def entry_get_wrapcnt (k : Kvs) (ent : Ent) (wrapcnt : Nat) : Nat :=
  if entry_get_klen ent ≠ 0 then wrapcnt
  else
    match entry_data_read k ent 0 KVS_WRAPCNTSIZE with
    | .error _ => wrapcnt
    | .ok buf => get_le32 buf

/-- The loop of `entry_kvcrc_ok`: stream `len` payload bytes from data offset `off` in
chunks of `KVS_BUFSIZE` bytes; `none` when a read fails. -/
def kvcrc_loop (k : Kvs) (ent : Ent) : Nat → Nat → Nat → Nat → Option (Nat × Nat)
  | 0, crc, off, _ => some (crc, off)
  | fuel + 1, crc, off, len =>
    if len = 0 then some (crc, off)
    else
      let rdlen := KVS_MIN len KVS_BUFSIZE
      match entry_data_read k ent off rdlen with
      | .error _ => none
      | .ok buf => kvcrc_loop k ent fuel (crc32 crc buf) (off + rdlen) (len - rdlen)

/-- `entry_kvcrc_ok`: does the stored CRC-32 match the one of key and value? -/
def entry_kvcrc_ok (k : Kvs) (ent : Ent) : Bool :=
  let len := entry_get_klen ent + entry_get_vlen ent
  match kvcrc_loop k ent len KVS_KVCRCINIT 0 len with
  | none => false
  | some (kvcrc32, off) =>
    match entry_data_read k ent off KVS_KVCRCSIZE with
    | .error _ => false
    | .ok kvcrcbuf => decide (kvcrc32 = get_le32 kvcrcbuf)

/-- `entry_set_info`: reserve room for an entry at the write position.  The lengths
arrive through a `uint8_t` and a `uint16_t` parameter.  Returns the return code, the
store, the entry and the four header bytes. -/
def entry_set_info (cfg : Cfg) (k : Kvs) (ent : Ent) (key_len val_len : Nat) :
    Int × Kvs × Ent × List Nat :=
  let wbs := cfg.psz
  let key_len := key_len % 256
  let val_len := val_len % 65536
  let req_space0 := KVS_HDRSIZE + key_len + val_len + KVS_KVCRCSIZE - 1
  let req_space := KVS_ALIGNDOWN req_space0 wbs + wbs
  if req_space > u32 (k.bend + 4294967296 - k.pos) then (-KVS_ENOSPC, k, ent, [])
  else
    let start := k.pos
    let next := u32 (start + req_space)
    let he_hdr := entry_hdr_add_crc (entry_set_len key_len val_len)
    (0, { k with pos := next }, { start := start, next := next, he_hdr := he_hdr },
      put_le32 he_hdr)

/-- `block_advance_n`: advance a block end by `n` blocks around the region. -/
def block_advance_n (cfg : Cfg) (pos : Nat) : Nat → Nat
  | 0 => pos
  | n + 1 =>
    let fin := cfg.bsz * cfg.bcnt
    let pos1 := if pos ≥ fin then pos - fin else pos
    block_advance_n cfg (pos1 + cfg.bsz) n

/-- `wblock_advance`: move the write position to the next block. -/
def wblock_advance (cfg : Cfg) (k : Kvs) : Kvs :=
  let bend := block_advance_n cfg k.bend 1
  let pos := bend - cfg.bsz
  { k with bend := bend, pos := pos,
           wrapcnt := if pos = 0 then u32 (k.wrapcnt + 1) else k.wrapcnt }

/-- What a `struct read_cb` reads from: a buffer in memory (`read_cb_ptr`) or the data
of an entry on the device (`read_cb_entry`). -/
inductive Src where
  | ptr (bytes : List Nat)
  | ent (e : Ent)
  deriving DecidableEq, Repr

/-- `struct read_cb`. -/
structure ReadCb where
  ctx : Src
  off : Nat
  len : Nat
  deriving DecidableEq, Repr

/-- The `read` member of a `struct read_cb` (`read_cb_ptr`, `read_cb_entry`). -/
def ReadCb.read (k : Kvs) (r : ReadCb) (off len : Nat) : Except Int (List Nat) :=
  match r.ctx with
  | .ptr bytes => .ok ((bytes.drop off).take len)
  | .ent e => entry_data_read k e off len

/-- The loop of `entry_write_data`. -/
def entry_write_data_loop (cfg : Cfg) (ent : Ent) (dstart : Nat) (drd_cb : ReadCb) :
    Nat → Kvs → Nat → Nat → Nat → Int × Kvs × Nat
  | 0, k, crc, _, _ => (0, k, crc)
  | fuel + 1, k, crc, off, len =>
    if len = 0 then (0, k, crc)
    else
      let rwlen := KVS_MIN len KVS_BUFSIZE
      match drd_cb.read k (drd_cb.off + off) rwlen with
      | .error rc => (rc, k, crc)
      | .ok buf =>
        match entry_write cfg k ent (dstart + off) buf with
        | (rc, k1) =>
          if rc ≠ 0 then (rc, k1, crc32 crc buf)
          else entry_write_data_loop cfg ent dstart drd_cb fuel k1 (crc32 crc buf)
            (off + rwlen) (len - rwlen)

/-- `entry_write_data`: copy `drd_cb->len` bytes into the entry at data offset `dstart`,
updating the running CRC-32. -/
def entry_write_data (cfg : Cfg) (k : Kvs) (ent : Ent) (dstart : Nat) (drd_cb : ReadCb)
    (crc : Nat) : Int × Kvs × Nat :=
  entry_write_data_loop cfg ent dstart drd_cb drd_cb.len k crc 0 drd_cb.len

/-- `entry_write_hdr`. -/
def entry_write_hdr (cfg : Cfg) (k : Kvs) (ent : Ent) (key_len val_len : Nat) :
    Int × Kvs × Ent :=
  match entry_set_info cfg k ent key_len val_len with
  | (rc, k1, ent1, hdr) =>
    if rc ≠ 0 then (rc, k1, ent1)
    else
      match entry_write cfg k1 ent1 0 hdr with
      | (rc1, k2) => (rc1, k2, ent1)

/-- `entry_write_crc`. -/
def entry_write_crc (cfg : Cfg) (k : Kvs) (ent : Ent) (off crc : Nat) : Int × Kvs :=
  match entry_write cfg k ent off (put_le32 crc) with
  | (rc, k1) =>
    if rc ≠ 0 then (rc, k1)
    else entry_write_fill cfg k1 ent (off + KVS_KVCRCSIZE)

/-- The part of `kvs_meta_write` that writes the cookie (when there is one) and the
CRC-32 of the block header entry. -/
def kvs_meta_write_cookie (cfg : Cfg) (k : Kvs) (meta : Ent) (off metacrc : Nat) :
    Int × Kvs :=
  match k.cookie with
  | some cookie =>
    if k.csz ≠ 0 then
      match entry_write cfg k meta off (cookie.take k.csz) with
      | (rc, k1) =>
        if rc ≠ 0 then (rc, k1)
        else entry_write_crc cfg k1 meta (off + k.csz) (crc32 metacrc (cookie.take k.csz))
    else entry_write_crc cfg k meta off metacrc
  | none => entry_write_crc cfg k meta off metacrc

/-- `kvs_meta_write`: at a block base, write the block header entry
`wrap counter || cookie`. -/
def kvs_meta_write (cfg : Cfg) (k : Kvs) : Int × Kvs :=
  if k.pos &&& (cfg.bsz - 1) ≠ 0 then (0, k)
  else
    match entry_write_hdr cfg k { start := 0, next := 0, he_hdr := 0 } 0
        (KVS_WRAPCNTSIZE + k.csz) with
    | (rc, k1, meta) =>
      if rc ≠ 0 then (rc, k1)
      else
        match entry_write cfg k1 meta KVS_HDRSIZE (put_le32 k.wrapcnt) with
        | (rc1, k2) =>
          if rc1 ≠ 0 then (rc1, k2)
          else
            kvs_meta_write_cookie cfg k2 meta (KVS_HDRSIZE + KVS_WRAPCNTSIZE)
              (crc32 KVS_KVCRCINIT (put_le32 k.wrapcnt))

/-- The part of `entry_append` after the block header: header, key, value, CRC-32,
fill, sync. -/
def entry_append_body (cfg : Cfg) (k : Kvs) (ent : Ent) (krd_cb vrd_cb : ReadCb) :
    Int × Kvs × Ent :=
  match entry_write_hdr cfg k ent krd_cb.len vrd_cb.len with
  | (rc, k1, ent1) =>
    if rc ≠ 0 then (rc, k1, ent1)
    else
      match entry_write_data cfg k1 ent1 KVS_HDRSIZE krd_cb KVS_KVCRCINIT with
      | (rc1, k2, crc1) =>
        if rc1 ≠ 0 then (rc1, k2, ent1)
        else
          match entry_write_data cfg k2 ent1 (KVS_HDRSIZE + entry_get_klen ent1) vrd_cb
              crc1 with
          | (rc2, k3, crc2) =>
            if rc2 ≠ 0 then (rc2, k3, ent1)
            else
              match entry_write_crc cfg k3 ent1
                  (KVS_HDRSIZE + entry_get_klen ent1 + entry_get_vlen ent1) crc2 with
              | (rc3, k4) =>
                if rc3 ≠ 0 then (rc3, k4, ent1)
                else
                  match kvs_dev_sync cfg k4 with
                  | (rc4, k5) => (rc4, k5, ent1)

/-- `entry_append`: block header if needed, then the entry. -/
def entry_append (cfg : Cfg) (k : Kvs) (ent : Ent) (krd_cb vrd_cb : ReadCb) :
    Int × Kvs × Ent :=
  match kvs_meta_write cfg k with
  | (rc, k1) =>
    if rc ≠ 0 then (rc, k1, ent)
    else entry_append_body cfg k1 ent krd_cb vrd_cb

/-- `entry_add`: append the entry `key = value`; `strlen(key)` is `key.length`. -/
def entry_add (cfg : Cfg) (k : Kvs) (ent : Ent) (key value : List Nat) :
    Int × Kvs × Ent :=
  entry_append cfg k ent { ctx := .ptr key, off := 0, len := key.length }
    { ctx := .ptr value, off := 0, len := value.length }

/-- The loop of `differ`; `true` when a read fails or a chunk differs. -/
def differ_loop (k : Kvs) (rda rdb : ReadCb) : Nat → Nat → Nat → Bool
  | 0, _, _ => false
  | fuel + 1, len, off =>
    if len = 0 then false
    else
      let rdlen := KVS_MIN len KVS_BUFSIZE
      match rda.read k (rda.off + off) rdlen with
      | .error _ => true
      | .ok bufa =>
        match rdb.read k (rdb.off + off) rdlen with
        | .error _ => true
        | .ok bufb =>
          if bufa ≠ bufb then true
          else differ_loop k rda rdb fuel (len - rdlen) (off + rdlen)

/-- `differ`: do the two readers deliver different bytes? -/
def differ (k : Kvs) (rda rdb : ReadCb) : Bool :=
  if rda.len ≠ rdb.len then true
  else differ_loop k rda rdb rda.len rda.len 0

/-- `entry_copy`: append a copy of the entry `ent` at the write position. -/
def entry_copy (cfg : Cfg) (k : Kvs) (ent : Ent) : Int × Kvs :=
  match entry_append cfg k { start := 0, next := 0, he_hdr := 0 }
      { ctx := .ent ent, off := 0, len := entry_get_klen ent }
      { ctx := .ent ent, off := entry_get_klen ent, len := entry_get_vlen ent } with
  | (rc, k1, _) => (rc, k1)

/-! ## Scanner -/

/-- A callback `int (*cb)(struct kvs_ent *entry, void *cb_arg)` with `cb_arg` of type
`σ`.  It may change the store (the compactor does); `none` means it did not return. -/
def Cb (σ : Type) : Type := Kvs → Ent → σ → Option (Int × Kvs × σ)

/-- Result of a walk: the return code (`none` when the fuel ran out before the loop
ended), the store and the callback argument as the walk left them. -/
structure WalkRes (σ : Type) where
  rc : Option Int
  kvs : Kvs
  st : σ

/-- `walk`: the `do { ... } while (ent->next != stop)` loop.  `ent.next` is where the
scan continues, `wrapcnt` is the local of that name. -/
def walk {σ : Type} (cfg : Cfg) (rdkey : ReadCb) (cb : Cb σ) (stop : Nat) :
    Nat → Kvs → Ent → Nat → σ → WalkRes σ
  | 0, k, _, _, st => { rc := none, kvs := k, st := st }
  | fuel + 1, k, ent, wrapcnt, st =>
    let bsz := cfg.bsz
    let fin := cfg.bcnt * bsz
    let ent0 : Ent := { ent with start := if ent.next < fin then ent.next else 0 }
    if ent0.start = stop then { rc := some 0, kvs := k, st := st }
    else
      match entry_get_info cfg k ent0 with
      | (rc0, ent1) =>
        if rc0 ≠ 0 then
          if ent1.next ≠ stop then walk cfg rdkey cb stop fuel k ent1 wrapcnt st
          else { rc := some 0, kvs := k, st := st }
        else
          let wrapcnt1 :=
            if ent1.start &&& (bsz - 1) = 0 then entry_get_wrapcnt k ent1 wrapcnt
            else wrapcnt
          if ent1.start &&& (bsz - 1) = 0 ∧ u32 (wrapcnt1 + 1) < k.wrapcnt then
            if u32 (ent1.start + bsz) ≠ stop then
              walk cfg rdkey cb stop fuel k { ent1 with next := u32 (ent1.start + bsz) }
                wrapcnt1 st
            else { rc := some 0, kvs := k, st := st }
          else if differ k { ctx := .ent ent1, off := 0, len := rdkey.len } rdkey
              ∨ ¬ entry_kvcrc_ok k ent1 then
            if ent1.next ≠ stop then walk cfg rdkey cb stop fuel k ent1 wrapcnt1 st
            else { rc := some 0, kvs := k, st := st }
          else
            match cb k ent1 st with
            | none => { rc := none, kvs := k, st := st }
            | some (rc, k1, st1) =>
              if rc ≠ 0 then { rc := some rc, kvs := k1, st := st1 }
              else if ent1.next ≠ stop then
                walk cfg rdkey cb stop fuel k1 ent1 wrapcnt1 st1
              else { rc := some 0, kvs := k1, st := st1 }

/-- `struct entry_get_cb_arg`: the entry found so far and the `found` flag (`klen` is
the argument of `entry_get_cb`). -/
structure EntryGetArg where
  ent : Ent
  found : Bool
  deriving DecidableEq, Repr

/-- `entry_get_cb`. -/
def entry_get_cb (klen : Nat) : Cb EntryGetArg := fun k ent rv =>
  if entry_get_klen ent = klen then some (0, k, { ent := ent, found := true })
  else some (0, k, rv)

/-- The `for` loop of `entry_get`: scan one block per round, newest block first. -/
def entry_get_loop (cfg : Cfg) (k : Kvs) (rdkey : ReadCb) (fuel : Nat) :
    Nat → Ent → Nat → Nat → EntryGetArg → Option EntryGetArg
  | 0, _, _, _, arg => some arg
  | n + 1, wlk, stop, start, arg =>
    let r := walk cfg rdkey (entry_get_cb rdkey.len) stop fuel k { wlk with next := start }
      cfg.uninit arg
    match r.rc with
    | none => none
    | some _ =>
      if r.st.found then some r.st
      else
        let stop1 := if start = 0 then cfg.bcnt * cfg.bsz else start
        entry_get_loop cfg k rdkey fuel n wlk stop1 (stop1 - cfg.bsz) r.st

/-- `entry_get`: find the newest entry whose key equals the key read by `rdkey`.
`ent` is the caller's entry, overwritten when an entry is found. -/
def entry_get (cfg : Cfg) (k : Kvs) (ent : Ent) (rdkey : ReadCb) (fuel : Nat) :
    Option (Int × Ent) :=
  let bcnt := u32 (cfg.bcnt + 4294967296 - cfg.bspr)
  let wlk : Ent := { start := 0, next := 0, he_hdr := 0 }
  match entry_get_loop cfg k rdkey fuel bcnt wlk k.pos (u32 (k.bend + 4294967296 - cfg.bsz))
      { ent := ent, found := false } with
  | none => none
  | some arg =>
    if ¬ arg.found ∨ entry_get_vlen arg.ent = 0 then some (-KVS_ENOENT, arg.ent)
    else some (0, arg.ent)

/-- `entry_dup_cb`: `dup` is the entry whose later versions are looked for. -/
def entry_dup_cb (dup : Ent) : Cb Bool := fun k ent duplicate =>
  if entry_get_klen ent ≠ entry_get_klen dup then some (0, k, duplicate)
  else some (KVS_DONE, k, true)

/-- `unique_cb`: pass the entry on to `cb` unless a later entry with the same key lies
before the write position. -/
def unique_cb {σ : Type} (cfg : Cfg) (fuel : Nat) (cb : Cb σ) : Cb σ := fun k ent st =>
  if entry_get_klen ent = 0 then some (0, k, st)
  else
    let readkey : ReadCb := { ctx := .ent ent, off := 0, len := entry_get_klen ent }
    let wlk : Ent := { start := 0, next := ent.next, he_hdr := 0 }
    let r := walk cfg readkey (entry_dup_cb ent) k.pos fuel k wlk cfg.uninit false
    match r.rc with
    | none => none
    | some _ => if ¬ r.st then cb k ent st else some (0, k, st)

/-- `walk_unique`. -/
def walk_unique {σ : Type} (cfg : Cfg) (rdkey : ReadCb) (cb : Cb σ) (stop : Nat)
    (fuel : Nat) (k : Kvs) (ent : Ent) (st : σ) : WalkRes σ :=
  walk cfg rdkey (unique_cb cfg fuel cb) stop fuel k ent cfg.uninit st

/-! ## Compactor -/

/-- The `for` loop of `copy_cb`. -/
def copy_loop (cfg : Cfg) (ent : Ent) : Nat → Kvs → Int → Int × Kvs
  | 0, k, rc => (rc, k)
  | n + 1, k, _ =>
    match entry_copy cfg k ent with
    | (rc, k1) =>
      if rc = 0 then (rc, k1)
      else copy_loop cfg ent n (wblock_advance cfg k1) rc

/-- `copy_cb`: copy a live entry to the write position, trying `bspr` blocks. -/
def copy_cb (cfg : Cfg) : Cb Unit := fun k ent _ =>
  if entry_get_klen ent = 0 ∨ entry_get_vlen ent = 0 then some (0, k, ())
  else
    match copy_loop cfg ent cfg.bspr k 0 with
    | (rc, k1) => some (rc, k1, ())

/-- `compact`: `none` when a scan does not end within `fuel` rounds. -/
def compact (cfg : Cfg) (k : Kvs) (stop : Nat) (fuel : Nat) : Option (Int × Kvs) :=
  let rdkey : ReadCb := { ctx := .ptr [], off := 0, len := 0 }
  let wlk : Ent :=
    { start := 0, next := block_advance_n cfg k.bend cfg.bspr, he_hdr := 0 }
  let k1 := wblock_advance cfg k
  let r := walk_unique cfg rdkey (copy_cb cfg) stop fuel k1 wlk ()
  match r.rc with
  | none => none
  | some rc => some (if rc = KVS_DONE then 0 else rc, r.kvs)

/-! ## Public API -/

/-- `kvs_entry_get`; `key` stands for the C string, `strlen(key) = key.length`. -/
def kvs_entry_get (cfg : Cfg) (k : Kvs) (ent : Ent) (key : List Nat) (fuel : Nat) :
    Option (Int × Ent) :=
  if ¬ k.ready then some (-KVS_EINVAL, ent)
  else entry_get cfg k ent { ctx := .ptr key, off := 0, len := key.length } fuel

/-- `kvs_entry_read`. -/
def kvs_entry_read (k : Kvs) (ent : Ent) (off len : Nat) : Except Int (List Nat) :=
  if ¬ k.ready then .error (-KVS_EINVAL)
  else entry_data_read k ent off len

/-- The local `struct kvs_ent wlk` of `kvs_read` and `kvs_write`.  The C code leaves it
uninitialised; its content is never read before `entry_get` or `entry_set_info` has
overwritten it, so it is taken to be zero. -/
def wlk0 : Ent := { start := 0, next := 0, he_hdr := 0 }

/-- `kvs_read`: return code and the `len` bytes stored into `value` (no bytes on an
error). -/
def kvs_read (cfg : Cfg) (k : Kvs) (key : List Nat) (len : Nat) (fuel : Nat) :
    Option (Int × List Nat) :=
  match kvs_entry_get cfg k wlk0 key fuel with
  | none => none
  | some (rc, ent) =>
    if rc ≠ 0 then some (rc, [])
    else
      match entry_data_read k ent (entry_get_klen ent) len with
      | .error e => some (e, [])
      | .ok v => some (0, v)

/-- The `while (cnt != 0U)` loop of `kvs_write`. -/
def kvs_write_loop (cfg : Cfg) (key value : List Nat) (fuel : Nat) :
    Nat → Kvs → Ent → Option (Int × Kvs)
  | 0, k, _ => some (-KVS_ENOSPC, k)
  | cnt + 1, k, ent =>
    match entry_add cfg k ent key value with
    | (rc, k1, ent1) =>
      if rc = 0 then some (0, k1)
      else
        match compact cfg k1 (block_advance_n cfg k1.bend (cfg.bspr + 1)) fuel with
        | none => none
        | some (_, k2) => kvs_write_loop cfg key value fuel cnt k2 ent1

/-- `kvs_write`; `value.length` is the argument `len`. -/
def kvs_write (cfg : Cfg) (k : Kvs) (key value : List Nat) (fuel : Nat) :
    Option (Int × Kvs) :=
  if ¬ k.ready then some (-KVS_EINVAL, k)
  else
    match kvs_entry_get cfg k wlk0 key fuel with
    | none => none
    | some (rc, ent) =>
      let len := value.length
      let same : Bool :=
        if rc = 0 ∧ entry_get_vlen ent = len then
          if len = 0 then true
          else
            let val_rd : ReadCb := { ctx := .ptr value, off := 0, len := len }
            let entval_rd : ReadCb :=
              { ctx := .ent ent, off := entry_get_klen ent, len := entry_get_vlen ent }
            ! differ k val_rd entval_rd
        else false
      if same then some (0, k)
      else kvs_write_loop cfg key value fuel cfg.bcnt k ent

/-- `kvs_delete`. -/
def kvs_delete (cfg : Cfg) (k : Kvs) (key : List Nat) (fuel : Nat) :
    Option (Int × Kvs) :=
  kvs_write cfg k key [] fuel

/-- `kvs_walk_unique`. -/
def kvs_walk_unique {σ : Type} (cfg : Cfg) (k : Kvs) (key : List Nat) (cb : Cb σ)
    (cb_arg : σ) (fuel : Nat) : WalkRes σ :=
  if ¬ k.ready then { rc := some (-KVS_EINVAL), kvs := k, st := cb_arg }
  else
    let rdkey : ReadCb := { ctx := .ptr key, off := 0, len := key.length }
    let wlk : Ent :=
      { start := 0, next := block_advance_n cfg k.bend cfg.bspr, he_hdr := 0 }
    walk_unique cfg rdkey cb k.pos fuel k wlk cb_arg

/-- `kvs_walk`. -/
def kvs_walk {σ : Type} (cfg : Cfg) (k : Kvs) (key : List Nat) (cb : Cb σ)
    (cb_arg : σ) (fuel : Nat) : WalkRes σ :=
  if ¬ k.ready then { rc := some (-KVS_EINVAL), kvs := k, st := cb_arg }
  else
    let rdkey : ReadCb := { ctx := .ptr key, off := 0, len := key.length }
    let wlk : Ent :=
      { start := 0, next := block_advance_n cfg k.bend cfg.bspr, he_hdr := 0 }
    walk cfg rdkey cb k.pos fuel k wlk cfg.uninit cb_arg

/-- `kvs_compact`. -/
def kvs_compact (cfg : Cfg) (k : Kvs) (fuel : Nat) : Option (Int × Kvs) :=
  if ¬ k.ready then some (-KVS_EINVAL, k)
  else compact cfg k k.bend fuel

/-! ## Mount, unmount, erase -/

/-- `recovery_check_cb`: an entry outside the block of the write position asks for a
recovery. -/
def recovery_check_cb (cfg : Cfg) : Cb Bool := fun k ent recovery_needed =>
  if KVS_ALIGNDOWN ent.start cfg.bsz ≠ KVS_ALIGNDOWN k.pos cfg.bsz then some (0, k, true)
  else some (0, k, recovery_needed)

/-- `recover`: detect an interrupted compaction and run it again. -/
def recover (cfg : Cfg) (k : Kvs) (fuel : Nat) : Option (Int × Kvs) :=
  let rdkey : ReadCb := { ctx := .ptr [], off := 0, len := 0 }
  let wlk : Ent :=
    { start := 0, next := block_advance_n cfg k.bend (u32 (cfg.bspr + 4294967296 - 1)),
      he_hdr := 0 }
  let stop := block_advance_n cfg k.bend cfg.bspr
  let r := walk_unique cfg rdkey (recovery_check_cb cfg) stop fuel k wlk false
  match r.rc with
  | none => none
  | some _ =>
    if ¬ r.st then some (0, r.kvs)
    else
      let k1 := { r.kvs with bend := KVS_ALIGNDOWN r.kvs.pos cfg.bsz }
      compact cfg k1 k1.bend fuel

/-- The `for` loop of `kvs_set_data_bend` from block `i` on, `n` blocks to go. -/
def kvs_set_data_bend_loop (cfg : Cfg) : Nat → Nat → Kvs → Nat → Kvs
  | 0, _, k, _ => k
  | n + 1, i, k, wrapcnt =>
    match entry_get_info cfg k { start := i * cfg.bsz, next := 0, he_hdr := 0 } with
    | (rc, ent) =>
      if rc ≠ 0 then kvs_set_data_bend_loop cfg n (i + 1) k wrapcnt
      else
        let wrapcnt1 := entry_get_wrapcnt k ent wrapcnt
        if wrapcnt1 ≥ k.wrapcnt then
          kvs_set_data_bend_loop cfg n (i + 1)
            { k with wrapcnt := wrapcnt1, pos := ent.start, bend := ent.start + cfg.bsz }
            wrapcnt1
        else kvs_set_data_bend_loop cfg n (i + 1) k wrapcnt1

/-- `kvs_set_data_bend`: find the block with the largest wrap counter. -/
def kvs_set_data_bend (cfg : Cfg) (k : Kvs) : Kvs :=
  kvs_set_data_bend_loop cfg cfg.bcnt 0
    { k with wrapcnt := 0, pos := 0, bend := cfg.bsz } cfg.uninit

/-- `kvs_set_data_pos`: follow the entries from `pos` until a header does not decode. -/
def kvs_set_data_pos (cfg : Cfg) : Nat → Kvs → Option Kvs
  | 0, _ => none
  | fuel + 1, k =>
    match entry_get_info cfg k { start := k.pos, next := 0, he_hdr := 0 } with
    | (rc, ent) =>
      if rc ≠ 0 then some k
      else kvs_set_data_pos cfg fuel { k with pos := ent.next }

/-- `kvs_dev_init`: the backend `init`.  `kvs_be_eeprom_init` returns 0.
`kvs_be_flash_init` returns `-EINVAL` when the largest erase block of the partition is
larger than `be->free`, the free size `bspr * bsz` (`KVS_FSIZE`, `KVS_FBCNT`); the erase
block of the flash device is the block of the store here (see `flashErase`). -/
def kvs_dev_init (cfg : Cfg) : Int :=
  match cfg.backend with
  | .eeprom => 0
  | .flash => if cfg.bsz > cfg.bspr * cfg.bsz then -KVS_EINVAL else 0

/-- `kvs_dev_lock`: the backend `lock`, `k_sem_take(be->sem, K_FOREVER)` or nothing at
all; it returns 0 in both backends. -/
def kvs_dev_lock (_cfg : Cfg) : Int := 0

/-- `kvs_mount`; the backend `unlock` returns 0 in both backends. -/
def kvs_mount (cfg : Cfg) (k : Kvs) (fuel : Nat) : Option (Int × Kvs) :=
  if cfg.psz = 0 ∨ cfg.psz &&& (cfg.psz - 1) ≠ 0 then some (-KVS_EINVAL, k)
  else if cfg.bsz = 0 ∨ cfg.bsz &&& (cfg.bsz - 1) ≠ 0 then some (-KVS_EINVAL, k)
  else if cfg.bsz < cfg.psz then some (-KVS_EINVAL, k)
  else if k.ready then some (-KVS_EAGAIN, k)
  else if kvs_dev_init cfg ≠ 0 then some (kvs_dev_init cfg, k)
  else if kvs_dev_lock cfg ≠ 0 then some (kvs_dev_lock cfg, k)
  else
    match kvs_set_data_pos cfg fuel (kvs_set_data_bend cfg k) with
    | none => none
    | some k1 =>
      match recover cfg k1 fuel with
      | none => none
      | some (rc, k2) =>
        if rc ≠ 0 then some (0, k2)
        else some (0, { k2 with ready := true })

/-- `kvs_dev_release`: the backend `release`; it returns 0 in both backends. -/
def kvs_dev_release (_cfg : Cfg) : Int := 0

/-- `kvs_unmount`. -/
def kvs_unmount (cfg : Cfg) (k : Kvs) : Int × Kvs :=
  if kvs_dev_init cfg ≠ 0 then (kvs_dev_init cfg, k)
  else if kvs_dev_lock cfg ≠ 0 then (kvs_dev_lock cfg, k)
  else (kvs_dev_release cfg, { k with ready := false })

/-- The members of `struct kvs_cfg` that `kvs_mount` tests for `NULL`: `read_set` and
`prog_set` tell whether `cfg->read` and `cfg->prog` point to a function. -/
structure CfgArg where
  cfg : Cfg
  read_set : Bool
  prog_set : Bool

/-- The `struct kvs` that `kvs_mount` receives: `cfg` is `none` when `kvs->cfg` is
`NULL`. -/
structure KvsArg where
  cfg : Option CfgArg
  data : Kvs

/-- `kvs_mount` with its argument as a pointer, `none` being `NULL`: the checks of the
pointers come first, then the function goes on as `kvs_mount` above.  The result holds
the return code and the store as the call leaves it (no store behind a `NULL`
pointer). -/
def kvs_mount_ptr (kvs : Option KvsArg) (fuel : Nat) : Option (Int × Option Kvs) :=
  match kvs with
  | none => some (-KVS_EINVAL, none)
  | some s =>
    match s.cfg with
    | none => some (-KVS_EINVAL, some s.data)
    | some c =>
      if ¬ c.read_set ∨ ¬ c.prog_set then some (-KVS_EINVAL, some s.data)
      else
        match kvs_mount c.cfg s.data fuel with
        | none => none
        | some (rc, k) => some (rc, some k)

/-! ## Notions used to state the properties -/

/-- The `n` bytes of `dev` from offset `a` on. -/
def seg (dev : List Nat) (a n : Nat) : List Nat := (dev.drop a).take n

/-- The header word of an entry with key length `klen` and value length `vlen`. -/
def hdrWord (klen vlen : Nat) : Nat := entry_hdr_add_crc (entry_set_len klen vlen)

/-- State of a partly written entry: `w` are the bytes handed to `entry_write` so far;
the whole program units among them are on the device, the rest waits in the program
buffer. -/
def WInv (cfg : Cfg) (k : Kvs) (ent : Ent) (w : List Nat) : Prop :=
  ∃ A r, w.length = A + r ∧ A % cfg.psz = 0 ∧ r < cfg.psz ∧
    seg k.dev ent.start A = w.take A ∧ k.pbuf.take r = w.drop A ∧
    k.pbuf.length = cfg.psz

/-- The room an entry with key length `kl` and value length `vl` takes on the device, as
`entry_set_info` computes it. -/
def entry_size (cfg : Cfg) (kl vl : Nat) : Nat :=
  KVS_ALIGNDOWN (KVS_HDRSIZE + kl + vl + KVS_KVCRCSIZE - 1) cfg.psz + cfg.psz

/-- The bytes of an entry of `n` bytes with the given key and value: header, key, value,
CRC-32 of key and value, fill bytes. -/
def entryImage (key val : List Nat) (n : Nat) : List Nat :=
  put_le32 (hdrWord key.length val.length) ++ key ++ val ++ put_le32 (crc32 0 (key ++ val))
    ++ List.replicate (n - (8 + key.length + val.length)) KVS_FILLCHAR

/-- The cookie pointer and the cookie size agree: `csz` bytes can be read from the
cookie, and a store without cookie has `csz = 0`. -/
def CookieOk (k : Kvs) : Prop :=
  match k.cookie with
  | some c => k.csz ≤ c.length
  | none => k.csz = 0

/-- The cookie bytes `kvs_meta_write` writes. -/
def cookieBytes (k : Kvs) : List Nat :=
  match k.cookie with
  | some c => c.take k.csz
  | none => []

/-- The value of a block header entry: `wrap counter || cookie`. -/
def metaVal (k : Kvs) : List Nat := put_le32 k.wrapcnt ++ cookieBytes k

/-- The header at `e.start` decodes to the entry `e`, whatever the scanner's entry held
before. -/
def DecodesAt (cfg : Cfg) (k : Kvs) (e : Ent) : Prop :=
  ∀ e0 : Ent, e0.start = e.start → entry_get_info cfg k e0 = (0, e)

/-- The entries `es` lie one after the other on the device from offset `a` to offset
`b`, each with a header that decodes. -/
inductive ChainL (cfg : Cfg) (k : Kvs) : Nat → List Ent → Nat → Prop
  | nil (a : Nat) : ChainL cfg k a [] a
  | cons (e : Ent) (es : List Ent) (b : Nat) : DecodesAt cfg k e → e.start + 8 ≤ e.next →
      ChainL cfg k e.next es b → ChainL cfg k e.start (e :: es) b

/-- What `walk` does with one decoded entry when the callback is the pure function `f`
and always returns 0: entries that differ from the key or fail the CRC-32 check are
passed over. -/
def visit {σ : Type} (k : Kvs) (rdkey : ReadCb) (f : Ent → σ → σ) (e : Ent) (st : σ) : σ :=
  if differ k { ctx := .ent e, off := 0, len := rdkey.len } rdkey ∨ ¬ entry_kvcrc_ok k e
  then st else f e st

/-- The scanner does not take the entry `e` for the header of a stale block. -/
def NoSkip (cfg : Cfg) (k : Kvs) (e : Ent) : Prop :=
  ∀ wc : Nat, ¬ (e.start &&& (cfg.bsz - 1) = 0 ∧
    u32 (entry_get_wrapcnt k e wc + 1) < k.wrapcnt)

/-- A configuration as the specification wants it (section 3, invariant 1) on a healthy
device: power-of-two sizes, at least one block that is not a spare, a region that fits
the 32-bit offsets. -/
structure CfgOk (cfg : Cfg) : Prop where
  psz_pow : ∃ j, j ≤ 31 ∧ cfg.psz = 2 ^ j
  bsz_pow : ∃ j, j ≤ 31 ∧ cfg.bsz = 2 ^ j
  psz_le : cfg.psz ≤ cfg.bsz
  spare : cfg.bspr < cfg.bcnt
  small : cfg.bsz * cfg.bcnt < 2147483648
  healthy : ∀ o, cfg.progFail o = false

/-- The first entry of the write block is a block header that carries the current wrap
counter. -/
def HeadOk (k : Kvs) (es : List Ent) : Prop :=
  ∀ e ∈ es.head?, entry_get_klen e = 0 ∧ seg k.dev (e.start + 4) 4 = put_le32 k.wrapcnt

/-- The invariant of a mounted store: the cursor lies in the write block, and the
entries of the write block form a chain from the block base to the write position. -/
structure Inv (cfg : Cfg) (k : Kvs) : Prop where
  ready : k.ready = true
  devlen : k.dev.length = cfg.bsz * cfg.bcnt
  pbuf : k.pbuf.length = cfg.psz
  cookie : CookieOk k
  csz : 4 + k.csz < 65536
  bend_mod : k.bend % cfg.bsz = 0
  bend_ge : cfg.bsz ≤ k.bend
  bend_le : k.bend ≤ cfg.bsz * cfg.bcnt
  pos_ge : k.bend - cfg.bsz ≤ k.pos
  pos_le : k.pos ≤ k.bend
  pos_mod : k.pos % cfg.psz = 0
  wrap : k.wrapcnt < 4294967296
  chain : ∃ es, ChainL cfg k (k.bend - cfg.bsz) es k.pos ∧ HeadOk k es

/-- The newest entry of the write block is the entry `key = val`: it ends at the write
position, and its header, key, value and CRC-32 are on the device. -/
def LastIs (cfg : Cfg) (k : Kvs) (key val : List Nat) : Prop :=
  ∃ es e, ChainL cfg k (k.bend - cfg.bsz) (es ++ [e]) k.pos ∧ HeadOk k (es ++ [e]) ∧
    e.next = k.pos ∧ e.he_hdr = hdrWord key.length val.length ∧
    e.start + 8 + key.length + val.length ≤ e.next ∧
    seg k.dev (e.start + 4) (key.length + val.length + 4) =
      key ++ val ++ put_le32 (crc32 0 (key ++ val))

/-- The pure function that `entry_get_cb` applies to the search state. -/
def entry_get_f (klen : Nat) (e : Ent) (st : EntryGetArg) : EntryGetArg :=
  if entry_get_klen e = klen then { ent := e, found := true } else st

/-! ## A small store used as the concrete instance of the general theorems -/

/-- A flash region of two blocks of 64 bytes, one of them spare, programmed in units of
4 bytes. -/
def exCfg : Cfg :=
  { bsz := 64, bcnt := 2, bspr := 1, psz := 4, backend := .flash,
    progFail := fun _ => false, uninit := 0 }

/-- The erased region before `kvs_mount`. -/
def exRaw : Kvs :=
  { dev := List.replicate 128 255, pbuf := [0, 0, 0, 0], ready := false, pos := 0,
    bend := 0, wrapcnt := 0, cookie := none, csz := 0 }

/-- The store that `kvs_mount` makes of the erased region. -/
def exK0 : Kvs := { exRaw with ready := true, bend := 64 }

/-- The store of a result, `exRaw` when there is none. -/
def stOf (r : Option (Int × Kvs)) : Kvs :=
  match r with
  | some (_, k) => k
  | none => exRaw

/-- The store `exK0` after `kvs_write("a", [1])`. -/
def exK1 : Kvs := stOf (kvs_write exCfg exK0 [97] [1] 8)

/-- The store `exK1` after `kvs_write("a", [2, 3])`. -/
def exK2 : Kvs := stOf (kvs_write exCfg exK1 [97] [2, 3] 8)

/-- The store `exK1` after `kvs_delete("a")`. -/
def exK3 : Kvs := stOf (kvs_delete exCfg exK1 [97] 8)

/-! ## Callbacks that keep a record of their calls -/

/-- A user callback that returns what `f` says for the store, the entry and the entries
it was called on before, and adds the entry with the returned value to its record. -/
def logCb (f : Kvs → Ent → List (Ent × Int) → Int) : Cb (List (Ent × Int)) :=
  fun k e log => some (f k e log, k, log ++ [(e, f k e log)])

/-- Every recorded call returned 0. -/
def LogClean (log : List (Ent × Int)) : Prop := ∀ p ∈ log, p.2 = 0

/-- The last recorded call returned `r`, the calls before it returned 0. -/
def LogStop (r : Int) (log : List (Ent × Int)) : Prop :=
  ∃ l e, log = l ++ [(e, r)] ∧ LogClean l

/-! ## A store on the EEPROM backend -/

/-- An EEPROM region of three blocks of 64 bytes, one of them spare, programmed byte by
byte. -/
def eeCfg : Cfg :=
  { bsz := 64, bcnt := 3, bspr := 1, psz := 1, backend := .eeprom,
    progFail := fun _ => false, uninit := 0 }

/-- The region filled with `0xFF` before `kvs_mount`. -/
def eeRaw : Kvs :=
  { dev := List.replicate 192 255, pbuf := [0], ready := false, pos := 0, bend := 0,
    wrapcnt := 0, cookie := none, csz := 0 }

/-- The store that `kvs_mount` makes of `eeRaw`. -/
def eeK0 : Kvs := { eeRaw with ready := true, bend := 64 }

/-- A sequence of `kvs_write` calls (a pair with the empty value is a `kvs_delete`), all
of which have to return 0. -/
def writeAll (cfg : Cfg) (fuel : Nat) : List (List Nat × List Nat) → Kvs → Option Kvs
  | [], k => some k
  | (key, val) :: ops, k =>
    match kvs_write cfg k key val fuel with
    | some (0, k1) => writeAll cfg fuel ops k1
    | _ => none

/-- Eight calls that fill the three blocks once and wrap to block 0: write "f", write
`"k" = [7]`, delete "k", delete "f", write "g", write "h", delete "g", write
`"k" = [9]`. -/
def eeOps : List (List Nat × List Nat) :=
  [([102], List.replicate 29 1), ([107], [7]), ([107], []), ([102], []),
   ([103], List.replicate 36 2), ([104], [3, 3]), ([103], []), ([107], [9])]

/-- The store `eeK0` after the calls `eeOps`: block 0 is the write block for the second
time and holds `"k" = [9]` at offset 32; behind the write position 42 and the end mark of
the EEPROM backend it still holds the entry `"k" = [7]` of the first round, at offset 50. -/
def eeS : Kvs :=
  { dev :=
    [0, 4, 0, 171, 1, 0, 0, 0, 121, 184, 248, 153, 1, 2, 0, 192,
     104, 3, 3, 243, 65, 161, 11, 1, 0, 0, 22, 103, 118, 27, 212, 1,
     1, 1, 0, 125, 107, 9, 55, 24, 12, 190, 0, 0, 0, 0, 218, 62,
     57, 200, 1, 1, 0, 125, 107, 7, 48, 53, 180, 89, 0, 0, 0, 0,
     0, 4, 0, 171, 0, 0, 0, 0, 28, 223, 68, 33, 1, 0, 0, 22,
     107, 93, 87, 98, 8, 1, 0, 0, 22, 102, 224, 43, 211, 118, 0, 0,
     0, 0, 255, 255, 255, 255, 255, 255, 255, 255, 255, 255, 255, 255, 255, 255,
     255, 255, 255, 255, 255, 255, 255, 255, 255, 255, 255, 255, 255, 255, 255, 255,
     0, 4, 0, 171, 0, 0, 0, 0, 28, 223, 68, 33, 1, 36, 0, 254,
     103, 2, 2, 2, 2, 2, 2, 2, 2, 2, 2, 2, 2, 2, 2, 2,
     2, 2, 2, 2, 2, 2, 2, 2, 2, 2, 2, 2, 2, 2, 2, 2,
     2, 2, 2, 2, 2, 134, 74, 80, 224, 0, 0, 0, 0, 255, 255, 255],
    pbuf := [0], ready := true, pos := 42, bend := 64, wrapcnt := 1,
    cookie := none, csz := 0 }

/-- The store `eeS` after one more write, of the key "i". -/
def eeS2 : Kvs :=
  { dev :=
    [0, 4, 0, 171, 1, 0, 0, 0, 121, 184, 248, 153, 1, 2, 0, 192,
     104, 3, 3, 243, 65, 161, 11, 1, 0, 0, 22, 103, 118, 27, 212, 1,
     1, 1, 0, 125, 107, 9, 55, 24, 12, 190, 0, 0, 0, 0, 218, 62,
     57, 200, 1, 1, 0, 125, 107, 7, 48, 53, 180, 89, 0, 0, 0, 0,
     0, 4, 0, 171, 1, 0, 0, 0, 121, 184, 248, 153, 1, 14, 0, 58,
     105, 4, 4, 4, 4, 4, 4, 4, 4, 4, 4, 4, 4, 4, 4, 196,
     253, 44, 40, 0, 0, 0, 0, 255, 255, 255, 255, 255, 255, 255, 255, 255,
     255, 255, 255, 255, 255, 255, 255, 255, 255, 255, 255, 255, 255, 255, 255, 255,
     0, 4, 0, 171, 0, 0, 0, 0, 28, 223, 68, 33, 1, 36, 0, 254,
     103, 2, 2, 2, 2, 2, 2, 2, 2, 2, 2, 2, 2, 2, 2, 2,
     2, 2, 2, 2, 2, 2, 2, 2, 2, 2, 2, 2, 2, 2, 2, 2,
     2, 2, 2, 2, 2, 134, 74, 80, 224, 0, 0, 0, 0, 255, 255, 255],
    pbuf := [0], ready := true, pos := 99, bend := 128, wrapcnt := 1,
    cookie := none, csz := 0 }

/-- The store `eeS` after `kvs_compact`. -/
def eeS3 : Kvs :=
  { dev :=
    [0, 4, 0, 171, 1, 0, 0, 0, 121, 184, 248, 153, 1, 2, 0, 192,
     104, 3, 3, 243, 65, 161, 11, 1, 0, 0, 22, 103, 118, 27, 212, 1,
     1, 1, 0, 125, 107, 9, 55, 24, 12, 190, 0, 0, 0, 0, 218, 62,
     57, 200, 1, 1, 0, 125, 107, 7, 48, 53, 180, 89, 0, 0, 0, 0,
     0, 4, 0, 171, 1, 0, 0, 0, 121, 184, 248, 153, 1, 2, 0, 192,
     104, 3, 3, 243, 65, 161, 11, 1, 1, 0, 125, 107, 7, 48, 53, 180,
     89, 0, 0, 0, 0, 255, 255, 255, 255, 255, 255, 255, 255, 255, 255, 255,
     255, 255, 255, 255, 255, 255, 255, 255, 255, 255, 255, 255, 255, 255, 255, 255,
     0, 4, 0, 171, 0, 0, 0, 0, 28, 223, 68, 33, 1, 36, 0, 254,
     103, 2, 2, 2, 2, 2, 2, 2, 2, 2, 2, 2, 2, 2, 2, 2,
     2, 2, 2, 2, 2, 2, 2, 2, 2, 2, 2, 2, 2, 2, 2, 2,
     2, 2, 2, 2, 2, 134, 74, 80, 224, 0, 0, 0, 0, 255, 255, 255],
    pbuf := [0], ready := true, pos := 97, bend := 128, wrapcnt := 1,
    cookie := none, csz := 0 }

/-- The store `exK0` after `kvs_write("/a", "bc")`. -/
def exP1 : Kvs := stOf (kvs_write exCfg exK0 [47, 97] [98, 99] 8)

/-- The store `exK0` after `kvs_delete("a")`. -/
def exD1 : Kvs := stOf (kvs_delete exCfg exK0 [97] 8)

/-- The store `exD1` after a second `kvs_delete("a")`. -/
def exD2 : Kvs := stOf (kvs_delete exCfg exD1 [97] 8)

/-- The configuration `eeCfg` on the flash backend. -/
def flCfg : Cfg := { eeCfg with backend := .flash }

/-- The result of `kvs_read` after the calls `ops` and the call `last` (a `kvs_write` when
`last` is a pair, a `kvs_compact` otherwise), `none` when one of the calls does not
return 0. -/
def readAfter (cfg : Cfg) (ops : List (List Nat × List Nat)) (last : Option (List Nat × List Nat))
    (key : List Nat) (len : Nat) : Option (Int × List Nat) :=
  match writeAll cfg 20 ops eeK0 with
  | none => none
  | some s =>
    match (match last with
      | some (ky, v) => kvs_write cfg s ky v 20
      | none => kvs_compact cfg s 20) with
    | some (0, s2) => kvs_read cfg s2 key len 20
    | _ => none

/-! ## Unmount and mount again; stores for the properties of `kvs_mount` -/

/-- `kvs_unmount` followed by `kvs_mount`. -/
def remount (cfg : Cfg) (k : Kvs) (fuel : Nat) : Option (Int × Kvs) :=
  kvs_mount cfg (kvs_unmount cfg k).2 fuel

/-- The EEPROM store `eeK0` after `kvs_write("/cnt", [0, 0, 0, 0])`, the first step of
the test `c_kvs_remount`. -/
def eeW1 : Kvs :=
  { dev :=
    [0, 4, 0, 171, 0, 0, 0, 0, 28, 223, 68, 33, 4, 4, 0, 243,
     47, 99, 110, 116, 0, 0, 0, 0, 206, 209, 134, 193, 0, 0, 0, 0] ++ List.replicate 160 255,
    pbuf := [0], ready := true, pos := 28, bend := 64, wrapcnt := 0,
    cookie := none, csz := 0 }

/-- Five calls on the flash store `exK0`: delete "a", write `"b" = [1]`, `[2]`, `[3]`
(block 0 is full then), write `"c" = [5]` (which moves the write position to block 1
and copies `"b" = [3]` there). -/
def gcOps : List (List Nat × List Nat) :=
  [([97], []), ([98], [1]), ([98], [2]), ([98], [3]), ([99], [5])]

/-- The store `exK0` after the calls `gcOps`. -/
def gcS : Kvs :=
  { dev :=
    [0, 4, 0, 171, 0, 0, 0, 0, 28, 223, 68, 33, 1, 0, 0, 22,
     97, 67, 190, 183, 232, 255, 255, 255, 1, 1, 0, 125, 98, 1, 76, 43,
     21, 97, 255, 255, 1, 1, 0, 125, 98, 2, 246, 122, 28, 248, 255, 255,
     1, 1, 0, 125, 98, 3, 96, 74, 27, 143, 255, 255, 255, 255, 255, 255,
     0, 4, 0, 171, 0, 0, 0, 0, 28, 223, 68, 33, 1, 1, 0, 125,
     98, 3, 96, 74, 27, 143, 255, 255, 1, 1, 0, 125, 99, 5, 20, 222,
     99, 127] ++ List.replicate 30 255,
    pbuf := [99, 127, 255, 255], ready := true, pos := 100, bend := 128, wrapcnt := 0,
    cookie := none, csz := 0 }

/-- The store `gcS` after `kvs_unmount` and `kvs_mount`. -/
def gcR : Kvs :=
  { dev :=
    [0, 4, 0, 171, 0, 0, 0, 0, 28, 223, 68, 33, 1, 0, 0, 22,
     97, 67, 190, 183, 232, 255, 255, 255, 1, 1, 0, 125, 98, 1, 76, 43,
     21, 97, 255, 255, 1, 1, 0, 125, 98, 2, 246, 122, 28, 248, 255, 255,
     1, 1, 0, 125, 98, 3, 96, 74, 27, 143, 255, 255, 255, 255, 255, 255,
     0, 4, 0, 171, 0, 0, 0, 0, 28, 223, 68, 33, 1, 1, 0, 125,
     98, 3, 96, 74, 27, 143] ++ List.replicate 42 255,
    pbuf := [27, 143, 255, 255], ready := true, pos := 88, bend := 128, wrapcnt := 0,
    cookie := none, csz := 0 }

/-- Seven writes on the flash store `exK0`: `"b" = [1]`, `[2]`, `[3]`, `[4]` fill
block 0, `"c" = [5]` moves the write position to block 1, `"c" = [6]`, `[7]` fill
block 1. -/
def icOps : List (List Nat × List Nat) :=
  [([98], [1]), ([98], [2]), ([98], [3]), ([98], [4]), ([99], [5]), ([99], [6]),
   ([99], [7])]

/-- The store `exK0` after the writes `icOps`: the next append does not fit. -/
def icS : Kvs :=
  { dev :=
    [0, 4, 0, 171, 0, 0, 0, 0, 28, 223, 68, 33, 1, 1, 0, 125,
     98, 1, 76, 43, 21, 97, 255, 255, 1, 1, 0, 125, 98, 2, 246, 122,
     28, 248, 255, 255, 1, 1, 0, 125, 98, 3, 96, 74, 27, 143, 255, 255,
     1, 1, 0, 125, 98, 4, 195, 223, 127, 17, 255, 255, 255, 255, 255, 255,
     0, 4, 0, 171, 0, 0, 0, 0, 28, 223, 68, 33, 1, 1, 0, 125,
     98, 4, 195, 223, 127, 17, 255, 255, 1, 1, 0, 125, 99, 5, 20, 222,
     99, 127, 255, 255, 1, 1, 0, 125, 99, 6, 174, 143, 106, 230, 255, 255,
     1, 1, 0, 125, 99, 7, 56, 191, 109, 145, 255, 255, 255, 255, 255, 255],
    pbuf := [109, 145, 255, 255], ready := true, pos := 124, bend := 128, wrapcnt := 0,
    cookie := none, csz := 0 }

/-- The store `icS` after the compaction that the next `kvs_write` runs: block 1 copied
into block 0. -/
def icDone : Kvs :=
  { dev :=
    [0, 4, 0, 171, 1, 0, 0, 0, 121, 184, 248, 153, 1, 1, 0, 125,
     98, 4, 195, 223, 127, 17, 255, 255, 1, 1, 0, 125, 99, 7, 56, 191,
     109, 145, 255, 255, 255, 255, 255, 255, 255, 255, 255, 255, 255, 255, 255, 255,
     255, 255, 255, 255, 255, 255, 255, 255, 255, 255, 255, 255, 255, 255, 255, 255,
     0, 4, 0, 171, 0, 0, 0, 0, 28, 223, 68, 33, 1, 1, 0, 125,
     98, 4, 195, 223, 127, 17, 255, 255, 1, 1, 0, 125, 99, 5, 20, 222,
     99, 127, 255, 255, 1, 1, 0, 125, 99, 6, 174, 143, 106, 230, 255, 255,
     1, 1, 0, 125, 99, 7, 56, 191, 109, 145, 255, 255, 255, 255, 255, 255],
    pbuf := [109, 145, 255, 255], ready := true, pos := 36, bend := 64, wrapcnt := 1,
    cookie := none, csz := 0 }

/-- The flash device after a power cut during a compaction: `before` is the device when
the compaction starts, `after` when it is complete; of the destination block at `base`
the first `m` bytes were programmed, the rest of the block is erased. -/
def powerCut (before after : List Nat) (base m bsz : Nat) : List Nat :=
  before.take base ++ (after.drop base).take m ++ List.replicate (bsz - m) KVS_FILLCHAR
    ++ before.drop (base + bsz)

/-- The unmounted store on the device that the power cut leaves when the compaction of
`icS` stops after `m` bytes. -/
def icRaw (m : Nat) : Kvs := { exRaw with dev := powerCut icS.dev icDone.dev 0 m 64 }

/-- The store that `kvs_mount` makes of `icRaw 12` (the power cut came when the block
header was written). -/
def icM12 : Kvs :=
  { dev :=
    [0, 4, 0, 171, 1, 0, 0, 0, 121, 184, 248, 153, 255, 255, 255, 255,
     255, 255, 255, 255, 255, 255, 255, 255, 255, 255, 255, 255, 255, 255, 255, 255,
     255, 255, 255, 255, 255, 255, 255, 255, 255, 255, 255, 255, 255, 255, 255, 255,
     255, 255, 255, 255, 255, 255, 255, 255, 255, 255, 255, 255, 255, 255, 255, 255,
     0, 4, 0, 171, 0, 0, 0, 0, 28, 223, 68, 33, 1, 1, 0, 125,
     98, 4, 195, 223, 127, 17, 255, 255, 1, 1, 0, 125, 99, 5, 20, 222,
     99, 127, 255, 255, 1, 1, 0, 125, 99, 6, 174, 143, 106, 230, 255, 255,
     1, 1, 0, 125, 99, 7, 56, 191, 109, 145, 255, 255, 255, 255, 255, 255],
    pbuf := [0, 0, 0, 0], ready := true, pos := 0, bend := 64, wrapcnt := 2,
    cookie := none, csz := 0 }

/-- The store that `kvs_mount` makes of `icRaw 24` (the power cut came when the block
header and the copy of the first entry were written). -/
def icM24 : Kvs :=
  { dev :=
    [0, 4, 0, 171, 1, 0, 0, 0, 121, 184, 248, 153, 1, 1, 0, 125,
     98, 4, 195, 223, 127, 17, 255, 255, 255, 255, 255, 255, 255, 255, 255, 255,
     255, 255, 255, 255, 255, 255, 255, 255, 255, 255, 255, 255, 255, 255, 255, 255,
     255, 255, 255, 255, 255, 255, 255, 255, 255, 255, 255, 255, 255, 255, 255, 255,
     0, 4, 0, 171, 0, 0, 0, 0, 28, 223, 68, 33, 1, 1, 0, 125,
     98, 4, 195, 223, 127, 17, 255, 255, 1, 1, 0, 125, 99, 5, 20, 222,
     99, 127, 255, 255, 1, 1, 0, 125, 99, 6, 174, 143, 106, 230, 255, 255,
     1, 1, 0, 125, 99, 7, 56, 191, 109, 145, 255, 255, 255, 255, 255, 255],
    pbuf := [0, 0, 0, 0], ready := true, pos := 0, bend := 64, wrapcnt := 2,
    cookie := none, csz := 0 }

/-- Four calls on the flash store of three blocks: delete "a", write "x" (10 bytes) in
block 0, write "y" (40 bytes) in block 1, write "z" (20 bytes) in block 2, where "x" is
copied to. -/
def mfOps : List (List Nat × List Nat) :=
  [([97], []), ([120], List.replicate 10 1), ([121], List.replicate 40 2),
   ([122], List.replicate 20 3)]

/-- The store `eeK0` on flash after the calls `mfOps`. -/
def mfS : Kvs :=
  { dev :=
    [0, 4, 0, 171, 0, 0, 0, 0, 28, 223, 68, 33, 1, 0, 0, 22,
     97, 67, 190, 183, 232, 1, 10, 0, 145, 120, 1, 1, 1, 1, 1, 1,
     1, 1, 1, 1, 157, 128, 92, 156, 255, 255, 255, 255, 255, 255, 255, 255,
     255, 255, 255, 255, 255, 255, 255, 255, 255, 255, 255, 255, 255, 255, 255, 255,
     0, 4, 0, 171, 0, 0, 0, 0, 28, 223, 68, 33, 1, 40, 0, 4,
     121, 2, 2, 2, 2, 2, 2, 2, 2, 2, 2, 2, 2, 2, 2, 2,
     2, 2, 2, 2, 2, 2, 2, 2, 2, 2, 2, 2, 2, 2, 2, 2,
     2, 2, 2, 2, 2, 2, 2, 2, 2, 155, 83, 20, 145, 255, 255, 255,
     0, 4, 0, 171, 0, 0, 0, 0, 28, 223, 68, 33, 1, 10, 0, 145,
     120, 1, 1, 1, 1, 1, 1, 1, 1, 1, 1, 157, 128, 92, 156, 1,
     20, 0, 31, 122, 3, 3, 3, 3, 3, 3, 3, 3, 3, 3, 3, 3,
     3, 3, 3, 3, 3, 3, 3, 3, 167, 88, 64, 4, 255, 255, 255, 255],
    pbuf := [0], ready := true, pos := 188, bend := 192, wrapcnt := 0,
    cookie := none, csz := 0 }

/-- The store `mfS` after `kvs_unmount` and `kvs_mount`. -/
def mfR : Kvs :=
  { dev :=
    [0, 4, 0, 171, 0, 0, 0, 0, 28, 223, 68, 33, 1, 0, 0, 22,
     97, 67, 190, 183, 232, 1, 10, 0, 145, 120, 1, 1, 1, 1, 1, 1,
     1, 1, 1, 1, 157, 128, 92, 156, 255, 255, 255, 255, 255, 255, 255, 255,
     255, 255, 255, 255, 255, 255, 255, 255, 255, 255, 255, 255, 255, 255, 255, 255,
     0, 4, 0, 171, 0, 0, 0, 0, 28, 223, 68, 33, 1, 40, 0, 4,
     121, 2, 2, 2, 2, 2, 2, 2, 2, 2, 2, 2, 2, 2, 2, 2,
     2, 2, 2, 2, 2, 2, 2, 2, 2, 2, 2, 2, 2, 2, 2, 2,
     2, 2, 2, 2, 2, 2, 2, 2, 2, 155, 83, 20, 145, 255, 255, 255,
     0, 4, 0, 171, 0, 0, 0, 0, 28, 223, 68, 33, 1, 10, 0, 145,
     120, 1, 1, 1, 1, 1, 1, 1, 1, 1, 1, 157, 128, 92, 156] ++ List.replicate 33 255,
    pbuf := [0], ready := false, pos := 0, bend := 64, wrapcnt := 1,
    cookie := none, csz := 0 }

/-- The configuration `exCfg` on a device that refuses to program at offset 24. -/
def pfCfg : Cfg := { exCfg with progFail := fun o => decide (o = 24) }

/-- The store `exK1` after `kvs_write("b", [2])` on the device of `pfCfg`. -/
def pfS : Kvs :=
  { dev :=
    [0, 4, 0, 171, 0, 0, 0, 0, 28, 223, 68, 33, 1, 1, 0, 125,
     97, 1, 143, 120, 56, 74, 255, 255, 255, 255, 255, 255, 255, 255, 255, 255,
     255, 255, 255, 255, 255, 255, 255, 255, 255, 255, 255, 255, 255, 255, 255, 255,
     255, 255, 255, 255, 255, 255, 255, 255, 255, 255, 255, 255, 255, 255, 255, 255,
     0, 4, 0, 171, 0, 0, 0, 0, 28, 223, 68, 33, 1, 1, 0, 125,
     97, 1, 143, 120, 56, 74, 255, 255, 1, 1, 0, 125, 98, 2, 246, 122,
     28, 248] ++ List.replicate 30 255,
    pbuf := [28, 248, 255, 255], ready := true, pos := 100, bend := 128, wrapcnt := 0,
    cookie := none, csz := 0 }

/-- The configuration `exCfg` on a device that refuses every program operation. -/
def deadCfg : Cfg := { exCfg with progFail := fun _ => true }

/-! ## Reference checksums -/

/-- One step of the bit-by-bit reflected CRC-32: shift the register right by one bit and
add the polynomial `0xEDB88320` when the bit shifted out is 1. -/
def crc32_ref_bit (c : Nat) : Nat :=
  if c % 2 = 1 then (c >>> 1) ^^^ 0xEDB88320 else c >>> 1

/-- The bit step of the reference CRC-32 applied `n` times. -/
def crc32_ref_bits : Nat → Nat → Nat
  | 0, c => c
  | n + 1, c => crc32_ref_bits n (crc32_ref_bit c)

/-- The standard reflected CRC-32 (polynomial `0xEDB88320`) computed bit by bit: the
register starts as the complement of 0, every byte is added to the low end of the
register and shifted out in eight bit steps, and the result is the complement of the
register. -/
def crc32_ref (s : List Nat) : Nat :=
  4294967295 ^^^ s.foldl (fun c b => crc32_ref_bits 8 (c ^^^ b)) 4294967295

/-- One step of the bit-by-bit CRC-8 with polynomial `0x07`, most significant bit
first: shift the 8-bit register left by one bit and add the polynomial when the bit
shifted out is 1. -/
def crc8_ref_bit (c : Nat) : Nat :=
  if c &&& 0x80 ≠ 0 then ((c <<< 1) ^^^ 0x07) % 256 else (c <<< 1) % 256

/-- The bit step of the reference CRC-8 applied `n` times. -/
def crc8_ref_bits : Nat → Nat → Nat
  | 0, c => c
  | n + 1, c => crc8_ref_bits n (crc8_ref_bit c)

/-- The CRC-8 with polynomial `0x07`, no reflection and no final XOR, computed bit by
bit from the initial value `c`. -/
def crc8_ref (c : Nat) (s : List Nat) : Nat :=
  s.foldl (fun c b => crc8_ref_bits 8 (c ^^^ b)) c

/-! ## Scenarios for the cursor after a mount, for compaction and for the empty key -/

/-- Ten writes on the flash store `exK0`: four entries fill block 0, the fifth moves the
write position to block 1, the eighth back to block 0 (wrap counter 1), and the last one
fills block 0 to its last byte. -/
def ovOps : List (List Nat × List Nat) :=
  [([97], [1]), ([97], [2]), ([97], [3]), ([97], [4]), ([97], [5]), ([97], [6]),
   ([97], [7]), ([97], [8]), ([97], [9]), ([98], [1, 2, 3, 4, 5])]

/-- The store `exK0` after the writes `ovOps`: block 0 is full, block 1 holds the entries
of the previous round. -/
def ovS : Kvs :=
  { dev :=
    [0, 4, 0, 171, 1, 0, 0, 0, 121, 184, 248, 153, 1, 1, 0, 125,
     97, 7, 186, 221, 91, 163, 255, 255, 1, 1, 0, 125, 97, 8, 43, 192,
     228, 51, 255, 255, 1, 1, 0, 125, 97, 9, 189, 240, 227, 68, 255, 255,
     1, 5, 0, 214, 98, 1, 2, 3, 4, 5, 27, 97, 215, 117, 255, 255,
     0, 4, 0, 171, 0, 0, 0, 0, 28, 223, 68, 33, 1, 1, 0, 125,
     97, 4, 0, 140, 82, 58, 255, 255, 1, 1, 0, 125, 97, 5, 150, 188,
     85, 77, 255, 255, 1, 1, 0, 125, 97, 6, 44, 237, 92, 212, 255, 255,
     1, 1, 0, 125, 97, 7, 186, 221, 91, 163] ++ List.replicate 6 255,
    pbuf := [215, 117, 255, 255], ready := true, pos := 64, bend := 64, wrapcnt := 1,
    cookie := none, csz := 0 }

/-- The store `ovS` after `kvs_unmount` and `kvs_mount`. -/
def ovR : Kvs := { ovS with pos := 124 }

/-- Four writes that fill block 0 of the flash store `exK0` to its last byte. -/
def fillOps : List (List Nat × List Nat) :=
  [([97], [1]), ([98], [1]), ([99], [1]), ([100], [1, 2, 3, 4, 5])]

/-- Two writes on the flash store of three blocks: "x" fills most of block 0, "y" most
of block 1. -/
def cpOps : List (List Nat × List Nat) :=
  [([120], List.replicate 40 1), ([121], List.replicate 40 2)]

/-- The store `eeK0` on the flash backend after the writes `cpOps`. -/
def cpS : Kvs :=
  { dev :=
    [0, 4, 0, 171, 0, 0, 0, 0, 28, 223, 68, 33, 1, 40, 0, 4,
     120, 1, 1, 1, 1, 1, 1, 1, 1, 1, 1, 1, 1, 1, 1, 1,
     1, 1, 1, 1, 1, 1, 1, 1, 1, 1, 1, 1, 1, 1, 1, 1,
     1, 1, 1, 1, 1, 1, 1, 1, 1, 69, 9, 67, 195, 255, 255, 255,
     0, 4, 0, 171, 0, 0, 0, 0, 28, 223, 68, 33, 1, 40, 0, 4,
     121, 2, 2, 2, 2, 2, 2, 2, 2, 2, 2, 2, 2, 2, 2, 2,
     2, 2, 2, 2, 2, 2, 2, 2, 2, 2, 2, 2, 2, 2, 2, 2,
     2, 2, 2, 2, 2, 2, 2, 2, 2, 155, 83, 20, 145] ++ List.replicate 67 255,
    pbuf := [0], ready := true, pos := 125, bend := 128, wrapcnt := 0,
    cookie := none, csz := 0 }

/-- The store `cpS` after `kvs_compact`: block 2 holds a block header and the copy of
"x". -/
def cpC : Kvs :=
  { cpS with
    dev := cpS.dev.take 128 ++ cpS.dev.take 61 ++ List.replicate 3 255,
    pos := 0, bend := 64, wrapcnt := 1 }

/-- The store `exK0` after `kvs_write("", [1])`. -/
def zkS : Kvs :=
  { dev :=
    [0, 4, 0, 171, 0, 0, 0, 0, 28, 223, 68, 33, 0, 1, 0, 107,
     1, 27, 223, 5, 165] ++ List.replicate 107 255,
    pbuf := [165, 255, 255, 255], ready := true, pos := 24, bend := 64, wrapcnt := 0,
    cookie := none, csz := 0 }

/-! ### Cursor and frame predicates -/

/-- The sizes of a configuration as `kvs_mount` accepts them, on a region that fits the
32-bit offsets; nothing is asked of the device. -/
structure SizeOk (cfg : Cfg) : Prop where
  psz_pow : ∃ j, j ≤ 31 ∧ cfg.psz = 2 ^ j
  bsz_pow : ∃ j, j ≤ 31 ∧ cfg.bsz = 2 ^ j
  psz_le : cfg.psz ≤ cfg.bsz
  small : cfg.bsz * cfg.bcnt < 2147483648

/-- The cursor invariant of the specification (section 3, invariant 2): `bend` is a
multiple of the block size inside the region, `pos` is a multiple of the program size
and lies in the block that ends at `bend`. -/
structure CursorOk (cfg : Cfg) (k : Kvs) : Prop where
  bend_mod : k.bend % cfg.bsz = 0
  bend_ge : cfg.bsz ≤ k.bend
  bend_le : k.bend ≤ cfg.bsz * cfg.bcnt
  pos_mod : k.pos % cfg.psz = 0
  pos_ge : k.bend - cfg.bsz ≤ k.pos
  pos_le : k.pos ≤ k.bend

/-- A step that leaves the cursor alone or moves the write position to the end of the
block. -/
def CurStep (k k2 : Kvs) : Prop := k2.bend = k.bend ∧ (k2.pos = k.pos ∨ k2.pos = k.bend)

/-- The device of `k2` is the device of `k` from offset `b` on. -/
def Above (b : Nat) (k k2 : Kvs) : Prop :=
  k2.dev.drop b = k.dev.drop b ∧ k2.dev.length = k.dev.length

/-! ### Predicates for the write of an entry that does not fit -/

/-- Behind the base of the write block lies nothing or at least a whole block header
entry. -/
def HeadSize (cfg : Cfg) (k : Kvs) : Prop :=
  k.pos = k.bend - cfg.bsz ∨ k.bend - cfg.bsz + entry_size cfg 0 (4 + k.csz) ≤ k.pos

/-- Every block of the region starts with a block header entry of the store's cookie
size or with bytes that are no entry header (an erased block). -/
def BlockHeads (cfg : Cfg) (k : Kvs) : Prop :=
  ∀ b, b < cfg.bcnt →
    (entry_get_info cfg k { start := b * cfg.bsz, next := 0, he_hdr := 0 }).1 = 0 →
    entry_get_klen (entry_get_info cfg k { start := b * cfg.bsz, next := 0, he_hdr := 0 }).2 = 0 ∧
    (entry_get_info cfg k { start := b * cfg.bsz, next := 0, he_hdr := 0 }).2.next
      = b * cfg.bsz + entry_size cfg 0 (4 + k.csz)

/-- The failed attempts of `kvs_write`: `n` times `entry_add` returns `-KVS_ENOSPC` and
one call of `compact` follows. -/
inductive NoSpaceRun (cfg : Cfg) (key value : List Nat) (fuel : Nat) : Nat → Kvs → Kvs → Prop
  | done (k : Kvs) : NoSpaceRun cfg key value fuel 0 k k
  | step (n : Nat) (k k1 k2 k3 : Kvs) (ent ent1 : Ent) (rc : Int) :
      entry_add cfg k ent key value = (-KVS_ENOSPC, k1, ent1) →
      compact cfg k1 (block_advance_n cfg k1.bend (cfg.bspr + 1)) fuel = some (rc, k2) →
      NoSpaceRun cfg key value fuel n k2 k3 → NoSpaceRun cfg key value fuel (n + 1) k k3

/-! ## Definitions for the decode, failure and scan claims -/

/-- The header check in the words of the specification: the top byte of the header word
is the CRC-8 of its low 24 bits. -/
def HdrCrcOk (w : Nat) : Prop := w / 16777216 = crc8 0 (put_le32 (w % 16777216))

instance (w : Nat) : Decidable (HdrCrcOk w) := by
  unfold HdrCrcOk
  infer_instance

/-- The end of an entry in the words of the specification:
`round_up(start + 4 + key_len + val_len + 4, psz)` with the lengths taken from the header
word `w`. -/
def specNext (cfg : Cfg) (start w : Nat) : Nat :=
  (start + 4 + w % 256 + w / 256 % 65536 + 4 + cfg.psz - 1) / cfg.psz * cfg.psz

/-- The entry that the specification's decode makes of the header word `w` read at
`start`. -/
def specEnt (cfg : Cfg) (start w : Nat) : Ent :=
  { start := start, next := specNext cfg start w, he_hdr := w }

/-- A raw flash region for `exCfg` whose block 0 starts with a block header entry that
carries the wrap counter 5, and whose block 1 starts with a valid entry of key length 1
(`"a" = [1]`), which is no block header. -/
def hbRaw : Kvs :=
  { exRaw with dev := [0, 4, 0, 171, 5, 0, 0, 0, 9, 9, 9, 9] ++ List.replicate 52 255 ++
      [1, 1, 0, 125, 97, 1, 0, 0, 0, 0] ++ List.replicate 54 255 }

/-- A raw flash region for `exCfg` without any block header entry: block 0 starts with
the valid entry `"a" = [1]`, block 1 is erased. -/
def nhRaw : Kvs :=
  { exRaw with dev := [1, 1, 0, 125, 97, 1, 0, 0, 0, 0] ++ List.replicate 118 255 }

/-- The configuration `exCfg` with the value 7 in the uninitialised local `wrapcnt` of
`kvs_set_data_bend` and `walk`. -/
def exCfg7 : Cfg := { exCfg with uninit := 7 }

/-- A store on `exCfg` whose write block is the last block of the region and whose wrap
counter holds the largest 32-bit value. -/
def wrapMax : Kvs := { exK0 with wrapcnt := 4294967295, bend := 128, pos := 64 }

/-- The entry `e` has been decoded from the device at an offset of the region and has
passed the filters of the scan for the key read by `rdkey`. -/
def FoundAt (cfg : Cfg) (k : Kvs) (rdkey : ReadCb) (e : Ent) : Prop :=
  ∃ e0 : Ent, e0.start ≤ cfg.bcnt * cfg.bsz ∧ (entry_get_info cfg k e0).1 = 0 ∧
    (entry_get_info cfg k e0).2 = e ∧
    differ k { ctx := .ent e, off := 0, len := rdkey.len } rdkey = false ∧
    entry_kvcrc_ok k e = true

/-- Where a scan continues: the offset `p`, or 0 when `p` is the end of the region. -/
def scanPos (cfg : Cfg) (p : Nat) : Nat := if p < cfg.bcnt * cfg.bsz then p else 0

/-- The positions of a scan to `stop` that has started at a block base, where `stop` is
reached by the entries `es` from the block base `base`: on the chain of these entries, in
a block before or behind the block of `base`, or at `base = stop`. -/
def ScanAt (cfg : Cfg) (k : Kvs) (base stop : Nat) (es : List Ent) (p : Nat) : Prop :=
  (∃ es1 es2, es = es1 ++ es2 ∧ es2 ≠ [] ∧ base ≤ scanPos cfg p ∧
      ChainL cfg k (scanPos cfg p) es2 stop) ∨
    scanPos cfg p < base ∨ (base + cfg.bsz ≤ scanPos cfg p ∧ scanPos cfg p ≠ stop) ∨
    (es = [] ∧ scanPos cfg p = base)

/-- A bound of the number of bytes a scan at `p` has before it to reach `stop`: up to
the block base `base` around the region, and from there to `stop`. -/
def scanDist (cfg : Cfg) (base stop p : Nat) : Nat :=
  if base ≤ scanPos cfg p ∧ scanPos cfg p < base + cfg.bsz then stop - scanPos cfg p + 1
  else (if scanPos cfg p < base then base - scanPos cfg p
    else cfg.bcnt * cfg.bsz - scanPos cfg p + base) + (stop - base) + 2

/-- The stored CRC-32 of the entry `e` is there and is the CRC-32 of its key and value
bytes. -/
def CrcGood (k : Kvs) (e : Ent) : Prop :=
  e.start + 8 + (entry_get_klen e + entry_get_vlen e) ≤ e.next ∧
  e.start + 8 + (entry_get_klen e + entry_get_vlen e) ≤ k.dev.length ∧
  crc32 0 (seg k.dev (e.start + 4) (entry_get_klen e + entry_get_vlen e)) =
    get_le32 (seg k.dev (e.start + 4 + (entry_get_klen e + entry_get_vlen e)) 4)

instance (k : Kvs) (e : Ent) : Decidable (CrcGood k e) := by
  unfold CrcGood
  infer_instance

/-- A callback that is never to be called on an entry with a bad CRC-32: on such an entry
it does not return. -/
def crcGuard {σ : Type} (cb : Cb σ) : Cb σ := fun k e st =>
  if CrcGood k e then cb k e st else none

/-- The store `exK2` with a changed value byte (offset 29) in its newest entry
`"a" = [2, 3]`: the header of that entry is intact, its CRC-32 no longer fits. -/
def crS : Kvs :=
  { dev := [0, 4, 0, 171, 0, 0, 0, 0, 28, 223, 68, 33, 1, 1, 0, 125, 97, 1, 143, 120, 56, 74,
      255, 255, 1, 2, 0, 192, 97, 0, 3, 61, 75, 107, 29, 255] ++ List.replicate 92 255,
    pbuf := exK2.pbuf, ready := true, pos := 36, bend := 64, wrapcnt := 0, cookie := none,
    csz := 0 }

/-- A flash region for `exCfg` after a power cut in the first write to the erased region:
of the block header entry of block 0 only the first program unit, the four header bytes
`00 04 00 AB`, is on the device.  With the erased bytes behind them they are a block
header entry with the wrap counter `0xFFFFFFFF` and a CRC-32 that fits (the CRC-32 of
`FF FF FF FF` is `0xFFFFFFFF`). -/
def tornRaw : Kvs := { exRaw with dev := [0, 4, 0, 171] ++ List.replicate 124 255 }

/-- The store that `kvs_mount` makes of `tornRaw`. -/
def tornS : Kvs :=
  { tornRaw with ready := true, pos := 12, bend := 64, wrapcnt := 4294967295 }

/-- A bound of the number of bytes a scan at `p` has before it to reach the block base
or region end `stop`, around the region. -/
def ringDist (cfg : Cfg) (stop p : Nat) : Nat :=
  if scanPos cfg p = stop then 0
  else if scanPos cfg p < stop then stop - scanPos cfg p
  else cfg.bcnt * cfg.bsz - scanPos cfg p + stop

/-- Six calls on the flash store `exK0`: write `"z" = [1]`, delete "z", write
`"z" = [1]`, delete "z" (block 0 has 4 bytes left then), write "a" with a value of 31
bytes (which moves the write position to block 1), delete "a". -/
def reOps : List (List Nat × List Nat) :=
  [([122], [1]), ([122], []), ([122], [1]), ([122], []), ([97], List.replicate 31 7),
   ([97], [])]

/-- The store `exK0` after the calls `reOps`: block 1 is the write block and is filled to
its last byte, the write position is the end of the region; the newest entry is the
tombstone of "a" at `[116, 128)`. -/
def reS : Kvs :=
  { dev :=
    [0, 4, 0, 171, 0, 0, 0, 0, 28, 223, 68, 33, 1, 1, 0, 125,
     122, 1, 21, 179, 14, 227, 255, 255, 1, 0, 0, 22, 122, 175, 119, 210,
     98, 255, 255, 255, 1, 1, 0, 125, 122, 1, 21, 179, 14, 227, 255, 255,
     1, 0, 0, 22, 122, 175, 119, 210, 98, 255, 255, 255, 255, 255, 255, 255,
     0, 4, 0, 171, 0, 0, 0, 0, 28, 223, 68, 33, 1, 31, 0, 243, 97] ++
    List.replicate 31 7 ++
    [130, 85, 64, 165, 1, 0, 0, 22, 97, 67, 190, 183, 232, 255, 255, 255],
    pbuf := [232, 255, 255, 255], ready := true, pos := 128, bend := 128, wrapcnt := 0,
    cookie := none, csz := 0 }

/-! ## Stores at the last value of the wrap counter -/

/-- Is the block base `b` passed by every scan of the store `k`?  The header at `b` does
not decode (the scan goes on at the block end), or it decodes to a block header entry
that `walk` takes for stale (`(wrapcnt + 1U) < data->wrapcnt`, the scan goes on at the
block end as well). -/
def deadBase (cfg : Cfg) (k : Kvs) (b : Nat) : Bool :=
  decide (KVS_ALIGNDOWN b cfg.bsz + cfg.bsz = b + cfg.bsz) &&
  decide (u32 (b + cfg.bsz) = b + cfg.bsz) &&
  (match entry_get_info cfg k { start := b, next := 0, he_hdr := 0 } with
   | (rc, e) =>
     decide (rc ≠ 0) ||
     (decide (b &&& (cfg.bsz - 1) = 0) &&
      decide (entry_get_wrapcnt k e 0 = entry_get_wrapcnt k e 1) &&
      decide (u32 (entry_get_wrapcnt k e 0 + 1) < k.wrapcnt)))

/-- Does a scan of the store `k` to its write position stay at the block bases?  Every
block base is passed (`deadBase`), the write position is not a block base or the region
end, and `entry_get` starts its first round at a block base. -/
def scanStuck (cfg : Cfg) (k : Kvs) : Bool :=
  decide (0 < cfg.bcnt) &&
  (List.range cfg.bcnt).all (fun i => deadBase cfg k (i * cfg.bsz)) &&
  (List.range (cfg.bcnt + 1)).all (fun i => decide (k.pos ≠ i * cfg.bsz)) &&
  decide (u32 (cfg.bcnt + 4294967296 - cfg.bspr) ≠ 0) &&
  (List.range (cfg.bcnt + 1)).any
    (fun i => decide (u32 (k.bend + 4294967296 - cfg.bsz) = i * cfg.bsz))

/-- An EEPROM region of four blocks of 64 bytes, one of them spare, programmed byte by
byte. -/
def eeCfg4 : Cfg := { eeCfg with bcnt := 4 }

/-- The region filled with `0xFF` before `kvs_mount`. -/
def eeRaw4 : Kvs := { eeRaw with dev := List.replicate 256 255 }

/-- The store that `kvs_mount` makes of `eeRaw4`. -/
def wpK0 : Kvs := { eeRaw4 with ready := true, bend := 64 }

/-- Block 0 after `kvs_write("f", v)` with a value of 43 bytes `07`: the block header
entry `[0, 12)` and the entry `[12, 64)`, followed by the end mark of the EEPROM backend
in the first four bytes of block 1. -/
def wpB0 : List Nat :=
  [0, 4, 0, 171, 0, 0, 0, 0, 28, 223, 68, 33, 1, 43, 0, 185, 102] ++ List.replicate 43 7 ++
  [128, 83, 117, 234, 0, 0, 0, 0]

/-- The store `wpK0` after `kvs_write("f", v)`, which fills block 0: the write position is
the end of block 0. -/
def wpK1 : Kvs :=
  { wpK0 with dev := wpB0 ++ List.replicate 188 255, pos := 64 }

/-- The store after `kvs_unmount` and `kvs_mount`: the end mark at offset 64 with the
erased bytes behind it is taken for the block header entry of block 1 with the wrap
counter `0xFFFFFFFF`. -/
def wpM : Kvs := { wpK1 with pos := 72, bend := 128, wrapcnt := 4294967295 }

/-- The store `wpM` after `kvs_compact`: the write position is the base of block 2. -/
def wpC : Kvs := { wpM with pos := 128, bend := 192 }

/-- The block header entry that the store writes at the wrap counter `0xFFFFFFFF`. -/
def wpHd : List Nat := [0, 4, 0, 171, 255, 255, 255, 255, 255, 255, 255, 255]

/-- The store `wpC` after `kvs_write("k", [1])`. -/
def wpW : Kvs :=
  { wpC with
    dev := wpB0 ++ List.replicate 60 255 ++ wpHd ++
      [1, 1, 0, 125, 107, 1, 5, 144, 215, 176, 0, 0, 0, 0] ++ List.replicate 102 255,
    pos := 150 }

/-- Blocks 0 to 2 after `kvs_write("k", v)` on `wpC` with a value of 43 bytes `07`, which
fills block 2. -/
def wpB2 : List Nat :=
  wpB0 ++ List.replicate 60 255 ++ wpHd ++ [1, 43, 0, 185, 107] ++ List.replicate 43 7 ++
  [59, 79, 205, 226]

/-- The store `wpC` after `kvs_write("k", v)`: the write position is the end of block 2. -/
def wpF : Kvs :=
  { wpC with dev := wpB2 ++ [0, 0, 0, 0] ++ List.replicate 60 255, pos := 192 }

/-- The store `wpF` after `kvs_write("k", [2])`, which is appended in block 3. -/
def wpN : Kvs :=
  { wpF with
    dev := wpB2 ++ wpHd ++ [1, 1, 0, 125, 107, 2, 191, 193, 222, 41, 0, 0, 0, 0] ++
      List.replicate 38 255,
    pos := 214, bend := 256 }

/-- The store `wpF` after `kvs_delete("k")`. -/
def wpD : Kvs :=
  { wpF with
    dev := wpB2 ++ wpHd ++ [1, 0, 0, 22, 107, 93, 87, 98, 8, 0, 0, 0, 0] ++
      List.replicate 39 255,
    pos := 213, bend := 256 }

/-- The store `wpN` with a changed value byte in its newest entry `"k" = [2]`. -/
def wpX : Kvs := { wpN with dev := wpN.dev.set 209 3 }

/-! ## Arithmetic of alignment and of the header word -/

theorem alignDown_eq (n j : Nat) (hn : n < 4294967296) (hj : j ≤ 32) :
    KVS_ALIGNDOWN n (2 ^ j) = n / 2 ^ j * 2 ^ j := by
  unfold KVS_ALIGNDOWN
  apply Nat.eq_of_testBit_eq
  intro i
  have e1 : (4294967295 : Nat) = 2 ^ 32 - 1 := by norm_num
  have e2 : n / 2 ^ j * 2 ^ j = (n >>> j) <<< j := by
    rw [Nat.shiftLeft_eq, Nat.shiftRight_eq_div_pow]
  rw [e2, e1]
  simp only [Nat.testBit_and, Nat.testBit_xor, Nat.testBit_two_pow_sub_one,
    Nat.testBit_shiftLeft, Nat.testBit_shiftRight]
  by_cases h1 : i < 32
  · by_cases h2 : i < j
    · have : ¬ (i ≥ j) := by omega
      simp [h1, h2, this]
    · have h3 : i ≥ j := by omega
      have h4 : j + (i - j) = i := by omega
      simp [h1, h2, h3, h4]
  · have h5 : n.testBit i = false := by
      apply Nat.testBit_lt_two_pow
      calc n < 2 ^ 32 := by simpa using hn
        _ ≤ 2 ^ i := Nat.pow_le_pow_right (by norm_num) (by omega)
    have h3 : i ≥ j := by omega
    have h4 : j + (i - j) = i := by omega
    simp [h5, h3, h4]

theorem alignDown_mod (n j : Nat) (hn : n < 4294967296) (hj : j ≤ 32) :
    KVS_ALIGNDOWN n (2 ^ j) = n - n % 2 ^ j := by
  rw [alignDown_eq n j hn hj]
  have := Nat.div_add_mod n (2 ^ j)
  rw [Nat.mul_comm] at this
  omega

theorem and_mask_mod (n j : Nat) : n &&& (2 ^ j - 1) = n % 2 ^ j :=
  Nat.and_pow_two_sub_one_eq_mod n j

theorem and_shift_byte (v s : Nat) : (v &&& (255 <<< s)) >>> s = (v / 2 ^ s) % 256 := by
  apply Nat.eq_of_testBit_eq
  intro i
  have e1 : (255 : Nat) = 2 ^ 8 - 1 := by norm_num
  have e2 : (256 : Nat) = 2 ^ 8 := by norm_num
  rw [← Nat.shiftRight_eq_div_pow, e2, Nat.testBit_mod_two_pow, e1]
  simp only [Nat.testBit_shiftRight, Nat.testBit_and, Nat.testBit_shiftLeft,
    Nat.testBit_two_pow_sub_one]
  have h1 : s + i ≥ s := by omega
  have h2 : s + i - s = i := by omega
  simp only [h1, h2, decide_True, Bool.true_and]
  exact Bool.and_comm _ _

theorem put_le32_eq (v : Nat) :
    put_le32 v = [v % 256, v / 256 % 256, v / 65536 % 256, v / 16777216 % 256] := by
  have h0 := and_shift_byte v 0
  have h1 := and_shift_byte v 8
  have h2 := and_shift_byte v 16
  have h3 := and_shift_byte v 24
  simp only [Nat.shiftLeft_eq, Nat.shiftRight_eq_div_pow] at h0 h1 h2 h3
  norm_num at h0 h1 h2 h3
  simp only [put_le32, Nat.shiftRight_eq_div_pow]
  norm_num
  exact ⟨h0, h1, h2, h3⟩

theorem get_le32_eq (a b c d : Nat) :
    get_le32 [a, b, c, d] = a + b * 256 + c * 65536 + d * 16777216 := by
  simp [get_le32, Nat.shiftLeft_eq]

theorem get_put_le32 (v : Nat) (h : v < 4294967296) : get_le32 (put_le32 v) = v := by
  rw [put_le32_eq, get_le32_eq]
  omega

theorem put_le32_length (v : Nat) : (put_le32 v).length = 4 := rfl

theorem crc8_nibble_lt (c : Nat) : crc8_nibble c < 256 := by
  unfold crc8_nibble
  exact Nat.mod_lt _ (by norm_num)

theorem crc8_lt (c : Nat) (buf : List Nat) (h : c < 256) : crc8 c buf < 256 := by
  unfold crc8
  induction buf generalizing c with
  | nil => simpa using h
  | cons b bs ih => exact ih _ (crc8_nibble_lt _)

theorem entry_set_len_eq (klen vlen : Nat) (hk : klen < 256) (hv : vlen < 65536) :
    entry_set_len klen vlen = vlen * 256 + klen := by
  unfold entry_set_len KVS_HDRVALMASK KVS_HDRVALSHIFT KVS_HDRKEYMASK KVS_HDRKEYSHIFT
  have e1 : vlen &&& 65535 = vlen := by
    have := Nat.and_pow_two_sub_one_eq_mod vlen 16
    norm_num at this
    rw [this]; exact Nat.mod_eq_of_lt hv
  have e2 : klen &&& 255 = klen := by
    have := Nat.and_pow_two_sub_one_eq_mod klen 8
    norm_num at this
    rw [this]; exact Nat.mod_eq_of_lt hk
  rw [e1, e2, Nat.shiftLeft_eq, Nat.shiftLeft_eq]
  have := Nat.mul_add_lt_is_or (i := 8) (b := klen) (by simpa using hk) vlen
  norm_num at this ⊢
  rw [Nat.mul_comm vlen 256, ← this]

theorem entry_hdr_add_crc_eq (d : Nat) (hd : d < 16777216) :
    entry_hdr_add_crc d = crc8 0 (put_le32 d) * 16777216 + d := by
  unfold entry_hdr_add_crc
  have e1 : d &&& 16777215 = d := by
    have := Nat.and_pow_two_sub_one_eq_mod d 24
    norm_num at this
    rw [this]; exact Nat.mod_eq_of_lt hd
  simp only [e1]
  rw [Nat.shiftLeft_eq, Nat.lor_comm]
  have := Nat.mul_add_lt_is_or (i := 24) (b := d) (by simpa using hd) (crc8 0 (put_le32 d))
  norm_num at this ⊢
  rw [Nat.mul_comm _ 16777216, ← this]

theorem hdr_get_data_eq (h : Nat) : hdr_get_data h = h % 16777216 := by
  unfold hdr_get_data KVS_HDRVALMASK KVS_HDRVALSHIFT KVS_HDRKEYMASK KVS_HDRKEYSHIFT
  have : (65535 <<< 8 ||| 255 <<< 0) = 2 ^ 24 - 1 := by decide
  rw [this, Nat.and_pow_two_sub_one_eq_mod]

theorem entry_get_klen_eq (e : Ent) : entry_get_klen e = e.he_hdr % 256 := by
  unfold entry_get_klen KVS_HDRKEYMASK KVS_HDRKEYSHIFT
  have := Nat.and_pow_two_sub_one_eq_mod (e.he_hdr >>> 0) 8
  norm_num at this
  simpa using this

theorem entry_get_vlen_eq (e : Ent) : entry_get_vlen e = e.he_hdr / 256 % 65536 := by
  unfold entry_get_vlen KVS_HDRVALMASK KVS_HDRVALSHIFT
  have := Nat.and_pow_two_sub_one_eq_mod (e.he_hdr >>> 8) 16
  rw [Nat.shiftRight_eq_div_pow] at this
  norm_num at this
  rw [Nat.shiftRight_eq_div_pow]
  simpa using this

theorem hdrWord_facts (klen vlen : Nat) (hk : klen < 256) (hv : vlen < 65536) :
    hdrWord klen vlen < 4294967296 ∧
    hdrWord klen vlen = entry_hdr_add_crc (hdr_get_data (hdrWord klen vlen)) ∧
    hdrWord klen vlen % 256 = klen ∧ hdrWord klen vlen / 256 % 65536 = vlen := by
  have hd : entry_set_len klen vlen < 16777216 := by
    rw [entry_set_len_eq klen vlen hk hv]; omega
  have hc := crc8_lt 0 (put_le32 (entry_set_len klen vlen)) (by norm_num)
  have hw : hdrWord klen vlen =
      crc8 0 (put_le32 (entry_set_len klen vlen)) * 16777216 + entry_set_len klen vlen :=
    entry_hdr_add_crc_eq _ hd
  have hg : hdr_get_data (hdrWord klen vlen) = entry_set_len klen vlen := by
    rw [hdr_get_data_eq, hw]; omega
  refine ⟨by rw [hw]; omega, ?_, ?_, ?_⟩
  · rw [hg]; rfl
  · rw [hw, entry_set_len_eq klen vlen hk hv]; omega
  · rw [hw, entry_set_len_eq klen vlen hk hv]; omega

/-! ## The memory device -/

theorem memWrite_length (dev data : List Nat) (off : Nat)
    (h : off + data.length ≤ dev.length) : (memWrite dev off data).length = dev.length := by
  simp only [memWrite, List.length_append, List.length_take, List.length_drop]
  omega

theorem memWrite_take (dev data : List Nat) (off : Nat) (h : off ≤ dev.length) :
    (memWrite dev off data).take off = dev.take off := by
  unfold memWrite
  rw [List.append_assoc, List.take_append_of_le_length (by simp; omega)]
  rw [List.take_take]; simp

theorem memWrite_seg (dev data : List Nat) (off : Nat) (h : off ≤ dev.length) :
    seg (memWrite dev off data) off data.length = data := by
  unfold memWrite seg
  rw [List.append_assoc]
  have hl : (List.take off dev).length = off := by simp; omega
  rw [List.drop_append_of_le_length (by omega)]
  rw [List.drop_of_length_le (by omega)]
  simp

theorem take_take_of_le {α : Type} (l l2 : List α) (a b : Nat) (hab : a ≤ b)
    (h : l.take b = l2.take b) : l.take a = l2.take a := by
  have : (l.take b).take a = (l2.take b).take a := by rw [h]
  simpa [List.take_take, Nat.min_eq_left hab] using this

theorem flashErase_length (cfg : Cfg) (dev : List Nat) (off : Nat) (h : off ≤ dev.length) :
    (flashErase cfg dev off).length = dev.length := by
  unfold flashErase
  split
  · simp only [List.length_take, memWrite, List.length_append, List.length_drop,
      List.length_replicate]
    omega
  · rfl

theorem flashErase_take (cfg : Cfg) (dev : List Nat) (off : Nat) (h : off ≤ dev.length) :
    (flashErase cfg dev off).take off = dev.take off := by
  unfold flashErase
  split
  · rw [List.take_take, Nat.min_eq_left h, memWrite_take _ _ _ h]
  · rfl

/-- Effect of a successful `prog` on a healthy device. -/
theorem kvs_dev_prog_ok (cfg : Cfg) (k : Kvs) (off : Nat) (data : List Nat)
    (hh : ∀ o, cfg.progFail o = false) (hb : off + data.length ≤ k.dev.length) :
    ∃ dev, kvs_dev_prog cfg k off data = (0, { k with dev := dev }) ∧
      dev.length = k.dev.length ∧ dev.take off = k.dev.take off ∧
      seg dev off data.length = data := by
  unfold kvs_dev_prog
  have h1 : ¬ (off + data.length > k.dev.length) := by omega
  simp only [h1, hh, if_false]
  cases cfg.backend with
  | eeprom =>
    refine ⟨_, rfl, memWrite_length _ _ _ hb, memWrite_take _ _ _ (by omega),
      memWrite_seg _ _ _ (by omega)⟩
  | flash =>
    have hl := flashErase_length cfg k.dev off (by omega)
    refine ⟨_, rfl, ?_, ?_, ?_⟩
    · rw [memWrite_length _ _ _ (by omega), hl]
    · rw [memWrite_take _ _ _ (by omega), flashErase_take _ _ _ (by omega)]
    · exact memWrite_seg _ _ _ (by omega)

theorem prog_comp_ok (cfg : Cfg) (k : Kvs) (off : Nat) (data : List Nat)
    (hh : ∀ o, cfg.progFail o = false) (hb : off + data.length ≤ k.dev.length) :
    ∃ dev, prog_comp cfg k off data = (0, { k with dev := dev }) ∧
      dev.length = k.dev.length ∧ dev.take off = k.dev.take off ∧
      seg dev off data.length = data := by
  obtain ⟨dev, h1, h2, h3, h4⟩ := kvs_dev_prog_ok cfg k off data hh hb
  refine ⟨dev, ?_, h2, h3, h4⟩
  unfold prog_comp
  simp only [h1, ne_eq, not_true_eq_false, if_false]
  unfold kvs_dev_comp kvs_dev_read
  have : ¬ (u32 (off + data.length) > dev.length) := by
    have := Nat.mod_le (off + data.length) 4294967296
    unfold u32
    omega
  simp only [this, if_false]
  unfold seg at h4
  simp [h4]

theorem seg_append (dev : List Nat) (a n m : Nat) :
    seg dev a (n + m) = seg dev a n ++ seg dev (a + n) m := by
  unfold seg
  rw [List.take_add, List.drop_drop]

theorem seg_of_take_eq (dev dev2 : List Nat) (a n : Nat)
    (h : dev2.take (a + n) = dev.take (a + n)) : seg dev2 a n = seg dev a n := by
  unfold seg
  have h1 : ∀ l : List Nat, (l.drop a).take n = (l.take (a + n)).drop a := by
    intro l
    rw [List.drop_take]
    congr 1
    omega
  rw [h1, h1, h]

theorem seg_length (dev : List Nat) (a n : Nat) (h : a + n ≤ dev.length) :
    (seg dev a n).length = n := by
  unfold seg
  simp
  omega

theorem div_mul_decomp (p A r : Nat) (hA : A % p = 0) (hr : r < p) :
    (A + r) / p * p = A := by
  obtain ⟨c, rfl⟩ := Nat.dvd_of_mod_eq_zero hA
  have hp : 0 < p := by omega
  rw [Nat.mul_add_div hp, Nat.div_eq_of_lt hr, Nat.add_zero, Nat.mul_comm]

theorem mod_decomp (p A r : Nat) (hA : A % p = 0) (hr : r < p) :
    (A + r) % p = r := by
  obtain ⟨c, rfl⟩ := Nat.dvd_of_mod_eq_zero hA
  rw [Nat.mul_add_mod, Nat.mod_eq_of_lt hr]

theorem add_mod_zero (p A B : Nat) (hA : A % p = 0) (hB : B % p = 0) : (A + B) % p = 0 := by
  rw [Nat.add_mod, hA, hB]; simp

theorem div_mul_mod_zero (n p : Nat) : (n / p * p) % p = 0 := by
  simp

theorem div_mul_le' (n p : Nat) : n / p * p ≤ n := Nat.div_mul_le_self n p

theorem div_mul_add_mod (n p : Nat) : n / p * p + n % p = n := by
  rw [Nat.mul_comm]; exact Nat.div_add_mod n p

/-! ## The program-granularity-aware writer -/

theorem alignDown_decomp (cfg : Cfg) (j A r : Nat) (hp : cfg.psz = 2 ^ j) (hj : j ≤ 31)
    (hA : A % cfg.psz = 0) (hr : r < cfg.psz) (hn : A + r < 4294967296) :
    KVS_ALIGNDOWN (A + r) cfg.psz = A := by
  rw [hp, alignDown_eq _ _ hn (by omega), ← hp]
  exact div_mul_decomp _ _ _ hA hr

theorem alignUp_decomp (cfg : Cfg) (j A r : Nat) (hp : cfg.psz = 2 ^ j) (hj : j ≤ 31)
    (hA : A % cfg.psz = 0) (hr : r < cfg.psz) (hn : A + r + cfg.psz < 4294967296) :
    KVS_ALIGNUP (A + r) cfg.psz = if r = 0 then A else A + cfg.psz := by
  have e : KVS_ALIGNUP (A + r) cfg.psz = KVS_ALIGNDOWN (u32 (A + r + (cfg.psz - 1))) cfg.psz := rfl
  have hu : u32 (A + r + (cfg.psz - 1)) = A + r + (cfg.psz - 1) := by
    unfold u32; exact Nat.mod_eq_of_lt (by omega)
  rw [e, hu]
  by_cases h0 : r = 0
  · subst h0
    simp only [if_true, Nat.add_zero]
    exact alignDown_decomp cfg j A (cfg.psz - 1) hp hj hA (by omega) (by omega)
  · simp only [h0, if_false]
    have : A + r + (cfg.psz - 1) = (A + cfg.psz) + (r - 1) := by omega
    rw [this]
    exact alignDown_decomp cfg j (A + cfg.psz) (r - 1) hp hj
      (add_mod_zero _ _ _ hA (Nat.mod_self _)) (by omega) (by omega)

theorem psz_pos (cfg : Cfg) (j : Nat) (hp : cfg.psz = 2 ^ j) : 0 < cfg.psz := by
  rw [hp]; exact Nat.pow_pos (by norm_num)

theorem psz_le_pow31 (cfg : Cfg) (j : Nat) (hp : cfg.psz = 2 ^ j) (hj : j ≤ 31) :
    cfg.psz ≤ 2147483648 := by
  rw [hp]
  calc 2 ^ j ≤ 2 ^ 31 := Nat.pow_le_pow_right (by norm_num) hj
    _ = 2147483648 := by norm_num

/-- Second stage of `entry_write` on a healthy device. -/
theorem entry_write_direct_ok (cfg : Cfg) (k : Kvs) (off : Nat) (data : List Nat) (j : Nat)
    (hp : cfg.psz = 2 ^ j) (hj : j ≤ 31) (hh : ∀ o, cfg.progFail o = false)
    (hb : off + data.length ≤ k.dev.length) (h32 : data.length < 4294967296) :
    ∃ dev, entry_write_direct cfg k off data =
        (0, { k with dev := dev }, data.drop (data.length / cfg.psz * cfg.psz)) ∧
      dev.length = k.dev.length ∧ dev.take off = k.dev.take off ∧
      seg dev off (data.length / cfg.psz * cfg.psz) =
        data.take (data.length / cfg.psz * cfg.psz) := by
  have hp0 := psz_pos cfg j hp
  have hB : KVS_ALIGNDOWN data.length cfg.psz = data.length / cfg.psz * cfg.psz := by
    rw [hp, alignDown_eq _ _ h32 (by omega)]
  have hBle := Nat.div_mul_le_self data.length cfg.psz
  unfold entry_write_direct
  by_cases hge : data.length ≥ cfg.psz
  · simp only [hge, if_true, hB]
    obtain ⟨dev, h1, h2, h3, h4⟩ := prog_comp_ok cfg k off
      (data.take (data.length / cfg.psz * cfg.psz)) hh (by simp; omega)
    rw [h1]
    refine ⟨dev, by simp, h2, h3, ?_⟩
    rw [List.length_take, Nat.min_eq_left hBle] at h4
    exact h4
  · simp only [hge, if_false]
    have h0 : data.length / cfg.psz * cfg.psz = 0 := by
      rw [Nat.div_eq_of_lt (by omega)]; simp
    rw [h0]
    exact ⟨k.dev, rfl, rfl, rfl, by simp [seg]⟩


/-- Second and third stage of `entry_write` from a state in which all bytes written so
far are on the device. -/
theorem entry_write_aligned_ok (cfg : Cfg) (k : Kvs) (ent : Ent) (w data : List Nat)
    (j A : Nat) (hp : cfg.psz = 2 ^ j) (hj : j ≤ 31) (hh : ∀ o, cfg.progFail o = false)
    (hl : w.length = A) (hA : A % cfg.psz = 0)
    (hdev : seg k.dev ent.start A = w) (hpl : k.pbuf.length = cfg.psz)
    (hb : ent.start + A + data.length ≤ k.dev.length)
    (h32 : data.length < 4294967296) :
    ∃ dev pbuf data3, entry_write_direct cfg k (ent.start + A) data =
        (0, { k with dev := dev }, data3) ∧
      entry_write_tail { k with dev := dev } data3 = { k with dev := dev, pbuf := pbuf } ∧
      WInv cfg { k with dev := dev, pbuf := pbuf } ent (w ++ data) ∧
      dev.length = k.dev.length ∧ dev.take (ent.start + A) = k.dev.take (ent.start + A) := by
  have hp0 := psz_pos cfg j hp
  obtain ⟨dev, h1, h2, h3, h4⟩ :=
    entry_write_direct_ok cfg k (ent.start + A) data j hp hj hh (by omega) h32
  have hBle := Nat.div_mul_le_self data.length cfg.psz
  have hBm := div_mul_add_mod data.length cfg.psz
  have hrl := Nat.mod_lt data.length hp0
  refine ⟨dev, (entry_write_tail { k with dev := dev }
      (data.drop (data.length / cfg.psz * cfg.psz))).pbuf, _, h1, ?_, ?_, h2, h3⟩
  · unfold entry_write_tail; split <;> rfl
  · refine ⟨A + data.length / cfg.psz * cfg.psz, data.length % cfg.psz, ?_, ?_, hrl, ?_, ?_, ?_⟩
    · simp only [List.length_append, hl]; omega
    · exact add_mod_zero _ _ _ hA (div_mul_mod_zero _ _)
    · show seg dev ent.start _ = _
      rw [seg_append, h4, seg_of_take_eq k.dev dev ent.start A h3, hdev]
      subst hl
      rw [List.take_append]
    · show List.take _ (entry_write_tail _ _).pbuf = _
      have hd : List.drop (A + data.length / cfg.psz * cfg.psz) (w ++ data) =
          List.drop (data.length / cfg.psz * cfg.psz) data := by
        rw [← hl, List.drop_append]
      rw [hd]
      unfold entry_write_tail
      have hdl : (List.drop (data.length / cfg.psz * cfg.psz) data).length =
          data.length % cfg.psz := by simp; omega
      by_cases h0 : data.length % cfg.psz = 0
      · rw [hdl]; simp only [h0, ne_eq, not_true_eq_false, if_false, List.take_zero]
        exact (List.eq_nil_of_length_eq_zero (hdl.trans h0)).symm
      · rw [hdl]; simp only [h0, ne_eq, not_false_eq_true, if_true]
        unfold memWrite
        simp only [List.take_zero, List.nil_append]
        rw [List.take_append_of_le_length (by omega), ← hdl, List.take_length]
    · show (entry_write_tail _ _).pbuf.length = _
      unfold entry_write_tail
      have hdl : (List.drop (data.length / cfg.psz * cfg.psz) data).length =
          data.length % cfg.psz := by simp; omega
      split
      · show (memWrite k.pbuf 0 _).length = _
        rw [memWrite_length _ _ _ (by omega)]; exact hpl
      · exact hpl


theorem KVS_MIN_eq (a b : Nat) : KVS_MIN a b = min a b := by
  unfold KVS_MIN
  split <;> omega

/-- First stage of `entry_write` when the data does not fill the program buffer. -/
theorem entry_write_rem_short (cfg : Cfg) (k : Kvs) (off : Nat) (w data : List Nat)
    (A r : Nat) (hr : r < cfg.psz)
    (hpb : k.pbuf.take r = w.drop A) (hpl : k.pbuf.length = cfg.psz)
    (hlt : data.length < cfg.psz - r) :
    ∃ pbuf, entry_write_rem cfg k off (cfg.psz - r) data =
        (0, { k with pbuf := pbuf }, off, []) ∧
      pbuf.take (r + data.length) = w.drop A ++ data ∧ pbuf.length = cfg.psz := by
  unfold entry_write_rem
  have h1 : cfg.psz - r ≠ 0 := by omega
  have h2 : KVS_MIN data.length (cfg.psz - r) = data.length := by rw [KVS_MIN_eq]; omega
  have h3 : cfg.psz - (cfg.psz - r) = r := by omega
  have h4 : ¬ (data.length = cfg.psz - r) := by omega
  simp only [h1, ne_eq, not_false_eq_true, if_true, h2, h3, h4, if_false, List.take_length,
    List.drop_length]
  refine ⟨_, rfl, ?_, ?_⟩
  · unfold memWrite
    rw [List.take_append_of_le_length (by simp; omega)]
    have : (List.take r k.pbuf ++ data).length = r + data.length := by simp; omega
    rw [← this, List.take_length, hpb]
  · rw [memWrite_length _ _ _ (by omega)]; exact hpl

/-- First stage of `entry_write` when the data fills the program buffer, which is then
programmed. -/
theorem entry_write_rem_flush (cfg : Cfg) (k : Kvs) (ent : Ent) (w data : List Nat)
    (A r : Nat) (hh : ∀ o, cfg.progFail o = false) (hr : r < cfg.psz)
    (hdev : seg k.dev ent.start A = w.take A)
    (hpb : k.pbuf.take r = w.drop A) (hpl : k.pbuf.length = cfg.psz)
    (hge : data.length ≥ cfg.psz - r)
    (hb : ent.start + A + cfg.psz ≤ k.dev.length) :
    ∃ dev pbuf, entry_write_rem cfg k (ent.start + A) (cfg.psz - r) data =
        (0, { k with dev := dev, pbuf := pbuf }, ent.start + A + cfg.psz,
          data.drop (cfg.psz - r)) ∧
      seg dev ent.start (A + cfg.psz) = w ++ data.take (cfg.psz - r) ∧
      pbuf.length = cfg.psz ∧ dev.length = k.dev.length ∧
      dev.take (ent.start + A) = k.dev.take (ent.start + A) := by
  unfold entry_write_rem
  have h1 : cfg.psz - r ≠ 0 := by omega
  have h2 : KVS_MIN data.length (cfg.psz - r) = cfg.psz - r := by rw [KVS_MIN_eq]; omega
  have h3 : cfg.psz - (cfg.psz - r) = r := by omega
  simp only [h1, ne_eq, not_false_eq_true, if_true, h2, h3]
  have hpl1 : (memWrite k.pbuf r (List.take (cfg.psz - r) data)).length = cfg.psz := by
    rw [memWrite_length _ _ _ (by simp; omega)]; exact hpl
  have hpc : memWrite k.pbuf r (List.take (cfg.psz - r) data) =
      w.drop A ++ data.take (cfg.psz - r) := by
    unfold memWrite
    have : r + (List.take (cfg.psz - r) data).length = cfg.psz := by simp; omega
    rw [this, List.drop_of_length_le (by omega), hpb]; simp
  rw [List.take_of_length_le (Nat.le_of_eq hpl1)]
  obtain ⟨dev, e1, e2, e3, e4⟩ := prog_comp_ok cfg
    { k with pbuf := memWrite k.pbuf r (List.take (cfg.psz - r) data) } (ent.start + A)
    (memWrite k.pbuf r (List.take (cfg.psz - r) data)) hh (by rw [hpl1]; exact hb)
  rw [e1]
  rw [hpl1] at e4
  refine ⟨dev, _, by simp, ?_, hpl1, e2, e3⟩
  rw [seg_append, e4, seg_of_take_eq k.dev dev ent.start A e3,
    hdev, hpc, ← List.append_assoc, List.take_append_drop]

/-- `entry_write` on a healthy device: the bytes are added to the partly written entry,
and the device keeps its size and its bytes before the entry. -/
theorem entry_write_spec (cfg : Cfg) (k : Kvs) (ent : Ent) (w data : List Nat) (j : Nat)
    (hp : cfg.psz = 2 ^ j) (hj : j ≤ 31) (hh : ∀ o, cfg.progFail o = false)
    (hw : WInv cfg k ent w)
    (hfit : w.length + data.length ≤ ent.next - ent.start)
    (hb : ent.next ≤ k.dev.length) (h31 : ent.next < 2147483648) :
    ∃ dev pbuf, entry_write cfg k ent w.length data =
        (0, { k with dev := dev, pbuf := pbuf }) ∧
      WInv cfg { k with dev := dev, pbuf := pbuf } ent (w ++ data) ∧
      dev.length = k.dev.length ∧ dev.take ent.start = k.dev.take ent.start := by
  obtain ⟨A, r, hl, hA, hr, hdev, hpb, hpl⟩ := hw
  have hp31 := psz_le_pow31 cfg j hp hj
  have hAD := alignDown_decomp cfg j A r hp hj hA hr (by omega)
  have hAU := alignUp_decomp cfg j A r hp hj hA hr (by omega)
  have hfit2 : ¬ (ent.next - ent.start < A + r + data.length) := by omega
  unfold entry_write
  simp only [hl, hAD, hAU, hfit2, if_false]
  by_cases hd0 : data.length = 0
  · simp only [hd0, if_true]
    have : data = [] := List.eq_nil_of_length_eq_zero hd0
    subst this
    refine ⟨k.dev, k.pbuf, rfl, ?_, rfl, rfl⟩
    rw [List.append_nil]
    exact ⟨A, r, hl, hA, hr, hdev, hpb, hpl⟩
  · simp only [hd0, if_false]
    by_cases hr0 : r = 0
    · subst hr0
      have hw0 : List.take A w = w := List.take_of_length_le (by omega)
      rw [hw0] at hdev
      obtain ⟨dev, pbuf, data3, e1, e2, e3, e4, e5⟩ :=
        entry_write_aligned_ok cfg k ent w data j A hp hj hh (by omega) hA hdev hpl
          (by omega) (by omega)
      have hrem : entry_write_rem cfg k (ent.start + A) (A - (A + 0)) data =
          (0, k, ent.start + A, data) := by
        unfold entry_write_rem; simp
      simp only [if_true, hrem, ne_eq, not_true_eq_false, if_false, e1, e2]
      exact ⟨dev, pbuf, rfl, e3, e4, take_take_of_le _ _ _ _ (by omega) e5⟩
    · have hrem : A + cfg.psz - (A + r) = cfg.psz - r := by omega
      simp only [hr0, if_false, hrem]
      by_cases hlt : data.length < cfg.psz - r
      · obtain ⟨pbuf, e1, e2, e3⟩ :=
          entry_write_rem_short cfg k (ent.start + A) w data A r hr hpb hpl hlt
        have hdir : entry_write_direct cfg { k with pbuf := pbuf } (ent.start + A) [] =
            (0, { k with pbuf := pbuf }, []) := by
          unfold entry_write_direct
          have : ¬ (([] : List Nat).length ≥ cfg.psz) := by simp; omega
          simp only [this, if_false]
        simp only [e1, ne_eq, not_true_eq_false, if_false, hdir]
        refine ⟨k.dev, pbuf, rfl, ?_, rfl, rfl⟩
        refine ⟨A, r + data.length, by simp; omega, hA, by omega, ?_, ?_, e3⟩
        · show seg k.dev ent.start A = _
          rw [hdev, List.take_append_of_le_length (by omega)]
        · show pbuf.take _ = _
          rw [e2, List.drop_append_of_le_length (by omega)]
      · obtain ⟨dev1, pbuf1, e1, e2, e3, e4, e5⟩ :=
          entry_write_rem_flush cfg k ent w data A r hh hr hdev hpb hpl (by omega)
            (by omega)
        obtain ⟨dev, pbuf, data3, f1, f2, f3, f4, f5⟩ :=
          entry_write_aligned_ok cfg { k with dev := dev1, pbuf := pbuf1 } ent
            (w ++ data.take (cfg.psz - r)) (data.drop (cfg.psz - r)) j (A + cfg.psz) hp hj hh
            (by simp; omega) (add_mod_zero _ _ _ hA (Nat.mod_self _)) e2 e3
            (by show _ ≤ dev1.length; simp; omega) (by simp; omega)
        rw [← Nat.add_assoc] at f1
        simp only [e1, ne_eq, not_true_eq_false, if_false, f1, f2]
        refine ⟨dev, pbuf, rfl, ?_, f4.trans e4, ?_⟩
        · rw [List.append_assoc, List.take_append_drop] at f3
          exact f3
        · have g1 := take_take_of_le _ _ ent.start (ent.start + (A + cfg.psz)) (by omega) f5
          have g2 := take_take_of_le _ _ ent.start (ent.start + A) (by omega) e5
          exact g1.trans g2

theorem crc32_append (c : Nat) (a b : List Nat) : crc32 (crc32 c a) b = crc32 c (a ++ b) := by
  unfold crc32
  rw [← Nat.xor_assoc, Nat.xor_self, Nat.zero_xor, List.foldl_append]

theorem crc32_nil (c : Nat) : crc32 c [] = c := by
  unfold crc32
  simp only [List.foldl_nil]
  rw [← Nat.xor_assoc, Nat.xor_self, Nat.zero_xor]

/-- `entry_write_fill` on a healthy device: the partly written entry is padded with fill
bytes up to the next program unit and is then completely on the device. -/
theorem entry_write_fill_spec (cfg : Cfg) (k : Kvs) (ent : Ent) (w : List Nat) (j : Nat)
    (hp : cfg.psz = 2 ^ j) (hj : j ≤ 31) (hh : ∀ o, cfg.progFail o = false)
    (hw : WInv cfg k ent w)
    (hfit : w.length ≤ ent.next - ent.start) (hext : (ent.next - ent.start) % cfg.psz = 0)
    (hb : ent.next ≤ k.dev.length) (h31 : ent.next < 2147483648) :
    ∃ dev pbuf n, entry_write_fill cfg k ent w.length =
        (0, { k with dev := dev, pbuf := pbuf }) ∧
      n % cfg.psz = 0 ∧ w.length ≤ n ∧ n < w.length + cfg.psz ∧
      seg dev ent.start n = w ++ List.replicate (n - w.length) KVS_FILLCHAR ∧
      dev.length = k.dev.length ∧ dev.take ent.start = k.dev.take ent.start ∧
      pbuf.length = cfg.psz := by
  obtain ⟨A, r, hl, hA, hr, hdev, hpb, hpl⟩ := hw
  have hp31 := psz_le_pow31 cfg j hp hj
  have hAD := alignDown_decomp cfg j A r hp hj hA hr (by omega)
  have hAU := alignUp_decomp cfg j A r hp hj hA hr (by omega)
  unfold entry_write_fill
  simp only [hl, hAD, hAU]
  by_cases hr0 : r = 0
  · subst hr0
    simp only [if_true, Nat.add_zero, Nat.sub_self]
    refine ⟨k.dev, k.pbuf, A, rfl, hA, by omega, by omega, ?_, rfl, rfl, hpl⟩
    rw [hdev, List.take_of_length_le (by omega)]
    simp [show A - w.length = 0 by omega]
  · have hrem : A + cfg.psz - (A + r) = cfg.psz - r := by omega
    have h1 : cfg.psz - r ≠ 0 := by omega
    have h2 : ¬ (ent.next - ent.start < A + r) := by omega
    have h3 : cfg.psz - (cfg.psz - r) = r := by omega
    simp only [hr0, if_false, hrem, h1, h2, h3]
    have hpl1 : (memWrite k.pbuf r (List.replicate (cfg.psz - r) KVS_FILLCHAR)).length =
        cfg.psz := by
      rw [memWrite_length _ _ _ (by simp; omega)]; exact hpl
    have hpc : memWrite k.pbuf r (List.replicate (cfg.psz - r) KVS_FILLCHAR) =
        w.drop A ++ List.replicate (cfg.psz - r) KVS_FILLCHAR := by
      unfold memWrite
      have : r + (List.replicate (cfg.psz - r) KVS_FILLCHAR).length = cfg.psz := by
        simp; omega
      rw [this, List.drop_of_length_le (by omega), hpb]; simp
    rw [List.take_of_length_le (Nat.le_of_eq hpl1)]
    have hmul : A + cfg.psz ≤ ent.next - ent.start := by
      obtain ⟨c, hc⟩ := Nat.dvd_of_mod_eq_zero hext
      obtain ⟨a, ha⟩ := Nat.dvd_of_mod_eq_zero hA
      have h5 : A < ent.next - ent.start := by omega
      rw [hc, ha] at h5
      have h6 : a < c := Nat.lt_of_mul_lt_mul_left h5
      have h7 : cfg.psz * (a + 1) ≤ cfg.psz * c := Nat.mul_le_mul_left _ h6
      rw [hc, ha]; rw [Nat.mul_add, Nat.mul_one] at h7; exact h7
    obtain ⟨dev, e1, e2, e3, e4⟩ := kvs_dev_prog_ok cfg
      { k with pbuf := memWrite k.pbuf r (List.replicate (cfg.psz - r) KVS_FILLCHAR) }
      (ent.start + A) (memWrite k.pbuf r (List.replicate (cfg.psz - r) KVS_FILLCHAR)) hh
      (by rw [hpl1]; show _ ≤ k.dev.length; omega)
    rw [e1]
    rw [hpl1] at e4
    refine ⟨dev, memWrite k.pbuf r (List.replicate (cfg.psz - r) KVS_FILLCHAR), A + cfg.psz,
      by simp, add_mod_zero _ _ _ hA (Nat.mod_self _), by omega,
      by omega, ?_, e2, take_take_of_le _ _ _ _ (by omega) e3, hpl1⟩
    rw [seg_append, e4, seg_of_take_eq k.dev dev ent.start A e3, hdev, hpc,
      ← List.append_assoc, List.take_append_drop]
    congr 2
    omega


theorem ReadCb.read_ptr (k : Kvs) (rd : ReadCb) (bytes : List Nat) (o l : Nat)
    (h : rd.ctx = .ptr bytes) : rd.read k o l = .ok (seg bytes o l) := by
  unfold ReadCb.read
  rw [h]
  rfl

/-- The loop of `entry_write_data` on a healthy device whose reads succeed: `len` bytes
are added to the partly written entry and to the running CRC-32. -/
theorem entry_write_data_loop_spec (cfg : Cfg) (ent : Ent) (dstart : Nat) (rd : ReadCb)
    (j N : Nat) (hp : cfg.psz = 2 ^ j) (hj : j ≤ 31) (hh : ∀ o, cfg.progFail o = false)
    (hb : ent.next ≤ N) (h31 : ent.next < 2147483648) :
    ∀ (fuel : Nat) (k : Kvs) (crc off len : Nat) (w : List Nat), len ≤ fuel →
      k.dev.length = N → WInv cfg k ent w → w.length = dstart + off →
      w.length + len ≤ ent.next - ent.start →
      (∀ (k2 : Kvs) (o l : Nat), k2.dev.length = N → o + l ≤ off + len →
        ∃ buf, rd.read k2 (rd.off + o) l = .ok buf ∧ buf.length = l) →
      ∃ dev pbuf d, entry_write_data_loop cfg ent dstart rd fuel k crc off len =
          (0, { k with dev := dev, pbuf := pbuf }, crc32 crc d) ∧
        d.length = len ∧ WInv cfg { k with dev := dev, pbuf := pbuf } ent (w ++ d) ∧
        dev.length = N ∧ dev.take ent.start = k.dev.take ent.start ∧
        (∀ bytes, rd.ctx = .ptr bytes → d = seg bytes (rd.off + off) len) := by
  intro fuel
  induction fuel with
  | zero =>
    intro k crc off len w hf hN hw hwl hfit hread
    have : len = 0 := by omega
    subst this
    refine ⟨k.dev, k.pbuf, [], ?_, rfl, ?_, hN, rfl, ?_⟩
    · simp [entry_write_data_loop, crc32_nil]
    · simpa using hw
    · intro bytes _; simp [seg]
  | succ fuel ih =>
    intro k crc off len w hf hN hw hwl hfit hread
    by_cases h0 : len = 0
    · subst h0
      refine ⟨k.dev, k.pbuf, [], ?_, rfl, ?_, hN, rfl, ?_⟩
      · simp [entry_write_data_loop, crc32_nil]
      · simpa using hw
      · intro bytes _; simp [seg]
    · obtain ⟨buf, hrd, hbl⟩ := hread k off (min len 16) hN (by omega)
      have hmin : KVS_MIN len KVS_BUFSIZE = min len 16 := by rw [KVS_MIN_eq]; rfl
      obtain ⟨dev1, pbuf1, e1, e2, e3, e4⟩ := entry_write_spec cfg k ent w buf j hp hj hh hw
        (by omega) (by omega) h31
      rw [hwl] at e1
      obtain ⟨dev, pbuf, d, f1, f2, f3, f4, f5, f6⟩ :=
        ih { k with dev := dev1, pbuf := pbuf1 } (crc32 crc buf) (off + min len 16)
          (len - min len 16) (w ++ buf) (by omega) (e3.trans hN) e2
          (by simp; omega) (by simp; omega)
          (fun k2 o l h1 h2 => hread k2 o l h1 (by omega))
      refine ⟨dev, pbuf, buf ++ d, ?_, by simp; omega, ?_, f4, f5.trans e4, ?_⟩
      · rw [entry_write_data_loop]
        simp only [h0, if_false, hmin, hrd, e1, ne_eq, not_true_eq_false]
        rw [f1, crc32_append]
      · rw [← List.append_assoc]; exact f3
      · intro bytes hb
        rw [f6 bytes hb]
        have := ReadCb.read_ptr k rd bytes (rd.off + off) (min len 16) hb
        rw [hrd] at this
        injection this with this
        rw [this]
        have hsplit : len = min len 16 + (len - min len 16) := by omega
        conv_rhs => rw [hsplit, seg_append]
        rw [Nat.add_assoc]

/-- `entry_write_data` on a healthy device whose reads succeed. -/
theorem entry_write_data_spec (cfg : Cfg) (k : Kvs) (ent : Ent) (rd : ReadCb) (crc : Nat)
    (w : List Nat) (j : Nat) (hp : cfg.psz = 2 ^ j) (hj : j ≤ 31)
    (hh : ∀ o, cfg.progFail o = false)
    (hb : ent.next ≤ k.dev.length) (h31 : ent.next < 2147483648)
    (hw : WInv cfg k ent w) (hfit : w.length + rd.len ≤ ent.next - ent.start)
    (hread : ∀ (k2 : Kvs) (o l : Nat), k2.dev.length = k.dev.length → o + l ≤ rd.len →
        ∃ buf, rd.read k2 (rd.off + o) l = .ok buf ∧ buf.length = l) :
    ∃ dev pbuf d, entry_write_data cfg k ent w.length rd crc =
        (0, { k with dev := dev, pbuf := pbuf }, crc32 crc d) ∧
      d.length = rd.len ∧ WInv cfg { k with dev := dev, pbuf := pbuf } ent (w ++ d) ∧
      dev.length = k.dev.length ∧ dev.take ent.start = k.dev.take ent.start ∧
      (∀ bytes, rd.ctx = .ptr bytes → d = seg bytes rd.off rd.len) := by
  unfold entry_write_data
  obtain ⟨dev, pbuf, d, h⟩ := entry_write_data_loop_spec cfg ent w.length rd j k.dev.length
    hp hj hh hb h31 rd.len k crc 0 rd.len w (Nat.le_refl _) rfl hw rfl hfit
    (fun k2 o l h1 h2 => hread k2 o l h1 (by omega))
  exact ⟨dev, pbuf, d, h⟩

/-! ## Appending an entry -/

theorem mult_unique (p n m L : Nat) (hn : n % p = 0) (hm : m % p = 0)
    (h1 : L ≤ n) (h2 : n < L + p) (h3 : L ≤ m) (h4 : m < L + p) : n = m := by
  obtain ⟨a, rfl⟩ := Nat.dvd_of_mod_eq_zero hn
  obtain ⟨b, rfl⟩ := Nat.dvd_of_mod_eq_zero hm
  rcases Nat.lt_trichotomy a b with h | h | h
  · have : p * (a + 1) ≤ p * b := Nat.mul_le_mul_left _ h
    rw [Nat.mul_add, Nat.mul_one] at this
    omega
  · rw [h]
  · have : p * (b + 1) ≤ p * a := Nat.mul_le_mul_left _ h
    rw [Nat.mul_add, Nat.mul_one] at this
    omega

theorem entry_size_facts (cfg : Cfg) (j kl vl : Nat) (hp : cfg.psz = 2 ^ j) (hj : j ≤ 31)
    (hk : kl < 256) (hv : vl < 65536) :
    entry_size cfg kl vl % cfg.psz = 0 ∧ 8 + kl + vl ≤ entry_size cfg kl vl ∧
    entry_size cfg kl vl < 8 + kl + vl + cfg.psz := by
  have hp0 := psz_pos cfg j hp
  unfold entry_size KVS_HDRSIZE KVS_KVCRCSIZE
  rw [hp, alignDown_eq _ _ (by omega) (by omega), ← hp]
  have h1 := div_mul_add_mod (4 + kl + vl + 4 - 1) cfg.psz
  have h2 := Nat.mod_lt (4 + kl + vl + 4 - 1) hp0
  refine ⟨add_mod_zero _ _ _ (div_mul_mod_zero _ _) (Nat.mod_self _), by omega, by omega⟩

/-- `entry_set_info` when the lengths fit their parameter types. -/
theorem entry_set_info_spec (cfg : Cfg) (k : Kvs) (ent : Ent) (kl vl : Nat)
    (hk : kl < 256) (hv : vl < 65536) (hpos : k.pos ≤ k.bend) (hbend : k.bend < 2147483648) :
    entry_set_info cfg k ent kl vl =
      if entry_size cfg kl vl > k.bend - k.pos then (-KVS_ENOSPC, k, ent, [])
      else (0, { k with pos := k.pos + entry_size cfg kl vl },
        { start := k.pos, next := k.pos + entry_size cfg kl vl, he_hdr := hdrWord kl vl },
        put_le32 (hdrWord kl vl)) := by
  unfold entry_set_info
  have h1 : kl % 256 = kl := Nat.mod_eq_of_lt hk
  have h2 : vl % 65536 = vl := Nat.mod_eq_of_lt hv
  have h3 : u32 (k.bend + 4294967296 - k.pos) = k.bend - k.pos := by
    unfold u32
    have : k.bend + 4294967296 - k.pos = (k.bend - k.pos) + 4294967296 := by omega
    rw [this, Nat.add_mod_right]
    exact Nat.mod_eq_of_lt (by omega)
  simp only [h1, h2, h3]
  have e : KVS_ALIGNDOWN (KVS_HDRSIZE + kl + vl + KVS_KVCRCSIZE - 1) cfg.psz + cfg.psz =
    entry_size cfg kl vl := rfl
  rw [e]
  by_cases hc : entry_size cfg kl vl > k.bend - k.pos
  · simp only [hc, if_true]
  · simp only [hc, if_false]
    have h4 : u32 (k.pos + entry_size cfg kl vl) = k.pos + entry_size cfg kl vl := by
      unfold u32; exact Nat.mod_eq_of_lt (by omega)
    rw [h4]
    rfl

theorem WInv_nil (cfg : Cfg) (k : Kvs) (ent : Ent) (j : Nat) (hp : cfg.psz = 2 ^ j)
    (hpl : k.pbuf.length = cfg.psz) : WInv cfg k ent [] :=
  ⟨0, 0, rfl, Nat.zero_mod _, psz_pos cfg j hp, by simp [seg], by simp, hpl⟩

/-- `entry_write_hdr` on a healthy device: either there is no room and nothing changes,
or the write position advances and the header is the first part of the new entry. -/
theorem entry_write_hdr_spec (cfg : Cfg) (k : Kvs) (ent : Ent) (kl vl j : Nat)
    (hp : cfg.psz = 2 ^ j) (hj : j ≤ 31) (hh : ∀ o, cfg.progFail o = false)
    (hk : kl < 256) (hv : vl < 65536) (hpos : k.pos ≤ k.bend) (hbd : k.bend ≤ k.dev.length)
    (hbend : k.bend < 2147483648) (hpl : k.pbuf.length = cfg.psz) :
    (entry_size cfg kl vl > k.bend - k.pos →
      entry_write_hdr cfg k ent kl vl = (-KVS_ENOSPC, k, ent)) ∧
    (entry_size cfg kl vl ≤ k.bend - k.pos →
      ∃ dev pbuf, entry_write_hdr cfg k ent kl vl =
          (0, { k with dev := dev, pbuf := pbuf, pos := k.pos + entry_size cfg kl vl },
            { start := k.pos, next := k.pos + entry_size cfg kl vl,
              he_hdr := hdrWord kl vl }) ∧
        WInv cfg { k with dev := dev, pbuf := pbuf, pos := k.pos + entry_size cfg kl vl }
          { start := k.pos, next := k.pos + entry_size cfg kl vl, he_hdr := hdrWord kl vl }
          (put_le32 (hdrWord kl vl)) ∧
        dev.length = k.dev.length ∧ dev.take k.pos = k.dev.take k.pos) := by
  have hs := entry_set_info_spec cfg k ent kl vl hk hv hpos hbend
  have hf := entry_size_facts cfg j kl vl hp hj hk hv
  constructor
  · intro hc
    unfold entry_write_hdr
    rw [hs]
    simp only [hc, if_true]
    rfl
  · intro hc
    have hc2 : ¬ (entry_size cfg kl vl > k.bend - k.pos) := by omega
    unfold entry_write_hdr
    rw [hs]
    simp only [hc2, if_false, ne_eq, not_true_eq_false]
    obtain ⟨dev, pbuf, e1, e2, e3, e4⟩ := entry_write_spec cfg
      { k with pos := k.pos + entry_size cfg kl vl }
      { start := k.pos, next := k.pos + entry_size cfg kl vl, he_hdr := hdrWord kl vl }
      [] (put_le32 (hdrWord kl vl)) j hp hj hh (WInv_nil cfg _ _ j hp hpl)
      (by simp [put_le32_length]; omega)
      (by show k.pos + entry_size cfg kl vl ≤ k.dev.length; omega)
      (by show k.pos + entry_size cfg kl vl < _; omega)
    simp only [List.length_nil] at e1
    rw [e1]
    exact ⟨dev, pbuf, rfl, by simpa using e2, e3, e4⟩

/-- `entry_write_crc` on a healthy device: the entry is complete on the device. -/
theorem entry_write_crc_spec (cfg : Cfg) (k : Kvs) (ent : Ent) (w : List Nat) (crc j : Nat)
    (hp : cfg.psz = 2 ^ j) (hj : j ≤ 31) (hh : ∀ o, cfg.progFail o = false)
    (hw : WInv cfg k ent w)
    (hfit : w.length + 4 ≤ ent.next - ent.start)
    (hfit2 : ent.next - ent.start < w.length + 4 + cfg.psz)
    (hext : (ent.next - ent.start) % cfg.psz = 0)
    (hb : ent.next ≤ k.dev.length) (h31 : ent.next < 2147483648) :
    ∃ dev pbuf, entry_write_crc cfg k ent w.length crc =
        (0, { k with dev := dev, pbuf := pbuf }) ∧
      seg dev ent.start (ent.next - ent.start) = w ++ put_le32 crc ++
        List.replicate (ent.next - ent.start - (w.length + 4)) KVS_FILLCHAR ∧
      dev.length = k.dev.length ∧ dev.take ent.start = k.dev.take ent.start ∧
      pbuf.length = cfg.psz := by
  obtain ⟨dev1, pbuf1, e1, e2, e3, e4⟩ := entry_write_spec cfg k ent w (put_le32 crc) j hp hj
    hh hw (by simp [put_le32_length]; omega) hb h31
  obtain ⟨dev, pbuf, n, f1, f2, f3, f4, f5, f6, f7, f8⟩ := entry_write_fill_spec cfg
    { k with dev := dev1, pbuf := pbuf1 } ent (w ++ put_le32 crc) j hp hj hh e2
    (by simp [put_le32_length]; omega) hext (by show _ ≤ dev1.length; omega) h31
  have hlen : (w ++ put_le32 crc).length = w.length + 4 := by simp [put_le32_length]
  rw [hlen] at f1 f3 f4 f5
  have hn : n = ent.next - ent.start :=
    mult_unique cfg.psz n _ (w.length + 4) f2 hext f3 f4 hfit hfit2
  unfold entry_write_crc
  rw [e1]
  simp only [ne_eq, not_true_eq_false, if_false]
  have hk4 : w.length + KVS_KVCRCSIZE = w.length + 4 := rfl
  rw [hk4, f1]
  exact ⟨dev, pbuf, rfl, by rw [← hn]; exact f5, f6.trans e3, f7.trans e4, f8⟩

theorem kvs_dev_sync_spec (cfg : Cfg) (k : Kvs) (h : k.pos ≤ k.dev.length) :
    ∃ dev, kvs_dev_sync cfg k = (0, { k with dev := dev }) ∧ dev.length = k.dev.length ∧
      dev.take k.pos = k.dev.take k.pos := by
  unfold kvs_dev_sync
  cases cfg.backend with
  | flash => exact ⟨k.dev, rfl, rfl, rfl⟩
  | eeprom =>
    have h1 : ¬ (k.pos > k.dev.length) := by omega
    simp only [h1, if_false]
    by_cases h2 : k.pos + 4 > k.dev.length
    · simp only [h2, if_true]
      exact ⟨k.dev, rfl, rfl, rfl⟩
    · simp only [h2, if_false]
      exact ⟨_, rfl, memWrite_length _ _ _ (by simp; omega), memWrite_take _ _ _ h⟩

theorem hdrWord_klen (kl vl : Nat) (s n : Nat) (hk : kl < 256) (hv : vl < 65536) :
    entry_get_klen { start := s, next := n, he_hdr := hdrWord kl vl } = kl := by
  rw [entry_get_klen_eq]
  exact (hdrWord_facts kl vl hk hv).2.2.1

theorem hdrWord_vlen (kl vl : Nat) (s n : Nat) (hk : kl < 256) (hv : vl < 65536) :
    entry_get_vlen { start := s, next := n, he_hdr := hdrWord kl vl } = vl := by
  rw [entry_get_vlen_eq]
  exact (hdrWord_facts kl vl hk hv).2.2.2

/-- The entry part of `entry_append` on a healthy device: either the entry does not
fit and nothing changes, or the complete entry lies at the old write position. -/
theorem entry_append_body_spec (cfg : Cfg) (k : Kvs) (ent : Ent) (krd vrd : ReadCb) (j : Nat)
    (hp : cfg.psz = 2 ^ j) (hj : j ≤ 31) (hh : ∀ o, cfg.progFail o = false)
    (hk : krd.len < 256) (hv : vrd.len < 65536) (hpos : k.pos ≤ k.bend)
    (hbd : k.bend ≤ k.dev.length) (hsmall : k.dev.length < 2147483648)
    (hpl : k.pbuf.length = cfg.psz)
    (hrk : ∀ (k2 : Kvs) (o l : Nat), k2.dev.length = k.dev.length → o + l ≤ krd.len →
        ∃ buf, krd.read k2 (krd.off + o) l = .ok buf ∧ buf.length = l)
    (hrv : ∀ (k2 : Kvs) (o l : Nat), k2.dev.length = k.dev.length → o + l ≤ vrd.len →
        ∃ buf, vrd.read k2 (vrd.off + o) l = .ok buf ∧ buf.length = l) :
    (entry_size cfg krd.len vrd.len > k.bend - k.pos →
      entry_append_body cfg k ent krd vrd = (-KVS_ENOSPC, k, ent)) ∧
    (entry_size cfg krd.len vrd.len ≤ k.bend - k.pos →
      ∃ dev pbuf key val, entry_append_body cfg k ent krd vrd =
          (0, { k with dev := dev, pbuf := pbuf,
                       pos := k.pos + entry_size cfg krd.len vrd.len },
            { start := k.pos, next := k.pos + entry_size cfg krd.len vrd.len,
              he_hdr := hdrWord krd.len vrd.len }) ∧
        key.length = krd.len ∧ val.length = vrd.len ∧
        seg dev k.pos (entry_size cfg krd.len vrd.len) =
          entryImage key val (entry_size cfg krd.len vrd.len) ∧
        dev.length = k.dev.length ∧ dev.take k.pos = k.dev.take k.pos ∧
        pbuf.length = cfg.psz ∧
        (∀ bytes, krd.ctx = .ptr bytes → key = seg bytes krd.off krd.len) ∧
        (∀ bytes, vrd.ctx = .ptr bytes → val = seg bytes vrd.off vrd.len)) := by
  obtain ⟨hA, hB⟩ := entry_write_hdr_spec cfg k ent krd.len vrd.len j hp hj hh hk hv hpos hbd
    (by omega) hpl
  have hf := entry_size_facts cfg j krd.len vrd.len hp hj hk hv
  constructor
  · intro hc
    unfold entry_append_body
    rw [hA hc]
    simp [KVS_ENOSPC]
  · intro hc
    obtain ⟨dev1, pbuf1, e1, e2, e3, e4⟩ := hB hc
    have hkl := hdrWord_klen krd.len vrd.len k.pos (k.pos + entry_size cfg krd.len vrd.len) hk hv
    have hvl := hdrWord_vlen krd.len vrd.len k.pos (k.pos + entry_size cfg krd.len vrd.len) hk hv
    -- key
    obtain ⟨dev2, pbuf2, key, f1, f2, f3, f4, f5, f6⟩ := entry_write_data_spec cfg
      { k with dev := dev1, pbuf := pbuf1, pos := k.pos + entry_size cfg krd.len vrd.len }
      { start := k.pos, next := k.pos + entry_size cfg krd.len vrd.len,
        he_hdr := hdrWord krd.len vrd.len } krd KVS_KVCRCINIT (put_le32 (hdrWord krd.len vrd.len))
      j hp hj hh (by show k.pos + entry_size cfg krd.len vrd.len ≤ dev1.length; omega)
      (by show k.pos + entry_size cfg krd.len vrd.len < _; omega) e2
      (by show (put_le32 _).length + _ ≤ k.pos + entry_size cfg krd.len vrd.len - k.pos
          rw [put_le32_length]; omega)
      (fun k2 o l h1 h2 => hrk k2 o l (h1.trans e3) h2)
    change dev2.length = dev1.length at f4
    change dev2.take k.pos = dev1.take k.pos at f5
    -- value
    obtain ⟨dev3, pbuf3, val, g1, g2, g3, g4, g5, g6⟩ := entry_write_data_spec cfg
      { k with dev := dev2, pbuf := pbuf2, pos := k.pos + entry_size cfg krd.len vrd.len }
      { start := k.pos, next := k.pos + entry_size cfg krd.len vrd.len,
        he_hdr := hdrWord krd.len vrd.len } vrd (crc32 KVS_KVCRCINIT key)
      (put_le32 (hdrWord krd.len vrd.len) ++ key)
      j hp hj hh (by show k.pos + entry_size cfg krd.len vrd.len ≤ dev2.length; omega)
      (by show k.pos + entry_size cfg krd.len vrd.len < _; omega) f3
      (by show (put_le32 _ ++ key).length + _ ≤ k.pos + entry_size cfg krd.len vrd.len - k.pos
          rw [List.length_append, put_le32_length]; omega)
      (fun k2 o l h1 h2 => hrv k2 o l (by rw [h1]; show dev2.length = _; omega) h2)
    change dev3.length = dev2.length at g4
    change dev3.take k.pos = dev2.take k.pos at g5
    -- crc and fill
    have hwl : (put_le32 (hdrWord krd.len vrd.len) ++ key ++ val).length =
        4 + krd.len + vrd.len := by
      simp only [List.length_append, put_le32_length]; omega
    obtain ⟨dev4, pbuf4, c1, c2, c3, c4, c5⟩ := entry_write_crc_spec cfg
      { k with dev := dev3, pbuf := pbuf3, pos := k.pos + entry_size cfg krd.len vrd.len }
      { start := k.pos, next := k.pos + entry_size cfg krd.len vrd.len,
        he_hdr := hdrWord krd.len vrd.len }
      (put_le32 (hdrWord krd.len vrd.len) ++ key ++ val) (crc32 (crc32 KVS_KVCRCINIT key) val)
      j hp hj hh g3
      (by show _ ≤ k.pos + entry_size cfg krd.len vrd.len - k.pos; rw [hwl]; omega)
      (by show k.pos + entry_size cfg krd.len vrd.len - k.pos < _; rw [hwl]; omega)
      (by show (k.pos + entry_size cfg krd.len vrd.len - k.pos) % _ = 0
          rw [Nat.add_sub_cancel_left]; exact hf.1)
      (by show k.pos + entry_size cfg krd.len vrd.len ≤ dev3.length; omega)
      (by show k.pos + entry_size cfg krd.len vrd.len < _; omega)
    change dev4.length = dev3.length at c3
    change dev4.take k.pos = dev3.take k.pos at c4
    -- sync
    obtain ⟨dev5, s1, s2, s3⟩ := kvs_dev_sync_spec cfg
      { k with dev := dev4, pbuf := pbuf4, pos := k.pos + entry_size cfg krd.len vrd.len }
      (by show k.pos + entry_size cfg krd.len vrd.len ≤ dev4.length; omega)
    change dev5.length = dev4.length at s2
    change dev5.take (k.pos + entry_size cfg krd.len vrd.len) =
      dev4.take (k.pos + entry_size cfg krd.len vrd.len) at s3
    rw [put_le32_length] at f1
    rw [List.length_append, put_le32_length, f2] at g1
    rw [hwl] at c1
    unfold entry_append_body
    rw [e1]
    simp only [ne_eq, not_true_eq_false, if_false, KVS_HDRSIZE, f1, hkl, g1, hvl, c1, s1]
    refine ⟨dev5, pbuf4, key, val, rfl, f2, g2, ?_, ?_, ?_, c5, f6, g6⟩
    · have c2' := c2
      simp only [Nat.add_sub_cancel_left] at c2'
      rw [seg_of_take_eq dev4 dev5 k.pos _ s3, c2', hwl, crc32_append]
      unfold entryImage
      rw [f2, g2]
      simp only [KVS_KVCRCINIT, List.append_assoc]
      congr 5
      omega
    · show dev5.length = k.dev.length
      omega
    · have t5 : dev5.take k.pos = dev4.take k.pos :=
        take_take_of_le _ _ _ _ (by omega) s3
      exact t5.trans (c4.trans (g5.trans (f5.trans e4)))

theorem cookieBytes_length (k : Kvs) (hc : CookieOk k) : (cookieBytes k).length = k.csz := by
  unfold cookieBytes CookieOk at *
  split at hc
  · rename_i c h; simp only [h, List.length_take]; omega
  · rename_i h; simp only [h, List.length_nil]; omega

theorem metaVal_length (k : Kvs) (hc : CookieOk k) : (metaVal k).length = 4 + k.csz := by
  unfold metaVal
  rw [List.length_append, put_le32_length, cookieBytes_length k hc]

theorem and_bsz_mask (cfg : Cfg) (jb n : Nat) (hb : cfg.bsz = 2 ^ jb) :
    n &&& (cfg.bsz - 1) = n % cfg.bsz := by
  rw [hb]; exact Nat.and_pow_two_sub_one_eq_mod n jb

/-- The cookie and CRC part of `kvs_meta_write` on a healthy device. -/
theorem kvs_meta_write_cookie_spec (cfg : Cfg) (k : Kvs) (ent : Ent) (w : List Nat)
    (metacrc j : Nat) (hp : cfg.psz = 2 ^ j) (hj : j ≤ 31)
    (hh : ∀ o, cfg.progFail o = false) (hck : CookieOk k)
    (hw : WInv cfg k ent w)
    (hfit : w.length + k.csz + 4 ≤ ent.next - ent.start)
    (hfit2 : ent.next - ent.start < w.length + k.csz + 4 + cfg.psz)
    (hext : (ent.next - ent.start) % cfg.psz = 0)
    (hb : ent.next ≤ k.dev.length) (h31 : ent.next < 2147483648) :
    ∃ dev pbuf, kvs_meta_write_cookie cfg k ent w.length metacrc =
        (0, { k with dev := dev, pbuf := pbuf }) ∧
      seg dev ent.start (ent.next - ent.start) = w ++ cookieBytes k ++
        put_le32 (crc32 metacrc (cookieBytes k)) ++
        List.replicate (ent.next - ent.start - (w.length + k.csz + 4)) KVS_FILLCHAR ∧
      dev.length = k.dev.length ∧ dev.take ent.start = k.dev.take ent.start ∧
      pbuf.length = cfg.psz := by
  have hcl := cookieBytes_length k hck
  by_cases h0 : k.csz = 0
  · have hcb : cookieBytes k = [] := List.eq_nil_of_length_eq_zero (hcl.trans h0)
    obtain ⟨dev4, pbuf4, c1, c2, c3, c4, c5⟩ := entry_write_crc_spec cfg k ent w metacrc j hp hj
      hh hw (by omega) (by omega) hext hb h31
    have hres : kvs_meta_write_cookie cfg k ent w.length metacrc =
        entry_write_crc cfg k ent w.length metacrc := by
      unfold kvs_meta_write_cookie
      split
      · simp only [h0, ne_eq, not_true_eq_false, if_false]
      · rfl
    rw [hres, c1, hcb, crc32_nil, List.append_nil]
    refine ⟨dev4, pbuf4, rfl, ?_, c3, c4, c5⟩
    rw [c2, h0]
  · have hsome : ∃ c, k.cookie = some c := by
      unfold CookieOk at hck
      split at hck
      · rename_i c h; exact ⟨c, h⟩
      · omega
    obtain ⟨c, hc⟩ := hsome
    have hcb : cookieBytes k = c.take k.csz := by unfold cookieBytes; rw [hc]
    obtain ⟨dev3, pbuf3, g1, g2, g3, g4⟩ := entry_write_spec cfg k ent w (cookieBytes k) j hp
      hj hh hw (by omega) hb h31
    obtain ⟨dev4, pbuf4, c1, c2, c3, c4, c5⟩ := entry_write_crc_spec cfg
      { k with dev := dev3, pbuf := pbuf3 } ent (w ++ cookieBytes k)
      (crc32 metacrc (cookieBytes k)) j hp hj hh g2
      (by rw [List.length_append, hcl]; omega) (by rw [List.length_append, hcl]; omega) hext
      (by show _ ≤ dev3.length; omega) h31
    change dev4.length = dev3.length at c3
    change dev4.take ent.start = dev3.take ent.start at c4
    rw [List.length_append, hcl] at c1 c2
    have hres : kvs_meta_write_cookie cfg k ent w.length metacrc =
        (0, { k with dev := dev4, pbuf := pbuf4 }) := by
      unfold kvs_meta_write_cookie
      split
      · rename_i c2 h2
        have : c2 = c := by rw [hc] at h2; injection h2 with h2; exact h2.symm
        subst this
        simp only [h0, ne_eq, not_false_eq_true, if_true, ← hcb, g1, not_true_eq_false, if_false]
        exact c1
      · rename_i h2; rw [hc] at h2; cases h2
    exact ⟨dev4, pbuf4, hres, c2, c3.trans g3, c4.trans g4, c5⟩

/-- `kvs_meta_write` on a healthy device: away from a block base it does nothing; at a
block base it either finds no room or writes the complete block header entry. -/
theorem kvs_meta_write_spec (cfg : Cfg) (k : Kvs) (j jb : Nat)
    (hp : cfg.psz = 2 ^ j) (hj : j ≤ 31) (hbs : cfg.bsz = 2 ^ jb)
    (hh : ∀ o, cfg.progFail o = false)
    (hcsz : 4 + k.csz < 65536) (hck : CookieOk k) (hpos : k.pos ≤ k.bend)
    (hbd : k.bend ≤ k.dev.length) (hsmall : k.dev.length < 2147483648)
    (hpl : k.pbuf.length = cfg.psz) :
    (k.pos % cfg.bsz ≠ 0 → kvs_meta_write cfg k = (0, k)) ∧
    (k.pos % cfg.bsz = 0 → entry_size cfg 0 (4 + k.csz) > k.bend - k.pos →
      kvs_meta_write cfg k = (-KVS_ENOSPC, k)) ∧
    (k.pos % cfg.bsz = 0 → entry_size cfg 0 (4 + k.csz) ≤ k.bend - k.pos →
      ∃ dev pbuf, kvs_meta_write cfg k =
          (0, { k with dev := dev, pbuf := pbuf, pos := k.pos + entry_size cfg 0 (4 + k.csz) }) ∧
        seg dev k.pos (entry_size cfg 0 (4 + k.csz)) =
          entryImage [] (metaVal k) (entry_size cfg 0 (4 + k.csz)) ∧
        dev.length = k.dev.length ∧ dev.take k.pos = k.dev.take k.pos ∧
        pbuf.length = cfg.psz) := by
  have hm := and_bsz_mask cfg jb k.pos hbs
  obtain ⟨hA, hB⟩ := entry_write_hdr_spec cfg k { start := 0, next := 0, he_hdr := 0 } 0
    (4 + k.csz) j hp hj hh (by norm_num) hcsz hpos hbd (by omega) hpl
  have hf := entry_size_facts cfg j 0 (4 + k.csz) hp hj (by norm_num) hcsz
  refine ⟨?_, ?_, ?_⟩
  · intro h
    unfold kvs_meta_write
    rw [hm]
    simp only [h, ne_eq, not_false_eq_true, if_true]
  · intro h hc
    unfold kvs_meta_write
    rw [hm]
    simp only [h, ne_eq, not_true_eq_false, if_false, KVS_WRAPCNTSIZE, hA hc]
    simp [KVS_ENOSPC]
  · intro h hc
    obtain ⟨dev1, pbuf1, e1, e2, e3, e4⟩ := hB hc
    -- wrap counter
    obtain ⟨dev2, pbuf2, f1, f2, f3, f4⟩ := entry_write_spec cfg
      { k with dev := dev1, pbuf := pbuf1, pos := k.pos + entry_size cfg 0 (4 + k.csz) }
      { start := k.pos, next := k.pos + entry_size cfg 0 (4 + k.csz),
        he_hdr := hdrWord 0 (4 + k.csz) }
      (put_le32 (hdrWord 0 (4 + k.csz))) (put_le32 k.wrapcnt) j hp hj hh e2
      (by show _ ≤ k.pos + entry_size cfg 0 (4 + k.csz) - k.pos
          simp only [put_le32_length]; omega)
      (by show k.pos + entry_size cfg 0 (4 + k.csz) ≤ dev1.length; omega)
      (by show k.pos + entry_size cfg 0 (4 + k.csz) < _; omega)
    change dev2.length = dev1.length at f3
    change dev2.take k.pos = dev1.take k.pos at f4
    rw [put_le32_length] at f1
    have hext : (k.pos + entry_size cfg 0 (4 + k.csz) - k.pos) % cfg.psz = 0 := by
      rw [Nat.add_sub_cancel_left]; exact hf.1
    have hwl : (put_le32 (hdrWord 0 (4 + k.csz)) ++ put_le32 k.wrapcnt).length = 8 := by
      simp only [List.length_append, put_le32_length]
    obtain ⟨dev4, pbuf4, c1, c2, c3, c4, c5⟩ := kvs_meta_write_cookie_spec cfg
      { k with dev := dev2, pbuf := pbuf2, pos := k.pos + entry_size cfg 0 (4 + k.csz) }
      { start := k.pos, next := k.pos + entry_size cfg 0 (4 + k.csz),
        he_hdr := hdrWord 0 (4 + k.csz) }
      (put_le32 (hdrWord 0 (4 + k.csz)) ++ put_le32 k.wrapcnt)
      (crc32 KVS_KVCRCINIT (put_le32 k.wrapcnt)) j hp hj hh hck f2
      (by show _ + k.csz + 4 ≤ k.pos + entry_size cfg 0 (4 + k.csz) - k.pos; rw [hwl]; omega)
      (by show k.pos + entry_size cfg 0 (4 + k.csz) - k.pos < _ + k.csz + 4 + _
          rw [hwl]; omega)
      hext (by show k.pos + entry_size cfg 0 (4 + k.csz) ≤ dev2.length; omega)
      (by show k.pos + entry_size cfg 0 (4 + k.csz) < _; omega)
    change dev4.length = dev2.length at c3
    change dev4.take k.pos = dev2.take k.pos at c4
    rw [hwl] at c1
    unfold kvs_meta_write
    rw [hm]
    simp only [h, ne_eq, not_true_eq_false, if_false, KVS_WRAPCNTSIZE, e1, KVS_HDRSIZE, f1]
    refine ⟨dev4, pbuf4, c1, ?_, by omega, c4.trans (f4.trans e4), c5⟩
    have c2' := c2
    simp only [Nat.add_sub_cancel_left] at c2'
    rw [c2', hwl, crc32_append]
    unfold entryImage
    rw [metaVal_length k hck]
    unfold metaVal cookieBytes
    simp only [KVS_KVCRCINIT, List.append_assoc, List.length_nil, List.nil_append]
    congr 5
    omega

/-! ## Decoding and scanning -/

theorem u32_of_lt (n : Nat) (h : n < 4294967296) : u32 n = n := Nat.mod_eq_of_lt h

theorem alignDown_bsz (cfg : Cfg) (jb n : Nat) (hb : cfg.bsz = 2 ^ jb) (hjb : jb ≤ 31)
    (hn : n < 4294967296) : KVS_ALIGNDOWN n cfg.bsz = n / cfg.bsz * cfg.bsz := by
  rw [hb, alignDown_eq _ _ hn (by omega)]

theorem alignDown_psz (cfg : Cfg) (j n : Nat) (hp : cfg.psz = 2 ^ j) (hj : j ≤ 31)
    (hn : n < 4294967296) : KVS_ALIGNDOWN n cfg.psz = n / cfg.psz * cfg.psz := by
  rw [hp, alignDown_eq _ _ hn (by omega)]

theorem alignDown_add (cfg : Cfg) (j s x : Nat) (hp : cfg.psz = 2 ^ j) (hj : j ≤ 31)
    (hs : s % cfg.psz = 0) (hn : s + x < 4294967296) :
    KVS_ALIGNDOWN (s + x) cfg.psz = s + KVS_ALIGNDOWN x cfg.psz := by
  have hp0 := psz_pos cfg j hp
  rw [alignDown_psz cfg j x hp hj (by omega)]
  have hx := div_mul_add_mod x cfg.psz
  have e : s + x = (s + x / cfg.psz * cfg.psz) + x % cfg.psz := by omega
  rw [e]
  exact alignDown_decomp cfg j _ _ hp hj (add_mod_zero _ _ _ hs (div_mul_mod_zero _ _))
    (Nat.mod_lt _ hp0) (by omega)

/-- The 32-bit truncation does not raise a number. -/
theorem u32_le (n : Nat) : u32 n ≤ n := Nat.mod_le n 4294967296

theorem kvs_dev_read_ok (k : Kvs) (off len : Nat) (h : off + len ≤ k.dev.length) :
    kvs_dev_read k off len = .ok (seg k.dev off len) := by
  unfold kvs_dev_read
  have : ¬ (u32 (off + len) > k.dev.length) := by
    have := u32_le (off + len)
    omega
  simp only [this, if_false]
  rfl

/-- A read inside the entry and inside the device that ends below `2^32`: no sum wraps
around. -/
theorem entry_read_ok (k : Kvs) (e : Ent) (off len : Nat) (h1 : e.start + off + len ≤ e.next)
    (h2 : e.start + off + len ≤ k.dev.length) (h3 : e.start + off + len < 4294967296) :
    entry_read k e off len = .ok (seg k.dev (e.start + off) len) := by
  unfold entry_read
  rw [u32_of_lt (e.start + off + len) (by omega), u32_of_lt (e.start + off) (by omega)]
  have : ¬ (e.start + off + len > e.next) := by omega
  simp only [this, if_false]
  exact kvs_dev_read_ok k _ _ (by omega)

theorem entry_data_read_ok (k : Kvs) (e : Ent) (off len : Nat)
    (h1 : e.start + 4 + off + len ≤ e.next) (h2 : e.start + 4 + off + len ≤ k.dev.length)
    (h3 : e.start + 4 + off + len < 4294967296) :
    entry_data_read k e off len = .ok (seg k.dev (e.start + 4 + off) len) := by
  unfold entry_data_read KVS_HDRSIZE
  rw [u32_of_lt (4 + off) (by omega),
    entry_read_ok k e (4 + off) len (by omega) (by omega) (by omega), Nat.add_assoc]

/-- A header word written by `entry_set_info` decodes to the entry it was written for. -/
theorem decodes_of_header (cfg : Cfg) (k : Kvs) (s kl vl j jb : Nat)
    (hp : cfg.psz = 2 ^ j) (hj : j ≤ 31) (hbs : cfg.bsz = 2 ^ jb) (hjb : jb ≤ 31)
    (hk : kl < 256) (hv : vl < 65536) (hs : s % cfg.psz = 0)
    (hhdr : seg k.dev s 4 = put_le32 (hdrWord kl vl))
    (hblk : s + entry_size cfg kl vl ≤ s / cfg.bsz * cfg.bsz + cfg.bsz)
    (hlen : s + entry_size cfg kl vl ≤ k.dev.length) (hsm : k.dev.length < 2147483648) :
    DecodesAt cfg k { start := s, next := s + entry_size cfg kl vl, he_hdr := hdrWord kl vl } := by
  intro e0 he0
  change e0.start = s at he0
  have hf := entry_size_facts cfg j kl vl hp hj hk hv
  have hw := hdrWord_facts kl vl hk hv
  have hp31 := psz_le_pow31 cfg j hp hj
  unfold entry_get_info
  simp only [he0]
  rw [alignDown_bsz cfg jb s hbs hjb (by omega)]
  rw [entry_read_ok k _ 0 KVS_HDRSIZE
    (by show s + 0 + 4 ≤ s / cfg.bsz * cfg.bsz + cfg.bsz; omega)
    (by show s + 0 + 4 ≤ k.dev.length; omega)
    (by show s + 0 + KVS_HDRSIZE < 4294967296; unfold KVS_HDRSIZE; omega)]
  simp only [Nat.add_zero, KVS_HDRSIZE, hhdr]
  unfold entry_get_param
  simp only [get_put_le32 _ hw.1]
  have hc : ¬ (hdrWord kl vl ≠ entry_hdr_add_crc (hdr_get_data (hdrWord kl vl))) := by
    rw [ne_eq, not_not]; exact hw.2.1
  have hkl : ∀ a b, entry_get_klen { start := a, next := b, he_hdr := hdrWord kl vl } = kl :=
    fun a b => hdrWord_klen kl vl a b hk hv
  have hvl : ∀ a b, entry_get_vlen { start := a, next := b, he_hdr := hdrWord kl vl } = vl :=
    fun a b => hdrWord_vlen kl vl a b hk hv
  have h0 : u32 (s + KVS_HDRSIZE + KVS_KVCRCSIZE - 1) = s + 7 := by
    rw [u32_of_lt _ (by unfold KVS_KVCRCSIZE KVS_HDRSIZE; omega)]; rfl
  have h1 : u32 (s + 7 + (kl + vl)) = s + (4 + kl + vl + 4 - 1) := by
    rw [u32_of_lt _ (by omega)]; omega
  have h2 : KVS_ALIGNDOWN (s + (4 + kl + vl + 4 - 1)) cfg.psz + cfg.psz =
      s + entry_size cfg kl vl := by
    rw [alignDown_add cfg j s _ hp hj hs (by omega)]
    unfold entry_size KVS_HDRSIZE KVS_KVCRCSIZE
    omega
  have h4 : u32 (s + entry_size cfg kl vl) = s + entry_size cfg kl vl :=
    u32_of_lt _ (by omega)
  simp only [hc, if_false, hkl, hvl, h0, h1, h2, h4]
  have h3 : ¬ (s + entry_size cfg kl vl > s / cfg.bsz * cfg.bsz + cfg.bsz ∨
      s + entry_size cfg kl vl < s) := by omega
  simp only [h3, if_false, ne_eq, not_true_eq_false]

theorem seg_seg (X : List Nat) (a n off l : Nat) (h : off + l ≤ n) :
    seg (seg X a n) off l = seg X (a + off) l := by
  unfold seg
  rw [List.drop_take, List.take_take, List.drop_drop, Nat.min_eq_left (by omega)]

theorem seg_zero_length (X : List Nat) : seg X 0 X.length = X := by
  unfold seg; simp

theorem getD_lt (l : List Nat) (B d i : Nat) (h : ∀ x ∈ l, x < B) (hd : d < B) :
    l.getD i d < B := by
  induction l generalizing i with
  | nil => simpa using hd
  | cons x xs ih =>
    cases i with
    | zero => simpa using h x (List.mem_cons_self _ _)
    | succ i =>
      simpa using ih i (fun y hy => h y (List.mem_cons_of_mem _ hy))

theorem crc32_table_lt (i : Nat) : kvs_crc32_table.getD i 0 < 4294967296 := by
  apply getD_lt
  · decide
  · norm_num

theorem xor_lt_32 (a b : Nat) (ha : a < 4294967296) (hb : b < 4294967296) :
    a ^^^ b < 4294967296 := by
  have := Nat.xor_lt_two_pow (n := 32) (by simpa using ha) (by simpa using hb)
  simpa using this

theorem shr4_lt (a : Nat) (ha : a < 4294967296) : a >>> 4 < 4294967296 := by
  rw [Nat.shiftRight_eq_div_pow]
  exact Nat.lt_of_le_of_lt (Nat.div_le_self _ _) ha

theorem crc32_byte_lt (c b : Nat) (hc : c < 4294967296) : crc32_byte c b < 4294967296 := by
  unfold crc32_byte
  exact xor_lt_32 _ _ (shr4_lt _ (xor_lt_32 _ _ (shr4_lt _ hc) (crc32_table_lt _)))
    (crc32_table_lt _)

theorem crc32_lt (c : Nat) (buf : List Nat) (hc : c < 4294967296) :
    crc32 c buf < 4294967296 := by
  unfold crc32
  apply xor_lt_32 _ _ (by norm_num)
  have h0 : 4294967295 ^^^ c < 4294967296 := xor_lt_32 _ _ (by norm_num) hc
  generalize 4294967295 ^^^ c = x at h0
  induction buf generalizing x with
  | nil => simpa using h0
  | cons b bs ih => exact ih _ (crc32_byte_lt _ _ h0)

/-- The loop of `entry_kvcrc_ok` on a readable range. -/
theorem kvcrc_loop_ok (k : Kvs) (e : Ent) :
    ∀ (fuel crc off len : Nat), len ≤ fuel → e.start + 4 + off + len ≤ e.next →
      e.start + 4 + off + len ≤ k.dev.length → e.start + 4 + off + len < 4294967296 →
      kvcrc_loop k e fuel crc off len =
        some (crc32 crc (seg k.dev (e.start + 4 + off) len), off + len) := by
  intro fuel
  induction fuel with
  | zero =>
    intro crc off len hf h1 h2 _
    have : len = 0 := by omega
    subst this
    simp [kvcrc_loop, seg, crc32_nil]
  | succ fuel ih =>
    intro crc off len hf h1 h2 h32
    by_cases h0 : len = 0
    · subst h0
      simp [kvcrc_loop, seg, crc32_nil]
    · rw [kvcrc_loop]
      have hmin : KVS_MIN len KVS_BUFSIZE = min len 16 := by rw [KVS_MIN_eq]; rfl
      simp only [h0, if_false, hmin]
      rw [entry_data_read_ok k e off (min len 16) (by omega) (by omega) (by omega)]
      simp only
      rw [ih _ (off + min len 16) (len - min len 16) (by omega) (by omega) (by omega)
        (by omega), crc32_append]
      have hsplit : len = min len 16 + (len - min len 16) := by omega
      have hs : seg k.dev (e.start + 4 + off) len =
          seg k.dev (e.start + 4 + off) (min len 16) ++
            seg k.dev (e.start + 4 + (off + min len 16)) (len - min len 16) := by
        conv_lhs => rw [hsplit, seg_append]
        congr 2
        omega
      have h3 : off + min len 16 + (len - min len 16) = off + len := by omega
      rw [h3, hs]

/-- `entry_kvcrc_ok` compares the stored CRC-32 with the one of key and value. -/
theorem entry_kvcrc_ok_eq (k : Kvs) (e : Ent)
    (h1 : e.start + 8 + (entry_get_klen e + entry_get_vlen e) ≤ e.next)
    (h2 : e.start + 8 + (entry_get_klen e + entry_get_vlen e) ≤ k.dev.length)
    (h32 : e.start + 8 + (entry_get_klen e + entry_get_vlen e) < 4294967296) :
    entry_kvcrc_ok k e = decide (crc32 0
        (seg k.dev (e.start + 4) (entry_get_klen e + entry_get_vlen e)) =
      get_le32 (seg k.dev (e.start + 4 + (entry_get_klen e + entry_get_vlen e)) 4)) := by
  unfold entry_kvcrc_ok
  simp only
  rw [kvcrc_loop_ok k e _ KVS_KVCRCINIT 0 _ (Nat.le_refl _) (by omega) (by omega)
    (by omega)]
  simp only [Nat.zero_add, Nat.add_zero, KVS_KVCRCSIZE]
  rw [entry_data_read_ok k e _ 4 (by omega) (by omega) (by omega)]
  rfl

/-- The loop of `differ` on two readers that deliver the same bytes. -/
theorem differ_loop_same (k : Kvs) (rda rdb : ReadCb) (X : List Nat) :
    ∀ (fuel len off : Nat),
      (∀ o l, off ≤ o → o + l ≤ off + len →
        rda.read k (rda.off + o) l = .ok (seg X o l) ∧
        rdb.read k (rdb.off + o) l = .ok (seg X o l)) →
      differ_loop k rda rdb fuel len off = false := by
  intro fuel
  induction fuel with
  | zero => intro len off _; rfl
  | succ fuel ih =>
    intro len off h
    rw [differ_loop]
    by_cases h0 : len = 0
    · simp only [h0, if_true]
    · have hmin : KVS_MIN len KVS_BUFSIZE = min len 16 := by rw [KVS_MIN_eq]; rfl
      obtain ⟨ha, hb⟩ := h off (min len 16) (Nat.le_refl _) (by omega)
      simp only [h0, if_false, hmin, ha, hb, ne_eq, not_true_eq_false]
      exact ih _ _ (fun o l h1 h2 => h o l (by omega) (by omega))

/-- An entry whose data starts with the bytes `key` does not differ from `key`. -/
theorem differ_entry_ptr (k : Kvs) (e : Ent) (key : List Nat)
    (hkey : seg k.dev (e.start + 4) key.length = key)
    (h1 : e.start + 4 + key.length ≤ e.next) (h2 : e.next ≤ k.dev.length)
    (h32 : k.dev.length < 4294967296) :
    differ k { ctx := .ent e, off := 0, len := key.length }
      { ctx := .ptr key, off := 0, len := key.length } = false := by
  unfold differ
  simp only [ne_eq, not_true_eq_false, if_false]
  apply differ_loop_same k _ _ key
  intro o l _ hl
  constructor
  · show entry_data_read k e (0 + o) l = _
    rw [Nat.zero_add, entry_data_read_ok k e o l (by omega) (by omega) (by omega)]
    congr 1
    rw [← seg_seg k.dev (e.start + 4) key.length o l (by omega), hkey]
  · show ReadCb.read k _ (0 + o) l = _
    rw [Nat.zero_add]
    exact ReadCb.read_ptr k _ key o l rfl

theorem ChainL.le {cfg : Cfg} {k : Kvs} {a b : Nat} {es : List Ent}
    (h : ChainL cfg k a es b) : a ≤ b := by
  induction h with
  | nil a => exact Nat.le_refl _
  | cons e es b _ h8 _ ih => omega

theorem ChainL.lt_of_ne_nil {cfg : Cfg} {k : Kvs} {a b : Nat} {es : List Ent}
    (h : ChainL cfg k a es b) (hne : es ≠ []) : a + 8 ≤ b := by
  cases h with
  | nil a => exact absurd rfl hne
  | cons e es b _ h8 ht => have := ht.le; omega

theorem ChainL.eq_of_nil {cfg : Cfg} {k : Kvs} {a b : Nat}
    (h : ChainL cfg k a [] b) : a = b := by
  cases h; rfl

/-- `walk` over a chain of entries that ends at `stop`, with a callback that leaves the
store alone and returns 0: the walk ends with 0 and has applied the callback to the
entries of the chain in order. -/
theorem walk_chain {σ : Type} (cfg : Cfg) (k : Kvs) (rdkey : ReadCb) (cb : Cb σ)
    (f : Ent → σ → σ) (stop : Nat)
    (hcb : ∀ e st, cb k e st = some (0, k, f e st))
    (hstop : stop ≤ cfg.bcnt * cfg.bsz) :
    ∀ (es : List Ent) (a fuel : Nat) (ent : Ent) (wc : Nat) (st : σ),
      ChainL cfg k a es stop → (∀ e ∈ es, NoSkip cfg k e) →
      (es = [] → a < cfg.bcnt * cfg.bsz) → ent.next = a → es.length + 1 ≤ fuel →
      walk cfg rdkey cb stop fuel k ent wc st =
        { rc := some 0, kvs := k, st := es.foldl (fun s e => visit k rdkey f e s) st } := by
  intro es
  induction es with
  | nil =>
    intro a fuel ent wc st hch _ ha hn hf
    have hab := hch.eq_of_nil
    obtain ⟨fuel, rfl⟩ : ∃ n, fuel = n + 1 := ⟨fuel - 1, by omega⟩
    rw [walk]
    have h1 : stop < cfg.bcnt * cfg.bsz := by rw [← hab]; exact ha rfl
    simp only [hn, hab, h1, if_true, List.foldl_nil]
  | cons e es ih =>
    intro a fuel ent wc st hch hns ha hn hf
    obtain ⟨fuel, rfl⟩ : ∃ n, fuel = n + 1 := ⟨fuel - 1, by simp at hf; omega⟩
    cases hch with
    | cons _ _ _ hd h8 ht =>
      have hle := ht.le
      have h1 : e.start < cfg.bcnt * cfg.bsz := by omega
      have h2 : ¬ (e.start = stop) := by omega
      have hgi := hd { start := e.start, next := e.start, he_hdr := ent.he_hdr } rfl
      have hskip := hns e (List.mem_cons_self _ _)
      rw [walk]
      simp only [hn, h1, if_true, h2, if_false, hgi, ne_eq, not_true_eq_false]
      have hsk : ¬ (e.start &&& (cfg.bsz - 1) = 0 ∧
          u32 ((if e.start &&& (cfg.bsz - 1) = 0 then entry_get_wrapcnt k e wc else wc) + 1)
            < k.wrapcnt) := by
        intro ⟨h3, h4⟩
        rw [if_pos h3] at h4
        exact hskip wc ⟨h3, h4⟩
      simp only [hsk, if_false]
      by_cases hnx : e.next = stop
      · have hes : es = [] := by
          by_contra hne
          have := ht.lt_of_ne_nil hne
          omega
        subst hes
        by_cases hv : differ k { ctx := .ent e, off := 0, len := rdkey.len } rdkey = true ∨
            ¬ entry_kvcrc_ok k e = true
        · simp only [hnx, hv, visit, List.foldl_cons, List.foldl_nil, if_true, if_false,
            not_true_eq_false]
        · simp only [hnx, hv, hcb, visit, List.foldl_cons, List.foldl_nil, if_true, if_false,
            not_true_eq_false]
      · have hrec := fun wc2 st2 => ih e.next fuel e wc2 st2 ht
          (fun x hx => hns x (List.mem_cons_of_mem _ hx))
          (fun h => by subst h; exact absurd ht.eq_of_nil hnx) rfl
          (by simp at hf; omega)
        by_cases hv : differ k { ctx := .ent e, off := 0, len := rdkey.len } rdkey = true ∨
            ¬ entry_kvcrc_ok k e = true
        · simp only [hnx, hv, hrec, visit, List.foldl_cons, if_true, if_false,
            not_true_eq_false, not_false_eq_true]
        · simp only [hnx, hv, hcb, hrec, visit, List.foldl_cons, if_true, if_false,
            not_true_eq_false, not_false_eq_true]

/-! ## The invariant of a mounted store -/

theorem entry_read_congr (k k2 : Kvs) (e : Ent) (off len : Nat)
    (hl : k2.dev.length = k.dev.length)
    (hs : seg k2.dev (u32 (e.start + off)) len = seg k.dev (u32 (e.start + off)) len) :
    entry_read k2 e off len = entry_read k e off len := by
  unfold entry_read kvs_dev_read
  rw [hl]
  unfold seg at hs
  rw [hs]

theorem DecodesAt.of_take_eq {cfg : Cfg} {k k2 : Kvs} {e : Ent} (h : DecodesAt cfg k e)
    (hl : k2.dev.length = k.dev.length)
    (hs : seg k2.dev (u32 e.start) 4 = seg k.dev (u32 e.start) 4) : DecodesAt cfg k2 e := by
  intro e0 he0
  have := h e0 he0
  unfold entry_get_info at this ⊢
  simp only at this ⊢
  rw [entry_read_congr k k2 _ 0 KVS_HDRSIZE hl (by simpa [he0, KVS_HDRSIZE] using hs)]
  exact this

/-- A chain only depends on the bytes before its end. -/
theorem ChainL.of_dev_take_eq {cfg : Cfg} {k k2 : Kvs} {a b : Nat} {es : List Ent}
    (h : ChainL cfg k a es b) (hl : k2.dev.length = k.dev.length)
    (ht : k2.dev.take b = k.dev.take b) : ChainL cfg k2 a es b := by
  induction h with
  | nil a => exact ChainL.nil a
  | cons e es b hd h8 htl ih =>
    have hle := htl.le
    refine ChainL.cons e es b (hd.of_take_eq hl ?_) h8 (ih ht)
    exact seg_of_take_eq k.dev k2.dev (u32 e.start) 4
      (take_take_of_le _ _ _ _ (by have := u32_le e.start; omega) ht)

theorem ChainL.snoc {cfg : Cfg} {k : Kvs} {a b : Nat} {es : List Ent} (e : Ent)
    (h : ChainL cfg k a es b) (hd : DecodesAt cfg k e) (hs : e.start = b)
    (h8 : e.start + 8 ≤ e.next) : ChainL cfg k a (es ++ [e]) e.next := by
  induction h with
  | nil a =>
    subst hs
    exact ChainL.cons e [] e.next hd h8 (ChainL.nil _)
  | cons e1 es b hd1 h81 _ ih => exact ChainL.cons e1 _ _ hd1 h81 (ih hs)

theorem pow_dvd_of_le (a b ja jb : Nat) (ha : a = 2 ^ ja) (hb : b = 2 ^ jb) (h : a ≤ b) :
    b % a = 0 := by
  subst ha hb
  have : ja ≤ jb := by
    by_contra hc
    have : 2 ^ jb < 2 ^ ja := Nat.pow_lt_pow_right (by norm_num) (by omega)
    omega
  exact Nat.mod_eq_zero_of_dvd (Nat.pow_dvd_pow 2 this)

theorem mod_of_mod_mul (n a b : Nat) (hn : n % b = 0) (hb : b % a = 0) : n % a = 0 := by
  obtain ⟨c, rfl⟩ := Nat.dvd_of_mod_eq_zero hn
  obtain ⟨d, rfl⟩ := Nat.dvd_of_mod_eq_zero hb
  rw [Nat.mul_assoc]
  exact Nat.mul_mod_right _ _

theorem mult_succ_le (p a b : Nat) (ha : a % p = 0) (hb : b % p = 0) (h : a < b) :
    a + p ≤ b := by
  obtain ⟨c, rfl⟩ := Nat.dvd_of_mod_eq_zero ha
  obtain ⟨d, rfl⟩ := Nat.dvd_of_mod_eq_zero hb
  have h6 : c < d := Nat.lt_of_mul_lt_mul_left h
  have h7 : p * (c + 1) ≤ p * d := Nat.mul_le_mul_left _ h6
  rw [Nat.mul_add, Nat.mul_one] at h7
  exact h7

theorem block_advance_one (cfg : Cfg) (bend : Nat) :
    block_advance_n cfg bend 1 =
      (if bend ≥ cfg.bsz * cfg.bcnt then bend - cfg.bsz * cfg.bcnt else bend) + cfg.bsz := rfl

/-- `wblock_advance` keeps the invariant: the new write block is empty. -/
theorem Inv.wblock_advance {cfg : Cfg} {k : Kvs} (hc : CfgOk cfg) (h : Inv cfg k) :
    Inv cfg (wblock_advance cfg k) := by
  obtain ⟨j, hj, hp⟩ := hc.psz_pow
  obtain ⟨jb, hjb, hb⟩ := hc.bsz_pow
  have hbp : cfg.bsz % cfg.psz = 0 := pow_dvd_of_le _ _ j jb hp hb hc.psz_le
  have hfin : (cfg.bsz * cfg.bcnt) % cfg.bsz = 0 := Nat.mul_mod_right _ _
  have hb0 : 0 < cfg.bsz := by rw [hb]; exact Nat.pow_pos (by norm_num)
  have hnew : (block_advance_n cfg k.bend 1) % cfg.bsz = 0 ∧
      cfg.bsz ≤ block_advance_n cfg k.bend 1 ∧
      block_advance_n cfg k.bend 1 ≤ cfg.bsz * cfg.bcnt := by
    rw [block_advance_one]
    by_cases hge : k.bend ≥ cfg.bsz * cfg.bcnt
    · have : k.bend = cfg.bsz * cfg.bcnt := Nat.le_antisymm h.bend_le hge
      rw [if_pos hge, this, Nat.sub_self, Nat.zero_add]
      refine ⟨Nat.mod_self _, Nat.le_refl _, ?_⟩
      rw [← this]; exact h.bend_ge
    · simp only [hge, if_false]
      refine ⟨add_mod_zero _ _ _ h.bend_mod (Nat.mod_self _), by omega, ?_⟩
      exact mult_succ_le _ _ _ h.bend_mod hfin (by omega)
  have hmod : (block_advance_n cfg k.bend 1 - cfg.bsz) % cfg.bsz = 0 := by
    obtain ⟨c, hc1⟩ := Nat.dvd_of_mod_eq_zero hnew.1
    rw [hc1]
    cases c with
    | zero => simp
    | succ c => rw [Nat.mul_succ, Nat.add_sub_cancel]; exact Nat.mul_mod_right _ _
  unfold KVS.wblock_advance
  exact {
    ready := h.ready
    devlen := h.devlen
    pbuf := h.pbuf
    cookie := h.cookie
    csz := h.csz
    bend_mod := hnew.1
    bend_ge := hnew.2.1
    bend_le := hnew.2.2
    pos_ge := Nat.le_refl _
    pos_le := Nat.sub_le _ _
    pos_mod := mod_of_mod_mul _ _ _ hmod hbp
    wrap := by
      show (if _ then _ else _) < _
      split
      · exact Nat.mod_lt _ (by norm_num)
      · exact h.wrap
    chain := ⟨[], ChainL.nil _, fun e he => by simp at he⟩ }

theorem image_hdr (dev key val : List Nat) (s n : Nat)
    (h : seg dev s n = entryImage key val n) (hn : 8 + key.length + val.length ≤ n) :
    seg dev s 4 = put_le32 (hdrWord key.length val.length) := by
  have := seg_seg dev s n 0 4 (by omega)
  rw [Nat.add_zero] at this
  rw [← this, h]
  unfold entryImage seg
  simp only [List.drop_zero, List.append_assoc]
  rw [List.take_append_of_le_length (by rw [put_le32_length])]
  exact List.take_of_length_le (by rw [put_le32_length])

theorem image_data (dev key val : List Nat) (s n : Nat)
    (h : seg dev s n = entryImage key val n) (hn : 8 + key.length + val.length ≤ n) :
    seg dev (s + 4) (key.length + val.length + 4) =
      key ++ val ++ put_le32 (crc32 0 (key ++ val)) := by
  rw [← seg_seg dev s n 4 _ (by omega), h]
  unfold entryImage seg
  simp only [List.append_assoc]
  have h4 : (put_le32 (hdrWord key.length val.length)).length = 4 := put_le32_length _
  rw [List.drop_append_of_le_length (by omega), List.drop_of_length_le (by omega),
    List.nil_append]
  have hl : (key ++ (val ++ put_le32 (crc32 0 (key ++ val)))).length =
      key.length + val.length + 4 := by
    simp only [List.length_append, put_le32_length]; omega
  rw [← List.append_assoc, ← List.append_assoc,
    List.take_append_of_le_length (by simp only [List.length_append, put_le32_length]; omega)]
  rw [List.append_assoc]
  exact List.take_of_length_le (by omega)

theorem block_base_of (bsz base pos : Nat) (hb : base % bsz = 0) (h1 : base ≤ pos)
    (h2 : pos < base + bsz) : pos / bsz * bsz = base := by
  have : pos = base + (pos - base) := by omega
  rw [this]
  exact div_mul_decomp bsz base (pos - base) hb (by omega)

theorem sub_bsz_mod (bsz bend : Nat) (hm : bend % bsz = 0) :
    (bend - bsz) % bsz = 0 := by
  obtain ⟨c, hc1⟩ := Nat.dvd_of_mod_eq_zero hm
  rw [hc1]
  cases c with
  | zero => simp
  | succ c => rw [Nat.mul_succ, Nat.add_sub_cancel]; exact Nat.mul_mod_right _ _

theorem ChainL.cons_inv {cfg : Cfg} {k : Kvs} {a b : Nat} {e : Ent} {es : List Ent}
    (h : ChainL cfg k a (e :: es) b) :
    a = e.start ∧ DecodesAt cfg k e ∧ e.start + 8 ≤ e.next ∧ ChainL cfg k e.next es b := by
  generalize hl : e :: es = l at h
  cases h with
  | nil => cases hl
  | cons e1 es1 b hd h8 ht =>
    injection hl with h1 h2
    subst h1 h2
    exact ⟨rfl, hd, h8, ht⟩

/-- Writing a complete entry at the write position extends the chain of the write block
and keeps the invariant. -/
theorem Inv.extend {cfg : Cfg} {k : Kvs} (hc : CfgOk cfg) (h : Inv cfg k)
    (dev pbuf key val : List Nat)
    (hk : key.length < 256) (hv : val.length < 65536)
    (hfit : entry_size cfg key.length val.length ≤ k.bend - k.pos)
    (himg : seg dev k.pos (entry_size cfg key.length val.length) =
      entryImage key val (entry_size cfg key.length val.length))
    (hlen : dev.length = k.dev.length) (htake : dev.take k.pos = k.dev.take k.pos)
    (hpl : pbuf.length = cfg.psz)
    (hhead : k.pos = k.bend - cfg.bsz → key = [] ∧ val.take 4 = put_le32 k.wrapcnt) :
    Inv cfg { k with dev := dev, pbuf := pbuf, pos := k.pos + entry_size cfg key.length val.length } ∧
    LastIs cfg { k with dev := dev, pbuf := pbuf, pos := k.pos + entry_size cfg key.length val.length } key val := by
  obtain ⟨j, hj, hp⟩ := hc.psz_pow
  obtain ⟨jb, hjb, hb⟩ := hc.bsz_pow
  obtain ⟨es, hch, hho⟩ := h.chain
  have hf := entry_size_facts cfg j key.length val.length hp hj hk hv
  have hbase := sub_bsz_mod cfg.bsz k.bend h.bend_mod
  have hposlt : k.pos < k.bend := by omega
  have hblk : k.pos / cfg.bsz * cfg.bsz = k.bend - cfg.bsz :=
    block_base_of cfg.bsz (k.bend - cfg.bsz) k.pos hbase h.pos_ge
      (by have := h.bend_ge; omega)
  have hdl := h.devlen
  have hbl := h.bend_le
  have hsm := hc.small
  -- the new entry decodes
  have hdec : DecodesAt cfg { k with dev := dev, pbuf := pbuf, pos := k.pos + entry_size cfg key.length val.length }
      { start := k.pos, next := k.pos + entry_size cfg key.length val.length, he_hdr := hdrWord key.length val.length } :=
    decodes_of_header cfg _ k.pos key.length val.length j jb hp hj hb hjb hk hv h.pos_mod
      (image_hdr dev key val k.pos _ himg hf.2.1)
      (by rw [hblk]; have := h.bend_ge; omega)
      (by show _ ≤ dev.length; omega) (by show dev.length < _; omega)
  have hch2 : ChainL cfg { k with dev := dev, pbuf := pbuf, pos := k.pos + entry_size cfg key.length val.length } (k.bend - cfg.bsz) es k.pos :=
    hch.of_dev_take_eq hlen htake
  have hsn := hch2.snoc _ hdec rfl (by show k.pos + 8 ≤ k.pos + _; omega)
  have hdata := image_data dev key val k.pos _ himg hf.2.1
  have hhead2 : HeadOk { k with dev := dev, pbuf := pbuf, pos := k.pos + entry_size cfg key.length val.length }
      (es ++ [{ start := k.pos, next := k.pos + entry_size cfg key.length val.length, he_hdr := hdrWord key.length val.length }]) := by
    intro e he
    cases es with
    | nil =>
      simp only [List.nil_append, List.head?_cons, Option.mem_def, Option.some.injEq] at he
      subst he
      have hpb : k.pos = k.bend - cfg.bsz := hch.eq_of_nil.symm
      obtain ⟨hk0, hv4⟩ := hhead hpb
      subst hk0
      refine ⟨hdrWord_klen 0 val.length _ _ (by norm_num) hv, ?_⟩
      show seg dev (k.pos + 4) 4 = put_le32 k.wrapcnt
      have hd2 := hdata
      simp only [List.length_nil, Nat.zero_add, List.nil_append] at hd2
      have hvl : 4 ≤ val.length := by
        have : (val.take 4).length = 4 := by rw [hv4, put_le32_length]
        simp at this; omega
      rw [← seg_seg dev (k.pos + 4) (val.length + 4) 0 4 (by omega)] at *
      rw [hd2, ← hv4]
      unfold seg
      simp only [List.drop_zero]
      exact List.take_append_of_le_length hvl
    | cons e1 es1 =>
      simp only [List.cons_append, List.head?_cons, Option.mem_def, Option.some.injEq] at he
      subst he
      have h1 := hho e1 (by simp)
      refine ⟨h1.1, ?_⟩
      show seg dev (e1.start + 4) 4 = put_le32 k.wrapcnt
      rw [← h1.2]
      obtain ⟨_, _, h8, htl⟩ := hch.cons_inv
      have := htl.le
      exact seg_of_take_eq k.dev dev (e1.start + 4) 4
        (take_take_of_le _ _ _ _ (by omega) htake)
  refine ⟨?_, es, _, hsn, hhead2, rfl, rfl, by show k.pos + 8 + _ + _ ≤ k.pos + _; omega, hdata⟩
  exact {
    ready := h.ready
    devlen := hlen.trans h.devlen
    pbuf := hpl
    cookie := h.cookie
    csz := h.csz
    bend_mod := h.bend_mod
    bend_ge := h.bend_ge
    bend_le := h.bend_le
    pos_ge := by show k.bend - cfg.bsz ≤ k.pos + _; have := h.pos_ge; omega
    pos_le := by show k.pos + _ ≤ k.bend; omega
    pos_mod := add_mod_zero _ _ _ h.pos_mod hf.1
    wrap := h.wrap
    chain := ⟨_, hsn, hhead2⟩ }

theorem metaVal_take (k : Kvs) : (metaVal k).take 4 = put_le32 k.wrapcnt := by
  unfold metaVal
  rw [List.take_append_of_le_length (by rw [put_le32_length])]
  exact List.take_of_length_le (by rw [put_le32_length])

/-- `entry_append` on a store that satisfies the invariant, with lengths that fit the
header and readers that succeed: the invariant is kept whatever the outcome, the block
end and the wrap counter do not change, and after a success the newest entry of the
write block is the appended one. -/
theorem entry_append_inv {cfg : Cfg} {k : Kvs} (hc : CfgOk cfg) (h : Inv cfg k)
    (ent : Ent) (krd vrd : ReadCb) (hk : krd.len < 256) (hv : vrd.len < 65536)
    (hrk : ∀ (k2 : Kvs) (o l : Nat), k2.dev.length = k.dev.length → o + l ≤ krd.len →
        ∃ buf, krd.read k2 (krd.off + o) l = .ok buf ∧ buf.length = l)
    (hrv : ∀ (k2 : Kvs) (o l : Nat), k2.dev.length = k.dev.length → o + l ≤ vrd.len →
        ∃ buf, vrd.read k2 (vrd.off + o) l = .ok buf ∧ buf.length = l) :
    Inv cfg (entry_append cfg k ent krd vrd).2.1 ∧
    (entry_append cfg k ent krd vrd).2.1.bend = k.bend ∧
    (entry_append cfg k ent krd vrd).2.1.wrapcnt = k.wrapcnt ∧
    ((entry_append cfg k ent krd vrd).1 = 0 →
      ∃ key val, key.length = krd.len ∧ val.length = vrd.len ∧
        LastIs cfg (entry_append cfg k ent krd vrd).2.1 key val ∧
        (∀ bytes, krd.ctx = .ptr bytes → key = seg bytes krd.off krd.len) ∧
        (∀ bytes, vrd.ctx = .ptr bytes → val = seg bytes vrd.off vrd.len)) := by
  obtain ⟨j, hj, hp⟩ := hc.psz_pow
  obtain ⟨jb, hjb, hb⟩ := hc.bsz_pow
  have hdl := h.devlen
  have hsm := hc.small
  have hbl := h.bend_le
  have hbase := sub_bsz_mod cfg.bsz k.bend h.bend_mod
  obtain ⟨hm1, hm2, hm3⟩ := kvs_meta_write_spec cfg k j jb hp hj hb hc.healthy h.csz h.cookie
    h.pos_le (by omega) (by omega) h.pbuf
  -- the entry part, from any state that satisfies the invariant and is not at a block base
  have body : ∀ k1 : Kvs, Inv cfg k1 → k1.dev.length = k.dev.length →
      k1.pos ≠ k1.bend - cfg.bsz →
      Inv cfg (entry_append_body cfg k1 ent krd vrd).2.1 ∧
      (entry_append_body cfg k1 ent krd vrd).2.1.bend = k1.bend ∧
      (entry_append_body cfg k1 ent krd vrd).2.1.wrapcnt = k1.wrapcnt ∧
      ((entry_append_body cfg k1 ent krd vrd).1 = 0 →
        ∃ key val, key.length = krd.len ∧ val.length = vrd.len ∧
          LastIs cfg (entry_append_body cfg k1 ent krd vrd).2.1 key val ∧
          (∀ bytes, krd.ctx = .ptr bytes → key = seg bytes krd.off krd.len) ∧
          (∀ bytes, vrd.ctx = .ptr bytes → val = seg bytes vrd.off vrd.len)) := by
    intro k1 h1 hl1 hnb
    have hdl1 := h1.devlen
    have hbl1 := h1.bend_le
    obtain ⟨hA, hB⟩ := entry_append_body_spec cfg k1 ent krd vrd j hp hj hc.healthy hk hv
      h1.pos_le (by omega) (by omega) h1.pbuf
      (fun k2 o l e1 e2 => hrk k2 o l (e1.trans hl1) e2)
      (fun k2 o l e1 e2 => hrv k2 o l (e1.trans hl1) e2)
    by_cases hsp : entry_size cfg krd.len vrd.len > k1.bend - k1.pos
    · rw [hA hsp]
      refine ⟨h1, rfl, rfl, ?_⟩
      intro hrc
      simp [KVS_ENOSPC] at hrc
    · obtain ⟨dev, pbuf, key, val, e1, e2, e3, e4, e5, e6, e7, e8, e9⟩ := hB (by omega)
      rw [e1]
      rw [← e2, ← e3] at e4
      have hx := Inv.extend hc h1 dev pbuf key val (by omega) (by omega)
        (by rw [e2, e3]; omega) e4 e5 e6 e7 (fun hpb => absurd hpb hnb)
      rw [e2, e3] at hx
      exact ⟨hx.1, rfl, rfl, fun _ => ⟨key, val, e2, e3, hx.2, e8, e9⟩⟩
  unfold entry_append
  by_cases hpm : k.pos % cfg.bsz = 0
  · by_cases hsp : entry_size cfg 0 (4 + k.csz) > k.bend - k.pos
    · rw [hm2 hpm hsp]
      have hne : -KVS_ENOSPC ≠ (0 : Int) := by simp [KVS_ENOSPC]
      dsimp only
      rw [if_pos hne]
      exact ⟨h, rfl, rfl, fun hrc => absurd hrc hne⟩
    · obtain ⟨dev, pbuf, e1, e2, e3, e4, e5⟩ := hm3 hpm (by omega)
      rw [e1]
      simp only [ne_eq, not_true_eq_false, if_false]
      have hml := metaVal_length k h.cookie
      have hmf := entry_size_facts cfg j 0 (4 + k.csz) hp hj (by norm_num) h.csz
      have hx := Inv.extend hc h dev pbuf [] (metaVal k)
        (by simp) (by rw [hml]; exact h.csz)
        (by rw [hml]; simp only [List.length_nil]; omega)
        (by rw [hml]; simpa using e2) e3 e4 e5 (fun _ => ⟨rfl, metaVal_take k⟩)
      rw [hml] at hx
      simp only [List.length_nil] at hx
      have hpg := h.pos_ge
      exact body _ hx.1 e3 (by show k.pos + _ ≠ k.bend - cfg.bsz; omega)
  · rw [hm1 hpm]
    simp only [ne_eq, not_true_eq_false, if_false]
    exact body k h rfl (by intro heq; rw [heq] at hpm; exact hpm hbase)

/-- `walk` keeps every property of the store that its callback keeps; the callback is
only called on entries that pass the CRC-32 check. -/
theorem entry_get_param_start (cfg : Cfg) (e : Ent) (hdr : List Nat) :
    (entry_get_param cfg e hdr).2.start = e.start := by
  unfold entry_get_param
  dsimp only
  split
  · rfl
  · split <;> rfl

/-- `entry_get_info` leaves the start of the entry alone. -/
theorem entry_get_info_start (cfg : Cfg) (k : Kvs) (e0 : Ent) :
    (entry_get_info cfg k e0).2.start = e0.start := by
  unfold entry_get_info
  dsimp only
  cases entry_read k { e0 with next := KVS_ALIGNDOWN e0.start cfg.bsz + cfg.bsz } 0
      KVS_HDRSIZE with
  | error _ => rfl
  | ok hdr =>
    dsimp only
    have h := entry_get_param_start cfg
      { e0 with next := KVS_ALIGNDOWN e0.start cfg.bsz + cfg.bsz } hdr
    generalize entry_get_param cfg
      { e0 with next := KVS_ALIGNDOWN e0.start cfg.bsz + cfg.bsz } hdr = r at h ⊢
    obtain ⟨rc, e2⟩ := r
    dsimp only at h ⊢
    split <;> exact h

theorem walk_preserves {σ : Type} (cfg : Cfg) (rdkey : ReadCb) (cb : Cb σ) (stop : Nat)
    (P : Kvs → Prop)
    (hcb : ∀ (k : Kvs) (e : Ent) (st : σ) (rc : Int) (k2 : Kvs) (st2 : σ), P k →
      e.start ≤ cfg.bcnt * cfg.bsz → entry_kvcrc_ok k e = true →
      cb k e st = some (rc, k2, st2) → P k2) :
    ∀ (fuel : Nat) (k : Kvs) (ent : Ent) (wc : Nat) (st : σ), P k →
      P (walk cfg rdkey cb stop fuel k ent wc st).kvs := by
  intro fuel
  induction fuel with
  | zero => intro k ent wc st hP; exact hP
  | succ fuel ih =>
    intro k ent wc st hP
    rw [walk]
    dsimp only
    generalize hs0 : (if ent.next < cfg.bcnt * cfg.bsz then ent.next else 0) = s0
    have hb0 : s0 ≤ cfg.bcnt * cfg.bsz := by
      rw [← hs0]
      split <;> omega
    have hst := entry_get_info_start cfg k
      { start := s0, next := ent.next, he_hdr := ent.he_hdr }
    generalize entry_get_info cfg k { start := s0, next := ent.next, he_hdr := ent.he_hdr }
      = gi at hst
    obtain ⟨rc0, ent1⟩ := gi
    dsimp only at hst ⊢
    by_cases h1 : s0 = stop
    · rw [if_pos h1]; exact hP
    rw [if_neg h1]
    by_cases h2 : rc0 ≠ 0
    · rw [if_pos h2]
      split
      · exact ih _ _ _ _ hP
      · exact hP
    rw [if_neg h2]
    generalize (if ent1.start &&& (cfg.bsz - 1) = 0 then entry_get_wrapcnt k ent1 wc
      else wc) = wc1
    by_cases h3 : ent1.start &&& (cfg.bsz - 1) = 0 ∧ u32 (wc1 + 1) < k.wrapcnt
    · rw [if_pos h3]
      by_cases h4 : u32 (ent1.start + cfg.bsz) ≠ stop
      · rw [if_pos h4]; exact ih _ _ _ _ hP
      · rw [if_neg h4]; exact hP
    rw [if_neg h3]
    by_cases h5 : differ k { ctx := .ent ent1, off := 0, len := rdkey.len } rdkey = true ∨
        ¬ entry_kvcrc_ok k ent1 = true
    · rw [if_pos h5]
      by_cases h6 : ent1.next ≠ stop
      · rw [if_pos h6]; exact ih _ _ _ _ hP
      · rw [if_neg h6]; exact hP
    rw [if_neg h5]
    have hcrc : entry_kvcrc_ok k ent1 = true := by
      by_contra hn
      exact h5 (Or.inr hn)
    cases hcall : cb k ent1 st with
    | none => exact hP
    | some r =>
      obtain ⟨rc, k1, st1⟩ := r
      have hP1 := hcb k ent1 st rc k1 st1 hP (by rw [hst]; exact hb0) hcrc hcall
      dsimp only
      by_cases h7 : rc ≠ 0
      · rw [if_pos h7]; exact hP1
      · rw [if_neg h7]
        by_cases h6 : ent1.next ≠ stop
        · rw [if_pos h6]; exact ih _ _ _ _ hP1
        · rw [if_neg h6]; exact hP1

/-- A `walk` whose callback leaves the store alone leaves the store alone. -/
theorem walk_kvs_eq {σ : Type} (cfg : Cfg) (rdkey : ReadCb) (cb : Cb σ) (stop : Nat)
    (hcb : ∀ (k : Kvs) (e : Ent) (st : σ) (rc : Int) (k2 : Kvs) (st2 : σ),
      cb k e st = some (rc, k2, st2) → k2 = k)
    (fuel : Nat) (k : Kvs) (ent : Ent) (wc : Nat) (st : σ) :
    (walk cfg rdkey cb stop fuel k ent wc st).kvs = k :=
  walk_preserves cfg rdkey cb stop (fun x => x = k)
    (fun k1 e st1 rc k2 st2 h1 _ _ h2 => (hcb k1 e st1 rc k2 st2 h2).trans h1)
    fuel k ent wc st rfl

theorem entry_dup_cb_kvs (dup : Ent) (k : Kvs) (e : Ent) (st : Bool) (rc : Int) (k2 : Kvs)
    (st2 : Bool) (h : entry_dup_cb dup k e st = some (rc, k2, st2)) : k2 = k := by
  unfold entry_dup_cb at h
  split at h <;> (injection h with h; injection h with _ h; injection h with h _; exact h.symm)

/-- `unique_cb` keeps every property of the store that the wrapped callback keeps. -/
theorem unique_cb_preserves {σ : Type} (cfg : Cfg) (fuel : Nat) (cb : Cb σ) (P : Kvs → Prop)
    (hcb : ∀ (k : Kvs) (e : Ent) (st : σ) (rc : Int) (k2 : Kvs) (st2 : σ), P k →
      e.start ≤ cfg.bcnt * cfg.bsz → entry_kvcrc_ok k e = true →
      cb k e st = some (rc, k2, st2) → P k2)
    (k : Kvs) (e : Ent) (st : σ) (rc : Int) (k2 : Kvs) (st2 : σ) (hP : P k)
    (hst : e.start ≤ cfg.bcnt * cfg.bsz) (hcrc : entry_kvcrc_ok k e = true)
    (h : unique_cb cfg fuel cb k e st = some (rc, k2, st2)) : P k2 := by
  unfold unique_cb at h
  split at h
  · injection h with h; injection h with _ h; injection h with h _; rw [← h]; exact hP
  · dsimp only at h
    split at h
    · cases h
    · split at h
      · exact hcb k e st rc k2 st2 hP hst hcrc h
      · injection h with h; injection h with _ h; injection h with h _; rw [← h]; exact hP

theorem kvcrc_loop_off (k : Kvs) (e : Ent) :
    ∀ (fuel crc off len c o : Nat), len ≤ fuel →
      kvcrc_loop k e fuel crc off len = some (c, o) → o = off + len := by
  intro fuel
  induction fuel with
  | zero =>
    intro crc off len c o hf h
    simp only [kvcrc_loop, Option.some.injEq, Prod.mk.injEq] at h
    omega
  | succ fuel ih =>
    intro crc off len c o hf h
    rw [kvcrc_loop] at h
    by_cases h0 : len = 0
    · simp only [h0, if_true, Option.some.injEq, Prod.mk.injEq] at h
      omega
    · simp only [h0, if_false] at h
      have hmin : KVS_MIN len KVS_BUFSIZE = min len 16 := by rw [KVS_MIN_eq]; rfl
      rw [hmin] at h
      split at h
      · cases h
      · have := ih _ _ _ _ _ (by omega) h
        omega

theorem entry_data_read_bounds (k : Kvs) (e : Ent) (off len : Nat) (buf : List Nat)
    (h32 : e.start + 4 + off + len < 4294967296)
    (h : entry_data_read k e off len = .ok buf) :
    e.start + 4 + off + len ≤ e.next ∧ e.start + 4 + off + len ≤ k.dev.length := by
  unfold entry_data_read entry_read kvs_dev_read KVS_HDRSIZE at h
  rw [u32_of_lt (4 + off) (by omega), u32_of_lt (e.start + (4 + off)) (by omega),
    u32_of_lt (e.start + (4 + off) + len) (by omega)] at h
  split at h
  · cases h
  · split at h
    · cases h
    · omega

/-- An entry that passes the CRC-32 check lies inside its extent and inside the
device. -/
theorem kvcrc_ok_bounds (k : Kvs) (e : Ent) (hs : e.start < 2147483648)
    (h : entry_kvcrc_ok k e = true) :
    e.start + 8 + (entry_get_klen e + entry_get_vlen e) ≤ e.next ∧
    e.start + 8 + (entry_get_klen e + entry_get_vlen e) ≤ k.dev.length := by
  have hkl : entry_get_klen e < 256 := by
    rw [entry_get_klen_eq]; exact Nat.mod_lt _ (by norm_num)
  have hvl : entry_get_vlen e < 65536 := by
    rw [entry_get_vlen_eq]; exact Nat.mod_lt _ (by norm_num)
  unfold entry_kvcrc_ok at h
  dsimp only at h
  split at h
  · cases h
  · rename_i c o hloop
    have ho := kvcrc_loop_off k e _ _ _ _ _ _ (Nat.le_refl _) hloop
    split at h
    · cases h
    · rename_i buf hrd
      have := entry_data_read_bounds k e o KVS_KVCRCSIZE buf
        (by unfold KVS_KVCRCSIZE; omega) hrd
      unfold KVS_KVCRCSIZE at this
      omega

theorem seg_length_le (dev : List Nat) (a n : Nat) (h : a + n ≤ dev.length) :
    (seg dev a n).length = n := seg_length dev a n h

/-- Reading from an entry that lies inside the device succeeds. -/
theorem read_ent_ok (e : Ent) (o0 n N : Nat)
    (h1 : e.start + 4 + o0 + n ≤ e.next) (h2 : e.start + 4 + o0 + n ≤ N)
    (h32 : N < 4294967296) :
    ∀ (k2 : Kvs) (o l : Nat), k2.dev.length = N → o + l ≤ n →
      ∃ buf, ReadCb.read k2 { ctx := .ent e, off := o0, len := n } (o0 + o) l = .ok buf ∧
        buf.length = l := by
  intro k2 o l hN hl
  refine ⟨seg k2.dev (e.start + 4 + (o0 + o)) l, ?_, seg_length _ _ _ (by omega)⟩
  show entry_data_read k2 e (o0 + o) l = _
  exact entry_data_read_ok k2 e (o0 + o) l (by omega) (by omega) (by omega)

/-- Reading from a buffer in memory succeeds. -/
theorem read_ptr_ok (bytes : List Nat) (k : Kvs) :
    ∀ (k2 : Kvs) (o l : Nat), k2.dev.length = k.dev.length → o + l ≤ bytes.length →
      ∃ buf, ReadCb.read k2 { ctx := .ptr bytes, off := 0, len := bytes.length } (0 + o) l
          = .ok buf ∧ buf.length = l := by
  intro k2 o l _ hl
  refine ⟨seg bytes (0 + o) l, rfl, seg_length _ _ _ (by omega)⟩

theorem klen_lt (e : Ent) : entry_get_klen e < 256 := by
  rw [entry_get_klen_eq]; exact Nat.mod_lt _ (by norm_num)

theorem vlen_lt (e : Ent) : entry_get_vlen e < 65536 := by
  rw [entry_get_vlen_eq]; exact Nat.mod_lt _ (by norm_num)

/-- `entry_copy` of an entry that passed the CRC-32 check keeps the invariant. -/
theorem entry_copy_inv {cfg : Cfg} {k : Kvs} (hc : CfgOk cfg) (h : Inv cfg k) (e : Ent)
    (hb1 : e.start + 8 + (entry_get_klen e + entry_get_vlen e) ≤ e.next)
    (hb2 : e.start + 8 + (entry_get_klen e + entry_get_vlen e) ≤ cfg.bsz * cfg.bcnt) :
    Inv cfg (entry_copy cfg k e).2 := by
  unfold entry_copy
  have hdl := h.devlen
  have hsm := hc.small
  exact (entry_append_inv hc h { start := 0, next := 0, he_hdr := 0 }
    { ctx := .ent e, off := 0, len := entry_get_klen e }
    { ctx := .ent e, off := entry_get_klen e, len := entry_get_vlen e }
    (klen_lt e) (vlen_lt e)
    (read_ent_ok e 0 (entry_get_klen e) k.dev.length (by omega) (by omega) (by omega))
    (read_ent_ok e (entry_get_klen e) (entry_get_vlen e) k.dev.length (by omega) (by omega)
      (by omega))).1

theorem copy_loop_inv {cfg : Cfg} (hc : CfgOk cfg) (e : Ent)
    (hb1 : e.start + 8 + (entry_get_klen e + entry_get_vlen e) ≤ e.next)
    (hb2 : e.start + 8 + (entry_get_klen e + entry_get_vlen e) ≤ cfg.bsz * cfg.bcnt) :
    ∀ (n : Nat) (k : Kvs) (rc : Int), Inv cfg k → Inv cfg (copy_loop cfg e n k rc).2 := by
  intro n
  induction n with
  | zero => intro k rc h; exact h
  | succ n ih =>
    intro k rc h
    rw [copy_loop]
    have h1 := entry_copy_inv hc h e hb1 hb2
    generalize entry_copy cfg k e = r at h1
    obtain ⟨rc1, k1⟩ := r
    dsimp only
    split
    · exact h1
    · exact ih _ _ (Inv.wblock_advance hc h1)

/-- `copy_cb` keeps the invariant. -/
theorem copy_cb_inv {cfg : Cfg} (hc : CfgOk cfg) (k : Kvs) (e : Ent) (st : Unit) (rc : Int)
    (k2 : Kvs) (st2 : Unit) (h : Inv cfg k) (hst : e.start ≤ cfg.bcnt * cfg.bsz)
    (hcrc : entry_kvcrc_ok k e = true)
    (hcall : copy_cb cfg k e st = some (rc, k2, st2)) : Inv cfg k2 := by
  obtain ⟨hb1, hb2⟩ := kvcrc_ok_bounds k e
    (by have := hc.small; rw [Nat.mul_comm] at hst; omega) hcrc
  rw [h.devlen] at hb2
  unfold copy_cb at hcall
  split at hcall
  · injection hcall with hcall; injection hcall with _ hcall; injection hcall with hcall _
    rw [← hcall]; exact h
  · have := copy_loop_inv hc e hb1 hb2 cfg.bspr k 0 h
    generalize copy_loop cfg e cfg.bspr k 0 = r at this hcall
    obtain ⟨rc1, k1⟩ := r
    injection hcall with hcall; injection hcall with _ hcall; injection hcall with hcall _
    rw [← hcall]; exact this

/-- `compact` keeps the invariant. -/
theorem compact_inv {cfg : Cfg} {k : Kvs} (hc : CfgOk cfg) (h : Inv cfg k) (stop fuel : Nat)
    (rc : Int) (k2 : Kvs) (hr : compact cfg k stop fuel = some (rc, k2)) : Inv cfg k2 := by
  unfold compact walk_unique at hr
  dsimp only at hr
  have := walk_preserves cfg { ctx := .ptr [], off := 0, len := 0 }
    (unique_cb cfg fuel (copy_cb cfg)) stop (Inv cfg)
    (fun k1 e st rc1 k3 st3 hP hst hcrc hcall =>
      unique_cb_preserves cfg fuel (copy_cb cfg) (Inv cfg)
        (fun k4 e4 st4 rc4 k5 st5 h4 hs4 hc4 hcall4 =>
          copy_cb_inv hc k4 e4 st4 rc4 k5 st5 h4 hs4 hc4 hcall4)
        k1 e st rc1 k3 st3 hP hst hcrc hcall)
    fuel (wblock_advance cfg k)
    { start := 0, next := block_advance_n cfg k.bend cfg.bspr, he_hdr := 0 } cfg.uninit ()
    (Inv.wblock_advance hc h)
  split at hr
  · cases hr
  · injection hr with hr; injection hr with _ hr
    rw [← hr]; exact this

theorem seg_all (l : List Nat) : seg l 0 l.length = l := by
  unfold seg; simp

/-- `entry_add` keeps the invariant; on success the appended entry is the last entry
of the current block and holds exactly `key` and `value`. -/
theorem entry_add_inv {cfg : Cfg} {k : Kvs} (hc : CfgOk cfg) (h : Inv cfg k) (ent : Ent)
    (key value : List Nat) (hk : key.length < 256) (hv : value.length < 65536) :
    Inv cfg (entry_add cfg k ent key value).2.1 ∧
    ((entry_add cfg k ent key value).1 = 0 →
      LastIs cfg (entry_add cfg k ent key value).2.1 key value) := by
  unfold entry_add
  have := entry_append_inv hc h ent { ctx := .ptr key, off := 0, len := key.length }
    { ctx := .ptr value, off := 0, len := value.length } hk hv
    (read_ptr_ok key k) (read_ptr_ok value k)
  refine ⟨this.1, fun h0 => ?_⟩
  obtain ⟨key2, val2, _, _, hl, hk2, hv2⟩ := this.2.2.2 h0
  have e1 : key2 = key := by rw [hk2 key rfl]; exact seg_all key
  have e2 : val2 = value := by rw [hv2 value rfl]; exact seg_all value
  rw [e1, e2] at hl
  exact hl

theorem kvs_write_loop_inv {cfg : Cfg} (hc : CfgOk cfg) (key value : List Nat)
    (hk : key.length < 256) (hv : value.length < 65536) (fuel : Nat) :
    ∀ (cnt : Nat) (k : Kvs) (ent : Ent) (rc : Int) (k2 : Kvs), Inv cfg k →
      kvs_write_loop cfg key value fuel cnt k ent = some (rc, k2) →
      Inv cfg k2 ∧ (rc = 0 → LastIs cfg k2 key value) := by
  intro cnt
  induction cnt with
  | zero =>
    intro k ent rc k2 h hr
    simp only [kvs_write_loop, Option.some.injEq, Prod.mk.injEq] at hr
    obtain ⟨h1, h2⟩ := hr
    subst h2
    refine ⟨h, fun h0 => ?_⟩
    rw [h0] at h1
    exact absurd h1 (by decide)
  | succ cnt ih =>
    intro k ent rc k2 h hr
    rw [kvs_write_loop] at hr
    have ha := entry_add_inv hc h ent key value hk hv
    generalize entry_add cfg k ent key value = r at ha hr
    obtain ⟨rc1, k1, ent1⟩ := r
    dsimp only at hr ha
    by_cases h0 : rc1 = 0
    · rw [if_pos h0] at hr
      injection hr with hr; injection hr with hr1 hr2
      subst hr2
      exact ⟨ha.1, fun _ => ha.2 h0⟩
    · rw [if_neg h0] at hr
      split at hr
      · cases hr
      · rename_i rc3 k3 hcomp
        exact ih k3 ent1 rc k2 (compact_inv hc ha.1 _ fuel rc3 k3 hcomp) hr

/-- `kvs_write` keeps the invariant; when it returns 0 it either found the same value
already stored (and changed nothing) or appended the entry as the last one. -/
theorem kvs_write_inv {cfg : Cfg} {k : Kvs} (hc : CfgOk cfg) (h : Inv cfg k)
    (key value : List Nat) (hk : key.length < 256) (hv : value.length < 65536) (fuel : Nat)
    (rc : Int) (k2 : Kvs) (hr : kvs_write cfg k key value fuel = some (rc, k2)) :
    Inv cfg k2 ∧ (rc = 0 → LastIs cfg k2 key value ∨
      (k2 = k ∧ ∃ ent, kvs_entry_get cfg k wlk0 key fuel = some (0, ent) ∧
        entry_get_vlen ent = value.length ∧ value.length ≠ 0 ∧
        differ k { ctx := .ptr value, off := 0, len := value.length }
          { ctx := .ent ent, off := entry_get_klen ent, len := entry_get_vlen ent } = false)) := by
  unfold kvs_write at hr
  have hready := h.ready
  rw [if_neg (by simp [hready])] at hr
  split at hr
  · cases hr
  · rename_i rc1 ent hget
    dsimp only at hr
    have hloop := kvs_write_loop_inv hc key value hk hv fuel cfg.bcnt k ent rc k2 h
    by_cases hcond : rc1 = 0 ∧ entry_get_vlen ent = value.length
    · rw [if_pos hcond] at hr
      obtain ⟨hrc, hvl⟩ := hcond
      subst hrc
      have hne : value.length ≠ 0 := by
        intro hz
        have hready2 : ¬ (¬ k.ready = true) := by simp [hready]
        unfold kvs_entry_get at hget
        rw [if_neg hready2] at hget
        unfold entry_get at hget
        dsimp only at hget
        split at hget
        · cases hget
        · rename_i arg _
          split at hget
          · injection hget with hget; injection hget with hget _
            exact absurd hget (by decide)
          · rename_i hnot
            injection hget with hget; injection hget with _ hget
            rw [hget] at hnot
            apply hnot
            right; omega
      rw [if_neg hne] at hr
      cases hd : differ k { ctx := .ptr value, off := 0, len := value.length }
          { ctx := .ent ent, off := entry_get_klen ent, len := entry_get_vlen ent }
      · rw [hd] at hr
        simp only [Bool.not_false, if_true, Option.some.injEq, Prod.mk.injEq] at hr
        obtain ⟨hr1, hr2⟩ := hr
        subst hr2
        exact ⟨h, fun _ => Or.inr ⟨rfl, ent, hget, hvl, hne, hd⟩⟩
      · rw [hd] at hr
        simp only [Bool.not_true, Bool.false_eq_true, if_false] at hr
        exact (fun p => ⟨p.1, fun h0 => Or.inl (p.2 h0)⟩) (hloop hr)
    · rw [if_neg hcond] at hr
      simp only [Bool.false_eq_true, if_false] at hr
      exact (fun p => ⟨p.1, fun h0 => Or.inl (p.2 h0)⟩) (hloop hr)

/-- One more round of fuel does not change a `walk` that came to an end. -/
theorem walk_fuel_succ {σ : Type} (cfg : Cfg) (rdkey : ReadCb) (cb : Cb σ) (stop : Nat) :
    ∀ (fuel : Nat) (k : Kvs) (ent : Ent) (wc : Nat) (st : σ),
      (walk cfg rdkey cb stop fuel k ent wc st).rc ≠ none →
      walk cfg rdkey cb stop (fuel + 1) k ent wc st = walk cfg rdkey cb stop fuel k ent wc st := by
  intro fuel
  induction fuel with
  | zero => intro k ent wc st h; exact absurd rfl h
  | succ fuel ih =>
    intro k ent wc st h
    rw [walk] at h
    conv_rhs => rw [walk]
    conv_lhs => rw [walk]
    dsimp only at h ⊢
    generalize (if ent.next < cfg.bcnt * cfg.bsz then ent.next else 0) = s0 at h ⊢
    generalize entry_get_info cfg k { start := s0, next := ent.next, he_hdr := ent.he_hdr } = gi
      at h ⊢
    obtain ⟨rc0, ent1⟩ := gi
    dsimp only at h ⊢
    by_cases h1 : s0 = stop
    · rw [if_pos h1]; rw [if_pos h1]
    rw [if_neg h1] at h ⊢; rw [if_neg h1]
    by_cases h2 : rc0 ≠ 0
    · rw [if_pos h2] at h ⊢; rw [if_pos h2]
      by_cases h6 : ent1.next ≠ stop
      · rw [if_pos h6] at h ⊢; rw [if_pos h6]; exact ih _ _ _ _ h
      · rw [if_neg h6]; rw [if_neg h6]
    rw [if_neg h2] at h ⊢; rw [if_neg h2]
    generalize (if ent1.start &&& (cfg.bsz - 1) = 0 then entry_get_wrapcnt k ent1 wc
      else wc) = wc1 at h ⊢
    by_cases h3 : ent1.start &&& (cfg.bsz - 1) = 0 ∧ u32 (wc1 + 1) < k.wrapcnt
    · rw [if_pos h3] at h ⊢; rw [if_pos h3]
      by_cases h4 : u32 (ent1.start + cfg.bsz) ≠ stop
      · rw [if_pos h4] at h ⊢; rw [if_pos h4]; exact ih _ _ _ _ h
      · rw [if_neg h4]; rw [if_neg h4]
    rw [if_neg h3] at h ⊢; rw [if_neg h3]
    by_cases h5 : differ k { ctx := .ent ent1, off := 0, len := rdkey.len } rdkey = true ∨
        ¬ entry_kvcrc_ok k ent1 = true
    · rw [if_pos h5] at h ⊢; rw [if_pos h5]
      by_cases h6 : ent1.next ≠ stop
      · rw [if_pos h6] at h ⊢; rw [if_pos h6]; exact ih _ _ _ _ h
      · rw [if_neg h6]; rw [if_neg h6]
    rw [if_neg h5] at h ⊢; rw [if_neg h5]
    generalize cb k ent1 st = c at h ⊢
    cases c with
    | none => rfl
    | some r =>
      obtain ⟨rc, k1, st1⟩ := r
      dsimp only at h ⊢
      by_cases h7 : rc ≠ 0
      · rw [if_pos h7]; rw [if_pos h7]
      · rw [if_neg h7] at h ⊢; rw [if_neg h7]
        by_cases h6 : ent1.next ≠ stop
        · rw [if_pos h6] at h ⊢; rw [if_pos h6]; exact ih _ _ _ _ h
        · rw [if_neg h6]; rw [if_neg h6]

/-- More fuel does not change a `walk` that came to an end. -/
theorem walk_fuel_mono {σ : Type} (cfg : Cfg) (rdkey : ReadCb) (cb : Cb σ) (stop : Nat)
    (fuel : Nat) (k : Kvs) (ent : Ent) (wc : Nat) (st : σ)
    (h : (walk cfg rdkey cb stop fuel k ent wc st).rc ≠ none) :
    ∀ (d : Nat), walk cfg rdkey cb stop (fuel + d) k ent wc st
      = walk cfg rdkey cb stop fuel k ent wc st := by
  intro d
  induction d with
  | zero => rfl
  | succ d ih =>
    rw [← Nat.add_assoc, walk_fuel_succ cfg rdkey cb stop (fuel + d) k ent wc st (by rw [ih]; exact h), ih]

theorem entry_get_loop_mono (cfg : Cfg) (k : Kvs) (rdkey : ReadCb) (fuel d : Nat) :
    ∀ (n : Nat) (wlk : Ent) (stop start : Nat) (arg r : EntryGetArg),
      entry_get_loop cfg k rdkey fuel n wlk stop start arg = some r →
      entry_get_loop cfg k rdkey (fuel + d) n wlk stop start arg = some r := by
  intro n
  induction n with
  | zero => intro wlk stop start arg r h; exact h
  | succ n ih =>
    intro wlk stop start arg r h
    rw [entry_get_loop] at h ⊢
    dsimp only at h ⊢
    have hm := walk_fuel_mono cfg rdkey (entry_get_cb rdkey.len) stop fuel k
      { start := wlk.start, next := start, he_hdr := wlk.he_hdr } cfg.uninit arg
    generalize walk cfg rdkey (entry_get_cb rdkey.len) stop fuel k
      { start := wlk.start, next := start, he_hdr := wlk.he_hdr } cfg.uninit arg = w at h hm
    cases hrc : w.rc with
    | none => rw [hrc] at h; cases h
    | some rc =>
      rw [hm (by rw [hrc]; exact Option.some_ne_none rc) d]
      rw [hrc] at h ⊢
      dsimp only at h ⊢
      by_cases hf : w.st.found = true
      · rw [if_pos hf] at h ⊢; exact h
      · rw [if_neg hf] at h ⊢; exact ih _ _ _ _ _ h

/-- More fuel does not change an `entry_get` that came to an end. -/
theorem kvs_entry_get_mono (cfg : Cfg) (k : Kvs) (ent : Ent) (key : List Nat) (fuel d : Nat)
    (r : Int × Ent) (h : kvs_entry_get cfg k ent key fuel = some r) :
    kvs_entry_get cfg k ent key (fuel + d) = some r := by
  unfold kvs_entry_get at h ⊢
  split
  · rename_i hr; rw [if_pos hr] at h; exact h
  · rename_i hr; rw [if_neg hr] at h
    unfold entry_get at h ⊢
    dsimp only at h ⊢
    split at h
    · cases h
    · rename_i arg harg
      rw [entry_get_loop_mono cfg k _ fuel d _ _ _ _ _ _ harg]
      exact h

theorem ChainL.bounds {cfg : Cfg} {k : Kvs} {a b : Nat} {es : List Ent}
    (h : ChainL cfg k a es b) : ∀ e ∈ es, a ≤ e.start ∧ e.start + 8 ≤ e.next ∧ e.next ≤ b := by
  induction h with
  | nil a => intro e he; cases he
  | cons e0 es b hd h8 ht ih =>
    intro e he
    rcases List.mem_cons.mp he with rfl | he
    · exact ⟨Nat.le_refl _, h8, ht.le⟩
    · have := ih e he
      omega

theorem ChainL.tail_bounds {cfg : Cfg} {k : Kvs} {a b : Nat} {e0 : Ent} {es : List Ent}
    (h : ChainL cfg k a (e0 :: es) b) : ∀ e ∈ es, a + 8 ≤ e.start := by
  obtain ⟨ha, _, h8, ht⟩ := h.cons_inv
  intro e he
  have := ht.bounds e he
  omega

theorem entry_get_wrapcnt_head (k : Kvs) (e : Ent) (wc : Nat) (hk : entry_get_klen e = 0)
    (h8 : e.start + 8 ≤ e.next) (hl : e.next ≤ k.dev.length)
    (hs : seg k.dev (e.start + 4) 4 = put_le32 k.wrapcnt) (hw : k.wrapcnt < 4294967296)
    (h32 : k.dev.length < 4294967296) :
    entry_get_wrapcnt k e wc = k.wrapcnt := by
  unfold entry_get_wrapcnt KVS_WRAPCNTSIZE
  rw [if_neg (by simp [hk]), entry_data_read_ok k e 0 4 (by omega) (by omega) (by omega)]
  dsimp only
  rw [Nat.add_zero, hs, get_put_le32 _ hw]

/-- No entry of the write block is taken for the header of a stale block, as long as the
wrap counter has not reached its last value. -/
theorem noskip_of_inv {cfg : Cfg} {k : Kvs} (hc : CfgOk cfg) (h : Inv cfg k)
    (hw : k.wrapcnt < 4294967295) (es : List Ent)
    (hch : ChainL cfg k (k.bend - cfg.bsz) es k.pos) (hh : HeadOk k es) :
    ∀ e ∈ es, NoSkip cfg k e := by
  obtain ⟨jb, hjb, hb⟩ := hc.bsz_pow
  have hbl := h.bend_le
  have hdl := h.devlen
  have hpl := h.pos_le
  cases es with
  | nil => intro e he; cases he
  | cons e0 es =>
    intro e he wc hskip
    obtain ⟨hmask, hlt⟩ := hskip
    have hb0 := hch.bounds e he
    rcases List.mem_cons.mp he with rfl | he2
    · have hk := hh e (by simp)
      rw [entry_get_wrapcnt_head k e wc hk.1 hb0.2.1 (by omega) hk.2 h.wrap
        (by have := hc.small; omega), u32_of_lt _ (by omega)] at hlt
      omega
    · have ht := hch.tail_bounds e he2
      rw [and_bsz_mask cfg jb _ hb] at hmask
      have hbase := sub_bsz_mod cfg.bsz k.bend h.bend_mod
      have hge := h.bend_ge
      have : e.start = (k.bend - cfg.bsz) + (e.start - (k.bend - cfg.bsz)) := by omega
      rw [this, Nat.add_mod, hbase, Nat.zero_add, Nat.mod_mod,
        Nat.mod_eq_of_lt (by omega)] at hmask
      omega


theorem entry_get_cb_eq (klen : Nat) (k : Kvs) (e : Ent) (st : EntryGetArg) :
    entry_get_cb klen k e st = some (0, k, entry_get_f klen e st) := by
  unfold entry_get_cb entry_get_f
  split <;> rfl

/-- On a store whose newest entry is `key = val`, `entry_get` finds that entry. -/
theorem entry_get_loop_last {cfg : Cfg} {k : Kvs} (hc : CfgOk cfg) (h : Inv cfg k)
    (hw : k.wrapcnt < 4294967295) (key val : List Nat) (hk : key.length < 256)
    (hv : val.length < 65536) (hl : LastIs cfg k key val) :
    ∃ e fuel0, e.he_hdr = hdrWord key.length val.length ∧
      e.start + 8 + key.length + val.length ≤ e.next ∧ e.next ≤ k.dev.length ∧
      seg k.dev (e.start + 4) (key.length + val.length + 4) =
        key ++ val ++ put_le32 (crc32 0 (key ++ val)) ∧
      ∀ (fuel n : Nat) (wlk : Ent) (arg : EntryGetArg), fuel0 ≤ fuel →
        entry_get_loop cfg k { ctx := .ptr key, off := 0, len := key.length } fuel (n + 1) wlk
          k.pos (k.bend - cfg.bsz) arg = some { ent := e, found := true } := by
  obtain ⟨es, e, hch, hh, hn, hhdr, hfit, hdata⟩ := hl
  have hbl := h.bend_le
  have hdl := h.devlen
  have hpl := h.pos_le
  have hnl : e.next ≤ k.dev.length := by omega
  refine ⟨e, es.length + 2, hhdr, hfit, hnl, hdata, ?_⟩
  intro fuel n wlk arg hf
  have hkl : entry_get_klen e = key.length := by
    rw [entry_get_klen_eq, hhdr]; exact (hdrWord_facts _ _ hk hv).2.2.1
  have hvl : entry_get_vlen e = val.length := by
    rw [entry_get_vlen_eq, hhdr]; exact (hdrWord_facts _ _ hk hv).2.2.2
  have hwalk := walk_chain cfg k { ctx := .ptr key, off := 0, len := key.length }
    (entry_get_cb key.length) (entry_get_f key.length) k.pos
    (fun e st => entry_get_cb_eq key.length k e st)
    (by rw [Nat.mul_comm]; omega) (es ++ [e]) (k.bend - cfg.bsz) fuel
    { start := wlk.start, next := k.bend - cfg.bsz, he_hdr := wlk.he_hdr } cfg.uninit arg hch
    (noskip_of_inv hc h hw _ hch hh) (by simp) rfl (by simp; omega)
  rw [entry_get_loop]
  dsimp only
  rw [hwalk]
  dsimp only
  rw [List.foldl_append]
  simp only [List.foldl_cons, List.foldl_nil]
  have hkey : seg k.dev (e.start + 4) key.length = key := by
    have := seg_seg k.dev (e.start + 4) (key.length + val.length + 4) 0 key.length (by omega)
    rw [Nat.add_zero, hdata] at this
    rw [← this]
    unfold seg
    simp
  have h32 : k.dev.length < 4294967296 := by
    have := hc.small
    have := h.devlen
    omega
  have hdiff := differ_entry_ptr k e key hkey (by omega) hnl h32
  have hcrc : entry_kvcrc_ok k e = true := by
    rw [entry_kvcrc_ok_eq k e (by rw [hkl, hvl]; omega) (by rw [hkl, hvl]; omega)
      (by rw [hkl, hvl]; omega), hkl, hvl]
    have h1 : seg k.dev (e.start + 4) (key.length + val.length) = key ++ val := by
      have := seg_seg k.dev (e.start + 4) (key.length + val.length + 4) 0
        (key.length + val.length) (by omega)
      rw [Nat.add_zero, hdata] at this
      rw [← this]
      unfold seg
      simp
      rw [← List.append_assoc, List.take_left' (by simp)]
    have h2 : seg k.dev (e.start + 4 + (key.length + val.length)) 4
        = put_le32 (crc32 0 (key ++ val)) := by
      have := seg_seg k.dev (e.start + 4) (key.length + val.length + 4)
        (key.length + val.length) 4 (by omega)
      rw [hdata] at this
      rw [← this]
      unfold seg
      rw [List.drop_left' (by simp)]
      rfl
    rw [h1, h2, get_put_le32 _ (crc32_lt _ _ (by norm_num))]
    simp
  have hvis : ∀ st, visit k { ctx := .ptr key, off := 0, len := key.length }
      (entry_get_f key.length) e st = { ent := e, found := true } := by
    intro st
    unfold visit
    rw [if_neg (by simp [hdiff, hcrc])]
    unfold entry_get_f
    rw [if_pos hkl]
  rw [hvis]
  rfl

/-- On a store whose newest entry is `key = val`, `kvs_entry_get` finds that entry, or
reports that there is none when `val` is empty. -/
theorem kvs_entry_get_last {cfg : Cfg} {k : Kvs} (hc : CfgOk cfg) (h : Inv cfg k)
    (hw : k.wrapcnt < 4294967295) (key val : List Nat) (hk : key.length < 256)
    (hv : val.length < 65536) (hl : LastIs cfg k key val) :
    ∃ e fuel0, e.he_hdr = hdrWord key.length val.length ∧
      e.start + 8 + key.length + val.length ≤ e.next ∧ e.next ≤ k.dev.length ∧
      seg k.dev (e.start + 4) (key.length + val.length + 4) =
        key ++ val ++ put_le32 (crc32 0 (key ++ val)) ∧
      ∀ (fuel : Nat) (ent : Ent), fuel0 ≤ fuel →
        kvs_entry_get cfg k ent key fuel =
          some (if val.length = 0 then -KVS_ENOENT else 0, e) := by
  obtain ⟨e, fuel0, h1, h2, h3, h4, h5⟩ := entry_get_loop_last hc h hw key val hk hv hl
  refine ⟨e, fuel0, h1, h2, h3, h4, ?_⟩
  intro fuel ent hf
  obtain ⟨jb, hjb, hb⟩ := hc.bsz_pow
  have hsp := hc.spare
  have hsm := hc.small
  have hbpos : 0 < cfg.bsz := by rw [hb]; exact Nat.pow_pos (by norm_num)
  have hcnt : cfg.bcnt < 2147483648 := by
    have : cfg.bcnt ≤ cfg.bsz * cfg.bcnt := Nat.le_mul_of_pos_left _ hbpos
    omega
  have hbl := h.bend_le
  have hge := h.bend_ge
  have hvl : entry_get_vlen e = val.length := by
    rw [entry_get_vlen_eq, h1]; exact (hdrWord_facts _ _ hk hv).2.2.2
  unfold kvs_entry_get
  rw [if_neg (by simp [h.ready])]
  unfold entry_get
  dsimp only
  have e1 : u32 (cfg.bcnt + 4294967296 - cfg.bspr) = (cfg.bcnt - cfg.bspr - 1) + 1 := by
    unfold u32; omega
  have e2 : u32 (k.bend + 4294967296 - cfg.bsz) = k.bend - cfg.bsz := by
    unfold u32; omega
  rw [e1, e2, h5 fuel _ _ _ hf]
  dsimp only
  by_cases hz : val.length = 0
  · rw [if_pos hz, if_pos (by right; omega)]
  · rw [if_neg hz, if_neg (by simp; omega)]

/-- Reading the newest entry returns its value. -/
theorem kvs_read_last {cfg : Cfg} {k : Kvs} (hc : CfgOk cfg) (h : Inv cfg k)
    (hw : k.wrapcnt < 4294967295) (key val : List Nat) (hk : key.length < 256)
    (hv : val.length < 65536) (hl : LastIs cfg k key val) :
    ∃ fuel0, ∀ (fuel : Nat), fuel0 ≤ fuel →
      (val.length ≠ 0 → kvs_read cfg k key val.length fuel = some (0, val)) ∧
      (val.length = 0 → ∀ len, kvs_read cfg k key len fuel = some (-KVS_ENOENT, [])) := by
  obtain ⟨e, fuel0, h1, h2, h3, h4, h5⟩ := kvs_entry_get_last hc h hw key val hk hv hl
  refine ⟨fuel0, fun fuel hf => ⟨fun hz => ?_, fun hz len => ?_⟩⟩
  · unfold kvs_read
    rw [h5 fuel wlk0 hf, if_neg hz]
    dsimp only
    rw [if_neg (by simp)]
    have hkl : entry_get_klen e = key.length := by
      rw [entry_get_klen_eq, h1]; exact (hdrWord_facts _ _ hk hv).2.2.1
    rw [hkl, entry_data_read_ok k e _ _ (by omega) (by omega)
      (by have := hc.small; have := h.devlen; omega)]
    dsimp only
    have := seg_seg k.dev (e.start + 4) (key.length + val.length + 4) key.length
      val.length (by omega)
    rw [h4] at this
    rw [← this]
    unfold seg
    rw [List.append_assoc, List.drop_left' rfl, List.take_left' rfl]
  · unfold kvs_read
    rw [h5 fuel wlk0 hf, if_pos hz]
    dsimp only
    rw [if_pos (by unfold KVS_ENOENT; decide)]

/-- When the loop of `differ` finds no difference between a buffer and the data of an
entry, the compared bytes of the entry are on the device and equal the buffer. -/
theorem differ_loop_false_seg (k : Kvs) (e : Ent) (kl la lb : Nat) (value : List Nat)
    (h32 : k.dev.length < 4294967296) :
    ∀ (fuel len off : Nat), len ≤ fuel → e.start + 4 + kl + off + len < 4294967296 →
      differ_loop k { ctx := .ptr value, off := 0, len := la }
        { ctx := .ent e, off := kl, len := lb } fuel len off = false →
      (len ≠ 0 → e.start + 4 + kl + off + len ≤ e.next ∧
        e.start + 4 + kl + off + len ≤ k.dev.length) ∧
      seg k.dev (e.start + 4 + kl + off) len = seg value off len := by
  intro fuel
  induction fuel with
  | zero =>
    intro len off hf _ _
    have : len = 0 := by omega
    subst this
    exact ⟨fun h => absurd rfl h, by unfold seg; simp⟩
  | succ fuel ih =>
    intro len off hf hlt hd
    rw [differ_loop] at hd
    by_cases h0 : len = 0
    · subst h0
      exact ⟨fun h => absurd rfl h, by unfold seg; simp⟩
    rw [if_neg h0] at hd
    have hmin : KVS_MIN len KVS_BUFSIZE = min len 16 := by rw [KVS_MIN_eq]; rfl
    rw [hmin] at hd
    dsimp only at hd
    have hra : ReadCb.read k { ctx := .ptr value, off := 0, len := la } (0 + off) (min len 16)
        = .ok (seg value off (min len 16)) := by rw [Nat.zero_add]; rfl
    rw [hra] at hd
    dsimp only at hd
    have hrb : ReadCb.read k { ctx := .ent e, off := kl, len := lb } (kl + off) (min len 16)
        = entry_data_read k e (kl + off) (min len 16) := rfl
    rw [hrb] at hd
    cases hread : entry_data_read k e (kl + off) (min len 16) with
    | error err => rw [hread] at hd; cases hd
    | ok bufb =>
      rw [hread] at hd
      dsimp only at hd
      have hbd := entry_data_read_bounds k e _ _ _ (by omega) hread
      rw [entry_data_read_ok k e _ _ hbd.1 hbd.2 (by omega)] at hread
      injection hread with hread
      by_cases hne : seg value off (min len 16) ≠ bufb
      · rw [if_pos hne] at hd; cases hd
      · rw [if_neg hne] at hd
        have heq : seg value off (min len 16) = bufb := by
          by_contra hx; exact hne hx
        obtain ⟨ihb, ihs⟩ := ih _ _ (by omega) (by omega) hd
        have hlen : len = min len 16 + (len - min len 16) := by omega
        constructor
        · intro _
          by_cases hrest : len - min len 16 = 0
          · have : min len 16 = len := by omega
            rw [this] at hbd
            omega
          · have := ihb hrest
            omega
        · have a1 : e.start + 4 + (kl + off) = e.start + 4 + kl + off := by omega
          have a2 : e.start + 4 + kl + off + min len 16
              = e.start + 4 + kl + (off + min len 16) := by omega
          rw [a1] at hread
          rw [hlen, seg_append, seg_append, hread, heq, a2, ihs]

/-- When `differ` finds no difference between `value` and the value of the entry `e`,
reading the value of `e` gives `value`. -/
theorem read_of_not_differ (k : Kvs) (e : Ent) (value : List Nat)
    (hvl : entry_get_vlen e = value.length) (h0 : value.length ≠ 0)
    (h32 : k.dev.length < 4294967296) (hst : e.start < 2147483648)
    (hd : differ k { ctx := .ptr value, off := 0, len := value.length }
      { ctx := .ent e, off := entry_get_klen e, len := entry_get_vlen e } = false) :
    entry_data_read k e (entry_get_klen e) value.length = .ok value := by
  have hkl := klen_lt e
  have hvl2 := vlen_lt e
  unfold differ at hd
  rw [if_neg (by simp [hvl])] at hd
  obtain ⟨hb, hs⟩ := differ_loop_false_seg k e _ _ _ value h32 _ _ 0 (Nat.le_refl _)
    (by dsimp only; omega) hd
  rw [Nat.add_zero] at hs
  dsimp only at hb hs
  have := hb h0
  rw [entry_data_read_ok k e _ _ (by omega) (by omega) (by omega), hs, seg_zero_length]

/-- An invariant of store and callback argument that the callback keeps on the entries a
scan hands to it (decoded, matching the key, with a good CRC-32) holds after the scan,
whether the scan ended or not. -/
theorem walk_st_inv {σ : Type} (cfg : Cfg) (rdkey : ReadCb) (cb : Cb σ) (stop : Nat)
    (S : Kvs → σ → Prop)
    (hcb : ∀ (k : Kvs) (e0 : Ent) (st : σ) (rc : Int) (k2 : Kvs) (st2 : σ), S k st →
      e0.start ≤ cfg.bcnt * cfg.bsz → (entry_get_info cfg k e0).1 = 0 →
      differ k { ctx := .ent (entry_get_info cfg k e0).2, off := 0, len := rdkey.len } rdkey
        = false →
      entry_kvcrc_ok k (entry_get_info cfg k e0).2 = true →
      cb k (entry_get_info cfg k e0).2 st = some (rc, k2, st2) → S k2 st2) :
    ∀ (fuel : Nat) (k : Kvs) (ent : Ent) (wc : Nat) (st : σ), S k st →
      S (walk cfg rdkey cb stop fuel k ent wc st).kvs
        (walk cfg rdkey cb stop fuel k ent wc st).st := by
  intro fuel
  induction fuel with
  | zero => intro k ent wc st hP; exact hP
  | succ fuel ih =>
    intro k ent wc st hP
    rw [walk]
    dsimp only
    generalize hs0 : (if ent.next < cfg.bcnt * cfg.bsz then ent.next else 0) = s0
    have hb0 : s0 ≤ cfg.bcnt * cfg.bsz := by
      rw [← hs0]
      split <;> omega
    have hcb1 := hcb k { start := s0, next := ent.next, he_hdr := ent.he_hdr } st
    generalize entry_get_info cfg k { start := s0, next := ent.next, he_hdr := ent.he_hdr } = gi
      at hcb1
    obtain ⟨rc0, ent1⟩ := gi
    dsimp only at hcb1 ⊢
    by_cases h1 : s0 = stop
    · rw [if_pos h1]; exact hP
    rw [if_neg h1]
    by_cases h2 : rc0 ≠ 0
    · rw [if_pos h2]
      split
      · exact ih _ _ _ _ hP
      · exact hP
    rw [if_neg h2]
    have h20 : rc0 = 0 := by
      by_contra h; exact h2 h
    generalize (if ent1.start &&& (cfg.bsz - 1) = 0 then entry_get_wrapcnt k ent1 wc
      else wc) = wc1
    by_cases h3 : ent1.start &&& (cfg.bsz - 1) = 0 ∧ u32 (wc1 + 1) < k.wrapcnt
    · rw [if_pos h3]
      by_cases h4 : u32 (ent1.start + cfg.bsz) ≠ stop
      · rw [if_pos h4]; exact ih _ _ _ _ hP
      · rw [if_neg h4]; exact hP
    rw [if_neg h3]
    by_cases h5 : differ k { ctx := .ent ent1, off := 0, len := rdkey.len } rdkey = true ∨
        ¬ entry_kvcrc_ok k ent1 = true
    · rw [if_pos h5]
      by_cases h6 : ent1.next ≠ stop
      · rw [if_pos h6]; exact ih _ _ _ _ hP
      · rw [if_neg h6]; exact hP
    rw [if_neg h5]
    have hcrc : entry_kvcrc_ok k ent1 = true := by
      by_contra hn
      exact h5 (Or.inr hn)
    have hdf : differ k { ctx := .ent ent1, off := 0, len := rdkey.len } rdkey = false := by
      cases hd : differ k { ctx := .ent ent1, off := 0, len := rdkey.len } rdkey with
      | false => rfl
      | true => exact absurd (Or.inl hd) h5
    cases hcall : cb k ent1 st with
    | none => exact hP
    | some r =>
      obtain ⟨rc, k1, st1⟩ := r
      have hP1 := hcb1 rc k1 st1 hP hb0 h20 hdf hcrc hcall
      dsimp only
      by_cases h7 : rc ≠ 0
      · rw [if_pos h7]; exact hP1
      · rw [if_neg h7]
        by_cases h6 : ent1.next ≠ stop
        · rw [if_pos h6]; exact ih _ _ _ _ hP1
        · rw [if_neg h6]; exact hP1

theorem entry_get_loop_found (cfg : Cfg) (k : Kvs) (rdkey : ReadCb) (fuel : Nat) :
    ∀ (n : Nat) (wlk : Ent) (stop start : Nat) (arg res : EntryGetArg),
      (arg.found = true → FoundAt cfg k rdkey arg.ent) →
      entry_get_loop cfg k rdkey fuel n wlk stop start arg = some res →
      (res.found = true → FoundAt cfg k rdkey res.ent) := by
  intro n
  induction n with
  | zero =>
    intro wlk stop start arg res ha h
    rw [entry_get_loop] at h
    injection h with h
    rw [← h]
    exact ha
  | succ n ih =>
    intro wlk stop start arg res ha h
    rw [entry_get_loop] at h
    dsimp only at h
    have hS := walk_st_inv cfg rdkey (entry_get_cb rdkey.len) stop
      (fun k2 a => k2 = k ∧ (a.found = true → FoundAt cfg k rdkey a.ent))
      (by
        intro k1 e0 st rc k2 st2 hs hb h1 h2 h3 hcall
        obtain ⟨hk, hs⟩ := hs
        subst hk
        rw [entry_get_cb_eq] at hcall
        injection hcall with hcall
        injection hcall with hc1 hc2
        injection hc2 with hc2 hc3
        refine ⟨by rw [← hc2], ?_⟩
        rw [← hc3]
        unfold entry_get_f
        split
        · intro _
          exact ⟨e0, hb, h1, rfl, h2, h3⟩
        · exact hs)
      fuel k { wlk with next := start } cfg.uninit arg ⟨rfl, ha⟩
    generalize walk cfg rdkey (entry_get_cb rdkey.len) stop fuel k { wlk with next := start }
      cfg.uninit arg = r at h hS
    cases hrc : r.rc with
    | none =>
      rw [hrc] at h
      exact absurd h (by simp)
    | some rc =>
      rw [hrc] at h
      dsimp only at h
      by_cases hf : r.st.found = true
      · rw [if_pos hf] at h
        injection h with h
        rw [← h]
        exact hS.2
      · rw [if_neg hf] at h
        exact ih _ _ _ _ res hS.2 h

/-- An entry that `kvs_entry_get` returns with the return code 0 has been decoded from the
device and has passed the filters of the scan. -/
theorem kvs_entry_get_found (cfg : Cfg) (k : Kvs) (ent0 : Ent) (key : List Nat) (fuel : Nat)
    (e : Ent) (h : kvs_entry_get cfg k ent0 key fuel = some (0, e)) :
    FoundAt cfg k { ctx := .ptr key, off := 0, len := key.length } e ∧
      entry_get_vlen e ≠ 0 := by
  unfold kvs_entry_get at h
  by_cases hr : ¬ k.ready = true
  · rw [if_pos hr] at h
    injection h with h
    exact absurd (congrArg Prod.fst h) (show ¬ (-KVS_EINVAL : Int) = 0 by decide)
  · rw [if_neg hr] at h
    unfold entry_get at h
    dsimp only at h
    have hl := entry_get_loop_found cfg k { ctx := .ptr key, off := 0, len := key.length } fuel
      (u32 (cfg.bcnt + 4294967296 - cfg.bspr)) { start := 0, next := 0, he_hdr := 0 } k.pos
      (u32 (k.bend + 4294967296 - cfg.bsz)) { ent := ent0, found := false }
    generalize entry_get_loop cfg k { ctx := .ptr key, off := 0, len := key.length } fuel
      (u32 (cfg.bcnt + 4294967296 - cfg.bspr)) { start := 0, next := 0, he_hdr := 0 } k.pos
      (u32 (k.bend + 4294967296 - cfg.bsz)) { ent := ent0, found := false } = r at h hl
    cases r with
    | none => exact absurd h (by simp)
    | some arg =>
      dsimp only at h
      have hl2 := hl arg (fun hf => absurd hf (by simp)) rfl
      by_cases hc : ¬ arg.found = true ∨ entry_get_vlen arg.ent = 0
      · rw [if_pos hc] at h
        injection h with h
        exact absurd (congrArg Prod.fst h) (show ¬ (-KVS_ENOENT : Int) = 0 by decide)
      · rw [if_neg hc] at h
        injection h with h
        have he : arg.ent = e := congrArg Prod.snd h
        rw [← he]
        have hf : arg.found = true := by
          by_contra hh; exact hc (Or.inl hh)
        exact ⟨hl2 hf, fun hv => hc (Or.inr hv)⟩

/-- An entry that `kvs_entry_get` returns with the return code 0 starts inside the
region. -/
theorem kvs_entry_get_start (cfg : Cfg) (k : Kvs) (ent0 : Ent) (key : List Nat) (fuel : Nat)
    (e : Ent) (h : kvs_entry_get cfg k ent0 key fuel = some (0, e)) :
    e.start ≤ cfg.bcnt * cfg.bsz := by
  obtain ⟨⟨e0, hb, -, h1, -, -⟩, -⟩ := kvs_entry_get_found cfg k ent0 key fuel e h
  rw [← h1, entry_get_info_start]
  exact hb

/-- After a successful `kvs_write` of a non-empty value, `kvs_read` returns the value. -/
theorem read_after_write_aux {cfg : Cfg} {k : Kvs} (hc : CfgOk cfg) (h : Inv cfg k)
    (key value : List Nat) (hk : key.length < 256) (hv0 : value.length ≠ 0)
    (hv : value.length < 65536) (fuel : Nat) (k2 : Kvs)
    (hr : kvs_write cfg k key value fuel = some (0, k2)) (hw : k2.wrapcnt < 4294967295) :
    ∃ fuel0, ∀ fuel2, fuel0 ≤ fuel2 →
      kvs_read cfg k2 key value.length fuel2 = some (0, value) := by
  obtain ⟨hI2, hcase⟩ := kvs_write_inv hc h key value hk hv fuel 0 k2 hr
  rcases hcase rfl with hl | ⟨hk2, ent, hget, hvl, _, hd⟩
  · obtain ⟨fuel0, hf⟩ := kvs_read_last hc hI2 hw key value hk hv hl
    exact ⟨fuel0, fun fuel2 h2 => (hf fuel2 h2).1 hv0⟩
  · subst hk2
    refine ⟨fuel, fun fuel2 h2 => ?_⟩
    obtain ⟨d, rfl⟩ : ∃ d, fuel2 = fuel + d := ⟨fuel2 - fuel, by omega⟩
    unfold kvs_read
    rw [kvs_entry_get_mono cfg k2 wlk0 key fuel d _ hget]
    dsimp only
    have hst := kvs_entry_get_start cfg k2 wlk0 key fuel ent hget
    have hsm := hc.small
    have hdl := h.devlen
    rw [if_neg (by simp), read_of_not_differ k2 ent value hvl hv0 (by omega)
      (by rw [Nat.mul_comm] at hst; omega) hd]

/-- After a successful `kvs_write` of the empty value, `kvs_read` reports that there is
no entry. -/
theorem read_after_delete_aux {cfg : Cfg} {k : Kvs} (hc : CfgOk cfg) (h : Inv cfg k)
    (key : List Nat) (hk : key.length < 256) (fuel : Nat) (k2 : Kvs)
    (hr : kvs_write cfg k key [] fuel = some (0, k2)) (hw : k2.wrapcnt < 4294967295) :
    ∃ fuel0, ∀ fuel2, fuel0 ≤ fuel2 → ∀ len,
      kvs_read cfg k2 key len fuel2 = some (-KVS_ENOENT, []) := by
  obtain ⟨hI2, hcase⟩ := kvs_write_inv hc h key [] hk (by simp) fuel 0 k2 hr
  rcases hcase rfl with hl | ⟨_, ent, _, _, hne, _⟩
  · obtain ⟨fuel0, hf⟩ := kvs_read_last hc hI2 hw key [] hk (by simp) hl
    exact ⟨fuel0, fun fuel2 h2 => (hf fuel2 h2).2 rfl⟩
  · exact absurd rfl hne

theorem exCfg_ok : CfgOk exCfg where
  psz_pow := ⟨2, by decide, rfl⟩
  bsz_pow := ⟨6, by decide, rfl⟩
  psz_le := by decide
  spare := by decide
  small := by decide
  healthy := fun _ => rfl

set_option maxRecDepth 100000 in
theorem exK0_inv : Inv exCfg exK0 where
  ready := rfl
  devlen := by decide
  pbuf := rfl
  cookie := rfl
  csz := by decide
  bend_mod := by decide
  bend_ge := by decide
  bend_le := by decide
  pos_ge := by decide
  pos_le := by decide
  pos_mod := by decide
  wrap := by decide
  chain := ⟨[], ChainL.nil 0, fun e he => by cases he⟩

set_option maxRecDepth 100000 in
/-- Mounting the erased region gives the store `exK0`. -/
theorem exK0_mount : kvs_mount exCfg exRaw 4 = some (0, exK0) := by decide

set_option maxRecDepth 100000 in
theorem exK1_write : kvs_write exCfg exK0 [97] [1] 8 = some (0, exK1) := by decide

set_option maxRecDepth 100000 in
theorem exK2_write : kvs_write exCfg exK1 [97] [2, 3] 8 = some (0, exK2) := by decide

set_option maxRecDepth 100000 in
theorem exK3_delete : kvs_delete exCfg exK1 [97] 8 = some (0, exK3) := by decide

set_option maxRecDepth 100000 in
theorem exK_wrap : exK1.wrapcnt < 4294967295 ∧ exK2.wrapcnt < 4294967295 ∧
    exK3.wrapcnt < 4294967295 := by decide

/-- The ways a `walk` can end when its callback keeps `Q` as long as it returns 0 and
establishes `R r` when it returns `r ≠ 0`: either every call returned 0 and the walk
returns 0 (or ran out of fuel), or it returns the non-zero value of the call that
established `R`. -/
theorem walk_stop {σ : Type} (cfg : Cfg) (rdkey : ReadCb) (cb : Cb σ) (stop : Nat)
    (Q : σ → Prop) (R : Int → σ → Prop)
    (hcb : ∀ (k : Kvs) (e : Ent) (st : σ) (rc : Int) (k2 : Kvs) (st2 : σ), Q st →
      cb k e st = some (rc, k2, st2) → (rc = 0 → Q st2) ∧ (rc ≠ 0 → R rc st2)) :
    ∀ (fuel : Nat) (k : Kvs) (ent : Ent) (wc : Nat) (st : σ), Q st →
      (Q (walk cfg rdkey cb stop fuel k ent wc st).st ∧
        ((walk cfg rdkey cb stop fuel k ent wc st).rc = none ∨
         (walk cfg rdkey cb stop fuel k ent wc st).rc = some 0)) ∨
      (∃ r, r ≠ 0 ∧ (walk cfg rdkey cb stop fuel k ent wc st).rc = some r ∧
        R r (walk cfg rdkey cb stop fuel k ent wc st).st) := by
  intro fuel
  induction fuel with
  | zero => intro k ent wc st hQ; exact Or.inl ⟨hQ, Or.inl rfl⟩
  | succ fuel ih =>
    intro k ent wc st hQ
    rw [walk]
    dsimp only
    generalize (if ent.next < cfg.bcnt * cfg.bsz then ent.next else 0) = s0
    generalize entry_get_info cfg k { start := s0, next := ent.next, he_hdr := ent.he_hdr } = gi
    obtain ⟨rc0, ent1⟩ := gi
    dsimp only
    have hdone : (Q st ∧ ((some (0 : Int)) = none ∨ (some (0 : Int)) = some 0)) :=
      ⟨hQ, Or.inr rfl⟩
    by_cases h1 : s0 = stop
    · rw [if_pos h1]; exact Or.inl hdone
    rw [if_neg h1]
    by_cases h2 : rc0 ≠ 0
    · rw [if_pos h2]
      by_cases h6 : ent1.next ≠ stop
      · rw [if_pos h6]; exact ih _ _ _ _ hQ
      · rw [if_neg h6]; exact Or.inl hdone
    rw [if_neg h2]
    generalize (if ent1.start &&& (cfg.bsz - 1) = 0 then entry_get_wrapcnt k ent1 wc
      else wc) = wc1
    by_cases h3 : ent1.start &&& (cfg.bsz - 1) = 0 ∧ u32 (wc1 + 1) < k.wrapcnt
    · rw [if_pos h3]
      by_cases h4 : u32 (ent1.start + cfg.bsz) ≠ stop
      · rw [if_pos h4]; exact ih _ _ _ _ hQ
      · rw [if_neg h4]; exact Or.inl hdone
    rw [if_neg h3]
    by_cases h5 : differ k { ctx := .ent ent1, off := 0, len := rdkey.len } rdkey = true ∨
        ¬ entry_kvcrc_ok k ent1 = true
    · rw [if_pos h5]
      by_cases h6 : ent1.next ≠ stop
      · rw [if_pos h6]; exact ih _ _ _ _ hQ
      · rw [if_neg h6]; exact Or.inl hdone
    rw [if_neg h5]
    cases hcall : cb k ent1 st with
    | none => exact Or.inl ⟨hQ, Or.inl rfl⟩
    | some r =>
      obtain ⟨rc, k1, st1⟩ := r
      have hc1 := hcb k ent1 st rc k1 st1 hQ hcall
      dsimp only
      by_cases h7 : rc ≠ 0
      · rw [if_pos h7]; exact Or.inr ⟨rc, h7, rfl, hc1.2 h7⟩
      · rw [if_neg h7]
        have hQ1 := hc1.1 (by simpa using h7)
        by_cases h6 : ent1.next ≠ stop
        · rw [if_pos h6]; exact ih _ _ _ _ hQ1
        · rw [if_neg h6]; exact Or.inl ⟨hQ1, Or.inr rfl⟩

/-- `unique_cb` returns 0 without a call, or what the wrapped callback returns. -/
theorem unique_cb_stop {σ : Type} (cfg : Cfg) (fuel : Nat) (cb : Cb σ)
    (Q : σ → Prop) (R : Int → σ → Prop)
    (hcb : ∀ (k : Kvs) (e : Ent) (st : σ) (rc : Int) (k2 : Kvs) (st2 : σ), Q st →
      cb k e st = some (rc, k2, st2) → (rc = 0 → Q st2) ∧ (rc ≠ 0 → R rc st2))
    (k : Kvs) (e : Ent) (st : σ) (rc : Int) (k2 : Kvs) (st2 : σ) (hQ : Q st)
    (h : unique_cb cfg fuel cb k e st = some (rc, k2, st2)) :
    (rc = 0 → Q st2) ∧ (rc ≠ 0 → R rc st2) := by
  have hskip : ∀ (x : Kvs), some ((0 : Int), x, st) = some (rc, k2, st2) →
      (rc = 0 → Q st2) ∧ (rc ≠ 0 → R rc st2) := by
    intro x hx
    injection hx with hx; injection hx with hx1 hx; injection hx with _ hx
    subst hx1; subst hx
    exact ⟨fun _ => hQ, fun hn => absurd rfl hn⟩
  unfold unique_cb at h
  split at h
  · exact hskip _ h
  · dsimp only at h
    split at h
    · cases h
    · split at h
      · exact hcb k e st rc k2 st2 hQ h
      · exact hskip _ h

theorem logCb_stop (f : Kvs → Ent → List (Ent × Int) → Int) (k : Kvs) (e : Ent)
    (st : List (Ent × Int)) (rc : Int) (k2 : Kvs) (st2 : List (Ent × Int)) (hQ : LogClean st)
    (h : logCb f k e st = some (rc, k2, st2)) :
    (rc = 0 → LogClean st2) ∧ (rc ≠ 0 → LogStop rc st2) := by
  unfold logCb at h
  injection h with h; injection h with h1 h; injection h with _ h
  subst h
  rw [h1]
  constructor
  · intro h0 p hp
    rcases List.mem_append.mp hp with hp | hp
    · exact hQ p hp
    · rw [List.mem_singleton] at hp; rw [hp]; exact h0
  · intro _
    exact ⟨st, e, rfl, hQ⟩

theorem snoc_split {α : Type} (l1 l2 l : List α) (p q : α) (h : l1 ++ p :: l2 = l ++ [q]) :
    (l2 = [] ∧ p = q) ∨ p ∈ l := by
  rcases List.eq_nil_or_concat l2 with h2 | ⟨l3, b, h2⟩
  · subst h2
    have := List.append_inj' h rfl
    left
    exact ⟨rfl, by simpa using this.2⟩
  · subst h2
    right
    have h3 : l1 ++ p :: l3.concat b = (l1 ++ p :: l3) ++ [b] := by simp
    rw [h3] at h
    have := (List.append_inj' h rfl).1
    rw [← this]
    simp

/-- What the two ways a walk can end mean for the record of the calls. -/
theorem log_stop_last (rc : Option Int) (log : List (Ent × Int))
    (h : (LogClean log ∧ (rc = none ∨ rc = some 0)) ∨ (∃ r, r ≠ 0 ∧ rc = some r ∧ LogStop r log))
    (l1 l2 : List (Ent × Int)) (p : Ent × Int) (hl : log = l1 ++ p :: l2) (hp : p.2 ≠ 0) :
    l2 = [] ∧ rc = some p.2 := by
  rcases h with ⟨hc, _⟩ | ⟨r, _, hrc, l, e, hlog, hcl⟩
  · exact absurd (hc p (by rw [hl]; simp)) hp
  · rw [hl] at hlog
    rcases snoc_split l1 l2 l p (e, r) hlog with ⟨h2, hpq⟩ | hmem
    · rw [hpq]; exact ⟨h2, hrc⟩
    · exact absurd (hcl p hmem) hp

/-- In `kvs_walk`, a recorded call that returned a non-zero value is the last call, and
its value is what `kvs_walk` returns. -/
theorem kvs_walk_last (cfg : Cfg) (k : Kvs) (key : List Nat)
    (f : Kvs → Ent → List (Ent × Int) → Int) (fuel : Nat)
    (l1 l2 : List (Ent × Int)) (p : Ent × Int)
    (hl : (kvs_walk cfg k key (logCb f) [] fuel).st = l1 ++ p :: l2) (hp : p.2 ≠ 0) :
    l2 = [] ∧ (kvs_walk cfg k key (logCb f) [] fuel).rc = some p.2 := by
  have hnil : LogClean [] := fun p hp => by cases hp
  unfold kvs_walk at hl ⊢
  by_cases hr : ¬ k.ready = true
  · rw [if_pos hr] at hl
    exact absurd hl (by simp)
  · rw [if_neg hr] at hl ⊢
    exact log_stop_last _ _
      (walk_stop cfg _ (logCb f) k.pos LogClean LogStop (logCb_stop f) fuel k _ cfg.uninit []
        hnil) l1 l2 p hl hp

/-- In `kvs_walk_unique`, a recorded call that returned a non-zero value is the last
call, and its value is what `kvs_walk_unique` returns. -/
theorem kvs_walk_unique_last (cfg : Cfg) (k : Kvs) (key : List Nat)
    (f : Kvs → Ent → List (Ent × Int) → Int) (fuel : Nat)
    (l1 l2 : List (Ent × Int)) (p : Ent × Int)
    (hl : (kvs_walk_unique cfg k key (logCb f) [] fuel).st = l1 ++ p :: l2) (hp : p.2 ≠ 0) :
    l2 = [] ∧ (kvs_walk_unique cfg k key (logCb f) [] fuel).rc = some p.2 := by
  have hnil : LogClean [] := fun p hp => by cases hp
  unfold kvs_walk_unique at hl ⊢
  by_cases hr : ¬ k.ready = true
  · rw [if_pos hr] at hl
    exact absurd hl (by simp)
  · rw [if_neg hr] at hl ⊢
    unfold walk_unique at hl ⊢
    exact log_stop_last _ _
      (walk_stop cfg _ (unique_cb cfg fuel (logCb f)) k.pos LogClean LogStop
        (unique_cb_stop cfg fuel (logCb f) LogClean LogStop (logCb_stop f)) fuel k _
        cfg.uninit [] hnil) l1 l2 p hl hp


set_option maxRecDepth 100000 in
/-- Mounting the EEPROM region filled with `0xFF` gives the store `eeK0`. -/
theorem eeK0_mount : kvs_mount eeCfg eeRaw 10 = some (0, eeK0) := by decide

set_option maxRecDepth 100000 in
/-- The eight calls `eeOps` all return 0 and lead to the store `eeS`. -/
theorem eeS_run : writeAll eeCfg 20 eeOps eeK0 = some eeS := by decide

/-- A buffer does not differ from the value of an entry that holds its bytes. -/
theorem differ_ptr_entry_value (k : Kvs) (e : Ent) (kl vl : Nat) (value : List Nat)
    (hvl : vl = value.length)
    (hval : seg k.dev (e.start + 4 + kl) value.length = value)
    (h1 : e.start + 4 + kl + value.length ≤ e.next) (h2 : e.next ≤ k.dev.length)
    (h32 : k.dev.length < 4294967296) :
    differ k { ctx := .ptr value, off := 0, len := value.length }
      { ctx := .ent e, off := kl, len := vl } = false := by
  unfold differ
  rw [if_neg (by simp [hvl])]
  apply differ_loop_same k _ _ value
  intro o l _ hl
  dsimp only at hl
  constructor
  · show Except.ok ((value.drop (0 + o)).take l) = _
    rw [Nat.zero_add]; rfl
  · show entry_data_read k e (kl + o) l = _
    rw [entry_data_read_ok k e (kl + o) l (by omega) (by omega) (by omega)]
    congr 1
    have := seg_seg k.dev (e.start + 4 + kl) value.length o l (by omega)
    rw [hval] at this
    rw [this]
    congr 1
    omega

/-- `kvs_compact` keeps the invariant. -/
theorem kvs_compact_inv {cfg : Cfg} {k : Kvs} (hc : CfgOk cfg) (h : Inv cfg k) (fuel : Nat)
    (rc : Int) (k2 : Kvs) (hr : kvs_compact cfg k fuel = some (rc, k2)) : Inv cfg k2 := by
  unfold kvs_compact at hr
  rw [if_neg (by simp [h.ready])] at hr
  exact compact_inv hc h _ fuel rc k2 hr

/-- The store that `kvs_mount` makes of an erased region satisfies the invariant. -/
theorem fresh_inv (cfg : Cfg) (hc : CfgOk cfg) :
    Inv cfg { dev := List.replicate (cfg.bsz * cfg.bcnt) KVS_FILLCHAR,
              pbuf := List.replicate cfg.psz 0, ready := true, pos := 0, bend := cfg.bsz,
              wrapcnt := 0, cookie := none, csz := 0 } where
  ready := rfl
  devlen := by simp
  pbuf := by simp
  cookie := rfl
  csz := by show 4 + 0 < 65536; decide
  bend_mod := Nat.mod_self _
  bend_ge := Nat.le_refl _
  bend_le := Nat.le_mul_of_pos_right _ (by have := hc.spare; omega)
  pos_ge := by simp
  pos_le := Nat.zero_le _
  pos_mod := Nat.zero_mod _
  wrap := by show 0 < 4294967296; decide
  chain := ⟨[], by simpa using ChainL.nil 0, fun e he => by cases he⟩

/-- A second `kvs_write` of the same non-empty value finds the value stored and changes
nothing. -/
theorem kvs_write_again {cfg : Cfg} {k : Kvs} (hc : CfgOk cfg) (h : Inv cfg k)
    (key value : List Nat) (hk : key.length < 256) (hv0 : value.length ≠ 0)
    (hv : value.length < 65536) (fuel : Nat) (k2 : Kvs)
    (hr : kvs_write cfg k key value fuel = some (0, k2)) (hw : k2.wrapcnt < 4294967295) :
    ∃ fuel0, ∀ fuel2, fuel0 ≤ fuel2 → kvs_write cfg k2 key value fuel2 = some (0, k2) := by
  obtain ⟨hI2, hcase⟩ := kvs_write_inv hc h key value hk hv fuel 0 k2 hr
  have hready : ¬ (¬ k2.ready = true) := by simp [hI2.ready]
  rcases hcase rfl with hl | ⟨hk2, ent, hget, hvl, _, hd⟩
  · obtain ⟨e, fuel0, h1, h2, h3, h4, h5⟩ := kvs_entry_get_last hc hI2 hw key value hk hv hl
    refine ⟨fuel0, fun fuel2 hf => ?_⟩
    have hkl : entry_get_klen e = key.length := by
      rw [entry_get_klen_eq, h1]; exact (hdrWord_facts _ _ hk hv).2.2.1
    have hvl : entry_get_vlen e = value.length := by
      rw [entry_get_vlen_eq, h1]; exact (hdrWord_facts _ _ hk hv).2.2.2
    have hval : seg k2.dev (e.start + 4 + entry_get_klen e) value.length = value := by
      have := seg_seg k2.dev (e.start + 4) (key.length + value.length + 4) key.length
        value.length (by omega)
      rw [h4] at this
      rw [hkl, ← this]
      unfold seg
      rw [List.append_assoc, List.drop_left' rfl, List.take_left' rfl]
    have hd := differ_ptr_entry_value k2 e (entry_get_klen e) (entry_get_vlen e) value hvl hval
      (by rw [hkl]; omega) h3 (by have := hc.small; have := hI2.devlen; omega)
    unfold kvs_write
    rw [if_neg hready, h5 fuel2 wlk0 hf, if_neg hv0]
    rw [hvl] at hd
    simp [hv0, hvl, hd]
  · subst hk2
    refine ⟨fuel, fun fuel2 hf => ?_⟩
    obtain ⟨d, rfl⟩ : ∃ d, fuel2 = fuel + d := ⟨fuel2 - fuel, by omega⟩
    unfold kvs_write
    rw [if_neg hready, kvs_entry_get_mono cfg k2 wlk0 key fuel d _ hget]
    rw [hvl] at hd
    simp [hv0, hvl, hd]

set_option maxRecDepth 100000 in
/-- On the flash backend the calls `eeOps`, followed by the write of "i" or by
`kvs_compact`, leave the value `[9]` of the key "k" in place. -/
theorem flash_keeps_newest :
    readAfter flCfg eeOps (some ([105], List.replicate 14 4)) [107] 1 = some (0, [9]) ∧
    readAfter flCfg eeOps none [107] 1 = some (0, [9]) := by decide

theorem writeAll_append (cfg : Cfg) (fuel : Nat) (ops1 ops2 : List (List Nat × List Nat)) :
    ∀ (k k1 : Kvs), writeAll cfg fuel ops1 k = some k1 →
      writeAll cfg fuel (ops1 ++ ops2) k = writeAll cfg fuel ops2 k1 := by
  induction ops1 with
  | nil =>
    intro k k1 h
    simp only [writeAll, Option.some.injEq] at h
    rw [List.nil_append, h]
  | cons op ops ih =>
    intro k k1 h
    obtain ⟨key, val⟩ := op
    rw [List.cons_append, writeAll]
    rw [writeAll] at h
    split at h
    · rename_i k2 hw
      exact ih k2 k1 h
    · cases h

set_option maxRecDepth 100000 in
/-- The write of the key "i" on the store `eeS` returns 0 and leads to the store `eeS2`. -/
theorem eeS2_write :
    kvs_write eeCfg eeS [105] (List.replicate 14 4) 20 = some (0, eeS2) := by decide

/-- The calls `eeOps` and the write of the key "i" all return 0 and lead to the store
`eeS2`. -/
theorem eeS2_run :
    writeAll eeCfg 20 (eeOps ++ [([105], List.replicate 14 4)]) eeK0 = some eeS2 := by
  rw [writeAll_append eeCfg 20 eeOps _ eeK0 eeS eeS_run, writeAll, eeS2_write]
  rfl

/-! ## Mount, remount and return codes -/

set_option maxRecDepth 100000 in
/-- The calls `gcOps` all return 0 and lead to the store `gcS`. -/
theorem gcS_run : writeAll exCfg 20 gcOps exK0 = some gcS := by decide!

set_option maxRecDepth 100000 in
/-- Unmount and mount of the store `gcS` return 0 and lead to the store `gcR`. -/
theorem gcR_remount : remount exCfg gcS 40 = some (0, gcR) := by decide!

set_option maxRecDepth 100000 in
/-- The writes `icOps` all return 0 and lead to the store `icS`. -/
theorem icS_run : writeAll exCfg 20 icOps exK0 = some icS := by decide!

/-- The loop of `kvs_write` returns 0 or `-KVS_ENOSPC`, whatever the appends and the
compactions return. -/
theorem kvs_write_loop_rc (cfg : Cfg) (key value : List Nat) (fuel : Nat) :
    ∀ (cnt : Nat) (k : Kvs) (ent : Ent) (rc : Int) (k2 : Kvs),
      kvs_write_loop cfg key value fuel cnt k ent = some (rc, k2) →
      rc = 0 ∨ rc = -KVS_ENOSPC := by
  intro cnt
  induction cnt with
  | zero =>
    intro k ent rc k2 h
    simp only [kvs_write_loop, Option.some.injEq, Prod.mk.injEq] at h
    exact Or.inr h.1.symm
  | succ cnt ih =>
    intro k ent rc k2 h
    rw [kvs_write_loop] at h
    generalize entry_add cfg k ent key value = r at h
    obtain ⟨rc1, k1, ent1⟩ := r
    dsimp only at h
    by_cases h0 : rc1 = 0
    · rw [if_pos h0] at h
      simp only [Option.some.injEq, Prod.mk.injEq] at h
      exact Or.inl h.1.symm
    · rw [if_neg h0] at h
      split at h
      · cases h
      · exact ih _ _ _ _ h

theorem ite_bool_cases {α : Type} (b : Bool) (x y r : α)
    (h : (if b = true then x else y) = r) : x = r ∨ y = r := by
  cases b
  · exact Or.inr (by simpa using h)
  · exact Or.inl (by simpa using h)

/-- The return codes of `kvs_write`: `-KVS_EINVAL` for a store that is not mounted, else
0 or `-KVS_ENOSPC`. -/
theorem kvs_write_rc (cfg : Cfg) (k : Kvs) (key value : List Nat) (fuel : Nat) (rc : Int)
    (k2 : Kvs) (h : kvs_write cfg k key value fuel = some (rc, k2)) :
    (k.ready = false ∧ rc = -KVS_EINVAL ∧ k2 = k) ∨
    (k.ready = true ∧ (rc = 0 ∨ rc = -KVS_ENOSPC)) := by
  unfold kvs_write at h
  cases hr : k.ready with
  | false =>
    rw [hr] at h
    simp only [Bool.false_eq_true, not_false_eq_true, if_true, Option.some.injEq,
      Prod.mk.injEq] at h
    exact Or.inl ⟨rfl, h.1.symm, h.2.symm⟩
  | true =>
    rw [hr] at h
    simp only [not_true_eq_false, if_false] at h
    right
    refine ⟨rfl, ?_⟩
    split at h
    · cases h
    · rcases ite_bool_cases _ _ _ _ h with h1 | h1
      · simp only [Option.some.injEq, Prod.mk.injEq] at h1
        exact Or.inl h1.1.symm
      · exact kvs_write_loop_rc cfg key value fuel _ _ _ _ _ h1

/-! ## Mount validation, erase, and the erased region -/

/-- The test `n & (n - 1) == 0` of `kvs_mount` passes for a number that is not zero only
when the number is a power of two. -/
theorem pow2_of_and_pred : ∀ n : Nat, n ≠ 0 → n &&& (n - 1) = 0 → ∃ j, n = 2 ^ j := by
  intro n
  induction n using Nat.strong_induction_on with
  | _ n ih =>
    intro h0 h
    by_cases h1 : n = 1
    · exact ⟨0, by rw [h1]; rfl⟩
    · have hd : (n &&& (n - 1)) / 2 = n / 2 &&& (n - 1) / 2 := Nat.and_div_two
      rw [h] at hd
      rcases Nat.mod_two_eq_zero_or_one n with hm | hm
      · have e1 : (n - 1) / 2 = n / 2 - 1 := by omega
        rw [e1] at hd
        obtain ⟨j, hj⟩ := ih (n / 2) (by omega) (by omega) hd.symm
        exact ⟨j + 1, by rw [pow_succ, ← hj]; omega⟩
      · have e1 : (n - 1) / 2 = n / 2 := by omega
        rw [e1, Nat.and_self] at hd
        omega

/-- A power of two passes the test `n & (n - 1) == 0` of `kvs_mount`. -/
theorem and_pred_of_pow2 (j : Nat) : (2 ^ j) &&& (2 ^ j - 1) = 0 := by
  rw [Nat.and_pow_two_sub_one_eq_mod, Nat.mod_self]

/-- The size test of `kvs_mount` in words: the size is zero or not a power of two. -/
theorem size_check_iff (n : Nat) :
    (n = 0 ∨ n &&& (n - 1) ≠ 0) ↔ (n = 0 ∨ ¬ ∃ j, n = 2 ^ j) := by
  constructor
  · rintro (h | h)
    · exact Or.inl h
    · right
      rintro ⟨j, rfl⟩
      exact h (and_pred_of_pow2 j)
  · rintro (h | h)
    · exact Or.inl h
    · by_cases h0 : n = 0
      · exact Or.inl h0
      · right
        intro ha
        exact h (pow2_of_and_pred n h0 ha)

/-- The backend `init` returns 0 on the EEPROM backend and on a flash store with a spare
block; it returns `-KVS_EINVAL` on a flash store without one. -/
theorem kvs_dev_init_rc (cfg : Cfg) (hb : 0 < cfg.bsz) :
    (1 ≤ cfg.bspr ∨ cfg.backend = .eeprom → kvs_dev_init cfg = 0) ∧
    (cfg.bspr = 0 → cfg.backend = .flash → kvs_dev_init cfg = -KVS_EINVAL) := by
  unfold kvs_dev_init
  constructor
  · intro h
    cases hbk : cfg.backend with
    | eeprom => rfl
    | flash =>
      dsimp only
      rcases h with h | h
      · have : cfg.bsz ≤ cfg.bspr * cfg.bsz := Nat.le_mul_of_pos_left _ h
        rw [if_neg (by omega)]
      · rw [hbk] at h; cases h
  · intro h0 hbk
    rw [hbk, h0, Nat.zero_mul]
    dsimp only
    rw [if_pos hb]

/-- The return codes of `kvs_mount`: `-KVS_EINVAL` when a size is refused, `-KVS_EAGAIN`
when the sizes are accepted and the store is mounted, the code of the backend `init` when
that is not 0, all without a change of the store; in every other case 0. -/
theorem kvs_mount_rc (cfg : Cfg) (k : Kvs) (fuel : Nat) :
    (((cfg.psz = 0 ∨ ¬ ∃ j, cfg.psz = 2 ^ j) ∨ (cfg.bsz = 0 ∨ ¬ ∃ j, cfg.bsz = 2 ^ j) ∨
        cfg.bsz < cfg.psz) →
      kvs_mount cfg k fuel = some (-KVS_EINVAL, k)) ∧
    ((∃ j, cfg.psz = 2 ^ j) → (∃ j, cfg.bsz = 2 ^ j) → cfg.psz ≤ cfg.bsz →
      (k.ready = true → kvs_mount cfg k fuel = some (-KVS_EAGAIN, k)) ∧
      (k.ready = false →
        (kvs_dev_init cfg ≠ 0 → kvs_mount cfg k fuel = some (kvs_dev_init cfg, k)) ∧
        (kvs_dev_init cfg = 0 →
          ∀ rc k2, kvs_mount cfg k fuel = some (rc, k2) → rc = 0))) := by
  have hp := size_check_iff cfg.psz
  have hb := size_check_iff cfg.bsz
  constructor
  · intro h
    unfold kvs_mount
    by_cases c1 : cfg.psz = 0 ∨ cfg.psz &&& (cfg.psz - 1) ≠ 0
    · rw [if_pos c1]
    · rw [if_neg c1]
      by_cases c2 : cfg.bsz = 0 ∨ cfg.bsz &&& (cfg.bsz - 1) ≠ 0
      · rw [if_pos c2]
      · rw [if_neg c2]
        rcases h with h | h | h
        · exact absurd (hp.2 h) c1
        · exact absurd (hb.2 h) c2
        · rw [if_pos h]
  · intro ⟨jp, hjp⟩ ⟨jb, hjb⟩ hle
    have c1 : ¬ (cfg.psz = 0 ∨ cfg.psz &&& (cfg.psz - 1) ≠ 0) := by
      intro h
      rcases hp.1 h with h | h
      · rw [hjp] at h; exact absurd h (by positivity)
      · exact h ⟨jp, hjp⟩
    have c2 : ¬ (cfg.bsz = 0 ∨ cfg.bsz &&& (cfg.bsz - 1) ≠ 0) := by
      intro h
      rcases hb.1 h with h | h
      · rw [hjb] at h; exact absurd h (by positivity)
      · exact h ⟨jb, hjb⟩
    have c3 : ¬ cfg.bsz < cfg.psz := by omega
    constructor
    · intro hr
      unfold kvs_mount
      rw [if_neg c1, if_neg c2, if_neg c3, if_pos hr]
    · intro hr
      refine ⟨fun hi => ?_, fun hi rc k2 h => ?_⟩
      · unfold kvs_mount
        rw [if_neg c1, if_neg c2, if_neg c3, if_neg (by simp [hr]), if_pos hi]
      unfold kvs_mount at h
      rw [if_neg c1, if_neg c2, if_neg c3, if_neg (by simp [hr]),
        if_neg (fun hn => hn hi), if_neg (fun hn => hn rfl)] at h
      split at h
      · cases h
      · split at h
        · cases h
        · split at h
          · simp only [Option.some.injEq, Prod.mk.injEq] at h
            exact h.1.symm
          · simp only [Option.some.injEq, Prod.mk.injEq] at h
            exact h.1.symm

/-- On a region of fill bytes no header decodes: `entry_get_info` fails and leaves the
end of the block in `next`. -/
theorem entry_get_info_erased (cfg : Cfg) (k : Kvs) (ent : Ent) (n : Nat)
    (hdev : k.dev = List.replicate n KVS_FILLCHAR) (hst : ent.start < 2147483648) :
    entry_get_info cfg k ent
      = (-KVS_ENOENT, { ent with next := KVS_ALIGNDOWN ent.start cfg.bsz + cfg.bsz }) := by
  unfold entry_get_info
  dsimp only
  cases h : entry_read k { ent with next := KVS_ALIGNDOWN ent.start cfg.bsz + cfg.bsz } 0
      KVS_HDRSIZE with
  | error e => rfl
  | ok hdr =>
    have hh : hdr = [255, 255, 255, 255] := by
      have e1 : u32 (ent.start + 0) = ent.start + 0 := u32_of_lt _ (by omega)
      have e2 : u32 (ent.start + 0 + 4) = ent.start + 0 + 4 := u32_of_lt _ (by omega)
      unfold entry_read kvs_dev_read KVS_HDRSIZE at h
      dsimp only at h
      rw [e1, e2] at h
      split at h
      · cases h
      · split at h
        · cases h
        · rename_i h1 h2
          injection h with h
          rw [hdev, List.length_replicate] at h2
          rw [← h, hdev, List.drop_replicate, List.take_replicate]
          have hm : min 4 (n - (ent.start + 0)) = 4 := by omega
          rw [hm]
          rfl
    subst hh
    have hp : ∀ e1 : Ent, entry_get_param cfg e1 [255, 255, 255, 255] = (-KVS_EINVAL, e1) := by
      intro e1
      unfold entry_get_param
      dsimp only
      rw [if_pos (by decide)]
    dsimp only
    rw [hp]
    rfl

/-- On a region of fill bytes `kvs_set_data_bend` finds no block. -/
theorem kvs_set_data_bend_loop_erased (cfg : Cfg) (n0 : Nat) :
    ∀ (n i : Nat) (k : Kvs) (w : Nat), k.dev = List.replicate n0 KVS_FILLCHAR →
      (i + n) * cfg.bsz < 2147483648 →
      kvs_set_data_bend_loop cfg n i k w = k := by
  intro n
  induction n with
  | zero => intro i k w _ _; rfl
  | succ n ih =>
    intro i k w hdev hsm
    have hle : i * cfg.bsz ≤ (i + (n + 1)) * cfg.bsz := Nat.mul_le_mul_right _ (by omega)
    rw [kvs_set_data_bend_loop, entry_get_info_erased cfg k _ n0 hdev
      (show i * cfg.bsz < 2147483648 by omega)]
    dsimp only
    rw [if_pos (by decide)]
    exact ih _ _ _ hdev (by rw [show i + 1 + n = i + (n + 1) by omega]; exact hsm)

/-- On a region of fill bytes `kvs_set_data_pos` stops at once. -/
theorem kvs_set_data_pos_erased (cfg : Cfg) (n0 fuel : Nat) (k : Kvs)
    (hdev : k.dev = List.replicate n0 KVS_FILLCHAR) (hpos : k.pos < 2147483648) :
    kvs_set_data_pos cfg (fuel + 1) k = some k := by
  rw [kvs_set_data_pos, entry_get_info_erased cfg k _ n0 hdev hpos]
  dsimp only
  rw [if_pos (by decide)]

theorem alignDown_block (cfg : Cfg) (hc : CfgOk cfg) (a : Nat) (ha : a < cfg.bcnt) :
    KVS_ALIGNDOWN (a * cfg.bsz) cfg.bsz = a * cfg.bsz := by
  obtain ⟨jb, hjb, hb⟩ := hc.bsz_pow
  have hsm := hc.small
  have hb0 : 0 < cfg.bsz := by rw [hb]; exact Nat.pow_pos (by norm_num)
  have hle : a * cfg.bsz ≤ cfg.bsz * cfg.bcnt := by
    rw [Nat.mul_comm cfg.bsz]
    exact Nat.mul_le_mul_right _ (Nat.le_of_lt ha)
  rw [alignDown_bsz cfg jb _ hb hjb (by omega), Nat.mul_div_cancel _ hb0]

/-- A scan of a region of fill bytes from one block base to another: no entry is found,
the callback is not called, and the scan ends with 0 after at most `bcnt` blocks. -/
theorem walk_erased {σ : Type} (cfg : Cfg) (hc : CfgOk cfg) (rdkey : ReadCb) (cb : Cb σ)
    (k : Kvs) (n0 : Nat) (hdev : k.dev = List.replicate n0 KVS_FILLCHAR) (c : Nat)
    (hcle : c ≤ cfg.bcnt) :
    ∀ (fuel a : Nat) (ent : Ent) (w : Nat) (st : σ), a < cfg.bcnt →
      (if ent.next < cfg.bcnt * cfg.bsz then ent.next else 0) = a * cfg.bsz →
      (if a ≤ c then c - a else cfg.bcnt - a + c) < fuel →
      walk cfg rdkey cb (c * cfg.bsz) fuel k ent w st
        = { rc := some 0, kvs := k, st := st } := by
  obtain ⟨jb, hjb, hb⟩ := hc.bsz_pow
  have hb0 : 0 < cfg.bsz := by rw [hb]; exact Nat.pow_pos (by norm_num)
  intro fuel
  induction fuel with
  | zero => intro a ent w st _ _ hf; omega
  | succ fuel ih =>
    intro a ent w st ha hs hf
    rw [walk]
    dsimp only
    rw [hs]
    by_cases hac : a = c
    · rw [if_pos (by rw [hac])]
    · have hne : a * cfg.bsz ≠ c * cfg.bsz := by
        intro he
        exact hac (Nat.eq_of_mul_eq_mul_right hb0 he)
      have hsm := hc.small
      have hale : a * cfg.bsz ≤ cfg.bcnt * cfg.bsz :=
        Nat.mul_le_mul_right _ (Nat.le_of_lt ha)
      rw [if_neg hne, entry_get_info_erased cfg k _ n0 hdev
        (show a * cfg.bsz < 2147483648 by rw [Nat.mul_comm cfg.bcnt] at hale; omega)]
      dsimp only
      rw [if_pos (by decide), alignDown_block cfg hc a ha]
      by_cases hac1 : a + 1 = c
      · rw [if_neg (by rw [← hac1]; simp [Nat.add_mul])]
      · have hne1 : a * cfg.bsz + cfg.bsz ≠ c * cfg.bsz := by
          intro he
          apply hac1
          apply Nat.eq_of_mul_eq_mul_right hb0
          rw [Nat.add_mul, Nat.one_mul]
          exact he
        rw [if_pos hne1]
        by_cases hlast : a + 1 < cfg.bcnt
        · apply ih (a + 1) _ w st hlast
          · dsimp only
            have : a * cfg.bsz + cfg.bsz < cfg.bcnt * cfg.bsz := by
              calc a * cfg.bsz + cfg.bsz = (a + 1) * cfg.bsz := by ring
                _ < cfg.bcnt * cfg.bsz := Nat.mul_lt_mul_of_pos_right hlast hb0
            rw [if_pos this]
            ring
          · split at hf <;> split <;> omega
        · have hbc : 0 < cfg.bcnt := by omega
          apply ih 0 _ w st hbc
          · dsimp only
            have : ¬ a * cfg.bsz + cfg.bsz < cfg.bcnt * cfg.bsz := by
              have e : a + 1 = cfg.bcnt := by omega
              rw [← e]
              intro h
              have : a * cfg.bsz + cfg.bsz = (a + 1) * cfg.bsz := by ring
              omega
            rw [if_neg this]
            simp
          · split at hf <;> split <;> omega

/-- Advancing a block base stays on a block base of the region. -/
theorem block_advance_n_base (cfg : Cfg) (hbc : 0 < cfg.bcnt) :
    ∀ (n a : Nat), a ≤ cfg.bcnt →
      ∃ c, c ≤ cfg.bcnt ∧ block_advance_n cfg (a * cfg.bsz) n = c * cfg.bsz := by
  intro n
  induction n with
  | zero => intro a ha; exact ⟨a, ha, rfl⟩
  | succ n ih =>
    intro a ha
    rw [block_advance_n]
    by_cases hfin : a * cfg.bsz ≥ cfg.bsz * cfg.bcnt
    · rw [if_pos hfin]
      have e : a * cfg.bsz = cfg.bsz * cfg.bcnt := by
        have : a * cfg.bsz ≤ cfg.bcnt * cfg.bsz := Nat.mul_le_mul_right _ ha
        rw [Nat.mul_comm cfg.bcnt] at this
        omega
      rw [e, Nat.sub_self, Nat.zero_add]
      have := ih 1 (by omega)
      rwa [Nat.one_mul] at this
    · rw [if_neg hfin]
      have hlt : a < cfg.bcnt := by
        by_contra hn
        have e : a = cfg.bcnt := by omega
        rw [e, Nat.mul_comm] at hfin
        omega
      have := ih (a + 1) hlt
      rwa [Nat.add_mul, Nat.one_mul] at this

/-- On a region of fill bytes `recover` finds nothing to recover. -/
theorem recover_erased (cfg : Cfg) (hc : CfgOk cfg) (k : Kvs) (n0 : Nat)
    (hdev : k.dev = List.replicate n0 KVS_FILLCHAR) (hbend : k.bend = cfg.bsz)
    (fuel : Nat) (hf : cfg.bcnt < fuel) : recover cfg k fuel = some (0, k) := by
  have hbc : 0 < cfg.bcnt := by have := hc.spare; omega
  obtain ⟨jb, hjb, hb⟩ := hc.bsz_pow
  have hb0 : 0 < cfg.bsz := by rw [hb]; exact Nat.pow_pos (by norm_num)
  obtain ⟨c, hc1, hc2⟩ := block_advance_n_base cfg hbc cfg.bspr 1 (by omega)
  obtain ⟨a, ha1, ha2⟩ := block_advance_n_base cfg hbc (u32 (cfg.bspr + 4294967296 - 1)) 1
    (by omega)
  rw [Nat.one_mul] at hc2 ha2
  unfold recover walk_unique
  dsimp only
  rw [hbend, hc2, ha2]
  have hw := walk_erased cfg hc { ctx := .ptr [], off := 0, len := 0 }
    (unique_cb cfg fuel (recovery_check_cb cfg)) k n0 hdev c hc1 fuel
    (if a < cfg.bcnt then a else 0) { start := 0, next := a * cfg.bsz, he_hdr := 0 }
    cfg.uninit false (by split <;> omega)
    (by
      dsimp only
      by_cases hlt : a < cfg.bcnt
      · rw [if_pos hlt, if_pos (Nat.mul_lt_mul_of_pos_right hlt hb0)]
      · have e : a = cfg.bcnt := by omega
        rw [if_neg hlt, e, if_neg (Nat.lt_irrefl _), Nat.zero_mul])
    (by split <;> split <;> omega)
  rw [hw]
  rfl

/-- The result of `kvs_mount` on a region of fill bytes. -/
theorem kvs_mount_erased (cfg : Cfg) (hc : CfgOk cfg) (hi : kvs_dev_init cfg = 0) (k : Kvs)
    (n0 : Nat) (hdev : k.dev = List.replicate n0 KVS_FILLCHAR) (hr : k.ready = false)
    (fuel : Nat) (hf : cfg.bcnt < fuel) :
    kvs_mount cfg k fuel
      = some (0, { k with ready := true, wrapcnt := 0, pos := 0, bend := cfg.bsz }) := by
  obtain ⟨jp, _, hp⟩ := hc.psz_pow
  obtain ⟨jb, _, hb⟩ := hc.bsz_pow
  have c1 : ¬ (cfg.psz = 0 ∨ cfg.psz &&& (cfg.psz - 1) ≠ 0) := by
    intro h
    rcases (size_check_iff cfg.psz).1 h with h | h
    · rw [hp] at h; exact absurd h (by positivity)
    · exact h ⟨jp, hp⟩
  have c2 : ¬ (cfg.bsz = 0 ∨ cfg.bsz &&& (cfg.bsz - 1) ≠ 0) := by
    intro h
    rcases (size_check_iff cfg.bsz).1 h with h | h
    · rw [hb] at h; exact absurd h (by positivity)
    · exact h ⟨jb, hb⟩
  have c3 : ¬ cfg.bsz < cfg.psz := by have := hc.psz_le; omega
  obtain ⟨f, rfl⟩ : ∃ f, fuel = f + 1 := ⟨fuel - 1, by omega⟩
  unfold kvs_mount
  rw [if_neg c1, if_neg c2, if_neg c3, if_neg (by simp [hr]), if_neg (fun hn => hn hi),
    if_neg (fun hn => hn rfl)]
  unfold kvs_set_data_bend
  rw [kvs_set_data_bend_loop_erased cfg n0 _ _
      { k with wrapcnt := 0, pos := 0, bend := cfg.bsz } _ hdev
      (by have := hc.small; rw [Nat.zero_add, Nat.mul_comm]; omega),
    kvs_set_data_pos_erased cfg n0 f { k with wrapcnt := 0, pos := 0, bend := cfg.bsz } hdev
      (show (0 : Nat) < 2147483648 by decide)]
  dsimp only
  rw [recover_erased cfg hc { k with wrapcnt := 0, pos := 0, bend := cfg.bsz } n0 hdev rfl
    (f + 1) hf]
  dsimp only
  rw [if_neg (by decide)]

/-- On a mounted region of fill bytes whose write position is the start of block 0 the
search of `entry_get` finds no entry. -/
theorem entry_get_loop_erased (cfg : Cfg) (hc : CfgOk cfg) (k : Kvs) (n0 : Nat)
    (hdev : k.dev = List.replicate n0 KVS_FILLCHAR) (rdkey : ReadCb) (fuel : Nat) :
    ∀ (n : Nat) (wlk : Ent) (stop a : Nat) (arg : EntryGetArg), a < cfg.bcnt →
      (stop = a * cfg.bsz ∨ stop = (a + 1) * cfg.bsz) →
      entry_get_loop cfg k rdkey (fuel + 1) n wlk stop (a * cfg.bsz) arg = some arg := by
  obtain ⟨jb, hjb, hb⟩ := hc.bsz_pow
  have hb0 : 0 < cfg.bsz := by rw [hb]; exact Nat.pow_pos (by norm_num)
  intro n
  induction n with
  | zero => intro wlk stop a arg _ _; rfl
  | succ n ih =>
    intro wlk stop a arg ha hstop
    rw [entry_get_loop]
    dsimp only
    have hlt : a * cfg.bsz < cfg.bcnt * cfg.bsz := Nat.mul_lt_mul_of_pos_right ha hb0
    have hw : walk cfg rdkey (entry_get_cb rdkey.len) stop (fuel + 1) k
        { start := wlk.start, next := a * cfg.bsz, he_hdr := wlk.he_hdr } cfg.uninit arg
        = { rc := some 0, kvs := k, st := arg } := by
      rw [walk]
      dsimp only
      rw [if_pos hlt]
      rcases hstop with h | h
      · rw [if_pos h.symm]
      · have hne : a * cfg.bsz ≠ stop := by
          rw [h, Nat.add_mul, Nat.one_mul]; omega
        have hsm := hc.small
        have hale : a * cfg.bsz ≤ cfg.bcnt * cfg.bsz :=
          Nat.mul_le_mul_right _ (Nat.le_of_lt ha)
        rw [if_neg hne, entry_get_info_erased cfg k _ n0 hdev
          (show a * cfg.bsz < 2147483648 by rw [Nat.mul_comm cfg.bcnt] at hale; omega)]
        dsimp only
        rw [if_pos (by decide), alignDown_block cfg hc a ha,
          if_neg (by rw [h, Nat.add_mul, Nat.one_mul]; simp)]
    rw [hw]
    dsimp only
    cases hfd : arg.found with
    | true => simp
    | false =>
      simp only [Bool.false_eq_true, if_false]
      by_cases ha0 : a = 0
      · subst ha0
        rw [Nat.zero_mul, if_pos rfl]
        have e : cfg.bcnt * cfg.bsz - cfg.bsz = (cfg.bcnt - 1) * cfg.bsz := by
          rw [Nat.sub_mul, Nat.one_mul]
        rw [e]
        exact ih wlk _ (cfg.bcnt - 1) arg (by omega)
          (Or.inr (by rw [Nat.sub_add_cancel (by omega)]))
      · have hne : a * cfg.bsz ≠ 0 := Nat.mul_ne_zero ha0 (by omega)
        rw [if_neg hne]
        have e : a * cfg.bsz - cfg.bsz = (a - 1) * cfg.bsz := by
          rw [Nat.sub_mul, Nat.one_mul]
        rw [e]
        exact ih wlk _ (a - 1) arg (by omega)
          (Or.inr (by rw [Nat.sub_add_cancel (by omega)]))

/-- After the mount of a region of fill bytes `kvs_read` finds no key. -/
theorem kvs_read_erased (cfg : Cfg) (hc : CfgOk cfg) (k : Kvs) (n0 : Nat)
    (hdev : k.dev = List.replicate n0 KVS_FILLCHAR) (hr : k.ready = true)
    (hpos : k.pos = 0) (hbend : k.bend = cfg.bsz) (key : List Nat) (len fuel : Nat) :
    kvs_read cfg k key len (fuel + 1) = some (-KVS_ENOENT, []) := by
  have hbc : 0 < cfg.bcnt := by have := hc.spare; omega
  have hsm := hc.small
  obtain ⟨jb, hjb, hb⟩ := hc.bsz_pow
  have hb0 : 0 < cfg.bsz := by rw [hb]; exact Nat.pow_pos (by norm_num)
  have hbl : cfg.bsz ≤ cfg.bsz * cfg.bcnt := Nat.le_mul_of_pos_right _ hbc
  unfold kvs_read kvs_entry_get entry_get
  rw [if_neg (by simp [hr])]
  dsimp only
  rw [hpos, hbend]
  have e : u32 (cfg.bsz + 4294967296 - cfg.bsz) = 0 := by
    unfold u32
    rw [Nat.add_sub_cancel_left, Nat.mod_self]
  rw [e]
  have hl := entry_get_loop_erased cfg hc k n0 hdev
    { ctx := .ptr key, off := 0, len := key.length } fuel
    (u32 (cfg.bcnt + 4294967296 - cfg.bspr)) { start := 0, next := 0, he_hdr := 0 } 0 0
    { ent := wlk0, found := false } hbc (Or.inl (Nat.zero_mul _).symm)
  rw [Nat.zero_mul] at hl
  rw [hl]
  rfl

/-- The header `FF FF FF FF` does not pass the header check. -/
theorem entry_get_param_erased (cfg : Cfg) (e : Ent) :
    entry_get_param cfg e [255, 255, 255, 255] = (-KVS_EINVAL, e) := by
  unfold entry_get_param
  dsimp only
  rw [if_pos (by decide)]

/-! ## The contract of `kvs_read`, `kvs_write` and `kvs_delete` -/

/-- Read after write away from the last value of the wrap counter.  In every store that
satisfies the invariant `Inv` of a healthy, well-configured device, for every key of
fewer than 256 bytes and every value of 1..65535 bytes: if `kvs_write` returns 0 and
leaves a wrap counter below `0xFFFFFFFF`, the following `kvs_read` of `|value|` bytes
returns 0 and the bytes of `value`. -/
theorem kvs_read_after_write (cfg : Cfg) (k : Kvs) (key value : List Nat) (fuel : Nat)
    (k2 : Kvs) (hc : CfgOk cfg) (h : Inv cfg k) (hk : key.length < 256)
    (hv0 : 0 < value.length) (hv : value.length < 65536)
    (hr : kvs_write cfg k key value fuel = some (0, k2)) (hw : k2.wrapcnt < 4294967295) :
    ∃ fuel0, ∀ fuel2, fuel0 ≤ fuel2 →
      kvs_read cfg k2 key value.length fuel2 = some (0, value) :=
  read_after_write_aux hc h key value hk (by omega) hv fuel k2 hr hw

/-- The round trip on the store `exK0`: `kvs_write("a", [1])` and `kvs_read("a")`. -/
theorem kvs_read_after_write_witness :
    kvs_write exCfg exK0 [97] [1] 8 = some (0, exK1) ∧
    ∃ fuel0, ∀ fuel2, fuel0 ≤ fuel2 → kvs_read exCfg exK1 [97] 1 fuel2 = some (0, [1]) :=
  ⟨exK1_write, kvs_read_after_write exCfg exK0 [97] [1] 8 exK1 exCfg_ok exK0_inv (by decide)
    (by decide) (by decide) exK1_write exK_wrap.1⟩

/-- The newest version away from the last value of the wrap counter.  In every store that
satisfies the invariant `Inv`, after a successful `kvs_write(key, v1)` followed by a
successful `kvs_write(key, v2)` with a non-empty value `v2` that leaves a wrap counter
below `0xFFFFFFFF`, `kvs_read(key)` of `|v2|` bytes returns 0 and the bytes of `v2`. -/
theorem kvs_read_newest (cfg : Cfg) (k : Kvs) (key v1 v2 : List Nat) (fuel1 fuel2 : Nat)
    (k1 k2 : Kvs) (hc : CfgOk cfg) (h : Inv cfg k) (hk : key.length < 256)
    (h1b : v1.length < 65536)
    (h2 : 0 < v2.length) (h2b : v2.length < 65536)
    (hw1 : kvs_write cfg k key v1 fuel1 = some (0, k1))
    (hw2 : kvs_write cfg k1 key v2 fuel2 = some (0, k2)) (hw : k2.wrapcnt < 4294967295) :
    ∃ fuel0, ∀ fuel, fuel0 ≤ fuel → kvs_read cfg k2 key v2.length fuel = some (0, v2) :=
  read_after_write_aux hc (kvs_write_inv hc h key v1 hk h1b fuel1 0 k1 hw1).1 key v2 hk
    (by omega) h2b fuel2 k2 hw2 hw

/-- Two versions of the key "a" on the store `exK0`: the second one is read. -/
theorem kvs_read_newest_witness :
    kvs_write exCfg exK0 [97] [1] 8 = some (0, exK1) ∧
    kvs_write exCfg exK1 [97] [2, 3] 8 = some (0, exK2) ∧
    ∃ fuel0, ∀ fuel, fuel0 ≤ fuel → kvs_read exCfg exK2 [97] 2 fuel = some (0, [2, 3]) :=
  ⟨exK1_write, exK2_write, kvs_read_newest exCfg exK0 [97] [1] [2, 3] 8 8 exK1 exK2 exCfg_ok
    exK0_inv (by decide) (by decide) (by decide) (by decide) exK1_write exK2_write
    exK_wrap.2.1⟩

/-- Delete away from the last value of the wrap counter.  `kvs_delete(key)` is
`kvs_write(key, empty value)`, and in every store that satisfies the invariant `Inv`,
after a successful `kvs_write(key, v)` followed by a successful `kvs_delete(key)` that
leaves a wrap counter below `0xFFFFFFFF`, `kvs_read(key)` returns `-KVS_ENOENT` whatever
length is asked for. -/
theorem kvs_read_after_delete (cfg : Cfg) (k : Kvs) (key v : List Nat) (fuel1 fuel2 : Nat)
    (k1 k2 : Kvs) (hc : CfgOk cfg) (h : Inv cfg k) (hk : key.length < 256)
    (hvb : v.length < 65536)
    (hw1 : kvs_write cfg k key v fuel1 = some (0, k1))
    (hd : kvs_delete cfg k1 key fuel2 = some (0, k2)) (hw : k2.wrapcnt < 4294967295) :
    (∀ (c : Cfg) (s : Kvs) (ky : List Nat) (fl : Nat),
      kvs_delete c s ky fl = kvs_write c s ky [] fl) ∧
    ∃ fuel0, ∀ fuel, fuel0 ≤ fuel → ∀ len,
      kvs_read cfg k2 key len fuel = some (-KVS_ENOENT, []) :=
  ⟨fun _ _ _ _ => rfl,
    read_after_delete_aux hc (kvs_write_inv hc h key v hk hvb fuel1 0 k1 hw1).1 key hk fuel2
      k2 hd hw⟩

/-- Write and delete of the key "a" on the store `exK0`: the key is gone. -/
theorem kvs_read_after_delete_witness :
    kvs_write exCfg exK0 [97] [1] 8 = some (0, exK1) ∧
    kvs_delete exCfg exK1 [97] 8 = some (0, exK3) ∧
    ∃ fuel0, ∀ fuel, fuel0 ≤ fuel → ∀ len,
      kvs_read exCfg exK3 [97] len fuel = some (-KVS_ENOENT, []) :=
  ⟨exK1_write, exK3_delete, (kvs_read_after_delete exCfg exK0 [97] [1] 8 8 exK1 exK3 exCfg_ok
    exK0_inv (by decide) (by decide) exK1_write exK3_delete exK_wrap.2.2).2⟩

set_option maxRecDepth 100000 in
/-- C4: other keys survive writes.  On the EEPROM store `eeS` (reached from the mounted
region by the eight calls `eeOps`, the last of which wrote `"k" = [9]`) `kvs_read("k")`
returns 0 and `[9]`; the write of the other key "i" returns 0, and after it
`kvs_read("k")` returns 0 and `[7]`, the value that the second call had written. -/
theorem kvs_write_other_key_eeprom :
    kvs_mount eeCfg eeRaw 10 = some (0, eeK0) ∧
    writeAll eeCfg 20 eeOps eeK0 = some eeS ∧
    kvs_read eeCfg eeS [107] 1 20 = some (0, [9]) ∧
    kvs_write eeCfg eeS [105] (List.replicate 14 4) 20 = some (0, eeS2) ∧
    kvs_read eeCfg eeS2 [107] 1 20 = some (0, [7]) :=
  ⟨eeK0_mount, eeS_run, by decide, eeS2_write, by decide⟩

set_option maxRecDepth 100000 in
/-- C5: write idempotence.  For the empty value the second call is not a no-op: on the
mounted erased store `exK0`, `kvs_write("a", empty)` returns 0 and moves the write
position to 24, and the same call again returns 0 and appends a second tombstone, moving
the write position to 36. -/
theorem kvs_write_empty_twice :
    kvs_mount exCfg exRaw 4 = some (0, exK0) ∧
    kvs_write exCfg exK0 [97] [] 8 = some (0, exD1) ∧
    kvs_write exCfg exD1 [97] [] 8 = some (0, exD2) ∧
    exD1.pos = 24 ∧ exD2.pos = 36 ∧ exD1.dev ≠ exD2.dev :=
  ⟨exK0_mount, by decide⟩

/-! ## Walking over the entries -/

set_option maxRecDepth 100000 in
/-- C6: walk completeness and order.  On the EEPROM store `eeS2`, `kvs_walk` with the prefix
"k" and a callback that returns 0 returns 0 and calls the callback twice: first on the
entry at offset 32 with the value `[9]`, which the eighth call of `eeOps` wrote, then on
the entry at offset 50 with the value `[7]`, which the second call wrote: the reverse of
the order of writing. -/
theorem kvs_walk_order_eeprom :
    kvs_mount eeCfg eeRaw 10 = some (0, eeK0) ∧
    writeAll eeCfg 20 (eeOps ++ [([105], List.replicate 14 4)]) eeK0 = some eeS2 ∧
    (kvs_walk eeCfg eeS2 [107] (logCb fun _ _ _ => 0) [] 30).rc = some 0 ∧
    (kvs_walk eeCfg eeS2 [107] (logCb fun _ _ _ => 0) [] 30).st =
      [({ start := 32, next := 42, he_hdr := 2097152257 }, 0),
       ({ start := 50, next := 60, he_hdr := 2097152257 }, 0)] ∧
    (kvs_entry_read eeS2 { start := 32, next := 42, he_hdr := 2097152257 } 1 1).toOption
      = some [9] ∧
    (kvs_entry_read eeS2 { start := 50, next := 60, he_hdr := 2097152257 } 1 1).toOption
      = some [7] :=
  ⟨eeK0_mount, eeS2_run, by decide⟩

set_option maxRecDepth 100000 in
/-- C7: prefix filter.  After `kvs_write("/a", "bc")` on the mounted erased store `exK0`,
`kvs_walk` with the prefix "/ab" calls the callback on the entry at offset 12, whose key
"/a" has 2 bytes and is shorter than the prefix: the third byte of the prefix was
compared with the first byte of the value. -/
theorem kvs_walk_prefix_in_value :
    kvs_mount exCfg exRaw 4 = some (0, exK0) ∧
    kvs_write exCfg exK0 [47, 97] [98, 99] 8 = some (0, exP1) ∧
    (kvs_walk exCfg exP1 [47, 97, 98] (logCb fun _ _ _ => 0) [] 8).st =
      [({ start := 12, next := 24, he_hdr := 4194304514 }, 0)] ∧
    entry_get_klen { start := 12, next := 24, he_hdr := 4194304514 } = 2 ∧
    (kvs_entry_read exP1 { start := 12, next := 24, he_hdr := 4194304514 } 0 2).toOption
      = some [47, 97] :=
  ⟨exK0_mount, by decide⟩

set_option maxRecDepth 100000 in
/-- C8: `kvs_walk_unique` yields the newest version only.  On the EEPROM store `eeS2`,
`kvs_walk_unique` with the prefix "k" and a callback that returns 0 calls the callback
once, on the entry at offset 50 with the value `[7]`, and not on the entry at offset 32
with the value `[9]`, the version of "k" that was written last. -/
theorem kvs_walk_unique_stale_eeprom :
    kvs_mount eeCfg eeRaw 10 = some (0, eeK0) ∧
    writeAll eeCfg 20 (eeOps ++ [([105], List.replicate 14 4)]) eeK0 = some eeS2 ∧
    (kvs_walk_unique eeCfg eeS2 [107] (logCb fun _ _ _ => 0) [] 30).rc = some 0 ∧
    (kvs_walk_unique eeCfg eeS2 [107] (logCb fun _ _ _ => 0) [] 30).st =
      [({ start := 50, next := 60, he_hdr := 2097152257 }, 0)] ∧
    (kvs_entry_read eeS2 { start := 50, next := 60, he_hdr := 2097152257 } 1 1).toOption
      = some [7] ∧
    kvs_read eeCfg eeS2 [107] 1 20 = some (0, [7]) :=
  ⟨eeK0_mount, eeS2_run, by decide⟩

/-- C9: early stop.  Let the user callback keep a record of its calls.  When a call of
the callback in `kvs_walk` or `kvs_walk_unique` returned a non-zero value `r`, that call
is the last one in the record (no later entry is passed to the callback) and the walk
returns `r` itself. -/
theorem kvs_walk_early_stop (cfg : Cfg) (k : Kvs) (key : List Nat)
    (f : Kvs → Ent → List (Ent × Int) → Int) (fuel : Nat) (res : WalkRes (List (Ent × Int)))
    (l1 l2 : List (Ent × Int)) (p : Ent × Int)
    (hres : res = kvs_walk cfg k key (logCb f) [] fuel ∨
      res = kvs_walk_unique cfg k key (logCb f) [] fuel)
    (hl : res.st = l1 ++ p :: l2) (hp : p.2 ≠ 0) :
    l2 = [] ∧ res.rc = some p.2 := by
  rcases hres with h | h
  · subst h; exact kvs_walk_last cfg k key f fuel l1 l2 p hl hp
  · subst h; exact kvs_walk_unique_last cfg k key f fuel l1 l2 p hl hp

set_option maxRecDepth 100000 in
/-- A callback that returns `KVS_DONE` at once, on the store `exK2` with two versions of
the key "a": both walks make one call and return `KVS_DONE`. -/
theorem kvs_walk_early_stop_witness :
    (kvs_walk exCfg exK2 [97] (logCb fun _ _ _ => KVS_DONE) [] 8).rc = some KVS_DONE ∧
    (kvs_walk_unique exCfg exK2 [97] (logCb fun _ _ _ => KVS_DONE) [] 8).rc = some KVS_DONE :=
  ⟨(kvs_walk_early_stop exCfg exK2 [97] (fun _ _ _ => KVS_DONE) 8 _ []
      [] ({ start := 12, next := 24, he_hdr := 2097152257 }, KVS_DONE) (Or.inl rfl)
      (by decide) (by decide)).2,
   (kvs_walk_early_stop exCfg exK2 [97] (fun _ _ _ => KVS_DONE) 8 _ []
      [] ({ start := 24, next := 36, he_hdr := 3221225985 }, KVS_DONE) (Or.inr rfl)
      (by decide) (by decide)).2⟩

/-! ## Compaction -/

set_option maxRecDepth 100000 in
/-- C10: explicit compaction preserves the key-value map.  On the EEPROM store `eeS`,
`kvs_read("k")` returns 0 and `[9]`; `kvs_compact` returns 0, and after it `kvs_read("k")`
returns 0 and `[7]`, the value that the second call of `eeOps` had written. -/
theorem kvs_compact_changes_read_eeprom :
    kvs_mount eeCfg eeRaw 10 = some (0, eeK0) ∧
    writeAll eeCfg 20 eeOps eeK0 = some eeS ∧
    kvs_read eeCfg eeS [107] 1 20 = some (0, [9]) ∧
    kvs_compact eeCfg eeS 20 = some (0, eeS3) ∧
    kvs_read eeCfg eeS3 [107] 1 20 = some (0, [7]) :=
  ⟨eeK0_mount, eeS_run, by decide, by decide, by decide⟩

/-! ## Mount, unmount and recovery -/

set_option maxRecDepth 100000 in
/-- C11: remount restores the cursor.  On the EEPROM store, after the mount of the region
filled with `0xFF` and one `kvs_write("/cnt", ..)` (the steps of the test
`c_kvs_remount`) the write position is 28; `kvs_unmount` and `kvs_mount` return 0 and
leave it at 36, behind the end mark.  On the flash store `gcS`, reached by the five
successful calls `gcOps`, the write position is 100 and after unmount and mount 88. -/
theorem remount_moves_pos :
    kvs_mount eeCfg eeRaw 10 = some (0, eeK0) ∧
    kvs_write eeCfg eeK0 [47, 99, 110, 116] [0, 0, 0, 0] 20 = some (0, eeW1) ∧
    (eeW1.pos, eeW1.bend, eeW1.wrapcnt) = (28, 64, 0) ∧
    (remount eeCfg eeW1 30).map (fun r => (r.1, r.2.pos, r.2.bend, r.2.wrapcnt))
      = some (0, 36, 64, 0) ∧
    kvs_mount exCfg exRaw 4 = some (0, exK0) ∧
    writeAll exCfg 20 gcOps exK0 = some gcS ∧
    (gcS.pos, gcS.bend, gcS.wrapcnt) = (100, 128, 0) ∧
    remount exCfg gcS 40 = some (0, gcR) ∧
    (gcR.pos, gcR.bend, gcR.wrapcnt) = (88, 128, 0) :=
  ⟨eeK0_mount, by decide!, by decide!, by decide!, exK0_mount, gcS_run, by decide!, gcR_remount,
    by decide!⟩

set_option maxRecDepth 100000 in
/-- C12: durability across remount.  On the flash store `gcS`, reached from the mounted
erased region by the five successful calls `gcOps`, `kvs_read("c")` returns 0 and `[5]`;
`kvs_unmount` and `kvs_mount` return 0, and after them `kvs_read("c")` returns
`-KVS_ENOENT`: the key is lost. -/
theorem remount_loses_key :
    kvs_mount exCfg exRaw 4 = some (0, exK0) ∧
    writeAll exCfg 20 gcOps exK0 = some gcS ∧
    kvs_read exCfg gcS [99] 1 20 = some (0, [5]) ∧
    remount exCfg gcS 40 = some (0, gcR) ∧
    gcR.ready = true ∧
    kvs_read exCfg gcR [99] 1 20 = some (-KVS_ENOENT, []) :=
  ⟨exK0_mount, gcS_run, by decide!, gcR_remount, by decide!, by decide!⟩

set_option maxRecDepth 100000 in
/-- C13: interrupted-GC recovery.  On the flash store `icS` (seven successful writes,
`"b" = [4]` and `"c" = [7]` are the newest values, both in block 1) the next append does
not fit, and the compaction it starts copies block 1 into block 0.  When the power is
cut after the block header of block 0 (12 bytes) or after the header and the first copy
(24 bytes) are programmed, the next `kvs_mount` returns 0 with the store mounted, and
afterwards `kvs_read` returns `-KVS_ENOENT` for "b" and for "c": recovery has raised the
wrap counter a second time and takes block 1 for a stale block. -/
theorem interrupted_gc_block0_loses_data :
    kvs_mount exCfg exRaw 4 = some (0, exK0) ∧
    writeAll exCfg 20 icOps exK0 = some icS ∧
    kvs_read exCfg icS [98] 1 20 = some (0, [4]) ∧
    kvs_read exCfg icS [99] 1 20 = some (0, [7]) ∧
    (entry_add exCfg icS wlk0 [100] [8]).1 = -KVS_ENOSPC ∧
    compact exCfg icS (block_advance_n exCfg icS.bend (exCfg.bspr + 1)) 20
      = some (0, icDone) ∧
    kvs_mount exCfg (icRaw 12) 40 = some (0, icM12) ∧
    (icM12.ready, icM12.pos, icM12.bend, icM12.wrapcnt) = (true, 0, 64, 2) ∧
    kvs_read exCfg icM12 [98] 1 20 = some (-KVS_ENOENT, []) ∧
    kvs_read exCfg icM12 [99] 1 20 = some (-KVS_ENOENT, []) ∧
    kvs_mount exCfg (icRaw 24) 40 = some (0, icM24) ∧
    icM24.ready = true ∧
    kvs_read exCfg icM24 [98] 1 20 = some (-KVS_ENOENT, []) ∧
    kvs_read exCfg icM24 [99] 1 20 = some (-KVS_ENOENT, []) :=
  ⟨exK0_mount, icS_run, by decide!, by decide!, by decide!, by decide!, by decide!, by decide!,
    by decide!, by decide!, by decide!, by decide!, by decide!, by decide!⟩

/-- C14: empty mount.  For every valid configuration (power-of-two sizes, `bcnt > bspr`,
and `bspr ≥ 1` or the EEPROM backend) and every store on a region whose
bytes are all `0xFF`, `kvs_mount` (with fuel for more than `bcnt` blocks) returns 0 and
leaves the store mounted with `wrapcnt = 0`, `pos = 0` and `bend = bsz`, the device
untouched: the header `FF FF FF FF` is rejected by the header check, so
`kvs_set_data_bend` finds no block and `recover` has nothing to do.  Afterwards
`kvs_read` returns `-KVS_ENOENT` for every key. -/
theorem kvs_mount_empty (cfg : Cfg) (hc : CfgOk cfg)
    (hs : 1 ≤ cfg.bspr ∨ cfg.backend = .eeprom) (k : Kvs)
    (hdev : k.dev = List.replicate (cfg.bsz * cfg.bcnt) KVS_FILLCHAR)
    (hr : k.ready = false) (fuel : Nat) (hf : cfg.bcnt < fuel) :
    (∀ e, entry_get_param cfg e [255, 255, 255, 255] = (-KVS_EINVAL, e)) ∧
    kvs_set_data_bend cfg k = { k with wrapcnt := 0, pos := 0, bend := cfg.bsz } ∧
    recover cfg { k with wrapcnt := 0, pos := 0, bend := cfg.bsz } fuel
      = some (0, { k with wrapcnt := 0, pos := 0, bend := cfg.bsz }) ∧
    kvs_mount cfg k fuel
      = some (0, { k with ready := true, wrapcnt := 0, pos := 0, bend := cfg.bsz }) ∧
    ∀ key len, kvs_read cfg { k with ready := true, wrapcnt := 0, pos := 0, bend := cfg.bsz }
      key len fuel = some (-KVS_ENOENT, []) := by
  refine ⟨entry_get_param_erased cfg, ?_, ?_, ?_, ?_⟩
  · unfold kvs_set_data_bend
    exact kvs_set_data_bend_loop_erased cfg _ _ _
      { k with wrapcnt := 0, pos := 0, bend := cfg.bsz } _ hdev
      (by have := hc.small; rw [Nat.zero_add, Nat.mul_comm]; omega)
  · exact recover_erased cfg hc { k with wrapcnt := 0, pos := 0, bend := cfg.bsz } _ hdev rfl
      fuel hf
  · obtain ⟨jb, _, hb⟩ := hc.bsz_pow
    exact kvs_mount_erased cfg hc
      ((kvs_dev_init_rc cfg (by rw [hb]; exact Nat.pow_pos (by norm_num))).1 hs)
      k _ hdev hr fuel hf
  · intro key len
    obtain ⟨f, rfl⟩ : ∃ f, fuel = f + 1 := ⟨fuel - 1, by omega⟩
    exact kvs_read_erased cfg hc
      { k with ready := true, wrapcnt := 0, pos := 0, bend := cfg.bsz } _ hdev rfl rfl rfl
      key len f

/-- The erased flash region of two blocks: the mount gives `exK0`, and the key "k" is
not found. -/
theorem kvs_mount_empty_witness :
    exRaw.ready = false ∧ kvs_mount exCfg exRaw 3 = some (0, exK0) ∧
    kvs_read exCfg exK0 [107] 4 3 = some (-KVS_ENOENT, []) :=
  have h := kvs_mount_empty exCfg exCfg_ok (Or.inl (by decide)) exRaw rfl rfl 3 (by decide)
  ⟨rfl, h.2.2.2.1, h.2.2.2.2 [107] 4⟩

set_option maxRecDepth 100000 in
/-- C15: `kvs_mount` returning 0 implies the store is mounted.  On the flash store of
three blocks, after the four successful calls `mfOps`, `kvs_unmount` and `kvs_mount`:
`recover` runs the compaction again, which fails with `-KVS_ENOSPC`; `kvs_mount` returns
0 all the same and leaves `ready` false, so that the following `kvs_read` returns
`-KVS_EINVAL`. -/
theorem mount_zero_not_ready :
    kvs_mount flCfg eeRaw 10 = some (0, eeK0) ∧
    writeAll flCfg 20 mfOps eeK0 = some mfS ∧
    kvs_read flCfg mfS [120] 10 20 = some (0, List.replicate 10 1) ∧
    (kvs_set_data_pos flCfg 40 (kvs_set_data_bend flCfg (kvs_unmount flCfg mfS).2)).bind
      (fun k1 => (recover flCfg k1 40).map (fun r => r.1)) = some (-KVS_ENOSPC) ∧
    remount flCfg mfS 40 = some (0, mfR) ∧
    mfR.ready = false ∧
    kvs_read flCfg mfR [120] 10 20 = some (-KVS_EINVAL, []) := by decide!

/-! ## Error handling -/

set_option maxRecDepth 100000 in
/-- C16 as stated does not hold.  On the flash store `exK1` with a device that refuses to
program at offset 24, the append of `kvs_write("b", [2])` fails with `-KVS_EIO`, and
`kvs_write` returns 0: it has written the entry to the next block.  On a device that
refuses every program operation `kvs_write` returns `-KVS_ENOSPC`. -/
theorem kvs_write_hides_prog_failure :
    kvs_write pfCfg exK0 [97] [1] 8 = some (0, exK1) ∧
    (entry_add pfCfg exK1 wlk0 [98] [2]).1 = - KVS_EIO ∧
    kvs_write pfCfg exK1 [98] [2] 8 = some (0, pfS) ∧
    kvs_read pfCfg pfS [98] 1 8 = some (0, [2]) ∧
    (entry_add deadCfg exK1 wlk0 [98] [2]).1 = - KVS_EIO ∧
    (kvs_write deadCfg exK1 [98] [2] 8).map (fun r => r.1) = some (-KVS_ENOSPC) := by
  decide!

/-- C16 (amended): a backend failure during a write is not surfaced.  On a mounted
store, whatever the backend calls of its appends and compactions return, `kvs_write`
does not return the IO error code of the backend: the only codes it returns are 0 and
`-KVS_ENOSPC`. -/
theorem kvs_write_io_not_surfaced (cfg : Cfg) (k : Kvs) (key value : List Nat) (fuel : Nat)
    (rc : Int) (k2 : Kvs) (hr : k.ready = true)
    (h : kvs_write cfg k key value fuel = some (rc, k2)) :
    (rc = 0 ∨ rc = -KVS_ENOSPC) ∧ rc ≠ - KVS_EIO := by
  rcases kvs_write_rc cfg k key value fuel rc k2 h with ⟨hf, _⟩ | ⟨_, h2⟩
  · rw [hr] at hf; cases hf
  · refine ⟨h2, ?_⟩
    rcases h2 with h2 | h2 <;> rw [h2] <;> decide

set_option maxRecDepth 100000 in
/-- The write of "b" on the device that refuses to program at offset 24. -/
theorem kvs_write_io_not_surfaced_witness :
    exK1.ready = true ∧ kvs_write pfCfg exK1 [98] [2] 8 = some (0, pfS) ∧
    (((0 : Int) = 0 ∨ (0 : Int) = -KVS_ENOSPC) ∧ (0 : Int) ≠ - KVS_EIO) :=
  have h : kvs_write pfCfg exK1 [98] [2] 8 = some (0, pfS) := by decide
  ⟨by decide, h, kvs_write_io_not_surfaced pfCfg exK1 [98] [2] 8 0 pfS (by decide) h⟩

/-- C17: mount validation.  `kvs_mount` returns `-KVS_EINVAL` when the store or its
configuration is `NULL`, when `cfg->read` or `cfg->prog` is `NULL`, when `psz` or `bsz`
is zero or not a power of two, or when `bsz < psz`; it returns `-KVS_EAGAIN` when all
these checks pass and the store is mounted.  In each case the store (device, `pos`,
`bend`, `wrapcnt`, `ready`) is left as it was, and the result does not depend on the
fuel: no loop is entered. -/
theorem kvs_mount_validation (kvs : Option KvsArg) (fuel : Nat) :
    (kvs = none → kvs_mount_ptr kvs fuel = some (-KVS_EINVAL, none)) ∧
    (∀ s, kvs = some s →
      (s.cfg = none ∨ ∃ c, s.cfg = some c ∧
        (c.read_set = false ∨ c.prog_set = false ∨
          (c.cfg.psz = 0 ∨ ¬ ∃ j, c.cfg.psz = 2 ^ j) ∨
          (c.cfg.bsz = 0 ∨ ¬ ∃ j, c.cfg.bsz = 2 ^ j) ∨ c.cfg.bsz < c.cfg.psz)) →
      kvs_mount_ptr kvs fuel = some (-KVS_EINVAL, some s.data)) ∧
    (∀ s c, kvs = some s → s.cfg = some c → c.read_set = true → c.prog_set = true →
      (∃ j, c.cfg.psz = 2 ^ j) → (∃ j, c.cfg.bsz = 2 ^ j) → c.cfg.psz ≤ c.cfg.bsz →
      s.data.ready = true →
      kvs_mount_ptr kvs fuel = some (-KVS_EAGAIN, some s.data)) := by
  refine ⟨?_, ?_, ?_⟩
  · rintro rfl
    rfl
  · rintro s rfl h
    unfold kvs_mount_ptr
    dsimp only
    rcases h with h | ⟨c, hc, h⟩
    · rw [h]
    · rw [hc]
      dsimp only
      by_cases hs : ¬ c.read_set = true ∨ ¬ c.prog_set = true
      · rw [if_pos hs]
      · rw [if_neg hs]
        rcases h with h | h | h
        · exact absurd (Or.inl (by simp [h])) hs
        · exact absurd (Or.inr (by simp [h])) hs
        · rw [(kvs_mount_rc c.cfg s.data fuel).1 h]
  · rintro s c rfl hc hrd hpr hp hb hle hr
    unfold kvs_mount_ptr
    dsimp only
    rw [hc]
    dsimp only
    rw [if_neg (by simp [hrd, hpr]), ((kvs_mount_rc c.cfg s.data fuel).2 hp hb hle).1 hr]

/-- No store; a program size of 3; a block size smaller than the program size; the
mounted store `exK0`. -/
theorem kvs_mount_validation_witness :
    kvs_mount_ptr none 0 = some (-KVS_EINVAL, none) ∧
    kvs_mount_ptr (some ⟨some ⟨{ exCfg with psz := 3 }, true, true⟩, exRaw⟩) 0
      = some (-KVS_EINVAL, some exRaw) ∧
    kvs_mount_ptr (some ⟨some ⟨{ exCfg with bsz := 2 }, true, true⟩, exRaw⟩) 0
      = some (-KVS_EINVAL, some exRaw) ∧
    kvs_mount_ptr (some ⟨some ⟨exCfg, true, true⟩, exK0⟩) 0
      = some (-KVS_EAGAIN, some exK0) :=
  ⟨(kvs_mount_validation none 0).1 rfl,
   (kvs_mount_validation _ 0).2.1 _ rfl (Or.inr ⟨_, rfl, Or.inr (Or.inr (Or.inl (Or.inr
      (by
        rintro ⟨j, hj⟩
        change 3 = 2 ^ j at hj
        rcases j with _ | _ | j
        · omega
        · omega
        · rw [pow_succ, pow_succ] at hj; omega))))⟩),
   (kvs_mount_validation _ 0).2.1 _ rfl (Or.inr ⟨_, rfl, Or.inr (Or.inr (Or.inr (Or.inr
      (by decide))))⟩),
   (kvs_mount_validation _ 0).2.2 _ _ rfl rfl rfl rfl ⟨2, rfl⟩ ⟨6, rfl⟩ (by decide) rfl⟩

/-- C19: unmounted stores reject data operations.  On a store with `ready == false`
each of `kvs_read`, `kvs_entry_get`, `kvs_entry_read`, `kvs_write`, `kvs_delete`,
`kvs_walk`, `kvs_walk_unique` and `kvs_compact` returns `-KVS_EINVAL`; the store (the
device and the program buffer, `pos`, `bend`, `wrapcnt`) is what it was, the caller's
entry and the callback argument are untouched, and the result is the same for every
device content and every fuel: neither a scan nor a backend call takes place. -/
theorem unmounted_store_rejects {σ : Type} (cfg : Cfg) (k : Kvs) (hr : k.ready = false)
    (key value : List Nat) (ent : Ent) (off len fuel : Nat) (cb : Cb σ) (arg : σ) :
    kvs_read cfg k key len fuel = some (-KVS_EINVAL, []) ∧
    kvs_entry_get cfg k ent key fuel = some (-KVS_EINVAL, ent) ∧
    kvs_entry_read k ent off len = .error (-KVS_EINVAL) ∧
    kvs_write cfg k key value fuel = some (-KVS_EINVAL, k) ∧
    kvs_delete cfg k key fuel = some (-KVS_EINVAL, k) ∧
    kvs_walk cfg k key cb arg fuel = { rc := some (-KVS_EINVAL), kvs := k, st := arg } ∧
    kvs_walk_unique cfg k key cb arg fuel
      = { rc := some (-KVS_EINVAL), kvs := k, st := arg } ∧
    kvs_compact cfg k fuel = some (-KVS_EINVAL, k) := by
  have hn : ¬ k.ready = true := by simp [hr]
  have hg : ∀ e, kvs_entry_get cfg k e key fuel = some (-KVS_EINVAL, e) := by
    intro e
    unfold kvs_entry_get
    rw [if_pos hn]
  refine ⟨?_, hg ent, ?_, ?_, ?_, ?_, ?_, ?_⟩
  · unfold kvs_read
    rw [hg wlk0]
    rfl
  · unfold kvs_entry_read
    rw [if_pos hn]
  · unfold kvs_write
    rw [if_pos hn]
  · unfold kvs_delete kvs_write
    rw [if_pos hn]
  · unfold kvs_walk
    rw [if_pos hn]
  · unfold kvs_walk_unique
    rw [if_pos hn]
  · unfold kvs_compact
    rw [if_pos hn]

/-- The store `exRaw` before its mount, with the key "a" and no fuel. -/
theorem unmounted_store_rejects_witness :
    exRaw.ready = false ∧
    kvs_read exCfg exRaw [97] 1 0 = some (-KVS_EINVAL, []) ∧
    kvs_write exCfg exRaw [97] [1] 0 = some (-KVS_EINVAL, exRaw) ∧
    kvs_compact exCfg exRaw 0 = some (-KVS_EINVAL, exRaw) :=
  have h := unmounted_store_rejects exCfg exRaw rfl [97] [1] wlk0 0 1 0
    (logCb fun _ _ _ => 0) []
  ⟨rfl, h.1, h.2.2.2.1, h.2.2.2.2.2.2.2⟩

/-! ## Erase -/

set_option maxRecDepth 100000 in
theorem crc8_byte_ref : ∀ x, x < 256 → crc8_nibble (crc8_nibble x) = crc8_ref_bits 8 x := by
  decide

theorem crc8_eq_ref_aux (s : List Nat) : ∀ c, c < 256 → (∀ b ∈ s, b < 256) →
    crc8 c s = crc8_ref c s := by
  induction s with
  | nil => intro c _ _; rfl
  | cons b s ih =>
    intro c hc hs
    have hb : b < 256 := hs b (List.mem_cons_self _ _)
    have hx : c ^^^ b < 256 := Nat.xor_lt_two_pow (n := 8) hc hb
    unfold crc8 crc8_ref
    rw [List.foldl_cons, List.foldl_cons, crc8_byte_ref _ hx]
    have hn : crc8_ref_bits 8 (c ^^^ b) < 256 := by
      rw [← crc8_byte_ref _ hx]; exact crc8_nibble_lt _
    exact ih _ hn (fun b' hb' => hs b' (List.mem_cons_of_mem _ hb'))

/-! ### CRC-32 -/

theorem xor_xor_cancel (a b p : Nat) : (a ^^^ p) ^^^ (b ^^^ p) = a ^^^ b := by
  apply Nat.eq_of_testBit_eq
  intro i
  simp only [Nat.testBit_xor]
  cases a.testBit i <;> cases b.testBit i <;> cases p.testBit i <;> rfl

theorem xor_right_comm (a b p : Nat) : (a ^^^ b) ^^^ p = (a ^^^ p) ^^^ b := by
  rw [Nat.xor_assoc, Nat.xor_comm b p, ← Nat.xor_assoc]

theorem crc32_ref_bit_xor (x y : Nat) :
    crc32_ref_bit (x ^^^ y) = crc32_ref_bit x ^^^ crc32_ref_bit y := by
  unfold crc32_ref_bit
  have hd : (x ^^^ y) >>> 1 = (x >>> 1) ^^^ (y >>> 1) := by
    simp only [Nat.shiftRight_eq_div_pow, pow_one]
    exact Nat.xor_div_two
  have hm : (x ^^^ y) % 2 = (x + y) % 2 := Nat.xor_mod_two_eq
  rw [hd]
  rcases Nat.mod_two_eq_zero_or_one x with hx | hx <;>
    rcases Nat.mod_two_eq_zero_or_one y with hy | hy
  · rw [if_neg (by omega), if_neg (by omega), if_neg (by omega)]
  · rw [if_pos (by omega), if_neg (by omega), if_pos (by omega), Nat.xor_assoc]
  · rw [if_pos (by omega), if_pos (by omega), if_neg (by omega), xor_right_comm]
  · rw [if_neg (by omega), if_pos (by omega), if_pos (by omega), xor_xor_cancel]

theorem crc32_ref_bits_xor (n : Nat) : ∀ x y,
    crc32_ref_bits n (x ^^^ y) = crc32_ref_bits n x ^^^ crc32_ref_bits n y := by
  induction n with
  | zero => intro x y; rfl
  | succ n ih => intro x y; simp only [crc32_ref_bits, crc32_ref_bit_xor, ih]

theorem crc32_ref_bits_add (m n c : Nat) :
    crc32_ref_bits (m + n) c = crc32_ref_bits n (crc32_ref_bits m c) := by
  induction m generalizing c with
  | zero => simp [crc32_ref_bits]
  | succ m ih =>
    rw [Nat.succ_add]
    simp only [crc32_ref_bits]
    exact ih _

theorem crc32_ref_bits_shift (n q : Nat) : crc32_ref_bits n (q <<< n) = q := by
  induction n generalizing q with
  | zero => rfl
  | succ n ih =>
    simp only [crc32_ref_bits]
    have h0 : (q <<< (n + 1)) % 2 = 0 := by
      rw [Nat.shiftLeft_eq, pow_succ, ← Nat.mul_assoc]
      exact Nat.mul_mod_left _ _
    have h1 : (q <<< (n + 1)) >>> 1 = q <<< n := by
      rw [Nat.shiftRight_eq_div_pow, Nat.shiftLeft_eq, Nat.shiftLeft_eq, pow_succ,
        ← Nat.mul_assoc, pow_one, Nat.mul_div_cancel _ (by norm_num)]
    unfold crc32_ref_bit
    rw [if_neg (by omega), h1]
    exact ih q

set_option maxRecDepth 100000 in
theorem crc32_table_ref : ∀ n, n < 16 → crc32_ref_bits 4 n = kvs_crc32_table.getD n 0 := by
  decide

theorem split_nibble (x : Nat) : ((x >>> 4) <<< 4) ^^^ (x &&& 15) = x := by
  apply Nat.eq_of_testBit_eq
  intro i
  have e : (15 : Nat) = 2 ^ 4 - 1 := by norm_num
  rw [e]
  simp only [Nat.testBit_xor, Nat.testBit_shiftLeft, Nat.testBit_shiftRight,
    Nat.testBit_and, Nat.testBit_two_pow_sub_one]
  by_cases h : i < 4
  · have : ¬ i ≥ 4 := by omega
    simp [h, this]
  · have h2 : i ≥ 4 := by omega
    have h3 : 4 + (i - 4) = i := by omega
    simp [h, h2, h3]

/-- Four bit steps of the reference CRC-32 are one table step. -/
theorem crc32_ref_nibble (x : Nat) :
    crc32_ref_bits 4 x = (x >>> 4) ^^^ kvs_crc32_table.getD (x &&& 15) 0 := by
  have hlt : x &&& 15 < 16 := by
    have e : (15 : Nat) = 2 ^ 4 - 1 := by norm_num
    rw [e, Nat.and_pow_two_sub_one_eq_mod]
    exact Nat.mod_lt _ (by norm_num)
  conv_lhs => rw [← split_nibble x]
  rw [crc32_ref_bits_xor, crc32_ref_bits_shift, crc32_table_ref _ hlt]

theorem shr_xor (x y n : Nat) : (x ^^^ y) >>> n = (x >>> n) ^^^ (y >>> n) := by
  apply Nat.eq_of_testBit_eq
  intro i
  simp only [Nat.testBit_xor, Nat.testBit_shiftRight]

/-- The byte step of `crc32` is eight bit steps of the reference. -/
theorem crc32_byte_ref (c b : Nat) (hb : b < 256) :
    crc32_byte c b = crc32_ref_bits 8 (c ^^^ b) := by
  have e8 : (8 : Nat) = 4 + 4 := rfl
  have hb8 : (b >>> 4) >>> 4 = 0 := by
    rw [← Nat.shiftRight_add, Nat.shiftRight_eq_div_pow]
    exact Nat.div_eq_of_lt (by norm_num; omega)
  have h1 : crc32_ref_bits 4 (c ^^^ b)
      = (c >>> 4 ^^^ kvs_crc32_table.getD ((c ^^^ b) &&& 15) 0) ^^^ (b >>> 4) := by
    rw [crc32_ref_nibble, shr_xor, xor_right_comm]
  have h2 : ∀ c1 : Nat, (c1 ^^^ (b >>> 4)) >>> 4 = c1 >>> 4 := by
    intro c1
    rw [shr_xor, hb8, Nat.xor_zero]
  rw [e8, crc32_ref_bits_add, h1, crc32_ref_nibble, h2]
  rfl

theorem crc32_eq_ref_aux (s : List Nat) : ∀ c, (∀ b ∈ s, b < 256) →
    s.foldl crc32_byte c = s.foldl (fun c b => crc32_ref_bits 8 (c ^^^ b)) c := by
  induction s with
  | nil => intro c _; rfl
  | cons b s ih =>
    intro c hs
    rw [List.foldl_cons, List.foldl_cons, crc32_byte_ref c b (hs b (List.mem_cons_self _ _))]
    exact ih _ (fun b' hb' => hs b' (List.mem_cons_of_mem _ hb'))


/-! ### Header bytes -/

/-- The four header bytes of an entry: key length, value length (low byte first), and the
CRC-8 of these three bytes followed by a zero byte. -/
theorem put_le32_hdrWord (kl vl : Nat) (hk : kl < 256) (hv : vl < 65536) :
    put_le32 (hdrWord kl vl) = [kl, vl % 256, vl / 256, crc8 0 [kl, vl % 256, vl / 256, 0]] := by
  have hd : entry_set_len kl vl < 16777216 := by
    rw [entry_set_len_eq kl vl hk hv]; omega
  have h1 : put_le32 (entry_set_len kl vl) = [kl, vl % 256, vl / 256, 0] := by
    rw [put_le32_eq, entry_set_len_eq kl vl hk hv]
    congr 1
    · omega
    · congr 1
      · omega
      · congr 1
        · omega
        · congr 1
          omega
  unfold hdrWord
  rw [entry_hdr_add_crc_eq _ hd, h1]
  have hc := crc8_lt 0 [kl, vl % 256, vl / 256, 0] (by decide)
  generalize crc8 0 [kl, vl % 256, vl / 256, 0] = c at hc ⊢
  rw [put_le32_eq, entry_set_len_eq kl vl hk hv]
  congr 1
  · omega
  · congr 1
    · omega
    · congr 1
      · omega
      · congr 1
        omega

/-! ### Scenario runs -/

set_option maxRecDepth 100000 in
/-- The writes `ovOps` all return 0 and lead to the store `ovS`. -/
theorem ovS_run : writeAll exCfg 20 ovOps exK0 = some ovS := by decide!

set_option maxRecDepth 100000 in
/-- The writes `cpOps` all return 0 and lead to the store `cpS`. -/
theorem cpS_run : writeAll flCfg 20 cpOps eeK0 = some cpS := by decide!

/-! ## The cursor invariant -/

theorem CurStep.same (k : Kvs) : CurStep k k := ⟨rfl, Or.inl rfl⟩

theorem CurStep.comp {k k2 k3 : Kvs} (h1 : CurStep k k2) (h2 : CurStep k2 k3) :
    CurStep k k3 := by
  obtain ⟨b1, p1⟩ := h1
  obtain ⟨b2, p2⟩ := h2
  refine ⟨b2.trans b1, ?_⟩
  rcases p2 with p2 | p2
  · rw [p2]; exact p1
  · right; rw [p2, b1]

theorem CurStep.of_eq {k k2 : Kvs} (hp : k2.pos = k.pos) (hb : k2.bend = k.bend) :
    CurStep k k2 := ⟨hb, Or.inl hp⟩

theorem CursorOk.step {cfg : Cfg} {k k2 : Kvs} (hs : SizeOk cfg) (h : CursorOk cfg k)
    (hst : CurStep k k2) : CursorOk cfg k2 := by
  obtain ⟨hb, hp⟩ := hst
  obtain ⟨jp, _, hjp⟩ := hs.psz_pow
  obtain ⟨jb, _, hjb⟩ := hs.bsz_pow
  have hdiv : cfg.bsz % cfg.psz = 0 := pow_dvd_of_le _ _ jp jb hjp hjb hs.psz_le
  have hbp : k.bend % cfg.psz = 0 := mod_of_mod_mul _ _ _ h.bend_mod hdiv
  have h1 := h.bend_mod
  have h2 := h.bend_ge
  have h3 := h.bend_le
  have h4 := h.pos_mod
  have h5 := h.pos_ge
  have h6 := h.pos_le
  rcases hp with hp | hp
  · exact ⟨by rw [hb]; exact h1, by rw [hb]; exact h2, by rw [hb]; exact h3,
      by rw [hp]; exact h4, by rw [hb, hp]; exact h5, by rw [hb, hp]; exact h6⟩
  · exact ⟨by rw [hb]; exact h1, by rw [hb]; exact h2, by rw [hb]; exact h3,
      by rw [hp]; exact hbp, by rw [hb, hp]; omega, by rw [hb, hp]⟩

/-! ### The writer leaves the cursor alone, except for the jump to the block end -/

theorem kvs_dev_prog_cur (cfg : Cfg) (k : Kvs) (off : Nat) (data : List Nat) :
    (kvs_dev_prog cfg k off data).2.pos = k.pos ∧
    (kvs_dev_prog cfg k off data).2.bend = k.bend := by
  unfold kvs_dev_prog
  split
  · exact ⟨rfl, rfl⟩
  · split
    · exact ⟨rfl, rfl⟩
    · split <;> exact ⟨rfl, rfl⟩

theorem prog_comp_cur (cfg : Cfg) (k : Kvs) (off : Nat) (data : List Nat) :
    (prog_comp cfg k off data).2.pos = k.pos ∧ (prog_comp cfg k off data).2.bend = k.bend := by
  unfold prog_comp
  have h := kvs_dev_prog_cur cfg k off data
  generalize kvs_dev_prog cfg k off data = r at h ⊢
  obtain ⟨rc, k1⟩ := r
  dsimp only at h ⊢
  split <;> exact h

theorem kvs_dev_sync_cur (cfg : Cfg) (k : Kvs) :
    (kvs_dev_sync cfg k).2.pos = k.pos ∧ (kvs_dev_sync cfg k).2.bend = k.bend := by
  unfold kvs_dev_sync
  split
  · exact ⟨rfl, rfl⟩
  · split
    · exact ⟨rfl, rfl⟩
    · split <;> exact ⟨rfl, rfl⟩

theorem entry_write_rem_cur (cfg : Cfg) (k : Kvs) (off rem : Nat) (data : List Nat) :
    (entry_write_rem cfg k off rem data).2.1.pos = k.pos ∧
    (entry_write_rem cfg k off rem data).2.1.bend = k.bend := by
  unfold entry_write_rem
  split
  · dsimp only
    split
    · have h := prog_comp_cur cfg
        { k with pbuf := memWrite k.pbuf (cfg.psz - rem) (data.take (KVS_MIN data.length rem)) }
        off ((memWrite k.pbuf (cfg.psz - rem)
          (data.take (KVS_MIN data.length rem))).take cfg.psz)
      generalize prog_comp cfg
        { k with pbuf := memWrite k.pbuf (cfg.psz - rem) (data.take (KVS_MIN data.length rem)) }
        off ((memWrite k.pbuf (cfg.psz - rem)
          (data.take (KVS_MIN data.length rem))).take cfg.psz) = r at h ⊢
      obtain ⟨rc, k2⟩ := r
      dsimp only at h ⊢
      split <;> exact h
    · exact ⟨rfl, rfl⟩
  · exact ⟨rfl, rfl⟩

theorem entry_write_direct_cur (cfg : Cfg) (k : Kvs) (off : Nat) (data : List Nat) :
    (entry_write_direct cfg k off data).2.1.pos = k.pos ∧
    (entry_write_direct cfg k off data).2.1.bend = k.bend := by
  unfold entry_write_direct
  split
  · dsimp only
    have h := prog_comp_cur cfg k off (data.take (KVS_ALIGNDOWN data.length cfg.psz))
    generalize prog_comp cfg k off (data.take (KVS_ALIGNDOWN data.length cfg.psz)) = r at h ⊢
    obtain ⟨rc, k2⟩ := r
    dsimp only at h ⊢
    split <;> exact h
  · exact ⟨rfl, rfl⟩

theorem entry_write_tail_cur (k : Kvs) (data : List Nat) :
    (entry_write_tail k data).pos = k.pos ∧ (entry_write_tail k data).bend = k.bend := by
  unfold entry_write_tail
  split <;> exact ⟨rfl, rfl⟩

theorem poison_cur (k k1 : Kvs) (_hp : k1.pos = k.pos) (hb : k1.bend = k.bend) :
    CurStep k (poison k1) := ⟨hb, Or.inr hb⟩

theorem entry_write_cur (cfg : Cfg) (k : Kvs) (ent : Ent) (off : Nat) (data : List Nat) :
    CurStep k (entry_write cfg k ent off data).2 := by
  unfold entry_write
  dsimp only
  split
  · exact CurStep.same k
  · split
    · exact CurStep.same k
    · have h1 := entry_write_rem_cur cfg k (ent.start + KVS_ALIGNDOWN off cfg.psz)
        (KVS_ALIGNUP off cfg.psz - off) data
      generalize entry_write_rem cfg k (ent.start + KVS_ALIGNDOWN off cfg.psz)
        (KVS_ALIGNUP off cfg.psz - off) data = r at h1 ⊢
      obtain ⟨rc1, k1, off2, data2⟩ := r
      dsimp only at h1 ⊢
      split
      · exact poison_cur k k1 h1.1 h1.2
      · have h2 := entry_write_direct_cur cfg k1 off2 data2
        generalize entry_write_direct cfg k1 off2 data2 = r2 at h2 ⊢
        obtain ⟨rc2, k2, data3⟩ := r2
        dsimp only at h2 ⊢
        split
        · exact poison_cur k k2 (h2.1.trans h1.1) (h2.2.trans h1.2)
        · have h3 := entry_write_tail_cur k2 data3
          exact CurStep.of_eq (h3.1.trans (h2.1.trans h1.1)) (h3.2.trans (h2.2.trans h1.2))

theorem entry_write_fill_cur (cfg : Cfg) (k : Kvs) (ent : Ent) (off : Nat) :
    CurStep k (entry_write_fill cfg k ent off).2 := by
  unfold entry_write_fill
  dsimp only
  split
  · exact CurStep.same k
  · split
    · exact CurStep.same k
    · have h := kvs_dev_prog_cur cfg
        { k with pbuf := (memWrite k.pbuf (cfg.psz - (KVS_ALIGNUP off cfg.psz - off))
            (List.replicate (KVS_ALIGNUP off cfg.psz - off) KVS_FILLCHAR)) }
        (ent.start + KVS_ALIGNDOWN off cfg.psz)
        ((memWrite k.pbuf (cfg.psz - (KVS_ALIGNUP off cfg.psz - off))
            (List.replicate (KVS_ALIGNUP off cfg.psz - off) KVS_FILLCHAR)).take cfg.psz)
      generalize kvs_dev_prog cfg
        { k with pbuf := (memWrite k.pbuf (cfg.psz - (KVS_ALIGNUP off cfg.psz - off))
            (List.replicate (KVS_ALIGNUP off cfg.psz - off) KVS_FILLCHAR)) }
        (ent.start + KVS_ALIGNDOWN off cfg.psz)
        ((memWrite k.pbuf (cfg.psz - (KVS_ALIGNUP off cfg.psz - off))
            (List.replicate (KVS_ALIGNUP off cfg.psz - off) KVS_FILLCHAR)).take cfg.psz)
        = r at h ⊢
      obtain ⟨rc, k2⟩ := r
      dsimp only at h ⊢
      split
      · exact poison_cur k k2 h.1 h.2
      · exact CurStep.of_eq h.1 h.2

theorem entry_write_data_loop_cur (cfg : Cfg) (ent : Ent) (dstart : Nat) (rd : ReadCb) :
    ∀ (fuel : Nat) (k : Kvs) (crc off len : Nat),
      CurStep k (entry_write_data_loop cfg ent dstart rd fuel k crc off len).2.1 := by
  intro fuel
  induction fuel with
  | zero => intro k crc off len; exact CurStep.same k
  | succ fuel ih =>
    intro k crc off len
    rw [entry_write_data_loop]
    split
    · exact CurStep.same k
    · dsimp only
      split
      · exact CurStep.same k
      · rename_i buf _
        have h := entry_write_cur cfg k ent (dstart + off) buf
        generalize entry_write cfg k ent (dstart + off) buf = r at h ⊢
        obtain ⟨rc, k1⟩ := r
        dsimp only at h ⊢
        split
        · exact h
        · exact h.comp (ih _ _ _ _)

theorem entry_write_data_cur (cfg : Cfg) (k : Kvs) (ent : Ent) (dstart : Nat) (rd : ReadCb)
    (crc : Nat) : CurStep k (entry_write_data cfg k ent dstart rd crc).2.1 :=
  entry_write_data_loop_cur cfg ent dstart rd _ k crc 0 _

theorem entry_write_crc_cur (cfg : Cfg) (k : Kvs) (ent : Ent) (off crc : Nat) :
    CurStep k (entry_write_crc cfg k ent off crc).2 := by
  unfold entry_write_crc
  have h := entry_write_cur cfg k ent off (put_le32 crc)
  generalize entry_write cfg k ent off (put_le32 crc) = r at h ⊢
  obtain ⟨rc, k1⟩ := r
  dsimp only at h ⊢
  split
  · exact h
  · exact h.comp (entry_write_fill_cur cfg k1 ent _)

/-! ### The allocator keeps the cursor invariant -/

theorem entry_set_info_cursor {cfg : Cfg} {k : Kvs} (hs : SizeOk cfg) (h : CursorOk cfg k)
    (ent : Ent) (kl vl : Nat) : CursorOk cfg (entry_set_info cfg k ent kl vl).2.1 := by
  unfold entry_set_info
  dsimp only
  split
  · exact h
  · rename_i hfit
    obtain ⟨jp, hjp, hp⟩ := hs.psz_pow
    have hsm := hs.small
    have h3 := h.bend_le
    have h6 := h.pos_le
    have hu : u32 (k.bend + 4294967296 - k.pos) = k.bend - k.pos := by
      unfold u32
      have e : k.bend + 4294967296 - k.pos = (k.bend - k.pos) + 4294967296 := by omega
      rw [e, Nat.add_mod_right, Nat.mod_eq_of_lt (by omega)]
    rw [hu] at hfit
    have hk : kl % 256 < 256 := Nat.mod_lt _ (by norm_num)
    have hv : vl % 65536 < 65536 := Nat.mod_lt _ (by norm_num)
    have hfacts := entry_size_facts cfg jp (kl % 256) (vl % 65536) hp hjp hk hv
    unfold entry_size at hfacts
    generalize KVS_ALIGNDOWN (KVS_HDRSIZE + kl % 256 + vl % 65536 + KVS_KVCRCSIZE - 1) cfg.psz
      + cfg.psz = req at hfit hfacts ⊢
    have hn : u32 (k.pos + req) = k.pos + req := u32_of_lt _ (by omega)
    rw [hn]
    exact ⟨h.bend_mod, h.bend_ge, h.bend_le,
      add_mod_zero _ _ _ h.pos_mod hfacts.1, by have := h.pos_ge; dsimp only; omega,
      by dsimp only; omega⟩

theorem entry_write_hdr_cursor {cfg : Cfg} {k : Kvs} (hs : SizeOk cfg) (h : CursorOk cfg k)
    (ent : Ent) (kl vl : Nat) : CursorOk cfg (entry_write_hdr cfg k ent kl vl).2.1 := by
  unfold entry_write_hdr
  have h1 := entry_set_info_cursor hs h ent kl vl
  generalize entry_set_info cfg k ent kl vl = r at h1 ⊢
  obtain ⟨rc, k1, ent1, hdr⟩ := r
  dsimp only at h1 ⊢
  split
  · exact h1
  · have h2 := entry_write_cur cfg k1 ent1 0 hdr
    generalize entry_write cfg k1 ent1 0 hdr = r2 at h2 ⊢
    obtain ⟨rc1, k2⟩ := r2
    exact h1.step hs h2

theorem kvs_meta_write_cookie_cur (cfg : Cfg) (k : Kvs) (e : Ent) (off crc : Nat) :
    CurStep k (kvs_meta_write_cookie cfg k e off crc).2 := by
  unfold kvs_meta_write_cookie
  split
  · split
    · rename_i cookie _ _
      have h := entry_write_cur cfg k e off (cookie.take k.csz)
      generalize entry_write cfg k e off (cookie.take k.csz) = r at h ⊢
      obtain ⟨rc, k1⟩ := r
      dsimp only at h ⊢
      split
      · exact h
      · exact h.comp (entry_write_crc_cur cfg k1 e _ _)
    · exact entry_write_crc_cur cfg k e _ _
  · exact entry_write_crc_cur cfg k e _ _

theorem kvs_meta_write_cursor {cfg : Cfg} {k : Kvs} (hs : SizeOk cfg) (h : CursorOk cfg k) :
    CursorOk cfg (kvs_meta_write cfg k).2 := by
  unfold kvs_meta_write
  split
  · exact h
  · have h1 := entry_write_hdr_cursor hs h { start := 0, next := 0, he_hdr := 0 } 0
      (KVS_WRAPCNTSIZE + k.csz)
    generalize entry_write_hdr cfg k { start := 0, next := 0, he_hdr := 0 } 0
      (KVS_WRAPCNTSIZE + k.csz) = r at h1 ⊢
    obtain ⟨rc, k1, e⟩ := r
    dsimp only at h1 ⊢
    split
    · exact h1
    · have h2 := entry_write_cur cfg k1 e KVS_HDRSIZE (put_le32 k.wrapcnt)
      generalize entry_write cfg k1 e KVS_HDRSIZE (put_le32 k.wrapcnt) = r2 at h2 ⊢
      obtain ⟨rc1, k2⟩ := r2
      dsimp only at h2 ⊢
      split
      · exact h1.step hs h2
      · exact (h1.step hs h2).step hs (kvs_meta_write_cookie_cur cfg k2 e _ _)

theorem entry_append_body_cursor {cfg : Cfg} {k : Kvs} (hs : SizeOk cfg) (h : CursorOk cfg k)
    (ent : Ent) (krd vrd : ReadCb) :
    CursorOk cfg (entry_append_body cfg k ent krd vrd).2.1 := by
  unfold entry_append_body
  have h1 := entry_write_hdr_cursor hs h ent krd.len vrd.len
  generalize entry_write_hdr cfg k ent krd.len vrd.len = r at h1 ⊢
  obtain ⟨rc, k1, ent1⟩ := r
  dsimp only at h1 ⊢
  split
  · exact h1
  · have h2 := entry_write_data_cur cfg k1 ent1 KVS_HDRSIZE krd KVS_KVCRCINIT
    generalize entry_write_data cfg k1 ent1 KVS_HDRSIZE krd KVS_KVCRCINIT = r2 at h2 ⊢
    obtain ⟨rc1, k2, crc1⟩ := r2
    dsimp only at h2 ⊢
    have hk2 := h1.step hs h2
    split
    · exact hk2
    · have h3 := entry_write_data_cur cfg k2 ent1 (KVS_HDRSIZE + entry_get_klen ent1) vrd crc1
      generalize entry_write_data cfg k2 ent1 (KVS_HDRSIZE + entry_get_klen ent1) vrd crc1
        = r3 at h3 ⊢
      obtain ⟨rc2, k3, crc2⟩ := r3
      dsimp only at h3 ⊢
      have hk3 := hk2.step hs h3
      split
      · exact hk3
      · have h4 := entry_write_crc_cur cfg k3 ent1
          (KVS_HDRSIZE + entry_get_klen ent1 + entry_get_vlen ent1) crc2
        generalize entry_write_crc cfg k3 ent1
          (KVS_HDRSIZE + entry_get_klen ent1 + entry_get_vlen ent1) crc2 = r4 at h4 ⊢
        obtain ⟨rc3, k4⟩ := r4
        dsimp only at h4 ⊢
        have hk4 := hk3.step hs h4
        split
        · exact hk4
        · have h5 := kvs_dev_sync_cur cfg k4
          generalize kvs_dev_sync cfg k4 = r5 at h5 ⊢
          obtain ⟨rc4, k5⟩ := r5
          exact hk4.step hs (CurStep.of_eq h5.1 h5.2)

theorem entry_append_cursor {cfg : Cfg} {k : Kvs} (hs : SizeOk cfg) (h : CursorOk cfg k)
    (ent : Ent) (krd vrd : ReadCb) : CursorOk cfg (entry_append cfg k ent krd vrd).2.1 := by
  unfold entry_append
  have h1 := kvs_meta_write_cursor hs h
  generalize kvs_meta_write cfg k = r at h1 ⊢
  obtain ⟨rc, k1⟩ := r
  dsimp only at h1 ⊢
  split
  · exact h1
  · exact entry_append_body_cursor hs h1 ent krd vrd

theorem wblock_advance_cursor {cfg : Cfg} {k : Kvs} (hs : SizeOk cfg) (h : CursorOk cfg k) :
    CursorOk cfg (wblock_advance cfg k) := by
  obtain ⟨jp, _, hjp⟩ := hs.psz_pow
  obtain ⟨jb, _, hjb⟩ := hs.bsz_pow
  have hdiv : cfg.bsz % cfg.psz = 0 := pow_dvd_of_le _ _ jp jb hjp hjb hs.psz_le
  have hb0 : 0 < cfg.bsz := by rw [hjb]; exact Nat.pow_pos (by norm_num)
  have h1 := h.bend_mod
  have h2 := h.bend_ge
  have h3 := h.bend_le
  unfold wblock_advance
  dsimp only
  rw [block_advance_one]
  by_cases hfin : k.bend ≥ cfg.bsz * cfg.bcnt
  · rw [if_pos hfin]
    have e : k.bend - cfg.bsz * cfg.bcnt = 0 := by omega
    rw [e, Nat.zero_add]
    exact ⟨Nat.mod_self _, Nat.le_refl _, by show cfg.bsz ≤ cfg.bsz * cfg.bcnt; omega,
      by dsimp only; simp, by dsimp only; simp, by dsimp only; simp⟩
  · rw [if_neg hfin]
    have hle : k.bend + cfg.bsz ≤ cfg.bsz * cfg.bcnt :=
      mult_succ_le cfg.bsz k.bend (cfg.bsz * cfg.bcnt) h1 (Nat.mul_mod_right _ _) (by omega)
    exact ⟨add_mod_zero _ _ _ h1 (Nat.mod_self _), by dsimp only; omega, hle,
      by dsimp only; rw [Nat.add_sub_cancel]; exact mod_of_mod_mul _ _ _ h1 hdiv,
      by dsimp only; omega, by dsimp only; omega⟩

theorem entry_copy_cursor {cfg : Cfg} {k : Kvs} (hs : SizeOk cfg) (h : CursorOk cfg k)
    (e : Ent) : CursorOk cfg (entry_copy cfg k e).2 := by
  unfold entry_copy
  exact entry_append_cursor hs h _ _ _

theorem copy_loop_cursor {cfg : Cfg} (hs : SizeOk cfg) (e : Ent) :
    ∀ (n : Nat) (k : Kvs) (rc : Int), CursorOk cfg k →
      CursorOk cfg (copy_loop cfg e n k rc).2 := by
  intro n
  induction n with
  | zero => intro k rc h; exact h
  | succ n ih =>
    intro k rc h
    rw [copy_loop]
    have h1 := entry_copy_cursor hs h e
    generalize entry_copy cfg k e = r at h1 ⊢
    obtain ⟨rc1, k1⟩ := r
    dsimp only at h1 ⊢
    split
    · exact h1
    · exact ih _ _ (wblock_advance_cursor hs h1)

theorem copy_cb_cursor {cfg : Cfg} (hs : SizeOk cfg) (k : Kvs) (e : Ent) (st : Unit)
    (rc : Int) (k2 : Kvs) (st2 : Unit) (h : CursorOk cfg k)
    (hcall : copy_cb cfg k e st = some (rc, k2, st2)) : CursorOk cfg k2 := by
  unfold copy_cb at hcall
  split at hcall
  · injection hcall with hcall
    injection hcall with _ hcall
    injection hcall with hcall _
    rw [← hcall]; exact h
  · have h1 := copy_loop_cursor hs e cfg.bspr k 0 h
    generalize copy_loop cfg e cfg.bspr k 0 = r at h1 hcall
    obtain ⟨rc1, k1⟩ := r
    dsimp only at h1 hcall
    injection hcall with hcall
    injection hcall with _ hcall
    injection hcall with hcall _
    rw [← hcall]; exact h1

theorem compact_cursor {cfg : Cfg} {k : Kvs} (hs : SizeOk cfg) (h : CursorOk cfg k)
    (stop fuel : Nat) (rc : Int) (k2 : Kvs) (hr : compact cfg k stop fuel = some (rc, k2)) :
    CursorOk cfg k2 := by
  unfold compact walk_unique at hr
  dsimp only at hr
  have hw := walk_preserves cfg { ctx := .ptr [], off := 0, len := 0 }
    (unique_cb cfg fuel (copy_cb cfg)) stop (CursorOk cfg)
    (fun k e st rc k2 st2 hP hst hcrc hcall =>
      unique_cb_preserves cfg fuel (copy_cb cfg) (CursorOk cfg)
        (fun k e st rc k2 st2 hP _ _ hcall => copy_cb_cursor hs k e st rc k2 st2 hP hcall)
        k e st rc k2 st2 hP hst hcrc hcall)
    fuel (wblock_advance cfg k)
    { start := 0, next := block_advance_n cfg k.bend cfg.bspr, he_hdr := 0 } cfg.uninit ()
    (wblock_advance_cursor hs h)
  split at hr
  · cases hr
  · injection hr with hr
    injection hr with _ hr
    rw [← hr]; exact hw

theorem kvs_write_loop_cursor {cfg : Cfg} (hs : SizeOk cfg) (key value : List Nat)
    (fuel : Nat) :
    ∀ (cnt : Nat) (k : Kvs) (ent : Ent) (rc : Int) (k2 : Kvs), CursorOk cfg k →
      kvs_write_loop cfg key value fuel cnt k ent = some (rc, k2) → CursorOk cfg k2 := by
  intro cnt
  induction cnt with
  | zero =>
    intro k ent rc k2 h hr
    simp only [kvs_write_loop, Option.some.injEq, Prod.mk.injEq] at hr
    rw [← hr.2]; exact h
  | succ cnt ih =>
    intro k ent rc k2 h hr
    rw [kvs_write_loop] at hr
    have h1 : CursorOk cfg (entry_add cfg k ent key value).2.1 := by
      unfold entry_add
      exact entry_append_cursor hs h _ _ _
    generalize entry_add cfg k ent key value = r at h1 hr
    obtain ⟨rc1, k1, ent1⟩ := r
    dsimp only at h1 hr
    by_cases h0 : rc1 = 0
    · rw [if_pos h0] at hr
      simp only [Option.some.injEq, Prod.mk.injEq] at hr
      rw [← hr.2]; exact h1
    · rw [if_neg h0] at hr
      cases hc : compact cfg k1 (block_advance_n cfg k1.bend (cfg.bspr + 1)) fuel with
      | none => rw [hc] at hr; cases hr
      | some r2 =>
        obtain ⟨rc2, k3⟩ := r2
        rw [hc] at hr
        exact ih _ _ _ _ (compact_cursor hs h1 _ _ _ _ hc) hr

theorem kvs_write_cursor {cfg : Cfg} {k : Kvs} (hs : SizeOk cfg) (h : CursorOk cfg k)
    (key value : List Nat) (fuel : Nat) (rc : Int) (k2 : Kvs)
    (hr : kvs_write cfg k key value fuel = some (rc, k2)) : CursorOk cfg k2 := by
  unfold kvs_write at hr
  split at hr
  · simp only [Option.some.injEq, Prod.mk.injEq] at hr
    rw [← hr.2]; exact h
  · split at hr
    · cases hr
    · rcases ite_bool_cases _ _ _ _ hr with h1 | h1
      · simp only [Option.some.injEq, Prod.mk.injEq] at h1
        rw [← h1.2]; exact h
      · exact kvs_write_loop_cursor hs key value fuel _ _ _ _ _ h h1

theorem kvs_compact_cursor {cfg : Cfg} {k : Kvs} (hs : SizeOk cfg) (h : CursorOk cfg k)
    (fuel : Nat) (rc : Int) (k2 : Kvs) (hr : kvs_compact cfg k fuel = some (rc, k2)) :
    CursorOk cfg k2 := by
  unfold kvs_compact at hr
  split at hr
  · simp only [Option.some.injEq, Prod.mk.injEq] at hr
    rw [← hr.2]; exact h
  · exact compact_cursor hs h _ _ _ _ hr

/-! ## The device above an appended entry -/

theorem Above.self (b : Nat) (k : Kvs) : Above b k k := ⟨rfl, rfl⟩

theorem Above.chain {b : Nat} {k k2 k3 : Kvs} (h1 : Above b k k2) (h2 : Above b k2 k3) :
    Above b k k3 := ⟨h2.1.trans h1.1, h2.2.trans h1.2⟩

theorem Above.of_dev_eq {b : Nat} {k k2 k3 : Kvs} (h1 : Above b k k2) (h : k3.dev = k2.dev) :
    Above b k k3 := ⟨by rw [h]; exact h1.1, by rw [h]; exact h1.2⟩

theorem memWrite_drop (dev data : List Nat) (off b : Nat)
    (h1 : off + data.length ≤ dev.length) (h2 : off + data.length ≤ b) :
    (memWrite dev off data).drop b = dev.drop b := by
  unfold memWrite
  have hl : (dev.take off ++ data).length = off + data.length := by
    rw [List.length_append, List.length_take, Nat.min_eq_left (by omega)]
  have e : b = (dev.take off ++ data).length + (b - (off + data.length)) := by omega
  conv_lhs => rw [e, List.drop_append, List.drop_drop]
  congr 1
  omega

theorem kvs_dev_prog_above (cfg : Cfg) (k : Kvs) (off : Nat) (data : List Nat) (b : Nat)
    (hb : off + data.length ≤ b) (hne : off % cfg.bsz ≠ 0) :
    Above b k (kvs_dev_prog cfg k off data).2 := by
  unfold kvs_dev_prog
  split
  · exact Above.self b k
  · rename_i hlen
    split
    · exact Above.self b k
    · have hfe : flashErase cfg k.dev off = k.dev := by
        unfold flashErase
        rw [if_neg hne]
      split
      · exact ⟨memWrite_drop _ _ _ _ (by omega) hb, memWrite_length _ _ _ (by omega)⟩
      · dsimp only
        rw [hfe]
        exact ⟨memWrite_drop _ _ _ _ (by omega) hb, memWrite_length _ _ _ (by omega)⟩

theorem prog_comp_above (cfg : Cfg) (k : Kvs) (off : Nat) (data : List Nat) (b : Nat)
    (hb : off + data.length ≤ b) (hne : off % cfg.bsz ≠ 0) :
    Above b k (prog_comp cfg k off data).2 := by
  unfold prog_comp
  have h := kvs_dev_prog_above cfg k off data b hb hne
  generalize kvs_dev_prog cfg k off data = r at h ⊢
  obtain ⟨rc, k1⟩ := r
  dsimp only at h ⊢
  split <;> exact h

/-- First stage of `entry_write`: what it programs lies below `b`, and what it leaves to
the second stage ends at `B`. -/
theorem entry_write_rem_above (cfg : Cfg) (k : Kvs) (od rem : Nat) (data : List Nat)
    (b B : Nat) (hpsz : 0 < cfg.psz)
    (h0 : rem = 0 → od + data.length ≤ B)
    (h1 : rem ≠ 0 → rem ≤ data.length →
      od + cfg.psz + (data.length - rem) ≤ B ∧ od + cfg.psz ≤ b ∧ od % cfg.bsz ≠ 0) :
    Above b k (entry_write_rem cfg k od rem data).2.1 ∧
    ((entry_write_rem cfg k od rem data).1 = 0 →
      cfg.psz ≤ (entry_write_rem cfg k od rem data).2.2.2.length →
      (entry_write_rem cfg k od rem data).2.2.1 + (entry_write_rem cfg k od rem data).2.2.2.length ≤ B ∧
      od ≤ (entry_write_rem cfg k od rem data).2.2.1) := by
  unfold entry_write_rem
  by_cases hr : rem ≠ 0
  · rw [if_pos hr]
    dsimp only
    rw [KVS_MIN_eq]
    by_cases hw : min data.length rem = rem
    · rw [if_pos hw]
      have hle : rem ≤ data.length := by omega
      obtain ⟨hB, hb, hne⟩ := h1 hr hle
      have hpc := prog_comp_above cfg
        { k with pbuf := memWrite k.pbuf (cfg.psz - rem) (data.take (min data.length rem)) }
        od ((memWrite k.pbuf (cfg.psz - rem)
          (data.take (min data.length rem))).take cfg.psz) b
        (by have := List.length_take_le cfg.psz (memWrite k.pbuf (cfg.psz - rem)
              (data.take (min data.length rem)))
            omega) hne
      generalize prog_comp cfg
        { k with pbuf := memWrite k.pbuf (cfg.psz - rem) (data.take (min data.length rem)) }
        od ((memWrite k.pbuf (cfg.psz - rem)
          (data.take (min data.length rem))).take cfg.psz) = r at hpc ⊢
      obtain ⟨rc, k2⟩ := r
      dsimp only at hpc ⊢
      have hpc2 : Above b k k2 := ⟨hpc.1, hpc.2⟩
      by_cases hrc : rc ≠ 0
      · rw [if_pos hrc]
        exact ⟨hpc2, fun h => absurd h hrc⟩
      · rw [if_neg hrc]
        refine ⟨hpc2, fun _ _ => ⟨?_, by dsimp only; omega⟩⟩
        dsimp only
        rw [List.length_drop, hw]
        omega
    · rw [if_neg hw]
      refine ⟨⟨rfl, rfl⟩, fun _ hl => ?_⟩
      dsimp only at hl
      rw [List.length_drop] at hl
      omega
  · rw [if_neg hr]
    have hr0 : rem = 0 := by omega
    exact ⟨Above.self b k, fun _ _ => ⟨h0 hr0, Nat.le_refl _⟩⟩

theorem entry_write_direct_above (cfg : Cfg) (k : Kvs) (off : Nat) (data : List Nat) (b : Nat)
    (h : cfg.psz ≤ data.length → off + data.length ≤ b ∧ off % cfg.bsz ≠ 0) :
    Above b k (entry_write_direct cfg k off data).2.1 := by
  unfold entry_write_direct
  by_cases hl : data.length ≥ cfg.psz
  · rw [if_pos hl]
    dsimp only
    obtain ⟨hb, hne⟩ := h hl
    have hpc := prog_comp_above cfg k off (data.take (KVS_ALIGNDOWN data.length cfg.psz)) b
      (by have := List.length_take_le' (KVS_ALIGNDOWN data.length cfg.psz) data; omega) hne
    generalize prog_comp cfg k off (data.take (KVS_ALIGNDOWN data.length cfg.psz)) = r at hpc ⊢
    obtain ⟨rc, k1⟩ := r
    dsimp only at hpc ⊢
    split <;> exact hpc
  · rw [if_neg hl]
    exact Above.self b k

/-- What `entry_write` programs lies inside the entry, when no offset of the entry is a
block base. -/
theorem entry_write_above (cfg : Cfg) (k : Kvs) (ent : Ent) (off : Nat) (data : List Nat)
    (j : Nat) (hp : cfg.psz = 2 ^ j) (hj : j ≤ 31) (hn : ent.next < 2147483648)
    (hse : ent.start ≤ ent.next)
    (hne : ∀ o, ent.start ≤ o → o < ent.next → o % cfg.bsz ≠ 0) :
    Above ent.next k (entry_write cfg k ent off data).2 := by
  have hpsz := psz_pos cfg j hp
  have hp31 := psz_le_pow31 cfg j hp hj
  unfold entry_write
  dsimp only
  by_cases hfit : ent.next - ent.start < off + data.length
  · rw [if_pos hfit]; exact Above.self _ k
  rw [if_neg hfit]
  by_cases hd0 : data.length = 0
  · rw [if_pos hd0]; exact Above.self _ k
  rw [if_neg hd0]
  have hoff := div_mul_add_mod off cfg.psz
  have hA : (off / cfg.psz * cfg.psz) % cfg.psz = 0 := div_mul_mod_zero _ _
  have hr : off % cfg.psz < cfg.psz := Nat.mod_lt _ hpsz
  have hdn : KVS_ALIGNDOWN off cfg.psz = off / cfg.psz * cfg.psz := by
    conv_lhs => rw [← hoff]
    exact alignDown_decomp cfg j _ _ hp hj hA hr (by omega)
  have hup : KVS_ALIGNUP off cfg.psz =
      if off % cfg.psz = 0 then off / cfg.psz * cfg.psz
      else off / cfg.psz * cfg.psz + cfg.psz := by
    conv_lhs => rw [← hoff]
    exact alignUp_decomp cfg j _ _ hp hj hA hr (by omega)
  rw [hdn]
  generalize hAe : off / cfg.psz * cfg.psz = A at hoff hA hup
  have hrem : KVS_ALIGNUP off cfg.psz - off = 0 ↔ off % cfg.psz = 0 := by
    rw [hup]
    split <;> omega
  have h1 := entry_write_rem_above cfg k (ent.start + A) (KVS_ALIGNUP off cfg.psz - off) data
    ent.next ent.next hpsz
    (fun h0 => by have := hrem.1 h0; omega)
    (fun hr0 hle => by
      have hm : off % cfg.psz ≠ 0 := fun h => hr0 (hrem.2 h)
      rw [hup, if_neg hm] at hle ⊢
      refine ⟨by omega, by omega, hne _ (by omega) (by omega)⟩)
  generalize entry_write_rem cfg k (ent.start + A) (KVS_ALIGNUP off cfg.psz - off) data
    = r at h1 ⊢
  obtain ⟨rc1, k1, off2, data2⟩ := r
  dsimp only at h1 ⊢
  obtain ⟨ha1, hb1⟩ := h1
  by_cases hrc1 : rc1 ≠ 0
  · rw [if_pos hrc1]
    exact ha1.of_dev_eq rfl
  rw [if_neg hrc1]
  have hrc10 : rc1 = 0 := by
    by_contra hc; exact hrc1 hc
  have h2 := entry_write_direct_above cfg k1 off2 data2 ent.next
    (fun hl => by
      obtain ⟨hx, hy⟩ := hb1 hrc10 hl
      exact ⟨hx, hne _ (by omega) (by omega)⟩)
  generalize entry_write_direct cfg k1 off2 data2 = r2 at h2 ⊢
  obtain ⟨rc2, k2, data3⟩ := r2
  dsimp only at h2 ⊢
  split
  · exact (ha1.chain h2).of_dev_eq rfl
  · refine (ha1.chain h2).of_dev_eq ?_
    unfold entry_write_tail
    split <;> rfl

theorem entry_write_fill_above (cfg : Cfg) (k : Kvs) (ent : Ent) (off : Nat)
    (j : Nat) (hp : cfg.psz = 2 ^ j) (hj : j ≤ 31) (hn : ent.next < 2147483648)
    (hse : ent.start ≤ ent.next) (hext : (ent.next - ent.start) % cfg.psz = 0)
    (hne : ∀ o, ent.start ≤ o → o < ent.next → o % cfg.bsz ≠ 0) :
    Above ent.next k (entry_write_fill cfg k ent off).2 := by
  have hpsz := psz_pos cfg j hp
  have hp31 := psz_le_pow31 cfg j hp hj
  unfold entry_write_fill
  dsimp only
  by_cases hr0 : KVS_ALIGNUP off cfg.psz - off = 0
  · rw [if_pos hr0]; exact Above.self _ k
  rw [if_neg hr0]
  by_cases hfit : ent.next - ent.start < off
  · rw [if_pos hfit]; exact Above.self _ k
  rw [if_neg hfit]
  have hoff := div_mul_add_mod off cfg.psz
  have hA : (off / cfg.psz * cfg.psz) % cfg.psz = 0 := div_mul_mod_zero _ _
  have hr : off % cfg.psz < cfg.psz := Nat.mod_lt _ hpsz
  have hdn : KVS_ALIGNDOWN off cfg.psz = off / cfg.psz * cfg.psz := by
    conv_lhs => rw [← hoff]
    exact alignDown_decomp cfg j _ _ hp hj hA hr (by omega)
  have hup : KVS_ALIGNUP off cfg.psz =
      if off % cfg.psz = 0 then off / cfg.psz * cfg.psz
      else off / cfg.psz * cfg.psz + cfg.psz := by
    conv_lhs => rw [← hoff]
    exact alignUp_decomp cfg j _ _ hp hj hA hr (by omega)
  rw [hdn]
  rw [hup] at hr0
  generalize hAe : off / cfg.psz * cfg.psz = A at hoff hA hr0
  have hm : off % cfg.psz ≠ 0 := by
    intro h; rw [if_pos h] at hr0; omega
  have hAN : A + cfg.psz ≤ ent.next - ent.start :=
    mult_succ_le cfg.psz A (ent.next - ent.start) hA hext (by omega)
  generalize hpb : memWrite k.pbuf (cfg.psz - (KVS_ALIGNUP off cfg.psz - off))
    (List.replicate (KVS_ALIGNUP off cfg.psz - off) KVS_FILLCHAR) = pb
  have h1 := kvs_dev_prog_above cfg { k with pbuf := pb } (ent.start + A) (pb.take cfg.psz)
    ent.next (by have := List.length_take_le cfg.psz pb; omega)
    (hne _ (by omega) (by omega))
  generalize kvs_dev_prog cfg { k with pbuf := pb } (ent.start + A) (pb.take cfg.psz)
    = r at h1 ⊢
  obtain ⟨rc, k2⟩ := r
  dsimp only at h1 ⊢
  have h2 : Above ent.next k k2 := ⟨h1.1, h1.2⟩
  split
  · exact h2.of_dev_eq rfl
  · exact h2

theorem entry_write_data_loop_above (cfg : Cfg) (ent : Ent) (dstart : Nat) (rd : ReadCb)
    (j : Nat) (hp : cfg.psz = 2 ^ j) (hj : j ≤ 31) (hn : ent.next < 2147483648)
    (hse : ent.start ≤ ent.next)
    (hne : ∀ o, ent.start ≤ o → o < ent.next → o % cfg.bsz ≠ 0) :
    ∀ (fuel : Nat) (k : Kvs) (crc off len : Nat),
      Above ent.next k (entry_write_data_loop cfg ent dstart rd fuel k crc off len).2.1 := by
  intro fuel
  induction fuel with
  | zero => intro k crc off len; exact Above.self _ k
  | succ fuel ih =>
    intro k crc off len
    rw [entry_write_data_loop]
    split
    · exact Above.self _ k
    · dsimp only
      split
      · exact Above.self _ k
      · rename_i buf _
        have h := entry_write_above cfg k ent (dstart + off) buf j hp hj hn hse hne
        generalize entry_write cfg k ent (dstart + off) buf = r at h ⊢
        obtain ⟨rc, k1⟩ := r
        dsimp only at h ⊢
        split
        · exact h
        · exact h.chain (ih _ _ _ _)

theorem entry_write_crc_above (cfg : Cfg) (k : Kvs) (ent : Ent) (off crc : Nat)
    (j : Nat) (hp : cfg.psz = 2 ^ j) (hj : j ≤ 31) (hn : ent.next < 2147483648)
    (hse : ent.start ≤ ent.next) (hext : (ent.next - ent.start) % cfg.psz = 0)
    (hne : ∀ o, ent.start ≤ o → o < ent.next → o % cfg.bsz ≠ 0) :
    Above ent.next k (entry_write_crc cfg k ent off crc).2 := by
  unfold entry_write_crc
  have h := entry_write_above cfg k ent off (put_le32 crc) j hp hj hn hse hne
  generalize entry_write cfg k ent off (put_le32 crc) = r at h ⊢
  obtain ⟨rc, k1⟩ := r
  dsimp only at h ⊢
  split
  · exact h
  · exact h.chain (entry_write_fill_above cfg k1 ent _ j hp hj hn hse hext hne)

/-- The part of `entry_append` behind the block header, up to the call of `sync`: when it
succeeds, the store before `sync` has the device unchanged from the end of the entry
on. -/
theorem entry_append_body_above (cfg : Cfg) (k : Kvs) (ent : Ent) (krd vrd : ReadCb)
    (j : Nat) (hp : cfg.psz = 2 ^ j) (hj : j ≤ 31) (hk : krd.len < 256)
    (hv : vrd.len < 65536) (hpos : k.pos ≤ k.bend) (hbend : k.bend < 2147483648)
    (hfit : entry_size cfg krd.len vrd.len ≤ k.bend - k.pos)
    (hne : ∀ o, k.pos ≤ o → o < k.pos + entry_size cfg krd.len vrd.len → o % cfg.bsz ≠ 0)
    (hrc : (entry_append_body cfg k ent krd vrd).1 = 0) :
    ∃ k4, (entry_append_body cfg k ent krd vrd).1 = (kvs_dev_sync cfg k4).1 ∧
      (entry_append_body cfg k ent krd vrd).2.1 = (kvs_dev_sync cfg k4).2 ∧
      Above (k.pos + entry_size cfg krd.len vrd.len) k k4 := by
  have hsz := entry_size_facts cfg j krd.len vrd.len hp hj hk hv
  generalize hS : entry_size cfg krd.len vrd.len = S at hfit hne hsz ⊢
  have hinfo := entry_set_info_spec cfg k ent krd.len vrd.len hk hv hpos hbend
  rw [hS, if_neg (by omega)] at hinfo
  unfold entry_append_body at hrc ⊢
  unfold entry_write_hdr at hrc ⊢
  rw [hinfo] at hrc ⊢
  dsimp only at hrc ⊢
  rw [if_neg (show ¬ ((0 : Int) ≠ 0) by decide)] at hrc ⊢
  generalize he : ({ start := k.pos, next := k.pos + S, he_hdr := hdrWord krd.len vrd.len }
    : Ent) = e1 at hrc ⊢
  have hn1 : e1.next < 2147483648 := by rw [← he]; dsimp only; omega
  have hs1 : e1.start ≤ e1.next := by rw [← he]; dsimp only; omega
  have hx1 : (e1.next - e1.start) % cfg.psz = 0 := by
    rw [← he]; dsimp only; rw [Nat.add_sub_cancel_left]; exact hsz.1
  have hne1 : ∀ o, e1.start ≤ o → o < e1.next → o % cfg.bsz ≠ 0 := by
    rw [← he]; exact hne
  have hnx : e1.next = k.pos + S := by rw [← he]
  have h0 : Above e1.next k { k with pos := k.pos + S } := ⟨rfl, rfl⟩
  generalize ({ k with pos := k.pos + S } : Kvs) = k0 at hrc h0 ⊢
  have h1 := entry_write_above cfg k0 e1 0 (put_le32 (hdrWord krd.len vrd.len)) j hp hj hn1
    hs1 hne1
  generalize entry_write cfg k0 e1 0 (put_le32 (hdrWord krd.len vrd.len)) = r1 at hrc h1 ⊢
  obtain ⟨rc1, k1⟩ := r1
  dsimp only at hrc h1 ⊢
  by_cases hrc1 : rc1 ≠ 0
  · rw [if_pos hrc1] at hrc; exact absurd hrc hrc1
  rw [if_neg hrc1] at hrc ⊢
  have h2 := entry_write_data_loop_above cfg e1 KVS_HDRSIZE krd j hp hj hn1 hs1 hne1
    krd.len k1 KVS_KVCRCINIT 0 krd.len
  unfold entry_write_data at hrc ⊢
  generalize entry_write_data_loop cfg e1 KVS_HDRSIZE krd krd.len k1 KVS_KVCRCINIT 0 krd.len
    = r2 at hrc h2 ⊢
  obtain ⟨rc2, k2, crc1⟩ := r2
  dsimp only at hrc h2 ⊢
  by_cases hrc2 : rc2 ≠ 0
  · rw [if_pos hrc2] at hrc; exact absurd hrc hrc2
  rw [if_neg hrc2] at hrc ⊢
  have h3 := entry_write_data_loop_above cfg e1 (KVS_HDRSIZE + entry_get_klen e1) vrd j hp hj
    hn1 hs1 hne1 vrd.len k2 crc1 0 vrd.len
  generalize entry_write_data_loop cfg e1 (KVS_HDRSIZE + entry_get_klen e1) vrd vrd.len k2
    crc1 0 vrd.len = r3 at hrc h3 ⊢
  obtain ⟨rc3, k3, crc2⟩ := r3
  dsimp only at hrc h3 ⊢
  by_cases hrc3 : rc3 ≠ 0
  · rw [if_pos hrc3] at hrc; exact absurd hrc hrc3
  rw [if_neg hrc3] at hrc ⊢
  have h4 := entry_write_crc_above cfg k3 e1
    (KVS_HDRSIZE + entry_get_klen e1 + entry_get_vlen e1) crc2 j hp hj hn1 hs1 hx1 hne1
  generalize entry_write_crc cfg k3 e1
    (KVS_HDRSIZE + entry_get_klen e1 + entry_get_vlen e1) crc2 = r4 at hrc h4 ⊢
  obtain ⟨rc4, k4⟩ := r4
  dsimp only at hrc h4 ⊢
  by_cases hrc4 : rc4 ≠ 0
  · rw [if_pos hrc4] at hrc; exact absurd hrc hrc4
  rw [if_neg hrc4] at hrc ⊢
  refine ⟨k4, rfl, rfl, ?_⟩
  rw [← hnx]
  exact (((h0.chain h1).chain h2).chain h3).chain h4


/-! ## The layout of an appended entry -/

theorem entryImage_length (key val : List Nat) (n : Nat)
    (h : 8 + key.length + val.length ≤ n) : (entryImage key val n).length = n := by
  unfold entryImage KVS_FILLCHAR
  simp only [List.length_append, List.length_replicate, put_le32_eq, List.length_cons,
    List.length_nil]
  omega

theorem list_of_take_seg_drop (dev : List Nat) (a s : Nat) :
    dev = dev.take a ++ seg dev a s ++ dev.drop (a + s) := by
  unfold seg
  rw [List.append_assoc, ← List.drop_drop, List.take_append_drop, List.take_append_drop]

theorem kvs_dev_sync_eq (cfg : Cfg) (k : Kvs) :
    (kvs_dev_sync cfg k).2 = { k with dev := (kvs_dev_sync cfg k).2.dev } := by
  unfold kvs_dev_sync
  split
  · rfl
  · split
    · rfl
    · split <;> rfl

/-- No offset strictly between two block bases is a block base. -/
theorem not_base_between (bsz bend o : Nat) (hm : bend % bsz = 0) (h1 : bend - bsz < o)
    (h2 : o < bend) : o % bsz ≠ 0 := by
  intro ho
  obtain ⟨c, hc⟩ := Nat.dvd_of_mod_eq_zero hm
  obtain ⟨d, hd⟩ := Nat.dvd_of_mod_eq_zero ho
  subst hc hd
  have hdc : d < c := Nat.lt_of_mul_lt_mul_left h2
  obtain ⟨e, rfl⟩ : ∃ e, c = d + 1 + e := ⟨c - (d + 1), by omega⟩
  have : bsz * (d + 1 + e) = bsz * d + bsz + bsz * e := by ring
  omega

/-- The device after a successful `entry_add` at a position that is not a block base:
the bytes of the entry at the old write position, and the end mark of the EEPROM
backend behind it. -/
theorem entry_add_layout_aux (cfg : Cfg) (hs : SizeOk cfg) (hh : ∀ o, cfg.progFail o = false)
    (k : Kvs) (ent : Ent) (key value : List Nat)
    (hk : key.length < 256) (hv : value.length < 65536)
    (hdev : k.dev.length = cfg.bsz * cfg.bcnt) (hpl : k.pbuf.length = cfg.psz)
    (hbm : k.bend % cfg.bsz = 0) (hbl : k.bend ≤ cfg.bsz * cfg.bcnt)
    (hnb : k.pos % cfg.bsz ≠ 0) (hpg : k.bend - cfg.bsz ≤ k.pos)
    (hfit : entry_size cfg key.length value.length ≤ k.bend - k.pos) :
    ∃ pbuf, entry_add cfg k ent key value =
      (0, { (kvs_dev_sync cfg
              { k with dev := memWrite k.dev k.pos
                         (entryImage key value (entry_size cfg key.length value.length)),
                       pos := k.pos + entry_size cfg key.length value.length }).2
            with pbuf := pbuf },
        { start := k.pos, next := k.pos + entry_size cfg key.length value.length,
          he_hdr := hdrWord key.length value.length }) := by
  obtain ⟨jp, hjp, hp⟩ := hs.psz_pow
  obtain ⟨jb, _, hb⟩ := hs.bsz_pow
  have hsmall := hs.small
  have hsz := entry_size_facts cfg jp key.length value.length hp hjp hk hv
  generalize hS : entry_size cfg key.length value.length = S at hfit hsz ⊢
  have hpos : k.pos ≤ k.bend := by omega
  have hbase : k.bend - cfg.bsz < k.pos := by
    rcases Nat.lt_or_ge (k.bend - cfg.bsz) k.pos with h | h
    · exact h
    · exfalso
      have : k.pos = k.bend - cfg.bsz := by omega
      rw [this] at hnb
      exact hnb (sub_bsz_mod cfg.bsz k.bend hbm)
  have hne : ∀ o, k.pos ≤ o → o < k.pos + S → o % cfg.bsz ≠ 0 := by
    intro o h1 h2
    exact not_base_between cfg.bsz k.bend o hbm (by omega) (by omega)
  unfold entry_add entry_append
  have hmw : kvs_meta_write cfg k = (0, k) := by
    unfold kvs_meta_write
    rw [and_bsz_mask cfg jb k.pos hb, if_pos hnb]
  rw [hmw]
  dsimp only
  rw [if_neg (show ¬ ((0 : Int) ≠ 0) by decide)]
  generalize hkr : ({ ctx := .ptr key, off := 0, len := key.length } : ReadCb) = krd
  generalize hvr : ({ ctx := .ptr value, off := 0, len := value.length } : ReadCb) = vrd
  have hkl : krd.len = key.length := by rw [← hkr]
  have hvl : vrd.len = value.length := by rw [← hvr]
  have hspec := (entry_append_body_spec cfg k ent krd vrd jp hp hjp hh (by omega) (by omega)
    hpos (by omega) (by omega) hpl (by rw [← hkr]; exact read_ptr_ok key k)
    (by rw [← hvr]; exact read_ptr_ok value k)).2 (by rw [hkl, hvl, hS]; exact hfit)
  rw [hkl, hvl, hS] at hspec
  obtain ⟨dev, pbuf, key2, val2, hres, _, _, himg, hlen, htake, _, hk2, hv2⟩ := hspec
  have e1 : key2 = key := by
    rw [hk2 key (by rw [← hkr]), ← hkr]; exact seg_all key
  have e2 : val2 = value := by
    rw [hv2 value (by rw [← hvr]), ← hvr]; exact seg_all value
  rw [e1, e2] at himg
  obtain ⟨k4, hrc4, hk4, hab⟩ := entry_append_body_above cfg k ent krd vrd jp hp hjp
    (by omega) (by omega) hpos (by omega) (by rw [hkl, hvl, hS]; exact hfit)
    (by rw [hkl, hvl, hS]; exact hne) (by rw [hres])
  rw [hkl, hvl, hS] at hab
  obtain ⟨hab1, hab2⟩ : k4.dev.drop (k.pos + S) = k.dev.drop (k.pos + S) ∧
    k4.dev.length = k.dev.length := hab
  rw [hres] at hrc4 hk4
  dsimp only at hrc4 hk4
  rw [hres]
  have hil : (entryImage key value S).length = S := entryImage_length key value S hsz.2.1
  -- the device of the result
  have hD : ∀ d : List Nat, d.length = k.dev.length → d.take (k.pos + S) = dev.take (k.pos + S) →
      d.drop (k.pos + S) = k.dev.drop (k.pos + S) →
      d = memWrite k.dev k.pos (entryImage key value S) := by
    intro d _ ht hd
    have hseg : seg d k.pos S = entryImage key value S := by
      rw [seg_of_take_eq dev d k.pos S ht]; exact himg
    have htk : d.take k.pos = k.dev.take k.pos := by
      have : d.take k.pos = (d.take (k.pos + S)).take k.pos := by
        rw [List.take_take, Nat.min_eq_left (by omega)]
      rw [this, ht, List.take_take, Nat.min_eq_left (by omega)]
      exact htake
    have := list_of_take_seg_drop d k.pos S
    rw [hseg, htk, hd] at this
    unfold memWrite
    rw [hil]
    exact this
  refine ⟨pbuf, ?_⟩
  have hil2 : (memWrite k.dev k.pos (entryImage key value S)).length = k.dev.length :=
    memWrite_length _ _ _ (by rw [hil]; omega)
  have hdevEq : dev = (kvs_dev_sync cfg
      { k with dev := memWrite k.dev k.pos (entryImage key value S), pos := k.pos + S }).2.dev := by
    unfold kvs_dev_sync at hrc4 hk4 ⊢
    cases hbk : cfg.backend with
    | flash =>
      rw [hbk] at hrc4 hk4
      dsimp only at hrc4 hk4 ⊢
      have hd4 : dev = k4.dev := congrArg Kvs.dev hk4
      rw [← hd4] at hab1
      exact hD dev hlen rfl hab1
    | eeprom =>
      rw [hbk] at hrc4 hk4
      dsimp only at hrc4 hk4 ⊢
      rw [hil2]
      by_cases c1 : k4.pos > k4.dev.length
      · rw [if_pos c1] at hrc4
        exact absurd hrc4 (show ¬ (0 : Int) = -KVS_EINVAL by decide)
      rw [if_neg c1] at hk4
      by_cases c2 : k4.pos + 4 > k4.dev.length
      · rw [if_pos c2] at hk4
        have hd4 : dev = k4.dev := congrArg Kvs.dev hk4
        have hp4 : k.pos + S = k4.pos := congrArg Kvs.pos hk4
        rw [← hd4] at hab1
        rw [hab2, ← hp4] at c2
        rw [if_neg (by omega), if_pos (by omega)]
        exact hD dev hlen rfl hab1
      · rw [if_neg c2] at hk4
        have hp4 : k.pos + S = k4.pos := congrArg Kvs.pos hk4
        have hd4 : dev = memWrite k4.dev k4.pos [0, 0, 0, 0] := congrArg Kvs.dev hk4
        have h4 : k4.dev = memWrite k.dev k.pos (entryImage key value S) := by
          apply hD k4.dev hab2
          · rw [hd4, ← hp4, memWrite_take _ _ _ (by rw [hab2]; omega)]
          · exact hab1
        rw [hab2, ← hp4] at c2
        rw [if_neg (by omega), if_neg (by omega)]
        dsimp only
        rw [hd4, h4, hp4]
  rw [kvs_dev_sync_eq cfg, ← hdevEq]

/-- The room of an entry is `4 + kl + vl + 4` rounded up to the program size. -/
theorem entry_size_round_up (cfg : Cfg) (j kl vl : Nat) (hp : cfg.psz = 2 ^ j) (hj : j ≤ 31)
    (hk : kl < 256) (hv : vl < 65536) :
    entry_size cfg kl vl = (4 + kl + vl + 4 + cfg.psz - 1) / cfg.psz * cfg.psz := by
  have hp0 := psz_pos cfg j hp
  unfold entry_size KVS_HDRSIZE KVS_KVCRCSIZE
  rw [hp, alignDown_eq _ _ (by omega) (by omega), ← hp]
  have e : 4 + kl + vl + 4 + cfg.psz - 1 = (4 + kl + vl + 4 - 1) + cfg.psz := by omega
  rw [e, Nat.add_div_right _ hp0, Nat.succ_mul]

theorem take_memWrite_below (dev data : List Nat) (off a : Nat) (h : off ≤ dev.length)
    (ha : a ≤ off) : (memWrite dev off data).take a = dev.take a :=
  take_take_of_le _ _ a off ha (memWrite_take dev data off h)

theorem drop_memWrite_at (dev data : List Nat) (off : Nat) (h : off ≤ dev.length) :
    (memWrite dev off data).drop off = data ++ dev.drop (off + data.length) := by
  unfold memWrite
  rw [List.append_assoc]
  have hl : (List.take off dev).length = off := by simp; omega
  rw [List.drop_append_of_le_length (by omega), List.drop_of_length_le (by omega)]
  simp


/-! ## Scans come to an end -/

/-- What `entry_get_param` returns: the entry keeps its start; a failed decode leaves
`next` as it was, a successful one puts it behind header, key, value and CRC-32 and not
behind the old `next`. -/
theorem entry_get_param_bounds (cfg : Cfg) (e1 : Ent) (hdr : List Nat) (jp : Nat)
    (hp : cfg.psz = 2 ^ jp) (hjp : jp ≤ 31) (hps : cfg.psz ≤ 1073741824)
    (hs : e1.start < 2147483648) :
    (entry_get_param cfg e1 hdr).2.start = e1.start ∧
    ((entry_get_param cfg e1 hdr).1 ≠ 0 → (entry_get_param cfg e1 hdr).2.next = e1.next) ∧
    ((entry_get_param cfg e1 hdr).1 = 0 →
      e1.start + 8 + (entry_get_klen (entry_get_param cfg e1 hdr).2 +
        entry_get_vlen (entry_get_param cfg e1 hdr).2) ≤ (entry_get_param cfg e1 hdr).2.next ∧
      (entry_get_param cfg e1 hdr).2.next ≤ e1.next) := by
  unfold entry_get_param
  dsimp only
  split
  · exact ⟨rfl, fun _ => rfl, fun h => absurd h (show ¬ (-KVS_EINVAL : Int) = 0 by decide)⟩
  · have hkl := klen_lt { start := 0, next := 0, he_hdr := get_le32 hdr }
    have hvl := vlen_lt { start := 0, next := 0, he_hdr := get_le32 hdr }
    unfold entry_get_klen at hkl ⊢
    unfold entry_get_vlen at hvl ⊢
    dsimp only at hkl hvl ⊢
    generalize hK : (get_le32 hdr >>> KVS_HDRKEYSHIFT) &&& KVS_HDRKEYMASK = kl at hkl ⊢
    generalize hV : (get_le32 hdr >>> KVS_HDRVALSHIFT) &&& KVS_HDRVALMASK = vl at hvl ⊢
    have hp0 := psz_pos cfg jp hp
    have h1 : u32 (e1.start + KVS_HDRSIZE + KVS_KVCRCSIZE - 1) = e1.start + 7 := by
      unfold KVS_HDRSIZE KVS_KVCRCSIZE
      rw [u32_of_lt _ (by omega)]
      omega
    have h2 : u32 (e1.start + 7 + (kl + vl)) = e1.start + 7 + (kl + vl) :=
      u32_of_lt _ (by omega)
    have h3 := alignDown_psz cfg jp (e1.start + 7 + (kl + vl)) hp hjp (by omega)
    have h4 := div_mul_add_mod (e1.start + 7 + (kl + vl)) cfg.psz
    have h5 := Nat.mod_lt (e1.start + 7 + (kl + vl)) hp0
    rw [h1, h2, h3]
    generalize (e1.start + 7 + (kl + vl)) / cfg.psz * cfg.psz = q at h4 ⊢
    rw [u32_of_lt (q + cfg.psz) (by omega)]
    split
    · exact ⟨rfl, fun _ => rfl, fun h => absurd h (show ¬ (-KVS_EINVAL : Int) = 0 by decide)⟩
    · rename_i hc
      dsimp only
      refine ⟨rfl, fun h => absurd rfl h, fun _ => ?_⟩
      rw [hK, hV]
      omega

/-- What `entry_get_info` returns: the entry keeps its start; a failed decode leaves
`next` at the end of the block, a successful one puts it behind header, key, value and
CRC-32, inside the block. -/
theorem entry_get_info_bounds (cfg : Cfg) (k : Kvs) (e0 : Ent) (jp jb : Nat)
    (hp : cfg.psz = 2 ^ jp) (hjp : jp ≤ 31) (hb : cfg.bsz = 2 ^ jb) (hjb : jb ≤ 31)
    (hps : cfg.psz ≤ 1073741824) (hs : e0.start < 2147483648) :
    (entry_get_info cfg k e0).2.start = e0.start ∧
    ((entry_get_info cfg k e0).1 ≠ 0 →
      (entry_get_info cfg k e0).2.next = e0.start / cfg.bsz * cfg.bsz + cfg.bsz) ∧
    ((entry_get_info cfg k e0).1 = 0 →
      e0.start + 8 + (entry_get_klen (entry_get_info cfg k e0).2 +
        entry_get_vlen (entry_get_info cfg k e0).2) ≤ (entry_get_info cfg k e0).2.next ∧
      (entry_get_info cfg k e0).2.next ≤ e0.start / cfg.bsz * cfg.bsz + cfg.bsz) := by
  have hA := alignDown_bsz cfg jb e0.start hb hjb (by omega)
  unfold entry_get_info
  dsimp only
  rw [hA]
  generalize hE : ({ e0 with next := e0.start / cfg.bsz * cfg.bsz + cfg.bsz } : Ent) = e1
  have hs1 : e1.start = e0.start := by rw [← hE]
  have hn1 : e1.next = e0.start / cfg.bsz * cfg.bsz + cfg.bsz := by rw [← hE]
  cases entry_read k e1 0 KVS_HDRSIZE with
  | error _ =>
    exact ⟨hs1, fun _ => hn1, fun h => absurd h (show ¬ (-KVS_ENOENT : Int) = 0 by decide)⟩
  | ok hdr =>
    dsimp only
    obtain ⟨a1, a2, a3⟩ := entry_get_param_bounds cfg e1 hdr jp hp hjp hps (by omega)
    generalize entry_get_param cfg e1 hdr = r at a1 a2 a3
    obtain ⟨rc, e2⟩ := r
    dsimp only at a1 a2 a3 ⊢
    by_cases hrc : rc ≠ 0
    · rw [if_pos hrc]
      refine ⟨by rw [a1, hs1], fun _ => by rw [a2 hrc, hn1], fun h => ?_⟩
      exact absurd h (show ¬ (-KVS_ENOENT : Int) = 0 by decide)
    · rw [if_neg hrc]
      have h0 : rc = 0 := by
        by_contra h; exact hrc h
      obtain ⟨b1, b2⟩ := a3 h0
      refine ⟨by rw [a1, hs1], fun h => absurd rfl h, fun _ => ⟨?_, ?_⟩⟩
      · rw [← hs1]; exact b1
      · rw [← hn1]; exact b2

/-- The position at which `walk` reads next: `next`, or 0 behind the last block. -/
theorem alignDown_block_base (bsz b s : Nat) (hb : b % bsz = 0) (h1 : b ≤ s)
    (h2 : s < b + bsz) : s / bsz * bsz = b :=
  block_base_of bsz b s hb h1 h2

/-- A scan ends and keeps what its callback keeps.  `G` holds of the positions the scan
reaches, `m` is a measure of the position that every step lowers, `P n` is kept by the
callback with `n` going down by one (a budget for what the callback uses up), `S` is an
invariant of the callback argument. -/
theorem walk_gen {σ : Type} (cfg : Cfg) (rdkey : ReadCb) (cb : Cb σ) (stop : Nat)
    (G : Nat → Prop) (m : Nat → Nat) (P : Nat → Kvs → Prop) (S : σ → Prop)
    (hmono : ∀ n n2 k, n2 ≤ n → P n k → P n2 k)
    (hstep : ∀ (n : Nat) (k : Kvs) (e0 : Ent) (p : Nat), P n k → G p →
      e0.start = (if p < cfg.bcnt * cfg.bsz then p else 0) → e0.start ≠ stop →
      0 < m p ∧
      ((entry_get_info cfg k e0).2.next ≠ stop →
        G (entry_get_info cfg k e0).2.next ∧ m (entry_get_info cfg k e0).2.next < m p) ∧
      (∀ wc, (entry_get_info cfg k e0).1 = 0 →
        (entry_get_info cfg k e0).2.start &&& (cfg.bsz - 1) = 0 →
        u32 (entry_get_wrapcnt k (entry_get_info cfg k e0).2 wc + 1) < k.wrapcnt →
        u32 ((entry_get_info cfg k e0).2.start + cfg.bsz) ≠ stop →
        G (u32 ((entry_get_info cfg k e0).2.start + cfg.bsz)) ∧
        m (u32 ((entry_get_info cfg k e0).2.start + cfg.bsz)) < m p))
    (hcb : ∀ (n : Nat) (k : Kvs) (e0 e : Ent) (p : Nat) (st : σ), P (n + 1) k → S st → G p →
      e0.start = (if p < cfg.bcnt * cfg.bsz then p else 0) → e0.start ≠ stop →
      entry_get_info cfg k e0 = (0, e) → entry_kvcrc_ok k e = true →
      ∃ rc k2 st2, cb k e st = some (rc, k2, st2) ∧ P n k2 ∧ S st2) :
    ∀ (fuel : Nat) (k : Kvs) (ent : Ent) (wc : Nat) (st : σ), G ent.next →
      m ent.next < fuel → P (m ent.next) k → S st →
      ∃ rc, (walk cfg rdkey cb stop fuel k ent wc st).rc = some rc ∧
        P 0 (walk cfg rdkey cb stop fuel k ent wc st).kvs ∧
        S (walk cfg rdkey cb stop fuel k ent wc st).st := by
  intro fuel
  induction fuel with
  | zero => intro k ent wc st _ hm; omega
  | succ fuel ih =>
    intro k ent wc st hG hm hP hS
    have hP0 : P 0 k := hmono _ _ k (Nat.zero_le _) hP
    rw [walk]
    dsimp only
    generalize hs0 : (if ent.next < cfg.bcnt * cfg.bsz then ent.next else 0) = s0
    by_cases hst : s0 = stop
    · rw [if_pos hst]
      exact ⟨0, rfl, hP0, hS⟩
    rw [if_neg hst]
    generalize he0 : ({ start := s0, next := ent.next, he_hdr := ent.he_hdr } : Ent) = e0
    have hs0 : e0.start = (if ent.next < cfg.bcnt * cfg.bsz then ent.next else 0) := by
      rw [← he0, hs0]
    have hst : e0.start ≠ stop := by rw [← he0]; exact hst
    obtain ⟨hm0, hnx, hsk⟩ := hstep _ k e0 ent.next hP hG hs0 hst
    have hcb1 := hcb (m ent.next - 1) k e0
    generalize hr : entry_get_info cfg k e0 = r at hnx hsk hcb1
    obtain ⟨rc0, ent1⟩ := r
    dsimp only at hnx hsk hcb1 ⊢
    by_cases hrc0 : rc0 ≠ 0
    · rw [if_pos hrc0]
      by_cases hn : ent1.next ≠ stop
      · rw [if_pos hn]
        obtain ⟨hG1, hm1⟩ := hnx hn
        exact ih k ent1 wc st hG1 (by omega) (hmono _ _ k (by omega) hP) hS
      · rw [if_neg hn]
        exact ⟨0, rfl, hP0, hS⟩
    rw [if_neg hrc0]
    have hrc00 : rc0 = 0 := by
      by_contra h; exact hrc0 h
    generalize hw1 : (if ent1.start &&& (cfg.bsz - 1) = 0 then entry_get_wrapcnt k ent1 wc
      else wc) = wc1
    by_cases hskip : ent1.start &&& (cfg.bsz - 1) = 0 ∧ u32 (wc1 + 1) < k.wrapcnt
    · rw [if_pos hskip]
      by_cases hn : u32 (ent1.start + cfg.bsz) ≠ stop
      · rw [if_pos hn]
        have hw2 : wc1 = entry_get_wrapcnt k ent1 wc := by
          rw [← hw1, if_pos hskip.1]
        obtain ⟨hG1, hm1⟩ := hsk wc hrc00 hskip.1 (by rw [← hw2]; exact hskip.2) hn
        exact ih k { ent1 with next := u32 (ent1.start + cfg.bsz) } wc1 st hG1
          (by dsimp only; omega) (hmono _ _ k (by dsimp only; omega) hP) hS
      · rw [if_neg hn]
        exact ⟨0, rfl, hP0, hS⟩
    rw [if_neg hskip]
    by_cases hd : differ k { ctx := .ent ent1, off := 0, len := rdkey.len } rdkey = true
        ∨ ¬ entry_kvcrc_ok k ent1 = true
    · rw [if_pos hd]
      by_cases hn : ent1.next ≠ stop
      · rw [if_pos hn]
        obtain ⟨hG1, hm1⟩ := hnx hn
        exact ih k ent1 wc1 st hG1 (by omega) (hmono _ _ k (by omega) hP) hS
      · rw [if_neg hn]
        exact ⟨0, rfl, hP0, hS⟩
    rw [if_neg hd]
    have hcrc : entry_kvcrc_ok k ent1 = true := by
      by_contra h; exact hd (Or.inr h)
    have hP1 : P (m ent.next - 1 + 1) k := by
      have : m ent.next - 1 + 1 = m ent.next := by omega
      rw [this]; exact hP
    obtain ⟨rc, k2, st2, hcall, hP2, hS2⟩ := hcb1 ent1 ent.next st hP1 hS hG hs0 hst
      (by rw [hrc00]) hcrc
    rw [hcall]
    dsimp only
    by_cases hrc : rc ≠ 0
    · rw [if_pos hrc]
      exact ⟨rc, rfl, hmono _ _ k2 (Nat.zero_le _) hP2, hS2⟩
    rw [if_neg hrc]
    by_cases hn : ent1.next ≠ stop
    · rw [if_pos hn]
      obtain ⟨hG1, hm1⟩ := hnx hn
      exact ih k2 ent1 wc1 st2 hG1 (by omega) (hmono _ _ k2 (by omega) hP2) hS2
    · rw [if_neg hn]
      exact ⟨0, rfl, hmono _ _ k2 (Nat.zero_le _) hP2, hS2⟩

theorem bsz_le_pow30 (cfg : Cfg) (hc : CfgOk cfg) : cfg.bsz ≤ 1073741824 := by
  obtain ⟨jb, _, hb⟩ := hc.bsz_pow
  have h1 := hc.small
  have h2 := hc.spare
  have h3 : cfg.bsz ≤ cfg.bsz * cfg.bcnt := Nat.le_mul_of_pos_right _ (by omega)
  have h4 : jb ≤ 30 := by
    by_contra h
    have : 2 ^ 31 ≤ 2 ^ jb := Nat.pow_le_pow_right (by norm_num) (by omega)
    rw [← hb] at this
    omega
  rw [hb]
  calc 2 ^ jb ≤ 2 ^ 30 := Nat.pow_le_pow_right (by norm_num) h4
    _ = 1073741824 := by norm_num

theorem lt_block_end (bsz s : Nat) (h : 0 < bsz) : s < s / bsz * bsz + bsz := by
  have h1 := div_mul_add_mod s bsz
  have h2 := Nat.mod_lt s h
  omega

theorem block_end_le (bsz s b : Nat) (hb : b % bsz = 0) (hs : s < b) :
    s / bsz * bsz + bsz ≤ b := by
  have h1 := div_mul_add_mod s bsz
  exact mult_succ_le bsz (s / bsz * bsz) b (Nat.mul_mod_left _ _) hb (by omega)

/-- A scan of one block, from a position in the block to the end of the block, ends
whatever the block holds.  The callback may change the store; `P` carries what it has to
keep, with a budget of one unit for each call.  `h` is a lower bound of the size of an
entry that decodes at the block base. -/
theorem walk_block_ends {σ : Type} (cfg : Cfg) (hc : CfgOk cfg) (rdkey : ReadCb) (cb : Cb σ)
    (b h : Nat) (hb : b % cfg.bsz = 0) (hbe : b + cfg.bsz ≤ cfg.bsz * cfg.bcnt)
    (P : Nat → Kvs → Prop) (S : σ → Prop)
    (hmono : ∀ n n2 k, n2 ≤ n → P n k → P n2 k)
    (hhead : ∀ (n : Nat) (k : Kvs) (e0 : Ent), P n k → e0.start = b →
      (entry_get_info cfg k e0).1 = 0 → b + h ≤ (entry_get_info cfg k e0).2.next)
    (hcb : ∀ (n : Nat) (k : Kvs) (e0 e : Ent) (st : σ), P (n + 1) k → S st →
      b ≤ e0.start → (e0.start = b ∨ b + h ≤ e0.start) →
      entry_get_info cfg k e0 = (0, e) →
      e.start = e0.start → e.start + 8 + (entry_get_klen e + entry_get_vlen e) ≤ e.next →
      e.next ≤ b + cfg.bsz → entry_kvcrc_ok k e = true →
      ∃ rc k2 st2, cb k e st = some (rc, k2, st2) ∧ P n k2 ∧ S st2) :
    ∀ (fuel : Nat) (k : Kvs) (ent : Ent) (wc : Nat) (st : σ),
      (if ent.next < cfg.bcnt * cfg.bsz then ent.next else 0) = b →
      cfg.bsz < fuel → P cfg.bsz k → S st →
      ∃ rc, (walk cfg rdkey cb (b + cfg.bsz) fuel k ent wc st).rc = some rc ∧
        P 0 (walk cfg rdkey cb (b + cfg.bsz) fuel k ent wc st).kvs ∧
        S (walk cfg rdkey cb (b + cfg.bsz) fuel k ent wc st).st := by
  obtain ⟨jp, hjp, hp⟩ := hc.psz_pow
  obtain ⟨jb, hjb, hbs⟩ := hc.bsz_pow
  have hps : cfg.psz ≤ 1073741824 := le_trans hc.psz_le (bsz_le_pow30 cfg hc)
  have hsmall := hc.small
  have hfin : cfg.bcnt * cfg.bsz = cfg.bsz * cfg.bcnt := Nat.mul_comm _ _
  have hb0 : 0 < cfg.bsz := by rw [hbs]; exact Nat.pow_pos (by norm_num)
  have key := walk_gen cfg rdkey cb (b + cfg.bsz)
    (fun p => b ≤ (if p < cfg.bcnt * cfg.bsz then p else 0) ∧
      (if p < cfg.bcnt * cfg.bsz then p else 0) < b + cfg.bsz ∧
      ((if p < cfg.bcnt * cfg.bsz then p else 0) = b ∨
        b + h ≤ (if p < cfg.bcnt * cfg.bsz then p else 0)))
    (fun p => b + cfg.bsz - (if p < cfg.bcnt * cfg.bsz then p else 0)) P S hmono
    (by
      intro n k e0 p hP hG hs0 hst
      obtain ⟨g1, g2, g3⟩ := hG
      rw [← hs0] at g1 g2 g3
      dsimp only
      rw [← hs0]
      obtain ⟨a1, a2, a3⟩ := entry_get_info_bounds cfg k e0 jp jb hp hjp hbs hjb hps (by omega)
      have hbase : e0.start / cfg.bsz * cfg.bsz = b :=
        block_base_of cfg.bsz b e0.start hb g1 g2
      rw [hbase] at a2 a3
      have hh := hhead n k e0 hP
      generalize entry_get_info cfg k e0 = r at a1 a2 a3 hh
      obtain ⟨rc0, e1⟩ := r
      dsimp only at a1 a2 a3 hh ⊢
      refine ⟨by omega, ?_, ?_⟩
      · intro hn
        by_cases hrc : rc0 ≠ 0
        · exact absurd (a2 hrc) hn
        · have h0 : rc0 = 0 := by
            by_contra hx; exact hrc hx
          obtain ⟨b1, b2⟩ := a3 h0
          have hlt : e1.next < cfg.bcnt * cfg.bsz := by omega
          rw [if_pos hlt]
          refine ⟨⟨by omega, by omega, ?_⟩, by omega⟩
          rcases g3 with g3 | g3
          · exact Or.inr (hh g3 h0)
          · exact Or.inr (by omega)
      · intro wc h0 hal _ hn
        exfalso
        rw [and_bsz_mask cfg jb _ hbs, a1] at hal
        have : e0.start = b := by
          have := block_base_of cfg.bsz b e0.start hb g1 g2
          have h1 := div_mul_add_mod e0.start cfg.bsz
          omega
        rw [a1, this, u32_of_lt _ (by omega)] at hn
        exact hn rfl)
    (by
      intro n k e0 e p st hP hS hG hs0 hst hinfo hcrc
      obtain ⟨g1, g2, g3⟩ := hG
      rw [← hs0] at g1 g2 g3
      obtain ⟨a1, a2, a3⟩ := entry_get_info_bounds cfg k e0 jp jb hp hjp hbs hjb hps (by omega)
      have hbase : e0.start / cfg.bsz * cfg.bsz = b :=
        block_base_of cfg.bsz b e0.start hb g1 g2
      rw [hbase, hinfo] at a3
      rw [hinfo] at a1
      obtain ⟨b1, b2⟩ := a3 rfl
      dsimp only at a1 b1 b2
      exact hcb n k e0 e st hP hS g1 g3 hinfo a1 (by omega) b2 hcrc)
  intro fuel k ent wc st hs hf hP hS
  have hG : b ≤ (if ent.next < cfg.bcnt * cfg.bsz then ent.next else 0) ∧
      (if ent.next < cfg.bcnt * cfg.bsz then ent.next else 0) < b + cfg.bsz ∧
      ((if ent.next < cfg.bcnt * cfg.bsz then ent.next else 0) = b ∨
        b + h ≤ (if ent.next < cfg.bcnt * cfg.bsz then ent.next else 0)) := by
    rw [hs]; exact ⟨le_refl _, by omega, Or.inl rfl⟩
  exact key fuel k ent wc st hG (by dsimp only; rw [hs]; omega)
    (hmono _ _ k (by dsimp only; rw [hs]; omega) hP) hS

/-- A scan with a callback that leaves the store alone, from any position to the write
position, ends: it goes on block by block up to the base of the write block and from
there along the entries of the write block. -/
theorem walk_to_pos_ends {σ : Type} (cfg : Cfg) (hc : CfgOk cfg) (k : Kvs) (hi : Inv cfg k)
    (hw : k.wrapcnt < 4294967295) (rdkey : ReadCb) (cb : Cb σ)
    (hcb : ∀ (e : Ent) (st : σ), ∃ rc st2, cb k e st = some (rc, k, st2))
    (fuel : Nat) (ent : Ent) (wc : Nat) (st : σ)
    (hf : cfg.bsz * cfg.bcnt + cfg.bsz + 2 < fuel) :
    ∃ rc, (walk cfg rdkey cb k.pos fuel k ent wc st).rc = some rc ∧
      (walk cfg rdkey cb k.pos fuel k ent wc st).kvs = k := by
  obtain ⟨jp, hjp, hp⟩ := hc.psz_pow
  obtain ⟨jb, hjb, hbs⟩ := hc.bsz_pow
  have hps : cfg.psz ≤ 1073741824 := le_trans hc.psz_le (bsz_le_pow30 cfg hc)
  have hsmall := hc.small
  have hfin : cfg.bcnt * cfg.bsz = cfg.bsz * cfg.bcnt := Nat.mul_comm _ _
  have hb0 : 0 < cfg.bsz := by rw [hbs]; exact Nat.pow_pos (by norm_num)
  have hfinmod : (cfg.bcnt * cfg.bsz) % cfg.bsz = 0 := Nat.mul_mod_left _ _
  obtain ⟨es, hch, hho⟩ := hi.chain
  have hns := noskip_of_inv hc hi hw es hch hho
  have hbm := sub_bsz_mod cfg.bsz k.bend hi.bend_mod
  have h1 := hi.bend_ge
  have h2 := hi.bend_le
  have h3 := hi.pos_ge
  have h4 := hi.pos_le
  generalize hbase : k.bend - cfg.bsz = base at hch hbm h3
  have hfin0 : 0 < cfg.bcnt * cfg.bsz := by omega
  -- the measure
  obtain ⟨m, hmon, hmoff⟩ : ∃ m : Nat → Nat,
      (∀ p, (∃ es2, ChainL cfg k (if p < cfg.bcnt * cfg.bsz then p else 0) es2 k.pos ∧
          ∀ e ∈ es2, NoSkip cfg k e) →
        m p = k.pos - (if p < cfg.bcnt * cfg.bsz then p else 0) + 1) ∧
      (∀ p, ¬ (∃ es2, ChainL cfg k (if p < cfg.bcnt * cfg.bsz then p else 0) es2 k.pos ∧
          ∀ e ∈ es2, NoSkip cfg k e) →
        m p = (if (if p < cfg.bcnt * cfg.bsz then p else 0) ≤ base
            then base - (if p < cfg.bcnt * cfg.bsz then p else 0)
            else cfg.bcnt * cfg.bsz - (if p < cfg.bcnt * cfg.bsz then p else 0) + base)
          + (k.pos - base) + 2) := by
    classical
    exact ⟨fun p =>
      if (∃ es2, ChainL cfg k (if p < cfg.bcnt * cfg.bsz then p else 0) es2 k.pos ∧
          ∀ e ∈ es2, NoSkip cfg k e)
      then k.pos - (if p < cfg.bcnt * cfg.bsz then p else 0) + 1
      else (if (if p < cfg.bcnt * cfg.bsz then p else 0) ≤ base
            then base - (if p < cfg.bcnt * cfg.bsz then p else 0)
            else cfg.bcnt * cfg.bsz - (if p < cfg.bcnt * cfg.bsz then p else 0) + base)
          + (k.pos - base) + 2,
      fun p h => if_pos h, fun p h => if_neg h⟩
  -- every measure is below the bound
  have hmle : ∀ p, m p ≤ cfg.bsz * cfg.bcnt + cfg.bsz + 2 := by
    intro p
    by_cases hon : ∃ es2, ChainL cfg k (if p < cfg.bcnt * cfg.bsz then p else 0) es2 k.pos ∧
        ∀ e ∈ es2, NoSkip cfg k e
    · rw [hmon p hon]; omega
    · rw [hmoff p hon]
      split <;> split <;> omega
  -- a position behind an off-chain position has a smaller measure
  have hoff : ∀ s p2, s < cfg.bcnt * cfg.bsz →
      ¬ (∃ es2, ChainL cfg k s es2 k.pos ∧ ∀ e ∈ es2, NoSkip cfg k e) →
      s < p2 → p2 ≤ s / cfg.bsz * cfg.bsz + cfg.bsz →
      m p2 < (if s ≤ base then base - s else cfg.bcnt * cfg.bsz - s + base)
        + (k.pos - base) + 2 := by
    intro s p2 hs hnon h5 h6
    have hsb : s ≠ base := by
      intro h; rw [h] at hnon; exact hnon ⟨es, hch, hns⟩
    have hA1 : s / cfg.bsz * cfg.bsz + cfg.bsz ≤ cfg.bcnt * cfg.bsz :=
      block_end_le cfg.bsz s _ hfinmod hs
    have hA2 : s < base → s / cfg.bsz * cfg.bsz + cfg.bsz ≤ base :=
      fun h => block_end_le cfg.bsz s base hbm h
    by_cases hon2 : ∃ es2, ChainL cfg k (if p2 < cfg.bcnt * cfg.bsz then p2 else 0) es2 k.pos ∧
        ∀ e ∈ es2, NoSkip cfg k e
    · rw [hmon p2 hon2]
      obtain ⟨es2, hc2, _⟩ := hon2
      have hle := hc2.le
      by_cases c1 : s ≤ base
      · have := hA2 (by omega)
        rw [if_pos c1]
        rw [if_pos (by omega)] at hle ⊢
        omega
      · rw [if_neg c1]
        by_cases c2 : p2 < cfg.bcnt * cfg.bsz
        · rw [if_pos c2]; omega
        · rw [if_neg c2]; omega
    · rw [hmoff p2 hon2]
      have hp2b : (if p2 < cfg.bcnt * cfg.bsz then p2 else 0) ≠ base := by
        intro h; rw [h] at hon2; exact hon2 ⟨es, hch, hns⟩
      by_cases c1 : s ≤ base
      · have := hA2 (by omega)
        rw [if_pos c1]
        rw [if_pos (show p2 < cfg.bcnt * cfg.bsz by omega)] at hp2b ⊢
        rw [if_pos (by omega)]
        omega
      · rw [if_neg c1]
        by_cases c2 : p2 < cfg.bcnt * cfg.bsz
        · rw [if_pos c2] at hp2b ⊢
          rw [if_neg (by omega)]
          omega
        · rw [if_neg c2] at hp2b ⊢
          rw [if_pos (Nat.zero_le _)]
          omega
  have key := walk_gen cfg rdkey cb k.pos (fun _ => True) m (fun _ k2 => k2 = k)
    (fun _ => True) (fun _ _ _ _ h => h)
    (by
      intro n k2 e0 p hP _ hs0 hst
      subst hP
      have hslt : e0.start < cfg.bcnt * cfg.bsz := by
        rw [hs0]; split
        · assumption
        · exact hfin0
      obtain ⟨a1, a2, a3⟩ := entry_get_info_bounds cfg k2 e0 jp jb hp hjp hbs hjb hps (by omega)
      by_cases hon : ∃ es2, ChainL cfg k2 (if p < cfg.bcnt * cfg.bsz then p else 0) es2 k2.pos ∧
          ∀ e ∈ es2, NoSkip cfg k2 e
      · have hmp := hmon p hon
        obtain ⟨es2, hc2, hn2⟩ := hon
        rw [← hs0] at hc2 hmp
        cases es2 with
        | nil => exact absurd hc2.eq_of_nil hst
        | cons e t =>
          obtain ⟨c1, c2, c3, c4⟩ := hc2.cons_inv
          have hinfo := c2 e0 c1
          have hle := c4.le
          rw [hinfo]
          dsimp only
          refine ⟨by omega, ?_, ?_⟩
          · intro hn
            have hlt : e.next < cfg.bcnt * cfg.bsz := by omega
            have hon2 : ∃ es2, ChainL cfg k2 (if e.next < cfg.bcnt * cfg.bsz then e.next else 0)
                es2 k2.pos ∧ ∀ e ∈ es2, NoSkip cfg k2 e := by
              rw [if_pos hlt]
              exact ⟨t, c4, fun x hx => hn2 x (List.mem_cons_of_mem _ hx)⟩
            rw [hmon e.next hon2, if_pos hlt]
            exact ⟨trivial, by omega⟩
          · intro wc _ hal hsk _
            exact absurd ⟨hal, hsk⟩ (hn2 e (List.mem_cons_self _ _) wc)
      · have hmp := hmoff p hon
        rw [← hs0] at hon hmp
        have hlt := lt_block_end cfg.bsz e0.start hb0
        generalize entry_get_info cfg k2 e0 = r at a1 a2 a3
        obtain ⟨rc0, e1⟩ := r
        dsimp only at a1 a2 a3 ⊢
        refine ⟨by omega, ?_, ?_⟩
        · intro _
          refine ⟨trivial, ?_⟩
          rw [hmp]
          apply hoff e0.start e1.next hslt hon
          · by_cases hrc : rc0 ≠ 0
            · rw [a2 hrc]; exact hlt
            · have h0 : rc0 = 0 := by
                by_contra hx; exact hrc hx
              have := (a3 h0).1
              omega
          · by_cases hrc : rc0 ≠ 0
            · rw [a2 hrc]
            · have h0 : rc0 = 0 := by
                by_contra hx; exact hrc hx
              exact (a3 h0).2
        · intro wc _ hal _ _
          refine ⟨trivial, ?_⟩
          rw [hmp]
          rw [and_bsz_mask cfg jb _ hbs, a1] at hal
          have hd := div_mul_add_mod e0.start cfg.bsz
          rw [a1, u32_of_lt _ (by omega)]
          exact hoff e0.start (e0.start + cfg.bsz) hslt hon (by omega) (by omega))
    (by
      intro n k2 e0 e p st hP _ _ _ _ _ _
      subst hP
      obtain ⟨rc, st2, h⟩ := hcb e st
      exact ⟨rc, k2, st2, h, rfl, trivial⟩)
  obtain ⟨rc, r1, r2, _⟩ := key fuel k ent wc st trivial
    (lt_of_le_of_lt (hmle _) hf) rfl trivial
  exact ⟨rc, r1, r2⟩

/-! ## An entry that does not fit -/

/-- What `entry_append` does to the write position on a healthy device: it stays, or it
moves behind the block header entry and behind the entry.  The call returns 0 or
`-KVS_ENOSPC`, and `-KVS_ENOSPC` when the entry does not fit in a block next to the block
header entry. -/
theorem entry_append_head {cfg : Cfg} {k : Kvs} (hc : CfgOk cfg) (h : Inv cfg k)
    (hh : HeadSize cfg k)
    (ent : Ent) (krd vrd : ReadCb) (hk : krd.len < 256) (hv : vrd.len < 65536)
    (hrk : ∀ (k2 : Kvs) (o l : Nat), k2.dev.length = k.dev.length → o + l ≤ krd.len →
        ∃ buf, krd.read k2 (krd.off + o) l = .ok buf ∧ buf.length = l)
    (hrv : ∀ (k2 : Kvs) (o l : Nat), k2.dev.length = k.dev.length → o + l ≤ vrd.len →
        ∃ buf, vrd.read k2 (vrd.off + o) l = .ok buf ∧ buf.length = l) :
    (entry_append cfg k ent krd vrd).2.1.csz = k.csz ∧
    HeadSize cfg (entry_append cfg k ent krd vrd).2.1 ∧
    (entry_size cfg krd.len vrd.len > cfg.bsz - entry_size cfg 0 (4 + k.csz) →
      (entry_append cfg k ent krd vrd).1 = -KVS_ENOSPC) := by
  obtain ⟨j, hj, hp⟩ := hc.psz_pow
  obtain ⟨jb, hjb, hb⟩ := hc.bsz_pow
  have hdl := h.devlen
  have hsm := hc.small
  have hbl := h.bend_le
  have hbg := h.bend_ge
  have hpl := h.pos_le
  have hpg := h.pos_ge
  have hbase := sub_bsz_mod cfg.bsz k.bend h.bend_mod
  have hf0 := entry_size_facts cfg j 0 (4 + k.csz) hp hj (by norm_num) h.csz
  have body : ∀ k1 : Kvs, k1.dev.length = k.dev.length → k1.pbuf.length = cfg.psz →
      k1.bend = k.bend → k1.csz = k.csz → k1.pos ≤ k1.bend →
      k.bend - cfg.bsz + entry_size cfg 0 (4 + k.csz) ≤ k1.pos →
      (entry_append_body cfg k1 ent krd vrd).2.1.csz = k.csz ∧
      HeadSize cfg (entry_append_body cfg k1 ent krd vrd).2.1 ∧
      (entry_size cfg krd.len vrd.len > cfg.bsz - entry_size cfg 0 (4 + k.csz) →
        (entry_append_body cfg k1 ent krd vrd).1 = -KVS_ENOSPC) := by
    intro k1 hl1 hpb1 hbe1 hcs1 hpos1 hge1
    obtain ⟨hA, hB⟩ := entry_append_body_spec cfg k1 ent krd vrd j hp hj hc.healthy hk hv
      hpos1 (by omega) (by omega) hpb1
      (fun k2 o l e1 e2 => hrk k2 o l (e1.trans hl1) e2)
      (fun k2 o l e1 e2 => hrv k2 o l (e1.trans hl1) e2)
    by_cases hsp : entry_size cfg krd.len vrd.len > k1.bend - k1.pos
    · rw [hA hsp]
      refine ⟨hcs1, Or.inr ?_, fun _ => rfl⟩
      show k1.bend - cfg.bsz + entry_size cfg 0 (4 + k1.csz) ≤ k1.pos
      rw [hbe1, hcs1]; exact hge1
    · have hsp2 : entry_size cfg krd.len vrd.len ≤ k1.bend - k1.pos := by omega
      obtain ⟨dev, pbuf, key, val, e1, -⟩ := hB hsp2
      rw [e1]
      refine ⟨hcs1, Or.inr ?_, fun hbig => ?_⟩
      · show k1.bend - cfg.bsz + entry_size cfg 0 (4 + k1.csz) ≤ k1.pos + _
        rw [hbe1, hcs1]; omega
      · exfalso
        rw [hbe1] at hsp2
        clear hA hB hrk hrv
        omega
  obtain ⟨hm1, hm2, hm3⟩ := kvs_meta_write_spec cfg k j jb hp hj hb hc.healthy h.csz h.cookie
    h.pos_le (by omega) (by omega) h.pbuf
  unfold entry_append
  by_cases hpm : k.pos % cfg.bsz = 0
  · by_cases hsp : entry_size cfg 0 (4 + k.csz) > k.bend - k.pos
    · rw [hm2 hpm hsp]
      have hne : -KVS_ENOSPC ≠ (0 : Int) := by simp [KVS_ENOSPC]
      dsimp only
      rw [if_pos hne]
      exact ⟨rfl, hh, fun _ => rfl⟩
    · have hsp2 : entry_size cfg 0 (4 + k.csz) ≤ k.bend - k.pos := by
        clear hm1 hm2 hm3 body hrk hrv; omega
      obtain ⟨dev, pbuf, e1, e2, e3, e4, e5⟩ := hm3 hpm hsp2
      rw [e1]
      simp only [ne_eq, not_true_eq_false, if_false]
      clear hm1 hm2 hm3 hrk hrv
      exact body _ e3 e5 rfl rfl (by show k.pos + _ ≤ k.bend; clear body; omega)
        (by show _ ≤ k.pos + _; clear body; omega)
  · rw [hm1 hpm]
    simp only [ne_eq, not_true_eq_false, if_false]
    have hge : k.bend - cfg.bsz + entry_size cfg 0 (4 + k.csz) ≤ k.pos := by
      rcases hh with hh | hh
      · rw [hh] at hpm; exact absurd hbase hpm
      · exact hh
    exact body k rfl h.pbuf rfl rfl hpl hge

/-- `wblock_advance` leaves an empty write block and raises the wrap counter by at most
one. -/
theorem wblock_advance_head (cfg : Cfg) (k : Kvs) :
    HeadSize cfg (wblock_advance cfg k) ∧ (wblock_advance cfg k).csz = k.csz ∧
    (wblock_advance cfg k).wrapcnt ≤ k.wrapcnt + 1 := by
  unfold wblock_advance
  refine ⟨Or.inl rfl, rfl, ?_⟩
  dsimp only
  split
  · unfold u32; exact Nat.mod_le _ _
  · omega

/-- `entry_copy` keeps the invariant, the block header room and the wrap counter. -/
theorem entry_copy_head {cfg : Cfg} {k : Kvs} (hc : CfgOk cfg) (h : Inv cfg k)
    (hh : HeadSize cfg k) (e : Ent)
    (hb1 : e.start + 8 + (entry_get_klen e + entry_get_vlen e) ≤ e.next)
    (hb2 : e.start + 8 + (entry_get_klen e + entry_get_vlen e) ≤ cfg.bsz * cfg.bcnt) :
    Inv cfg (entry_copy cfg k e).2 ∧ HeadSize cfg (entry_copy cfg k e).2 ∧
    (entry_copy cfg k e).2.csz = k.csz ∧ (entry_copy cfg k e).2.wrapcnt = k.wrapcnt := by
  have hdl := h.devlen
  have hsm := hc.small
  have r1 := read_ent_ok e 0 (entry_get_klen e) k.dev.length (by omega) (by omega)
    (by omega)
  have r2 := read_ent_ok e (entry_get_klen e) (entry_get_vlen e) k.dev.length (by omega)
    (by omega) (by omega)
  have a := entry_append_inv hc h { start := 0, next := 0, he_hdr := 0 }
    { ctx := .ent e, off := 0, len := entry_get_klen e }
    { ctx := .ent e, off := entry_get_klen e, len := entry_get_vlen e }
    (klen_lt e) (vlen_lt e) r1 r2
  have b := entry_append_head hc h hh { start := 0, next := 0, he_hdr := 0 }
    { ctx := .ent e, off := 0, len := entry_get_klen e }
    { ctx := .ent e, off := entry_get_klen e, len := entry_get_vlen e }
    (klen_lt e) (vlen_lt e) r1 r2
  unfold entry_copy
  exact ⟨a.1, b.2.1, b.1, a.2.2.1⟩

theorem copy_loop_head {cfg : Cfg} (hc : CfgOk cfg) (e : Ent)
    (hb1 : e.start + 8 + (entry_get_klen e + entry_get_vlen e) ≤ e.next)
    (hb2 : e.start + 8 + (entry_get_klen e + entry_get_vlen e) ≤ cfg.bsz * cfg.bcnt) :
    ∀ (n : Nat) (k : Kvs) (rc : Int), Inv cfg k → HeadSize cfg k →
      Inv cfg (copy_loop cfg e n k rc).2 ∧ HeadSize cfg (copy_loop cfg e n k rc).2 ∧
      (copy_loop cfg e n k rc).2.csz = k.csz ∧
      (copy_loop cfg e n k rc).2.wrapcnt ≤ k.wrapcnt + n := by
  intro n
  induction n with
  | zero => intro k rc h hh; exact ⟨h, hh, rfl, Nat.le_refl _⟩
  | succ n ih =>
    intro k rc h hh
    rw [copy_loop]
    have h1 := entry_copy_head hc h hh e hb1 hb2
    generalize entry_copy cfg k e = r at h1
    obtain ⟨rc1, k1⟩ := r
    dsimp only at h1 ⊢
    split
    · dsimp only
      exact ⟨h1.1, h1.2.1, h1.2.2.1, by omega⟩
    · have w := wblock_advance_head cfg k1
      have := ih (wblock_advance cfg k1) rc1 (Inv.wblock_advance hc h1.1) w.1
      refine ⟨this.1, this.2.1, by rw [this.2.2.1, w.2.1, h1.2.2.1], ?_⟩
      have := this.2.2.2
      omega

/-- `copy_cb` returns, and keeps the invariant and the block header room; the wrap
counter goes up by at most `bspr`. -/
theorem copy_cb_head {cfg : Cfg} (hc : CfgOk cfg) (k : Kvs) (e : Ent) (st : Unit)
    (h : Inv cfg k) (hh : HeadSize cfg k)
    (hb1 : e.start + 8 + (entry_get_klen e + entry_get_vlen e) ≤ e.next)
    (hb2 : e.start + 8 + (entry_get_klen e + entry_get_vlen e) ≤ cfg.bsz * cfg.bcnt) :
    ∃ rc k2 st2, copy_cb cfg k e st = some (rc, k2, st2) ∧ Inv cfg k2 ∧ HeadSize cfg k2 ∧
      k2.csz = k.csz ∧ k2.wrapcnt ≤ k.wrapcnt + cfg.bspr := by
  unfold copy_cb
  split
  · exact ⟨0, k, (), rfl, h, hh, rfl, by omega⟩
  · have := copy_loop_head hc e hb1 hb2 cfg.bspr k 0 h hh
    generalize copy_loop cfg e cfg.bspr k 0 = r at this
    obtain ⟨rc1, k1⟩ := r
    exact ⟨rc1, k1, (), rfl, this⟩

/-- `unique_cb` returns when the scan for later entries has enough fuel: it passes the
entry on to the callback or returns 0 and leaves the store alone. -/
theorem unique_cb_returns {σ : Type} (cfg : Cfg) (hc : CfgOk cfg) (fuel : Nat) (cb : Cb σ)
    (k : Kvs) (e : Ent) (st : σ) (hi : Inv cfg k) (hw : k.wrapcnt < 4294967295)
    (hf : cfg.bsz * cfg.bcnt + cfg.bsz + 2 < fuel) :
    unique_cb cfg fuel cb k e st = some (0, k, st) ∨
    unique_cb cfg fuel cb k e st = cb k e st := by
  unfold unique_cb
  split
  · exact Or.inl rfl
  · dsimp only
    obtain ⟨rc, hrc, _⟩ := walk_to_pos_ends cfg hc k hi hw
      { ctx := .ent e, off := 0, len := entry_get_klen e } (entry_dup_cb e)
      (by
        intro e2 st2
        unfold entry_dup_cb
        split
        · exact ⟨0, st2, rfl⟩
        · exact ⟨KVS_DONE, true, rfl⟩)
      fuel { start := 0, next := e.next, he_hdr := 0 } cfg.uninit false hf
    rw [hrc]
    dsimp only
    split
    · exact Or.inr rfl
    · exact Or.inl rfl

/-! ## A compaction in `kvs_write` comes to an end -/

theorem block_advance_n_succ (cfg : Cfg) (n : Nat) : ∀ pos : Nat,
    block_advance_n cfg pos (n + 1) = block_advance_n cfg (block_advance_n cfg pos n) 1 := by
  induction n with
  | zero => intro pos; rfl
  | succ n ih =>
    intro pos
    rw [block_advance_n, ih]
    rfl

/-- The block that `compact` scans when `kvs_write` calls it: it starts `bspr` blocks
behind the end of the write block and ends at the stop position. -/
theorem compact_block (cfg : Cfg) (hc : CfgOk cfg) (bend : Nat) (hm : bend % cfg.bsz = 0)
    (hle : bend ≤ cfg.bsz * cfg.bcnt) :
    ∃ b, (if block_advance_n cfg bend cfg.bspr < cfg.bcnt * cfg.bsz
        then block_advance_n cfg bend cfg.bspr else 0) = b ∧
      b % cfg.bsz = 0 ∧ b + cfg.bsz ≤ cfg.bsz * cfg.bcnt ∧
      block_advance_n cfg bend (cfg.bspr + 1) = b + cfg.bsz := by
  obtain ⟨jb, hjb, hbs⟩ := hc.bsz_pow
  have hb0 : 0 < cfg.bsz := by rw [hbs]; exact Nat.pow_pos (by norm_num)
  have hsp := hc.spare
  have hfin : cfg.bcnt * cfg.bsz = cfg.bsz * cfg.bcnt := Nat.mul_comm _ _
  obtain ⟨a, ha⟩ := Nat.dvd_of_mod_eq_zero hm
  have hale : a ≤ cfg.bcnt := by
    rw [ha] at hle
    exact Nat.le_of_mul_le_mul_left hle hb0
  obtain ⟨c, hc1, hc2⟩ := block_advance_n_base cfg (by omega) cfg.bspr a hale
  rw [block_advance_n_succ, ha, Nat.mul_comm cfg.bsz a, hc2, block_advance_one]
  have hcm : c * cfg.bsz ≤ cfg.bcnt * cfg.bsz := Nat.mul_le_mul_right _ hc1
  by_cases hlt : c * cfg.bsz < cfg.bcnt * cfg.bsz
  · rw [if_pos hlt, if_neg (by omega)]
    refine ⟨_, rfl, Nat.mul_mod_left _ _, ?_, rfl⟩
    rw [← hfin]
    exact mult_succ_le cfg.bsz _ _ (Nat.mul_mod_left _ _) (Nat.mul_mod_left _ _) hlt
  · rw [if_neg hlt, if_pos (by omega)]
    have : c * cfg.bsz = cfg.bsz * cfg.bcnt := by omega
    rw [this, Nat.sub_self]
    refine ⟨0, rfl, Nat.zero_mod _, ?_, rfl⟩
    rw [Nat.zero_add]
    exact Nat.le_mul_of_pos_right _ (by omega)

/-- The compaction that `kvs_write` runs after a failed append returns when its scans
have enough fuel; it keeps the invariant and the block header room, and raises the wrap
counter by at most `1 + bsz * bspr`. -/
theorem compact_returns {cfg : Cfg} (hc : CfgOk cfg) {k : Kvs} (h : Inv cfg k)
    (R fuel : Nat) (hw : k.wrapcnt + (1 + cfg.bsz * cfg.bspr) + R < 4294967295)
    (hf : cfg.bsz * cfg.bcnt + cfg.bsz + 2 < fuel) :
    ∃ rc k2, compact cfg k (block_advance_n cfg k.bend (cfg.bspr + 1)) fuel = some (rc, k2) ∧
      Inv cfg k2 ∧ HeadSize cfg k2 ∧ k2.csz = k.csz ∧ k2.wrapcnt + R < 4294967295 := by
  obtain ⟨jp, hjp, hp⟩ := hc.psz_pow
  obtain ⟨jb, hjb, hbs⟩ := hc.bsz_pow
  have hps : cfg.psz ≤ 1073741824 := le_trans hc.psz_le (bsz_le_pow30 cfg hc)
  have hsmall := hc.small
  obtain ⟨b, hb1, hb2, hb3, hb4⟩ := compact_block cfg hc k.bend h.bend_mod h.bend_le
  have hw1 := wblock_advance_head cfg k
  have hi1 := Inv.wblock_advance hc h
  have key := walk_block_ends cfg hc { ctx := .ptr [], off := 0, len := 0 }
    (unique_cb cfg fuel (copy_cb cfg)) b 0 hb2 hb3
    (fun n k2 => Inv cfg k2 ∧ HeadSize cfg k2 ∧ k2.csz = k.csz ∧
      k2.wrapcnt + n * cfg.bspr + R < 4294967295)
    (fun _ => True)
    (by
      intro n n2 k2 hn hP
      refine ⟨hP.1, hP.2.1, hP.2.2.1, ?_⟩
      have := Nat.mul_le_mul_right cfg.bspr hn
      have := hP.2.2.2
      omega)
    (by
      intro n k2 e0 _ hs hrc
      have := (entry_get_info_bounds cfg k2 e0 jp jb hp hjp hbs hjb hps (by omega)).2.2 hrc
      omega)
    (by
      intro n k2 e0 e st hP _ _ _ _ hes hlen hnext _
      obtain ⟨p1, p2, p3, p4⟩ := hP
      have hsucc : (n + 1) * cfg.bspr = n * cfg.bspr + cfg.bspr := Nat.succ_mul _ _
      rcases unique_cb_returns cfg hc fuel (copy_cb cfg) k2 e st p1 (by omega) hf with hu | hu
      · exact ⟨0, k2, st, hu, ⟨p1, p2, p3, by omega⟩, trivial⟩
      · obtain ⟨rc, k3, st3, q1, q2, q3, q4, q5⟩ := copy_cb_head hc k2 e st p1 p2 hlen
          (by omega)
        exact ⟨rc, k3, st3, by rw [hu, q1], ⟨q2, q3, by rw [q4, p3], by omega⟩, trivial⟩)
    fuel (wblock_advance cfg k)
    { start := 0, next := block_advance_n cfg k.bend cfg.bspr, he_hdr := 0 } cfg.uninit ()
    hb1 (by
      have : cfg.bsz ≤ cfg.bsz * cfg.bcnt := by omega
      omega)
    ⟨hi1, hw1.1, hw1.2.1, by
      have := hw1.2.2
      omega⟩ trivial
  obtain ⟨rc, r1, r2, _⟩ := key
  unfold compact walk_unique
  dsimp only
  rw [hb4, r1]
  exact ⟨_, _, rfl, r2.1, r2.2.1, r2.2.2.1, by
    have := r2.2.2.2
    omega⟩

/-! ## The search before a write of an entry that does not fit -/

theorem entry_get_param_canon (cfg : Cfg) (e1 : Ent) (hdr : List Nat)
    (h : (entry_get_param cfg e1 hdr).1 = 0) :
    entry_get_param cfg { start := e1.start, next := e1.next, he_hdr := 0 } hdr
      = entry_get_param cfg e1 hdr := by
  unfold entry_get_param at h ⊢
  dsimp only at h ⊢
  by_cases hc : get_le32 hdr ≠ entry_hdr_add_crc (hdr_get_data (get_le32 hdr))
  · rw [if_pos hc] at h
    exact absurd h (show ¬ (-KVS_EINVAL : Int) = 0 by decide)
  · rw [if_neg hc, if_neg hc]

/-- A successful decode does not depend on what the scanner's entry held before. -/
theorem entry_get_info_canon (cfg : Cfg) (k : Kvs) (e0 e : Ent)
    (h : entry_get_info cfg k e0 = (0, e)) :
    entry_get_info cfg k { start := e0.start, next := 0, he_hdr := 0 } = (0, e) := by
  unfold entry_get_info at h ⊢
  dsimp only at h ⊢
  generalize KVS_ALIGNDOWN e0.start cfg.bsz + cfg.bsz = A at h ⊢
  have hr : entry_read k { start := e0.start, next := A, he_hdr := 0 } 0 KVS_HDRSIZE
      = entry_read k { start := e0.start, next := A, he_hdr := e0.he_hdr } 0 KVS_HDRSIZE := by
    unfold entry_read; rfl
  rw [hr]
  generalize entry_read k { start := e0.start, next := A, he_hdr := e0.he_hdr } 0 KVS_HDRSIZE
    = rd at h ⊢
  cases rd with
  | error _ =>
    dsimp only at h
    have h1 := congrArg Prod.fst h
    exact absurd h1 (show ¬ (-KVS_ENOENT : Int) = 0 by decide)
  | ok hdr =>
    dsimp only at h ⊢
    have hp := entry_get_param_canon cfg { start := e0.start, next := A, he_hdr := e0.he_hdr } hdr
    dsimp only at hp
    generalize entry_get_param cfg { start := e0.start, next := A, he_hdr := e0.he_hdr } hdr
      = r at h hp
    obtain ⟨rc, e2⟩ := r
    dsimp only at h hp
    by_cases hrc : rc ≠ 0
    · rw [if_pos hrc] at h
      have h1 := congrArg Prod.fst h
      exact absurd h1 (show ¬ (-KVS_ENOENT : Int) = 0 by decide)
    · have h0 : rc = 0 := by
        by_contra hx; exact hrc hx
      rw [hp h0]
      exact h

theorem ChainL.decodes {cfg : Cfg} {k : Kvs} {a b : Nat} {es : List Ent}
    (h : ChainL cfg k a es b) : ∀ e ∈ es, DecodesAt cfg k e := by
  induction h with
  | nil a => intro e he; cases he
  | cons e es b hd _ _ ih =>
    intro x hx
    rcases List.mem_cons.mp hx with rfl | hx
    · exact hd
    · exact ih x hx

theorem ChainL.length_le {cfg : Cfg} {k : Kvs} {a b : Nat} {es : List Ent}
    (h : ChainL cfg k a es b) : a + 8 * es.length ≤ b := by
  induction h with
  | nil a => simp
  | cons e es b _ h8 _ ih =>
    rw [List.length_cons]
    omega

/-- An entry that fits behind a block header entry: its room, rounded up to the program
size, fits as well. -/
theorem entry_size_le_of_fit (cfg : Cfg) (hc : CfgOk cfg) (kl vl c : Nat) (hk : kl < 256)
    (hv : vl < 65536) (hcs : 4 + c < 65536)
    (h : 8 + kl + vl + entry_size cfg 0 (4 + c) ≤ cfg.bsz) :
    entry_size cfg kl vl ≤ cfg.bsz - entry_size cfg 0 (4 + c) := by
  obtain ⟨j, hj, hp⟩ := hc.psz_pow
  obtain ⟨jb, hjb, hb⟩ := hc.bsz_pow
  have hbp : cfg.bsz % cfg.psz = 0 := pow_dvd_of_le _ _ j jb hp hb hc.psz_le
  have f1 := entry_size_facts cfg j kl vl hp hj hk hv
  have f0 := entry_size_facts cfg j 0 (4 + c) hp hj (by norm_num) hcs
  generalize entry_size cfg kl vl = n at f1 ⊢
  generalize entry_size cfg 0 (4 + c) = hs at f0 h ⊢
  have hM : (cfg.bsz - hs) % cfg.psz = 0 := by
    obtain ⟨x, hx⟩ := Nat.dvd_of_mod_eq_zero hbp
    obtain ⟨y, hy⟩ := Nat.dvd_of_mod_eq_zero f0.1
    rw [hx, hy, ← Nat.mul_sub]
    exact Nat.mul_mod_right _ _
  by_contra hlt
  have := mult_succ_le cfg.psz (cfg.bsz - hs) n hM f1.1 (by omega)
  omega

/-- The block header room of a store whose blocks start with block header entries. -/
theorem headSize_of_inv {cfg : Cfg} {k : Kvs} (hc : CfgOk cfg) (hi : Inv cfg k)
    (hbh : BlockHeads cfg k) :
    HeadSize cfg k ∧ ∀ es, ChainL cfg k (k.bend - cfg.bsz) es k.pos → ∀ hd tl, es = hd :: tl →
      hd.next = k.bend - cfg.bsz + entry_size cfg 0 (4 + k.csz) := by
  obtain ⟨jb, hjb, hb⟩ := hc.bsz_pow
  have hb0 : 0 < cfg.bsz := by rw [hb]; exact Nat.pow_pos (by norm_num)
  have hbm := sub_bsz_mod cfg.bsz k.bend hi.bend_mod
  have h1 := hi.bend_ge
  have h2 := hi.bend_le
  obtain ⟨a, ha⟩ := Nat.dvd_of_mod_eq_zero hbm
  have halt : a < cfg.bcnt := by
    have : cfg.bsz * a < cfg.bsz * cfg.bcnt := by omega
    exact Nat.lt_of_mul_lt_mul_left this
  have hhd : ∀ es, ChainL cfg k (k.bend - cfg.bsz) es k.pos → ∀ hd tl, es = hd :: tl →
      hd.next = k.bend - cfg.bsz + entry_size cfg 0 (4 + k.csz) := by
    intro es hch hd tl hes
    subst hes
    obtain ⟨c1, c2, _, _⟩ := hch.cons_inv
    have hinfo := c2 { start := a * cfg.bsz, next := 0, he_hdr := 0 }
      (by show a * cfg.bsz = hd.start; rw [← c1, ha, Nat.mul_comm])
    have := hbh a halt (by rw [hinfo])
    rw [hinfo] at this
    rw [this.2, ha, Nat.mul_comm]
  refine ⟨?_, hhd⟩
  obtain ⟨es, hch, _⟩ := hi.chain
  cases es with
  | nil => exact Or.inl hch.eq_of_nil.symm
  | cons hd tl =>
    have hn := hhd _ hch hd tl rfl
    have := (hch.cons_inv).2.2.2.le
    exact Or.inr (by omega)

/-- The search of `entry_get` in the blocks before the write block: each round scans one
block, comes to an end, and finds only entries that fit in a block next to the block
header entry. -/
theorem entry_get_rounds {cfg : Cfg} (hc : CfgOk cfg) {k : Kvs} (hbh : BlockHeads cfg k)
    (key : List Nat) (hk1 : 1 ≤ key.length) (fuel : Nat) (hf : cfg.bsz < fuel) (wlk : Ent) :
    ∀ (n start : Nat) (arg : EntryGetArg), start % cfg.bsz = 0 →
      start + cfg.bsz ≤ cfg.bsz * cfg.bcnt →
      (arg.found = true → entry_get_klen arg.ent = key.length ∧
        8 + entry_get_klen arg.ent + entry_get_vlen arg.ent + entry_size cfg 0 (4 + k.csz)
          ≤ cfg.bsz) →
      ∃ r, entry_get_loop cfg k { ctx := .ptr key, off := 0, len := key.length } fuel n wlk
          (start + cfg.bsz) start arg = some r ∧
        (r.found = true → entry_get_klen r.ent = key.length ∧
          8 + entry_get_klen r.ent + entry_get_vlen r.ent + entry_size cfg 0 (4 + k.csz)
            ≤ cfg.bsz) := by
  obtain ⟨jb, hjb, hbs⟩ := hc.bsz_pow
  have hb0 : 0 < cfg.bsz := by rw [hbs]; exact Nat.pow_pos (by norm_num)
  have hfin : cfg.bcnt * cfg.bsz = cfg.bsz * cfg.bcnt := Nat.mul_comm _ _
  intro n
  induction n with
  | zero => intro start arg _ _ hS; exact ⟨arg, rfl, hS⟩
  | succ n ih =>
    intro start arg hm hle hS
    obtain ⟨a, ha⟩ := Nat.dvd_of_mod_eq_zero hm
    have halt : a < cfg.bcnt := by
      have : cfg.bsz * a < cfg.bsz * cfg.bcnt := by omega
      exact Nat.lt_of_mul_lt_mul_left this
    have hcanon : ∀ e0 : Ent, e0.start = start → (entry_get_info cfg k e0).1 = 0 →
        entry_get_klen (entry_get_info cfg k e0).2 = 0 ∧
        (entry_get_info cfg k e0).2.next = start + entry_size cfg 0 (4 + k.csz) := by
      intro e0 hs hrc
      have h1 : entry_get_info cfg k e0 = (0, (entry_get_info cfg k e0).2) := by
        rw [← hrc]
      have h2 := entry_get_info_canon cfg k e0 _ h1
      have hst : e0.start = a * cfg.bsz := by rw [hs, ha, Nat.mul_comm]
      rw [hst] at h2
      have := hbh a halt (by rw [h2])
      rw [h2] at this
      rw [ha, Nat.mul_comm cfg.bsz a]
      exact this
    have key2 := walk_block_ends cfg hc { ctx := .ptr key, off := 0, len := key.length }
      (entry_get_cb key.length) start (entry_size cfg 0 (4 + k.csz)) hm hle
      (fun _ k2 => k2 = k)
      (fun st => st.found = true → entry_get_klen st.ent = key.length ∧
        8 + entry_get_klen st.ent + entry_get_vlen st.ent + entry_size cfg 0 (4 + k.csz)
          ≤ cfg.bsz)
      (fun _ _ _ _ h => h)
      (by
        intro _ k2 e0 hP hs hrc
        subst hP
        rw [(hcanon e0 hs hrc).2])
      (by
        intro _ k2 e0 e st hP hSt _ hor hinfo hes hlen hnext _
        subst hP
        refine ⟨0, k2, entry_get_f key.length e st, entry_get_cb_eq _ _ _ _, rfl, ?_⟩
        unfold entry_get_f
        split
        · rename_i hkl
          intro _
          dsimp only
          refine ⟨hkl, ?_⟩
          rcases hor with hor | hor
          · have := (hcanon e0 hor (by rw [hinfo])).1
            rw [hinfo] at this
            dsimp only at this
            omega
          · omega
        · exact hSt)
      fuel k { wlk with next := start } cfg.uninit arg
      (by dsimp only; rw [if_pos (by omega)]) hf rfl hS
    obtain ⟨rc, r1, _, r3⟩ := key2
    rw [entry_get_loop]
    dsimp only
    rw [r1]
    dsimp only
    split
    · exact ⟨_, rfl, r3⟩
    · have hstop : (if start = 0 then cfg.bcnt * cfg.bsz else start) % cfg.bsz = 0 := by
        split
        · exact Nat.mul_mod_left _ _
        · exact hm
      have hge : cfg.bsz ≤ (if start = 0 then cfg.bcnt * cfg.bsz else start) := by
        split
        · omega
        · rename_i h0
          have : cfg.bsz * 1 ≤ cfg.bsz * a := by
            apply Nat.mul_le_mul_left
            rcases Nat.eq_zero_or_pos a with h | h
            · rw [h, Nat.mul_zero] at ha; exact absurd ha h0
            · exact h
          omega
      have hle2 : (if start = 0 then cfg.bcnt * cfg.bsz else start) ≤ cfg.bsz * cfg.bcnt := by
        split <;> omega
      have := ih ((if start = 0 then cfg.bcnt * cfg.bsz else start) - cfg.bsz) _
        (sub_bsz_mod cfg.bsz _ hstop) (by omega) r3
      rw [Nat.sub_add_cancel hge] at this
      exact this

/-- The search before a write comes to an end; an entry that it finds fits in a block
next to the block header entry. -/
theorem kvs_entry_get_nofit {cfg : Cfg} (hc : CfgOk cfg) {k : Kvs} (hi : Inv cfg k)
    (hw : k.wrapcnt < 4294967295) (hbh : BlockHeads cfg k) (key : List Nat)
    (hk1 : 1 ≤ key.length) (fuel : Nat) (hf : cfg.bsz < fuel) (ent : Ent) :
    ∃ rc e, kvs_entry_get cfg k ent key fuel = some (rc, e) ∧
      (rc = 0 → 8 + key.length + entry_get_vlen e + entry_size cfg 0 (4 + k.csz) ≤ cfg.bsz) := by
  obtain ⟨jp, hjp, hp⟩ := hc.psz_pow
  obtain ⟨jb, hjb, hbs⟩ := hc.bsz_pow
  have hps : cfg.psz ≤ 1073741824 := le_trans hc.psz_le (bsz_le_pow30 cfg hc)
  have hsp := hc.spare
  have hsm := hc.small
  have hb0 : 0 < cfg.bsz := by rw [hbs]; exact Nat.pow_pos (by norm_num)
  have hcnt : cfg.bcnt < 2147483648 := by
    have : cfg.bcnt ≤ cfg.bsz * cfg.bcnt := Nat.le_mul_of_pos_left _ hb0
    omega
  have hbl := hi.bend_le
  have hge := hi.bend_ge
  have hpl := hi.pos_le
  have hbm := sub_bsz_mod cfg.bsz k.bend hi.bend_mod
  obtain ⟨es, hch, hho⟩ := hi.chain
  have hhs := (headSize_of_inv hc hi hbh).2 es hch
  have hlen := hch.length_le
  -- the entries of the write block
  have hgood : ∀ e ∈ es, entry_get_klen e = key.length →
      8 + entry_get_klen e + entry_get_vlen e + entry_size cfg 0 (4 + k.csz) ≤ cfg.bsz := by
    intro e he hkl
    cases es with
    | nil => cases he
    | cons hd tl =>
      have hn := hhs hd tl rfl
      obtain ⟨c1, c2, c3, c4⟩ := hch.cons_inv
      rcases List.mem_cons.mp he with rfl | he
      · have := (hho e (by simp)).1
        omega
      · have hb := c4.bounds e he
        have hd := hch.decodes e (List.mem_cons_of_mem _ he) e rfl
        have := (entry_get_info_bounds cfg k e jp jb hp hjp hbs hjb hps (by omega)).2.2
          (by rw [hd])
        rw [hd] at this
        dsimp only at this
        omega
  have hfold : ∀ (l : List Ent), (∀ e ∈ l, e ∈ es) → ∀ st : EntryGetArg,
      (st.found = true → entry_get_klen st.ent = key.length ∧
        8 + entry_get_klen st.ent + entry_get_vlen st.ent + entry_size cfg 0 (4 + k.csz)
          ≤ cfg.bsz) →
      ((l.foldl (fun s e => visit k { ctx := .ptr key, off := 0, len := key.length }
          (entry_get_f key.length) e s) st).found = true →
        entry_get_klen (l.foldl (fun s e => visit k
          { ctx := .ptr key, off := 0, len := key.length }
          (entry_get_f key.length) e s) st).ent = key.length ∧
        8 + entry_get_klen (l.foldl (fun s e => visit k
          { ctx := .ptr key, off := 0, len := key.length }
          (entry_get_f key.length) e s) st).ent + entry_get_vlen (l.foldl (fun s e => visit k
          { ctx := .ptr key, off := 0, len := key.length }
          (entry_get_f key.length) e s) st).ent + entry_size cfg 0 (4 + k.csz) ≤ cfg.bsz) := by
    intro l
    induction l with
    | nil => intro _ st hS; exact hS
    | cons x l ih =>
      intro hsub st hS
      rw [List.foldl_cons]
      apply ih (fun e he => hsub e (List.mem_cons_of_mem _ he))
      unfold visit
      split
      · exact hS
      · unfold entry_get_f
        split
        · rename_i hkl
          intro _
          exact ⟨hkl, hgood x (hsub x (List.mem_cons_self _ _)) hkl⟩
        · exact hS
  unfold kvs_entry_get
  rw [if_neg (by simp [hi.ready])]
  unfold entry_get
  dsimp only
  have e1 : u32 (cfg.bcnt + 4294967296 - cfg.bspr) = (cfg.bcnt - cfg.bspr - 1) + 1 := by
    unfold u32; omega
  have e2 : u32 (k.bend + 4294967296 - cfg.bsz) = k.bend - cfg.bsz := by
    unfold u32; omega
  rw [e1, e2]
  have hwalk := walk_chain cfg k { ctx := .ptr key, off := 0, len := key.length }
    (entry_get_cb key.length) (entry_get_f key.length) k.pos
    (fun e st => entry_get_cb_eq key.length k e st)
    (by rw [Nat.mul_comm]; omega) es (k.bend - cfg.bsz) fuel
    { start := 0, next := k.bend - cfg.bsz, he_hdr := 0 } cfg.uninit
    { ent := ent, found := false } hch
    (noskip_of_inv hc hi hw _ hch hho) (by intro _; rw [Nat.mul_comm]; omega) rfl (by omega)
  have hS1 := hfold es (fun _ h => h) { ent := ent, found := false }
    (fun h => absurd h (by simp))
  have hloop : ∃ r, entry_get_loop cfg k { ctx := .ptr key, off := 0, len := key.length } fuel
      (cfg.bcnt - cfg.bspr - 1 + 1) { start := 0, next := 0, he_hdr := 0 } k.pos
      (k.bend - cfg.bsz) { ent := ent, found := false } = some r ∧
      (r.found = true → entry_get_klen r.ent = key.length ∧
        8 + entry_get_klen r.ent + entry_get_vlen r.ent + entry_size cfg 0 (4 + k.csz)
          ≤ cfg.bsz) := by
    rw [entry_get_loop]
    dsimp only
    rw [hwalk]
    dsimp only
    split
    · exact ⟨_, rfl, hS1⟩
    · have hstop : (if k.bend - cfg.bsz = 0 then cfg.bcnt * cfg.bsz else k.bend - cfg.bsz)
          % cfg.bsz = 0 := by
        split
        · exact Nat.mul_mod_left _ _
        · exact hbm
      have hge2 : cfg.bsz ≤
          (if k.bend - cfg.bsz = 0 then cfg.bcnt * cfg.bsz else k.bend - cfg.bsz) := by
        split
        · rw [Nat.mul_comm]; omega
        · rename_i h0
          obtain ⟨a, ha⟩ := Nat.dvd_of_mod_eq_zero hbm
          have : cfg.bsz * 1 ≤ cfg.bsz * a := by
            apply Nat.mul_le_mul_left
            rcases Nat.eq_zero_or_pos a with h | h
            · rw [h, Nat.mul_zero] at ha; exact absurd ha h0
            · exact h
          omega
      have hle2 : (if k.bend - cfg.bsz = 0 then cfg.bcnt * cfg.bsz else k.bend - cfg.bsz)
          ≤ cfg.bsz * cfg.bcnt := by
        split
        · rw [Nat.mul_comm]
        · omega
      have := entry_get_rounds hc hbh key hk1 fuel hf { start := 0, next := 0, he_hdr := 0 }
        (cfg.bcnt - cfg.bspr - 1)
        ((if k.bend - cfg.bsz = 0 then cfg.bcnt * cfg.bsz else k.bend - cfg.bsz) - cfg.bsz) _
        (sub_bsz_mod cfg.bsz _ hstop) (by omega) hS1
      rw [Nat.sub_add_cancel hge2] at this
      exact this
  obtain ⟨r, hr, hS⟩ := hloop
  rw [hr]
  dsimp only
  by_cases hnf : ¬ r.found = true ∨ entry_get_vlen r.ent = 0
  · rw [if_pos hnf]
    exact ⟨_, _, rfl, fun h => absurd h (by decide)⟩
  · rw [if_neg hnf]
    refine ⟨_, _, rfl, fun _ => ?_⟩
    have hfound : r.found = true := by
      by_contra h; exact hnf (Or.inl h)
    have := hS hfound
    omega

/-- The loop of `kvs_write` for an entry that does not fit in a block next to the block
header entry: every `entry_add` returns `-KVS_ENOSPC`, every compaction comes to an end,
and the loop returns `-KVS_ENOSPC` after `cnt` rounds. -/
theorem kvs_write_loop_nospace {cfg : Cfg} (hc : CfgOk cfg) (key value : List Nat)
    (hk : key.length < 256) (hv : value.length < 65536) (c fuel : Nat)
    (hbig : entry_size cfg key.length value.length > cfg.bsz - entry_size cfg 0 (4 + c))
    (hf : cfg.bsz * cfg.bcnt + cfg.bsz + 2 < fuel) :
    ∀ (cnt : Nat) (k : Kvs) (ent : Ent), Inv cfg k → HeadSize cfg k → k.csz = c →
      k.wrapcnt + cnt * (1 + cfg.bsz * cfg.bspr) < 4294967295 →
      ∃ k2, kvs_write_loop cfg key value fuel cnt k ent = some (-KVS_ENOSPC, k2) ∧
        NoSpaceRun cfg key value fuel cnt k k2 := by
  intro cnt
  induction cnt with
  | zero => intro k ent _ _ _ _; exact ⟨k, rfl, NoSpaceRun.done k⟩
  | succ cnt ih =>
    intro k ent hi hh hcs hw
    have a := entry_append_inv hc hi ent { ctx := .ptr key, off := 0, len := key.length }
      { ctx := .ptr value, off := 0, len := value.length } hk hv
      (read_ptr_ok key k) (read_ptr_ok value k)
    have b := entry_append_head hc hi hh ent { ctx := .ptr key, off := 0, len := key.length }
      { ctx := .ptr value, off := 0, len := value.length } hk hv
      (read_ptr_ok key k) (read_ptr_ok value k)
    have hadd : entry_add cfg k ent key value = entry_append cfg k ent
      { ctx := .ptr key, off := 0, len := key.length }
      { ctx := .ptr value, off := 0, len := value.length } := rfl
    rw [← hadd] at a b
    rw [kvs_write_loop]
    generalize hr : entry_add cfg k ent key value = r at a b
    obtain ⟨rc1, k1, ent1⟩ := r
    dsimp only at a b ⊢
    have hrc1 : rc1 = -KVS_ENOSPC := b.2.2 (by rw [hcs]; exact hbig)
    rw [if_neg (by rw [hrc1]; decide)]
    have hsucc : (cnt + 1) * (1 + cfg.bsz * cfg.bspr)
        = cnt * (1 + cfg.bsz * cfg.bspr) + (1 + cfg.bsz * cfg.bspr) := Nat.succ_mul _ _
    obtain ⟨rc2, k2, hcomp, q1, q2, q3, q4⟩ := compact_returns hc a.1
      (cnt * (1 + cfg.bsz * cfg.bspr)) fuel (by rw [a.2.2.1]; omega) hf
    rw [hcomp]
    dsimp only
    obtain ⟨k3, hl, hrun⟩ := ih k2 ent1 q1 q2 (by rw [q3, b.1, hcs]) q4
    refine ⟨k3, hl, ?_⟩
    rw [hrc1] at hr
    exact NoSpaceRun.step cnt k k1 k2 k3 ent ent1 rc2 hr hcomp hrun


/-! ## No space -/

/-- NoSpace away from the last value of the wrap counter.  On a healthy device with a
configuration as the specification wants it, in every store for which the invariant of
the write block holds, every block starts with a block header entry of the store's
cookie size or with bytes that are no entry header, and the wrap counter leaves room
for the block changes of the call, `kvs_write` of a key of 1 to 255
bytes and a value whose entry does not fit in a block next to the block header entry
(`round_up(8 + key_length + value_length, psz)` greater than `bsz` minus the size of the
block header entry) returns `-KVS_ENOSPC` when its scans have enough fuel (more than
`bsz * bcnt + bsz + 2` rounds): `entry_add` is called `bcnt` times, every call returns
`-KVS_ENOSPC`, and one compaction, which comes to an end, follows every call. -/
theorem kvs_write_nospace (cfg : Cfg) (hc : CfgOk cfg) (k : Kvs) (hi : Inv cfg k)
    (hbh : BlockHeads cfg k) (key value : List Nat) (hk1 : 1 ≤ key.length)
    (hk : key.length ≤ 255) (hv : value.length ≤ 65535)
    (hbig : entry_size cfg key.length value.length > cfg.bsz - entry_size cfg 0 (4 + k.csz))
    (hw : k.wrapcnt + cfg.bcnt * (1 + cfg.bsz * cfg.bspr) < 4294967295)
    (fuel : Nat) (hf : cfg.bsz * cfg.bcnt + cfg.bsz + 2 < fuel) :
    ∃ k2, kvs_write cfg k key value fuel = some (-KVS_ENOSPC, k2) ∧
      NoSpaceRun cfg key value fuel cfg.bcnt k k2 := by
  have hsp := hc.spare
  obtain ⟨rc, e, hget, hfit⟩ := kvs_entry_get_nofit hc hi (by omega) hbh key hk1 fuel
    (by
      have : 0 ≤ cfg.bsz * cfg.bcnt := Nat.zero_le _
      omega) wlk0
  have hh := (headSize_of_inv hc hi hbh).1
  unfold kvs_write
  rw [if_neg (by simp [hi.ready]), hget]
  dsimp only
  have hsame : ¬ (rc = 0 ∧ entry_get_vlen e = value.length) := by
    rintro ⟨h0, hvl⟩
    have h1 := hfit h0
    rw [hvl] at h1
    have := entry_size_le_of_fit cfg hc key.length value.length k.csz (by omega) (by omega)
      hi.csz (by omega)
    omega
  rw [if_neg hsame]
  rw [if_neg (by decide)]
  exact kvs_write_loop_nospace hc key value (by omega) (by omega) k.csz fuel hbig hf cfg.bcnt k e
    hi hh rfl hw

set_option maxRecDepth 100000 in
/-- A value of 50 bytes for the key "b" on the store `exK1` (blocks of 64 bytes, block
header entries of 12 bytes): the entry needs 60 bytes. -/
theorem kvs_write_nospace_witness :
    entry_size exCfg [98].length (List.replicate 50 7).length
      > exCfg.bsz - entry_size exCfg 0 (4 + exK1.csz) ∧
    BlockHeads exCfg exK1 ∧
    ∃ k2, kvs_write exCfg exK1 [98] (List.replicate 50 7) 200 = some (-KVS_ENOSPC, k2) ∧
      NoSpaceRun exCfg [98] (List.replicate 50 7) 200 exCfg.bcnt exK1 k2 :=
  have hbh : BlockHeads exCfg exK1 := by unfold BlockHeads; decide
  ⟨by decide, hbh, kvs_write_nospace exCfg exCfg_ok exK1
    (kvs_write_inv exCfg_ok exK0_inv [97] [1] (by decide) (by decide) 8 0 exK1 exK1_write).1
    hbh [98] (List.replicate 50 7) (by decide) (by decide) (by decide) (by decide) (by decide)
    200 (by decide)⟩

/-! ## The entry on the device and its checksums -/

set_option maxRecDepth 100000 in
/-- C22 as stated does not hold.  The header of an entry with a 4-byte key and an empty
value is `04 00 00 58`, and `0x58` is the CRC-8 of the four bytes `04 00 00 00`; the
CRC-8 of the three bytes `04 00 00` is `0xAB`. -/
theorem header_crc_covers_four_bytes :
    (entry_set_info exCfg exK0 wlk0 4 0).1 = 0 ∧
    (entry_set_info exCfg exK0 wlk0 4 0).2.2.2 = [4, 0, 0, 88] ∧
    crc8 0 [4, 0, 0, 0] = 88 ∧ crc8 0 [4, 0, 0] = 171 := by
  decide

/-- C22 (amended): header CRC placement.  For every key length `k` in 0..255 and value
length `v` in 0..65535 the header that `entry_set_info` hands to the writer is
`k, v & 0xFF, v >> 8` followed by the CRC-8 (initial value 0) of the four bytes
`k, v & 0xFF, v >> 8, 0x00`, the header word with its top byte cleared. -/
theorem header_crc_placement (cfg : Cfg) (k : Kvs) (ent : Ent) (kl vl : Nat)
    (hk : kl < 256) (hv : vl < 65536) (h : (entry_set_info cfg k ent kl vl).1 = 0) :
    (entry_set_info cfg k ent kl vl).2.2.2
      = [kl, vl % 256, vl / 256, crc8 0 [kl, vl % 256, vl / 256, 0]] := by
  unfold entry_set_info at h ⊢
  dsimp only at h ⊢
  split
  · rename_i hc
    rw [if_pos hc] at h
    exact absurd h (by show ¬ (-KVS_ENOSPC : Int) = 0; decide)
  · rw [Nat.mod_eq_of_lt hk, Nat.mod_eq_of_lt hv]
    exact put_le32_hdrWord kl vl hk hv

set_option maxRecDepth 100000 in
/-- A key of 4 bytes and an empty value on the store `exK0`. -/
theorem header_crc_placement_witness :
    (entry_set_info exCfg exK0 wlk0 4 0).2.2.2
      = [4, 0 % 256, 0 / 256, crc8 0 [4, 0 % 256, 0 / 256, 0]] :=
  header_crc_placement exCfg exK0 wlk0 4 0 (by decide) (by decide) (by decide)

set_option maxRecDepth 100000 in
/-- C23 as stated does not hold on the EEPROM backend.  On the store `eeW1` (program size
1, `pos` 28, not a block base) the entry `"b" = [1]` needs 10 bytes; `entry_add` returns
0 and moves `pos` to 38, and the four bytes at 38..41, which lie behind the entry and
were `0xFF`, are `0x00` afterwards: the end mark that the `sync` of the backend
writes at the new write position. -/
theorem eeprom_end_mark_behind_entry :
    (eeW1.pos, eeW1.pos % eeCfg.bsz, eeW1.pos % eeCfg.psz, eeW1.bend) = (28, 28, 0, 64) ∧
    entry_size eeCfg 1 1 = 10 ∧
    (entry_add eeCfg eeW1 wlk0 [98] [1]).1 = 0 ∧
    (entry_add eeCfg eeW1 wlk0 [98] [1]).2.1.pos = 38 ∧
    seg (entry_add eeCfg eeW1 wlk0 [98] [1]).2.1.dev 28 10
      = [1, 1, 0, 125, 98, 1, 76, 43, 21, 97] ∧
    seg eeW1.dev 38 4 = [255, 255, 255, 255] ∧
    seg (entry_add eeCfg eeW1 wlk0 [98] [1]).2.1.dev 38 4 = [0, 0, 0, 0] := by
  decide

/-- C23 (amended): on-device entry layout.  For every write position that is a multiple
of `psz` and not a block base, key of at most 255 bytes and value of at most 65535 bytes
with `need = round_up(4 + k + v + 4, psz) <= bend - pos`, and every program size (with
the program buffer of `psz` bytes), `entry_add`, the call of `entry_append` for a key and
a value in memory, on a device that does not fail returns 0, advances `pos` by exactly
`need`, leaves the device bytes below `pos` as they were and the bytes `[pos, pos + need)`
equal to header (`k`, `v` low, `v` high, header CRC) || key || value || little-endian
CRC-32 of key || value || `0xFF` fill.  The bytes from `pos + need` on are unchanged on
the flash backend; on the EEPROM backend the four bytes at `pos + need` are `0x00` (the
end mark of `sync`) when they lie inside the region, and all other bytes are unchanged. -/
theorem entry_append_layout (cfg : Cfg) (hs : SizeOk cfg) (hh : ∀ o, cfg.progFail o = false)
    (k : Kvs) (ent : Ent) (key value : List Nat) (need : Nat)
    (hk : key.length ≤ 255) (hv : value.length ≤ 65535)
    (hneed : need = (4 + key.length + value.length + 4 + cfg.psz - 1) / cfg.psz * cfg.psz)
    (hdev : k.dev.length = cfg.bsz * cfg.bcnt) (hpl : k.pbuf.length = cfg.psz)
    (hbm : k.bend % cfg.bsz = 0) (hbl : k.bend ≤ cfg.bsz * cfg.bcnt)
    (_hpm : k.pos % cfg.psz = 0) (hnb : k.pos % cfg.bsz ≠ 0) (hpg : k.bend - cfg.bsz ≤ k.pos)
    (hfit : need ≤ k.bend - k.pos) :
    (entry_add cfg k ent key value).1 = 0 ∧
    (entry_add cfg k ent key value).2.1.pos = k.pos + need ∧
    (entry_add cfg k ent key value).2.1.dev.length = k.dev.length ∧
    (entry_add cfg k ent key value).2.1.dev.take k.pos = k.dev.take k.pos ∧
    seg (entry_add cfg k ent key value).2.1.dev k.pos need =
      [key.length, value.length % 256, value.length / 256,
        crc8 0 [key.length, value.length % 256, value.length / 256, 0]] ++ key ++ value ++
      put_le32 (crc32 0 (key ++ value)) ++
      List.replicate (need - (4 + key.length + value.length + 4)) 255 ∧
    (entry_add cfg k ent key value).2.1.dev.drop (k.pos + need) =
      match cfg.backend with
      | .flash => k.dev.drop (k.pos + need)
      | .eeprom =>
        if k.pos + need + 4 ≤ k.dev.length then [0, 0, 0, 0] ++ k.dev.drop (k.pos + need + 4)
        else k.dev.drop (k.pos + need) := by
  obtain ⟨jp, hjp, hp⟩ := hs.psz_pow
  have hk1 : key.length < 256 := by omega
  have hv1 : value.length < 65536 := by omega
  have hS := entry_size_round_up cfg jp key.length value.length hp hjp hk1 hv1
  rw [← hneed] at hS
  have hsz := entry_size_facts cfg jp key.length value.length hp hjp hk1 hv1
  rw [hS] at hsz
  have hsmall := hs.small
  obtain ⟨pbuf, h⟩ := entry_add_layout_aux cfg hs hh k ent key value hk1 hv1 hdev hpl hbm hbl
    hnb hpg (by rw [hS]; exact hfit)
  rw [hS] at h
  have himg : entryImage key value need =
      [key.length, value.length % 256, value.length / 256,
        crc8 0 [key.length, value.length % 256, value.length / 256, 0]] ++ key ++ value ++
      put_le32 (crc32 0 (key ++ value)) ++
      List.replicate (need - (4 + key.length + value.length + 4)) 255 := by
    unfold entryImage KVS_FILLCHAR
    rw [put_le32_hdrWord key.length value.length hk1 hv1]
    congr 2
    omega
  have hil : (entryImage key value need).length = need :=
    entryImage_length key value need hsz.2.1
  rw [← himg]
  generalize entryImage key value need = img at h hil ⊢
  have hml : (memWrite k.dev k.pos img).length = k.dev.length :=
    memWrite_length _ _ _ (by rw [hil]; omega)
  have hdr : (memWrite k.dev k.pos img).drop (k.pos + need)  = k.dev.drop (k.pos + need) :=
    memWrite_drop _ _ _ _ (by rw [hil]; omega) (by rw [hil])
  have htk : (memWrite k.dev k.pos img).take k.pos = k.dev.take k.pos :=
    memWrite_take _ _ _ (by omega)
  have hsg : seg (memWrite k.dev k.pos img) k.pos need = img := by
    have := memWrite_seg k.dev img k.pos (by omega)
    rw [hil] at this
    exact this
  rw [h]
  dsimp only
  unfold kvs_dev_sync
  cases cfg.backend with
  | flash =>
    dsimp only
    exact ⟨rfl, rfl, hml, htk, hsg, hdr⟩
  | eeprom =>
    dsimp only
    rw [hml]
    rw [if_neg (by omega)]
    by_cases c : k.pos + need + 4 > k.dev.length
    · rw [if_pos c, if_neg (by omega)]
      exact ⟨rfl, rfl, hml, htk, hsg, hdr⟩
    · rw [if_neg c, if_pos (by omega)]
      dsimp only
      refine ⟨rfl, rfl, ?_, ?_, ?_, ?_⟩
      · rw [memWrite_length _ _ _ (by rw [hml]; simp; omega), hml]
      · rw [take_memWrite_below _ _ _ _ (by omega) (by omega)]
        exact htk
      · rw [seg_of_take_eq (memWrite k.dev k.pos img) _ k.pos need
          (memWrite_take _ _ _ (by omega))]
        exact hsg
      · rw [drop_memWrite_at _ _ _ (by omega)]
        congr 1
        exact memWrite_drop _ _ _ _ (by rw [hil]; omega) (by rw [hil]; simp)

set_option maxRecDepth 100000 in
/-- The entry `"b" = [1]` on the EEPROM store `eeW1`. -/
theorem entry_append_layout_witness :
    (entry_add eeCfg eeW1 wlk0 [98] [1]).1 = 0 ∧
    (entry_add eeCfg eeW1 wlk0 [98] [1]).2.1.pos = eeW1.pos + 10 ∧
    (entry_add eeCfg eeW1 wlk0 [98] [1]).2.1.dev.length = eeW1.dev.length ∧
    (entry_add eeCfg eeW1 wlk0 [98] [1]).2.1.dev.take eeW1.pos = eeW1.dev.take eeW1.pos ∧
    seg (entry_add eeCfg eeW1 wlk0 [98] [1]).2.1.dev eeW1.pos 10 =
      [[98].length, [1].length % 256, [1].length / 256,
        crc8 0 [[98].length, [1].length % 256, [1].length / 256, 0]] ++ [98] ++ [1] ++
      put_le32 (crc32 0 ([98] ++ [1])) ++
      List.replicate (10 - (4 + [98].length + [1].length + 4)) 255 ∧
    (entry_add eeCfg eeW1 wlk0 [98] [1]).2.1.dev.drop (eeW1.pos + 10) =
      match eeCfg.backend with
      | .flash => eeW1.dev.drop (eeW1.pos + 10)
      | .eeprom =>
        if eeW1.pos + 10 + 4 ≤ eeW1.dev.length then
          [0, 0, 0, 0] ++ eeW1.dev.drop (eeW1.pos + 10 + 4)
        else eeW1.dev.drop (eeW1.pos + 10) :=
  entry_append_layout eeCfg
    ⟨⟨0, by decide, by decide⟩, ⟨6, by decide, by decide⟩, by decide, by decide⟩
    (fun _ => rfl) eeW1 wlk0 [98] [1] 10 (by decide) (by decide) (by decide) (by decide)
    (by decide) (by decide) (by decide) (by decide) (by decide) (by decide) (by decide)

set_option maxRecDepth 100000 in
/-- C24: CRC-32 matches the reference.  For every sequence of bytes, `crc32(0, s)`
computed with the 16-entry nibble table equals the standard reflected CRC-32
(polynomial `0xEDB88320`, register complemented before and after) computed bit by bit;
`crc32(0, empty) = 0x00000000` and `crc32(0, "123456789") = 0xCBF43926`. -/
theorem crc32_matches_reference (s : List Nat) (hs : ∀ b ∈ s, b < 256) :
    crc32 0 s = crc32_ref s ∧ crc32 0 [] = 0 ∧
    crc32 0 [49, 50, 51, 52, 53, 54, 55, 56, 57] = 0xCBF43926 := by
  refine ⟨?_, by decide, by decide⟩
  unfold crc32 crc32_ref
  rw [Nat.xor_zero, crc32_eq_ref_aux s _ hs]

set_option maxRecDepth 100000 in
/-- The check string "123456789". -/
theorem crc32_matches_reference_witness :
    crc32 0 [49, 50, 51, 52, 53, 54, 55, 56, 57]
      = crc32_ref [49, 50, 51, 52, 53, 54, 55, 56, 57] ∧
    crc32_ref [49, 50, 51, 52, 53, 54, 55, 56, 57] = 0xCBF43926 :=
  ⟨(crc32_matches_reference [49, 50, 51, 52, 53, 54, 55, 56, 57] (by decide)).1, by decide⟩

/-- C25: CRC-8 matches the reference.  For every initial value and every sequence of
bytes, `crc8(c, s)` computed with the 16-entry nibble table equals the bit-by-bit CRC-8
with polynomial `0x07`, most significant bit first, without reflection and without
final XOR; `crc8(0, {0x00, 0x00, 0x00}) = 0x00`. -/
theorem crc8_matches_reference (c : Nat) (s : List Nat) (hc : c < 256)
    (hs : ∀ b ∈ s, b < 256) :
    crc8 c s = crc8_ref c s ∧ crc8 0 [0, 0, 0] = 0 :=
  ⟨crc8_eq_ref_aux s c hc hs, by decide⟩

/-- The initial value `0xA5` with the bytes of the header of a 4-byte key. -/
theorem crc8_matches_reference_witness :
    crc8 165 [4, 0, 0] = crc8_ref 165 [4, 0, 0] ∧ crc8_ref 0 [4, 0, 0] = 171 :=
  ⟨(crc8_matches_reference 165 [4, 0, 0] (by decide) (by decide)).1, by decide⟩

/-! ## The cursor -/

set_option maxRecDepth 100000 in
/-- C26: after mount the cursor lies inside the head block.  On the flash store `ovS`
(block 0, wrap counter 1, is the head block and is filled to its last byte; block 1
holds the entries of the round before) `kvs_read("a")` returns `[9]`.  After
`kvs_unmount` and `kvs_mount`, which returns 0, `bend` is 64 and `pos` is 124:
`kvs_set_data_pos` has gone on into block 1, and `kvs_read("a")` returns `[7]`.  When the
block behind the full head block is erased (the writes `fillOps`), `pos` is `bend`
after the mount. -/
theorem mount_pos_leaves_head_block :
    kvs_mount exCfg exRaw 4 = some (0, exK0) ∧
    writeAll exCfg 20 ovOps exK0 = some ovS ∧
    (ovS.pos, ovS.bend, ovS.wrapcnt) = (64, 64, 1) ∧
    kvs_read exCfg ovS [97] 1 40 = some (0, [9]) ∧
    (kvs_set_data_pos exCfg 40 (kvs_set_data_bend exCfg (kvs_unmount exCfg ovS).2)).map
      (fun k => (k.pos, k.bend, k.wrapcnt)) = some (124, 64, 1) ∧
    remount exCfg ovS 40 = some (0, ovR) ∧
    (ovR.ready, ovR.pos, ovR.bend, ovR.wrapcnt) = (true, 124, 64, 1) ∧
    kvs_read exCfg ovR [97] 1 40 = some (0, [7]) ∧
    ((writeAll exCfg 20 fillOps exK0).bind fun k => remount exCfg k 40).map
      (fun r => (r.1, r.2.ready, r.2.pos, r.2.bend)) = some (0, true, 64, 64) :=
  ⟨exK0_mount, ovS_run, by decide!, by decide!, by decide!, by decide!, by decide!,
    by decide!, by decide!⟩

/-- C27: the cursor invariant is preserved.  When `bend` is a multiple of `bsz` with
`bsz <= bend <= bsz * bcnt`, `pos` is a multiple of `psz` and `bend - bsz <= pos <= bend`
before a call of `kvs_write`, `kvs_delete` or `kvs_compact`, the same holds for the store
that the call leaves, whatever the call returns and whatever the device holds and does
(every program operation may fail). -/
theorem cursor_invariant_preserved (cfg : Cfg) (k : Kvs) (hs : SizeOk cfg)
    (h : CursorOk cfg k) (key value : List Nat) (fuel : Nat) (rc : Int) (k2 : Kvs)
    (hr : kvs_write cfg k key value fuel = some (rc, k2) ∨
      kvs_delete cfg k key fuel = some (rc, k2) ∨ kvs_compact cfg k fuel = some (rc, k2)) :
    CursorOk cfg k2 := by
  rcases hr with hr | hr | hr
  · exact kvs_write_cursor hs h key value fuel rc k2 hr
  · exact kvs_write_cursor hs h key [] fuel rc k2 hr
  · exact kvs_compact_cursor hs h fuel rc k2 hr

set_option maxRecDepth 100000 in
/-- The call `kvs_write("b", [2])` on the store `exK1`, on a device whose program
operation at offset 24 fails: the call goes on to the next block and returns 0. -/
theorem cursor_invariant_preserved_witness :
    SizeOk pfCfg ∧ CursorOk pfCfg exK1 ∧
    kvs_write pfCfg exK1 [98] [2] 8 = some (0, pfS) ∧ CursorOk pfCfg pfS :=
  have hs : SizeOk pfCfg :=
    ⟨⟨2, by decide, by decide⟩, ⟨6, by decide, by decide⟩, by decide, by decide⟩
  have hc : CursorOk pfCfg exK1 :=
    ⟨by decide, by decide, by decide, by decide, by decide, by decide⟩
  have h : kvs_write pfCfg exK1 [98] [2] 8 = some (0, pfS) := by decide
  ⟨hs, hc, h, cursor_invariant_preserved pfCfg exK1 hs hc [98] [2] 8 0 pfS (Or.inl h)⟩

/-! ## Recovery and compaction -/

set_option maxRecDepth 100000 in
/-- C28: the detector of an interrupted compaction.  The flash store `gcS` is left by
five successful calls, the last of which ran a compaction to its end; `kvs_unmount`,
`kvs_set_data_bend` and `kvs_set_data_pos` give the same cursor again.  The one unique
entry in block 0, the spare block behind the write block, is the tombstone of "a" (key
length 1, value length 0); `recovery_check_cb` sets its flag for it, and `recover` runs
the compaction again, which moves `pos` from 100 to 88. -/
theorem recover_fires_on_tombstone :
    kvs_mount exCfg exRaw 4 = some (0, exK0) ∧
    writeAll exCfg 20 gcOps exK0 = some gcS ∧
    kvs_set_data_pos exCfg 40 (kvs_set_data_bend exCfg (kvs_unmount exCfg gcS).2)
      = some (kvs_unmount exCfg gcS).2 ∧
    (block_advance_n exCfg gcS.bend (u32 (exCfg.bspr + 4294967296 - 1)),
      block_advance_n exCfg gcS.bend exCfg.bspr) = (128, 64) ∧
    (walk_unique exCfg { ctx := .ptr [], off := 0, len := 0 } (logCb fun _ _ _ => 0) 64 40
      (kvs_unmount exCfg gcS).2 { start := 0, next := 128, he_hdr := 0 } []).st
      = [({ start := 12, next := 24, he_hdr := 369098753 }, 0)] ∧
    (entry_get_klen { start := 12, next := 24, he_hdr := 369098753 },
      entry_get_vlen { start := 12, next := 24, he_hdr := 369098753 }) = (1, 0) ∧
    (walk_unique exCfg { ctx := .ptr [], off := 0, len := 0 } (recovery_check_cb exCfg) 64 40
      (kvs_unmount exCfg gcS).2 { start := 0, next := 128, he_hdr := 0 } false).st = true ∧
    (recover exCfg (kvs_unmount exCfg gcS).2 40).map (fun r => (r.1, r.2.pos, r.2.bend))
      = some (0, 88, 128) :=
  ⟨exK0_mount, gcS_run, by decide!, by decide!, by decide!, by decide!, by decide!,
    by decide!⟩

set_option maxRecDepth 100000 in
/-- C29: compaction copies the unique live entries.  On the flash store `cpS` of three
blocks the range that `kvs_compact` walks holds two unique entries with a key and a
value, "x" at offset 12 and "y" at offset 76.  `kvs_compact` returns `-KVS_ENOSPC`:
block 2 holds a block header and the copy of "x" and nothing else, blocks 0 and 1 are
as before, the write position is the start of block 0, and `kvs_read("y")` returns
`-KVS_ENOENT`. -/
theorem compact_skips_live_entry :
    kvs_mount flCfg eeRaw 10 = some (0, eeK0) ∧
    writeAll flCfg 20 cpOps eeK0 = some cpS ∧
    (walk_unique flCfg { ctx := .ptr [], off := 0, len := 0 } (logCb fun _ _ _ => 0) cpS.bend
      40 (wblock_advance flCfg cpS)
      { start := 0, next := block_advance_n flCfg cpS.bend flCfg.bspr, he_hdr := 0 } []).st
      = [({ start := 12, next := 61, he_hdr := 67119105 }, 0),
         ({ start := 76, next := 125, he_hdr := 67119105 }, 0)] ∧
    (entry_get_klen { start := 76, next := 125, he_hdr := 67119105 },
      entry_get_vlen { start := 76, next := 125, he_hdr := 67119105 }) = (1, 40) ∧
    kvs_read flCfg cpS [121] 2 40 = some (0, [2, 2]) ∧
    kvs_compact flCfg cpS 40 = some (-KVS_ENOSPC, cpC) ∧
    cpC.dev.take 128 = cpS.dev.take 128 ∧
    cpC.dev.drop 128 = cpS.dev.take 61 ++ List.replicate 3 255 ∧
    (cpC.ready, cpC.pos, cpC.bend, cpC.wrapcnt) = (true, 0, 64, 1) ∧
    kvs_read flCfg cpC [120] 2 40 = some (0, [1, 1]) ∧
    kvs_read flCfg cpC [121] 2 40 = some (-KVS_ENOENT, []) :=
  ⟨by decide!, cpS_run, by decide!, by decide!, by decide!, by decide!, by decide!,
    by decide!, by decide!, by decide!, by decide!⟩

/-! ## The empty key -/

set_option maxRecDepth 100000 in
/-- C30: zero-key entries are only block headers.  `kvs_write("", [1])` on the store
mounted from the erased region returns 0 and appends at offset 12, which is not a block
base, an entry with key length 0; `kvs_read("")` returns its value.  A compaction does
not copy the entry, and `kvs_read("")` on a store without such an entry returns the
wrap counter of the block header. -/
theorem empty_key_entry_appended :
    kvs_mount exCfg exRaw 4 = some (0, exK0) ∧
    kvs_write exCfg exK0 [] [1] 8 = some (0, zkS) ∧
    entry_get_info exCfg zkS { start := 12, next := 0, he_hdr := 0 }
      = (0, { start := 12, next := 24, he_hdr := 1795162368 }) ∧
    entry_get_klen { start := 12, next := 24, he_hdr := 1795162368 } = 0 ∧
    12 % exCfg.bsz ≠ 0 ∧ zkS.pos = 24 ∧
    kvs_read exCfg zkS [] 1 8 = some (0, [1]) ∧
    ((kvs_compact exCfg zkS 20).bind fun r => kvs_read exCfg r.2 [] 1 20)
      = some (-KVS_ENOENT, []) ∧
    kvs_read exCfg exK1 [] 4 20 = some (0, [0, 0, 0, 0]) :=
  ⟨exK0_mount, by decide!, by decide!, by decide!, by decide!, by decide!, by decide!,
    by decide!, by decide!⟩


/-! ## Lemmas on decoding, write outcomes, scans and the wrap counter -/

theorem hdr_check_iff (w : Nat) :
    w = entry_hdr_add_crc (hdr_get_data w) ↔ HdrCrcOk w := by
  unfold HdrCrcOk
  rw [hdr_get_data_eq, entry_hdr_add_crc_eq _ (Nat.mod_lt _ (by decide))]
  generalize crc8 0 (put_le32 (w % 16777216)) = c
  omega

theorem specNext_eq (cfg : Cfg) (s w : Nat) (hp0 : 0 < cfg.psz) :
    specNext cfg s w = (s + 7 + (w % 256 + w / 256 % 65536)) / cfg.psz * cfg.psz + cfg.psz := by
  unfold specNext
  have h : s + 4 + w % 256 + w / 256 % 65536 + 4 + cfg.psz - 1
      = s + 7 + (w % 256 + w / 256 % 65536) + cfg.psz := by omega
  rw [h, Nat.add_div_right _ hp0, Nat.succ_mul]

/-- What `entry_get_param` does, in the words of the specification. -/
theorem entry_get_param_decode (cfg : Cfg) (e1 : Ent) (hdr : List Nat) (jp : Nat)
    (hp : cfg.psz = 2 ^ jp) (hjp : jp ≤ 31) (hps : cfg.psz ≤ 1073741824)
    (hs : e1.start < 2147483648) :
    (HdrCrcOk (get_le32 hdr) ∧ specNext cfg e1.start (get_le32 hdr) ≤ e1.next →
      entry_get_param cfg e1 hdr = (0, specEnt cfg e1.start (get_le32 hdr))) ∧
    (¬ (HdrCrcOk (get_le32 hdr) ∧ specNext cfg e1.start (get_le32 hdr) ≤ e1.next) →
      (entry_get_param cfg e1 hdr).1 = -KVS_EINVAL) ∧
    e1.start < specNext cfg e1.start (get_le32 hdr) := by
  have hp0 := psz_pos cfg jp hp
  unfold specEnt
  rw [specNext_eq cfg _ _ hp0]
  unfold entry_get_param
  dsimp only
  rw [entry_get_klen_eq, entry_get_vlen_eq]
  dsimp only
  generalize get_le32 hdr = w
  have hkl : w % 256 < 256 := Nat.mod_lt _ (by decide)
  have hvl : w / 256 % 65536 < 65536 := Nat.mod_lt _ (by decide)
  generalize w % 256 = kl at hkl
  generalize w / 256 % 65536 = vl at hvl
  have h1 : u32 (e1.start + KVS_HDRSIZE + KVS_KVCRCSIZE - 1) = e1.start + 7 := by
    unfold KVS_HDRSIZE KVS_KVCRCSIZE
    rw [u32_of_lt _ (by omega)]
    omega
  have h2 : u32 (e1.start + 7 + (kl + vl)) = e1.start + 7 + (kl + vl) :=
    u32_of_lt _ (by omega)
  have h3 := alignDown_psz cfg jp (e1.start + 7 + (kl + vl)) hp hjp (by omega)
  have h4 := div_mul_add_mod (e1.start + 7 + (kl + vl)) cfg.psz
  have h5 := Nat.mod_lt (e1.start + 7 + (kl + vl)) hp0
  rw [h1, h2, h3]
  generalize (e1.start + 7 + (kl + vl)) / cfg.psz * cfg.psz = q at h4 ⊢
  rw [u32_of_lt (q + cfg.psz) (by omega)]
  have hiff := hdr_check_iff w
  refine ⟨fun h => ?_, fun h => ?_, by omega⟩
  · rw [if_neg (fun hne => hne (hiff.2 h.1)), if_neg (by omega)]
  · by_cases hc : HdrCrcOk w
    · rw [if_neg (fun hne => hne (hiff.2 hc))]
      have : ¬ q + cfg.psz ≤ e1.next := fun hle => h ⟨hc, hle⟩
      rw [if_pos (Or.inl (by omega))]
    · rw [if_pos (fun he => hc (hiff.1 he))]

theorem pow_le_pow30 (n j : Nat) (h : n = 2 ^ j) (hlt : n < 2147483648) : n ≤ 1073741824 := by
  have h4 : j ≤ 30 := by
    by_contra hh
    have : 2 ^ 31 ≤ 2 ^ j := Nat.pow_le_pow_right (by norm_num) (by omega)
    rw [← h] at this
    omega
  rw [h]
  calc 2 ^ j ≤ 2 ^ 30 := Nat.pow_le_pow_right (by norm_num) h4
    _ = 1073741824 := by norm_num

theorem specNext_gt (cfg : Cfg) (s w : Nat) (hp0 : 0 < cfg.psz) : s + 8 ≤ specNext cfg s w := by
  rw [specNext_eq cfg s w hp0]
  have h4 := div_mul_add_mod (s + 7 + (w % 256 + w / 256 % 65536)) cfg.psz
  have h5 := Nat.mod_lt (s + 7 + (w % 256 + w / 256 % 65536)) hp0
  omega

theorem specNext_aligned (cfg : Cfg) (s w : Nat) (hp0 : 0 < cfg.psz) (hs : s % cfg.psz = 0) :
    specNext cfg s w = s + (8 + w % 256 + w / 256 % 65536 + cfg.psz - 1) / cfg.psz * cfg.psz := by
  unfold specNext
  obtain ⟨c, hc⟩ := Nat.dvd_of_mod_eq_zero hs
  have h : s + 4 + w % 256 + w / 256 % 65536 + 4 + cfg.psz - 1
      = cfg.psz * c + (8 + w % 256 + w / 256 % 65536 + cfg.psz - 1) := by omega
  rw [h, Nat.mul_add_div hp0, Nat.add_mul, hc, Nat.mul_comm c cfg.psz]

theorem zero_header_word : get_le32 [0, 0, 0, 0] = 0 := by decide

/-- A scan ends when every step lowers the measure `m` of the position.  `I p k st` is
an invariant of position, store and callback argument, `F rc k st` is what holds when the
scan returns `rc`. -/
theorem walk_inv {σ : Type} (cfg : Cfg) (rdkey : ReadCb) (cb : Cb σ) (stop : Nat)
    (m : Nat → Nat) (I : Nat → Kvs → σ → Prop) (F : Int → Kvs → σ → Prop)
    (hstop : ∀ (p : Nat) (k : Kvs) (st : σ), I p k st →
      (if p < cfg.bcnt * cfg.bsz then p else 0) = stop → F 0 k st)
    (hstep : ∀ (p : Nat) (k : Kvs) (e0 : Ent) (st : σ), I p k st →
      e0.start = (if p < cfg.bcnt * cfg.bsz then p else 0) → e0.start ≠ stop →
      (((entry_get_info cfg k e0).1 ≠ 0 ∨
          differ k { ctx := .ent (entry_get_info cfg k e0).2, off := 0, len := rdkey.len }
            rdkey = true ∨
          entry_kvcrc_ok k (entry_get_info cfg k e0).2 = false) →
        ((entry_get_info cfg k e0).2.next ≠ stop →
          I (entry_get_info cfg k e0).2.next k st ∧
          m (entry_get_info cfg k e0).2.next < m p) ∧
        ((entry_get_info cfg k e0).2.next = stop → F 0 k st)) ∧
      (∀ wc, (entry_get_info cfg k e0).1 = 0 →
        (entry_get_info cfg k e0).2.start &&& (cfg.bsz - 1) = 0 →
        u32 (entry_get_wrapcnt k (entry_get_info cfg k e0).2 wc + 1) < k.wrapcnt →
        (u32 ((entry_get_info cfg k e0).2.start + cfg.bsz) ≠ stop →
          I (u32 ((entry_get_info cfg k e0).2.start + cfg.bsz)) k st ∧
          m (u32 ((entry_get_info cfg k e0).2.start + cfg.bsz)) < m p) ∧
        (u32 ((entry_get_info cfg k e0).2.start + cfg.bsz) = stop → F 0 k st)) ∧
      ((entry_get_info cfg k e0).1 = 0 →
        differ k { ctx := .ent (entry_get_info cfg k e0).2, off := 0, len := rdkey.len }
          rdkey = false →
        entry_kvcrc_ok k (entry_get_info cfg k e0).2 = true →
        ∃ rc k2 st2, cb k (entry_get_info cfg k e0).2 st = some (rc, k2, st2) ∧
          (rc ≠ 0 → F rc k2 st2) ∧
          (rc = 0 → (entry_get_info cfg k e0).2.next ≠ stop →
            I (entry_get_info cfg k e0).2.next k2 st2 ∧
            m (entry_get_info cfg k e0).2.next < m p) ∧
          (rc = 0 → (entry_get_info cfg k e0).2.next = stop → F 0 k2 st2))) :
    ∀ (fuel : Nat) (k : Kvs) (ent : Ent) (wc : Nat) (st : σ), I ent.next k st →
      m ent.next < fuel →
      ∃ rc, (walk cfg rdkey cb stop fuel k ent wc st).rc = some rc ∧
        F rc (walk cfg rdkey cb stop fuel k ent wc st).kvs
          (walk cfg rdkey cb stop fuel k ent wc st).st := by
  intro fuel
  induction fuel with
  | zero => intro k ent wc st _ hm; omega
  | succ fuel ih =>
    intro k ent wc st hI hm
    rw [walk]
    dsimp only
    have hstop1 := hstop ent.next k st hI
    generalize hs0 : (if ent.next < cfg.bcnt * cfg.bsz then ent.next else 0) = s0 at hstop1
    by_cases hst : s0 = stop
    · rw [if_pos hst]
      exact ⟨0, rfl, hstop1 hst⟩
    rw [if_neg hst]
    generalize he0 : ({ start := s0, next := ent.next, he_hdr := ent.he_hdr } : Ent) = e0
    have hs0 : e0.start = (if ent.next < cfg.bcnt * cfg.bsz then ent.next else 0) := by
      rw [← he0, hs0]
    have hst : e0.start ≠ stop := by rw [← he0]; exact hst
    obtain ⟨hnx, hsk, hcb⟩ := hstep ent.next k e0 st hI hs0 hst
    generalize hr : entry_get_info cfg k e0 = r at hnx hsk hcb
    obtain ⟨rc0, ent1⟩ := r
    dsimp only at hnx hsk hcb ⊢
    by_cases hrc0 : rc0 ≠ 0
    · rw [if_pos hrc0]
      obtain ⟨hA, hB⟩ := hnx (Or.inl hrc0)
      by_cases hn : ent1.next ≠ stop
      · rw [if_pos hn]
        obtain ⟨hI1, hm1⟩ := hA hn
        exact ih k ent1 wc st hI1 (by omega)
      · rw [if_neg hn]
        have hn2 : ent1.next = stop := by
          by_contra h; exact hn h
        exact ⟨0, rfl, hB hn2⟩
    rw [if_neg hrc0]
    have hrc00 : rc0 = 0 := by
      by_contra h; exact hrc0 h
    generalize hw1 : (if ent1.start &&& (cfg.bsz - 1) = 0 then entry_get_wrapcnt k ent1 wc
      else wc) = wc1
    by_cases hskip : ent1.start &&& (cfg.bsz - 1) = 0 ∧ u32 (wc1 + 1) < k.wrapcnt
    · rw [if_pos hskip]
      have hw2 : wc1 = entry_get_wrapcnt k ent1 wc := by
        rw [← hw1, if_pos hskip.1]
      obtain ⟨hA, hB⟩ := hsk wc hrc00 hskip.1 (by rw [← hw2]; exact hskip.2)
      by_cases hn : u32 (ent1.start + cfg.bsz) ≠ stop
      · rw [if_pos hn]
        obtain ⟨hI1, hm1⟩ := hA hn
        exact ih k { ent1 with next := u32 (ent1.start + cfg.bsz) } wc1 st hI1
          (by dsimp only; omega)
      · rw [if_neg hn]
        have hn2 : u32 (ent1.start + cfg.bsz) = stop := by
          by_contra h; exact hn h
        exact ⟨0, rfl, hB hn2⟩
    rw [if_neg hskip]
    by_cases hd : differ k { ctx := .ent ent1, off := 0, len := rdkey.len } rdkey = true
        ∨ ¬ entry_kvcrc_ok k ent1 = true
    · rw [if_pos hd]
      have hd2 : rc0 ≠ 0 ∨
          differ k { ctx := .ent ent1, off := 0, len := rdkey.len } rdkey = true ∨
          entry_kvcrc_ok k ent1 = false := by
        rcases hd with h | h
        · exact Or.inr (Or.inl h)
        · refine Or.inr (Or.inr ?_)
          cases hc : entry_kvcrc_ok k ent1 with
          | false => rfl
          | true => exact absurd hc h
      obtain ⟨hA, hB⟩ := hnx hd2
      by_cases hn : ent1.next ≠ stop
      · rw [if_pos hn]
        obtain ⟨hI1, hm1⟩ := hA hn
        exact ih k ent1 wc1 st hI1 (by omega)
      · rw [if_neg hn]
        have hn2 : ent1.next = stop := by
          by_contra h; exact hn h
        exact ⟨0, rfl, hB hn2⟩
    rw [if_neg hd]
    have hcrc : entry_kvcrc_ok k ent1 = true := by
      by_contra h; exact hd (Or.inr h)
    have hdf : differ k { ctx := .ent ent1, off := 0, len := rdkey.len } rdkey = false := by
      cases hx : differ k { ctx := .ent ent1, off := 0, len := rdkey.len } rdkey with
      | false => rfl
      | true => exact absurd (Or.inl hx) hd
    obtain ⟨rc, k2, st2, hcall, hF, hA, hB⟩ := hcb hrc00 hdf hcrc
    rw [hcall]
    dsimp only
    by_cases hrc : rc ≠ 0
    · rw [if_pos hrc]
      exact ⟨rc, rfl, hF hrc⟩
    rw [if_neg hrc]
    have hrc2 : rc = 0 := by
      by_contra h; exact hrc h
    by_cases hn : ent1.next ≠ stop
    · rw [if_pos hn]
      obtain ⟨hI1, hm1⟩ := hA hrc2 hn
      exact ih k2 ent1 wc1 st2 hI1 (by omega)
    · rw [if_neg hn]
      have hn2 : ent1.next = stop := by
        by_contra h; exact hn h
      exact ⟨0, rfl, hB hrc2 hn2⟩

theorem ChainL.nil_of_eq {cfg : Cfg} {k : Kvs} {a b : Nat} {es : List Ent}
    (h : ChainL cfg k a es b) (hab : b ≤ a) : es = [] := by
  have := h.length_le
  cases es with
  | nil => rfl
  | cons e t =>
    simp only [List.length_cons] at this
    omega

theorem scanDist_le (cfg : Cfg) (base stop p : Nat) (hbe : base + cfg.bsz ≤ cfg.bsz * cfg.bcnt)
    (hse : stop ≤ base + cfg.bsz) :
    scanDist cfg base stop p ≤ cfg.bsz * cfg.bcnt + cfg.bsz + 2 := by
  have hfin : cfg.bcnt * cfg.bsz = cfg.bsz * cfg.bcnt := Nat.mul_comm _ _
  have hs : scanPos cfg p ≤ cfg.bcnt * cfg.bsz := by
    unfold scanPos
    split <;> omega
  unfold scanDist
  generalize scanPos cfg p = s at hs
  by_cases h1 : base ≤ s ∧ s < base + cfg.bsz
  · rw [if_pos h1]
    omega
  · rw [if_neg h1]
    by_cases h2 : s < base
    · rw [if_pos h2]
      omega
    · rw [if_neg h2]
      omega

/-- A block base is a position of the scan. -/
theorem scanAt_of_base (cfg : Cfg) (k : Kvs) (base stop : Nat) (es : List Ent)
    (hbm : base % cfg.bsz = 0) (hch : ChainL cfg k base es stop) (p : Nat)
    (hp : scanPos cfg p % cfg.bsz = 0) (hne : scanPos cfg p ≠ stop ∨ es = []) :
    ScanAt cfg k base stop es p := by
  unfold ScanAt
  rcases Nat.lt_trichotomy (scanPos cfg p) base with h | h | h
  · exact Or.inr (Or.inl h)
  · by_cases he : es = []
    · exact Or.inr (Or.inr (Or.inr ⟨he, h⟩))
    · exact Or.inl ⟨[], es, rfl, he, by omega, by rw [h]; exact hch⟩
  · have h2 := mult_succ_le cfg.bsz base (scanPos cfg p) hbm hp h
    refine Or.inr (Or.inr (Or.inl ⟨h2, ?_⟩))
    rcases hne with h3 | h3
    · exact h3
    · rw [h3] at hch
      have := hch.eq_of_nil
      omega

/-- A step of the scan from a position outside the block of `base` to a position up to
the end of the block it is in. -/
theorem scan_move (cfg : Cfg) (k : Kvs) (base stop : Nat) (es : List Ent) (hb0 : 0 < cfg.bsz)
    (hbm : base % cfg.bsz = 0) (hbe : base + cfg.bsz ≤ cfg.bsz * cfg.bcnt)
    (hch : ChainL cfg k base es stop) (hse : stop ≤ base + cfg.bsz) (p p2 : Nat)
    (hout : scanPos cfg p < base ∨ (base + cfg.bsz ≤ scanPos cfg p ∧ scanPos cfg p ≠ stop))
    (h1 : scanPos cfg p < p2)
    (h2 : p2 ≤ scanPos cfg p / cfg.bsz * cfg.bsz + cfg.bsz) :
    (p2 ≠ stop → ScanAt cfg k base stop es p2 ∧
      scanDist cfg base stop p2 < scanDist cfg base stop p) ∧
    (p2 = stop → es = []) := by
  have hfin : cfg.bcnt * cfg.bsz = cfg.bsz * cfg.bcnt := Nat.mul_comm _ _
  have hfinmod : (cfg.bcnt * cfg.bsz) % cfg.bsz = 0 := Nat.mul_mod_left _ _
  have hle := hch.le
  have hslt : scanPos cfg p < cfg.bcnt * cfg.bsz := by
    unfold scanPos
    split
    · assumption
    · omega
  generalize hs : scanPos cfg p = s at hout h1 h2 hslt
  have hA1 : s / cfg.bsz * cfg.bsz + cfg.bsz ≤ cfg.bcnt * cfg.bsz :=
    block_end_le cfg.bsz s _ hfinmod hslt
  have hdp : scanDist cfg base stop p =
      (if s < base then base - s else cfg.bcnt * cfg.bsz - s + base) + (stop - base) + 2 := by
    unfold scanDist
    rw [hs, if_neg (by omega)]
  rw [hdp]
  rcases hout with hlow | ⟨hhigh, hns⟩
  · have hA2 : s / cfg.bsz * cfg.bsz + cfg.bsz ≤ base := block_end_le cfg.bsz s base hbm hlow
    have hp2 : scanPos cfg p2 = p2 := by
      unfold scanPos
      rw [if_pos (by omega)]
    refine ⟨fun hne => ?_, fun he => hch.nil_of_eq (by omega)⟩
    rw [if_pos hlow]
    unfold ScanAt scanDist
    rw [hp2]
    by_cases hb : p2 = base
    · have hes : es ≠ [] := by
        intro h
        rw [h] at hch
        have := hch.eq_of_nil
        omega
      refine ⟨Or.inl ⟨[], es, rfl, hes, by omega, by rw [hb]; exact hch⟩, ?_⟩
      rw [if_pos (by omega)]
      omega
    · refine ⟨Or.inr (Or.inl (by omega)), ?_⟩
      rw [if_neg (by omega), if_pos (by omega)]
      omega
  · refine ⟨fun hne => ?_, fun he => by omega⟩
    rw [if_neg (by omega)]
    unfold ScanAt scanDist
    by_cases hf : p2 < cfg.bcnt * cfg.bsz
    · have hp2 : scanPos cfg p2 = p2 := by
        unfold scanPos
        rw [if_pos hf]
      rw [hp2]
      refine ⟨Or.inr (Or.inr (Or.inl ⟨by omega, hne⟩)), ?_⟩
      rw [if_neg (by omega), if_neg (by omega)]
      omega
    · have hp2 : scanPos cfg p2 = 0 := by
        unfold scanPos
        rw [if_neg hf]
      rw [hp2]
      by_cases hb : base = 0
      · by_cases hes : es = []
        · refine ⟨Or.inr (Or.inr (Or.inr ⟨hes, hb.symm⟩)), ?_⟩
          rw [if_pos (by omega)]
          omega
        · refine ⟨Or.inl ⟨[], es, rfl, hes, by omega, by rw [← hb]; exact hch⟩, ?_⟩
          rw [if_pos (by omega)]
          omega
      · refine ⟨Or.inr (Or.inl (by omega)), ?_⟩
        rw [if_neg (by omega), if_pos (by omega)]
        omega

/-- A scan that starts at a block base, with a callback that leaves the store alone, to
an offset `stop` that the entries `es` reach from the base `base` of its block, none of
them taken for the header of a stale block: the scan ends, and `Fin` holds of what it
returns when `Fin` holds after a callback that returns non-zero, after the last entry of
`es`, and of a scan that arrives at `stop = base`. -/
theorem walk_from_base {σ : Type} (cfg : Cfg) (hc : SizeOk cfg) (k : Kvs) (base stop : Nat)
    (es : List Ent) (hbm : base % cfg.bsz = 0) (hbe : base + cfg.bsz ≤ cfg.bsz * cfg.bcnt)
    (hch : ChainL cfg k base es stop) (hse : stop ≤ base + cfg.bsz)
    (hns : ∀ e ∈ es, NoSkip cfg k e) (rdkey : ReadCb) (cb : Cb σ)
    (J : σ → Prop) (Fin : Int → σ → Prop)
    (hcb : ∀ (e : Ent) (st : σ), J st →
      ∃ rc st2, cb k e st = some (rc, k, st2) ∧ (rc = 0 → J st2) ∧ (rc ≠ 0 → Fin rc st2))
    (hempty : es = [] → ∀ st, J st → Fin 0 st)
    (hlast : ∀ eL, es.getLast? = some eL → ∀ st, J st →
      ((differ k { ctx := .ent eL, off := 0, len := rdkey.len } rdkey = true ∨
          entry_kvcrc_ok k eL = false) → Fin 0 st) ∧
      (differ k { ctx := .ent eL, off := 0, len := rdkey.len } rdkey = false →
        entry_kvcrc_ok k eL = true → ∀ st2, cb k eL st = some (0, k, st2) → Fin 0 st2)) :
    ∀ (fuel : Nat) (ent : Ent) (wc : Nat) (st : σ), ScanAt cfg k base stop es ent.next →
      J st → cfg.bsz * cfg.bcnt + cfg.bsz + 2 < fuel →
      ∃ rc, (walk cfg rdkey cb stop fuel k ent wc st).rc = some rc ∧
        (walk cfg rdkey cb stop fuel k ent wc st).kvs = k ∧
        Fin rc (walk cfg rdkey cb stop fuel k ent wc st).st := by
  obtain ⟨jp, hjp, hp⟩ := hc.psz_pow
  obtain ⟨jb, hjb, hbs⟩ := hc.bsz_pow
  have hsmall := hc.small
  have hfin : cfg.bcnt * cfg.bsz = cfg.bsz * cfg.bcnt := Nat.mul_comm _ _
  have hb0 : 0 < cfg.bsz := by rw [hbs]; exact Nat.pow_pos (by norm_num)
  have hps : cfg.psz ≤ 1073741824 :=
    Nat.le_trans hc.psz_le (pow_le_pow30 cfg.bsz jb hbs (by omega))
  have hfin0 : 0 < cfg.bcnt * cfg.bsz := by omega
  have hle := hch.le
  have key := walk_inv cfg rdkey cb stop (scanDist cfg base stop)
    (fun p k2 st => k2 = k ∧ ScanAt cfg k base stop es p ∧ J st)
    (fun rc k2 st => k2 = k ∧ Fin rc st)
    (by
      intro p k2 st hI hs
      obtain ⟨hk, hG, hJ⟩ := hI
      refine ⟨hk, ?_⟩
      change scanPos cfg p = stop at hs
      rcases hG with ⟨es1, es2, he, hne, hb, hc2⟩ | h | ⟨h, h2⟩ | ⟨h, h2⟩
      · rw [hs] at hc2
        have := hc2.lt_of_ne_nil hne
        omega
      · omega
      · exact absurd hs h2
      · exact hempty h st hJ)
    (by
      intro p k2 e0 st hI hs0 hst
      obtain ⟨hk, hG, hJ⟩ := hI
      rw [hk]
      change e0.start = scanPos cfg p at hs0
      have hslt : e0.start < cfg.bcnt * cfg.bsz := by
        rw [hs0]
        unfold scanPos
        split
        · assumption
        · exact hfin0
      obtain ⟨a1, a2, a3⟩ := entry_get_info_bounds cfg k e0 jp jb hp hjp hbs hjb hps (by omega)
      by_cases hon : ∃ es1 es2, es = es1 ++ es2 ∧ es2 ≠ [] ∧ base ≤ scanPos cfg p ∧
          ChainL cfg k (scanPos cfg p) es2 stop
      · obtain ⟨es1, es2, he, hne, hb, hc2⟩ := hon
        cases es2 with
        | nil => exact absurd rfl hne
        | cons e t =>
          obtain ⟨c1, c2, c3, c4⟩ := hc2.cons_inv
          have hdec : entry_get_info cfg k e0 = (0, e) := c2 e0 (by rw [hs0, c1])
          have hmem : e ∈ es := by rw [he]; simp
          have hnse := hns e hmem
          have hle4 := c4.le
          have hG2 : e.next ≠ stop → ScanAt cfg k base stop es e.next ∧
              scanDist cfg base stop e.next < scanDist cfg base stop p := by
            intro hn
            have htne : t ≠ [] := by
              intro ht
              rw [ht] at c4
              exact hn c4.eq_of_nil
            have hlt := c4.lt_of_ne_nil htne
            have hp2 : scanPos cfg e.next = e.next := by
              unfold scanPos
              rw [if_pos (by omega)]
            constructor
            · unfold ScanAt
              rw [hp2]
              exact Or.inl ⟨es1 ++ [e], t, by rw [he]; simp, htne, by omega, c4⟩
            · unfold scanDist
              rw [hp2, c1, if_pos (by omega), if_pos (by omega)]
              omega
          have hL : e.next = stop → es.getLast? = some e := by
            intro hn
            have ht : t = [] := c4.nil_of_eq (by omega)
            rw [he, ht]
            simp
          rw [hdec]
          dsimp only
          refine ⟨?_, ?_, ?_⟩
          · intro hf
            have hf2 : differ k { ctx := .ent e, off := 0, len := rdkey.len } rdkey = true ∨
                entry_kvcrc_ok k e = false := by
              rcases hf with h | h
              · exact absurd rfl h
              · exact h
            exact ⟨fun hn => ⟨⟨rfl, (hG2 hn).1, hJ⟩, (hG2 hn).2⟩,
              fun hn => ⟨rfl, (hlast e (hL hn) st hJ).1 hf2⟩⟩
          · intro wc _ hal hsk
            exact absurd ⟨hal, hsk⟩ (hnse wc)
          · intro _ hdf hcrc
            obtain ⟨rc, st2, hcall, hj2, hfin2⟩ := hcb e st hJ
            refine ⟨rc, k, st2, hcall, fun hrc => ⟨rfl, hfin2 hrc⟩,
              fun hrc hn => ⟨⟨rfl, (hG2 hn).1, hj2 hrc⟩, (hG2 hn).2⟩,
              fun hrc hn => ⟨rfl, ?_⟩⟩
            rw [hrc] at hcall
            exact (hlast e (hL hn) st hJ).2 hdf hcrc st2 hcall
      · have hout : scanPos cfg p < base ∨
            (base + cfg.bsz ≤ scanPos cfg p ∧ scanPos cfg p ≠ stop) := by
          rcases hG with h | h | h | ⟨h, h2⟩
          · exact absurd h hon
          · exact Or.inl h
          · exact Or.inr h
          · exfalso
            rw [h] at hch
            have := hch.eq_of_nil
            omega
        have hmv := fun p2 h1 h2 =>
          scan_move cfg k base stop es hb0 hbm hbe hch hse p p2 hout h1 h2
        rw [← hs0] at hmv
        generalize entry_get_info cfg k e0 = r at a1 a2 a3 ⊢
        obtain ⟨rc0, e1⟩ := r
        dsimp only at a1 a2 a3 ⊢
        have hnext : e0.start < e1.next ∧ e1.next ≤ e0.start / cfg.bsz * cfg.bsz + cfg.bsz := by
          by_cases hrc : rc0 ≠ 0
          · rw [a2 hrc]
            exact ⟨lt_block_end cfg.bsz e0.start hb0, Nat.le_refl _⟩
          · have h0 : rc0 = 0 := by
              by_contra hx; exact hrc hx
            obtain ⟨b1, b2⟩ := a3 h0
            exact ⟨by omega, b2⟩
        obtain ⟨m1, m2⟩ := hmv e1.next hnext.1 hnext.2
        refine ⟨?_, ?_, ?_⟩
        · intro _
          exact ⟨fun hn => ⟨⟨rfl, (m1 hn).1, hJ⟩, (m1 hn).2⟩,
            fun hn => ⟨rfl, hempty (m2 hn) st hJ⟩⟩
        · intro wc h0 hal _
          rw [and_bsz_mask cfg jb _ hbs, a1] at hal
          have hd := div_mul_add_mod e0.start cfg.bsz
          rw [a1, u32_of_lt _ (by omega)]
          obtain ⟨s1, s2⟩ := hmv (e0.start + cfg.bsz) (by omega) (by omega)
          exact ⟨fun hn => ⟨⟨rfl, (s1 hn).1, hJ⟩, (s1 hn).2⟩,
            fun hn => ⟨rfl, hempty (s2 hn) st hJ⟩⟩
        · intro _ _ _
          obtain ⟨rc, st2, hcall, hj2, hfin2⟩ := hcb e1 st hJ
          exact ⟨rc, k, st2, hcall, fun hrc => ⟨rfl, hfin2 hrc⟩,
            fun hrc hn => ⟨⟨rfl, (m1 hn).1, hj2 hrc⟩, (m1 hn).2⟩,
            fun hrc hn => ⟨rfl, hempty (m2 hn) st2 (hj2 hrc)⟩⟩)
  intro fuel ent wc st hG hJ hf
  have hd := scanDist_le cfg base stop ent.next hbe hse
  obtain ⟨rc, h1, h2, h3⟩ := key fuel k ent wc st ⟨rfl, hG, hJ⟩ (by omega)
  exact ⟨rc, h1, h2, h3⟩

/-- On an entry that starts below `2^31` the check `entry_kvcrc_ok` is the comparison of
the stored CRC-32 with the CRC-32 of the key and value bytes. -/
theorem entry_kvcrc_ok_iff (k : Kvs) (e : Ent) (hst : e.start < 2147483648) :
    entry_kvcrc_ok k e = true ↔ CrcGood k e := by
  have hkl := klen_lt e
  have hvl := vlen_lt e
  have heq : e.start + 8 + (entry_get_klen e + entry_get_vlen e) ≤ e.next →
      e.start + 8 + (entry_get_klen e + entry_get_vlen e) ≤ k.dev.length →
      entry_kvcrc_ok k e = decide (crc32 0
          (seg k.dev (e.start + 4) (entry_get_klen e + entry_get_vlen e)) =
        get_le32 (seg k.dev (e.start + 4 + (entry_get_klen e + entry_get_vlen e)) 4)) :=
    fun h1 h2 => entry_kvcrc_ok_eq k e h1 h2 (by omega)
  unfold CrcGood
  constructor
  · intro h
    obtain ⟨b1, b2⟩ := kvcrc_ok_bounds k e hst h
    rw [heq b1 b2] at h
    exact ⟨b1, b2, of_decide_eq_true h⟩
  · intro h
    obtain ⟨b1, b2, b3⟩ := h
    rw [heq b1 b2]
    exact decide_eq_true b3

/-- On a region below `2^31` bytes `walk` calls its callback only on entries with a good
CRC-32. -/
theorem walk_crc_guard {σ : Type} (cfg : Cfg) (hsm : cfg.bcnt * cfg.bsz < 2147483648)
    (rdkey : ReadCb) (cb : Cb σ) (stop : Nat) :
    ∀ (fuel : Nat) (k : Kvs) (ent : Ent) (wc : Nat) (st : σ),
      walk cfg rdkey (crcGuard cb) stop fuel k ent wc st
        = walk cfg rdkey cb stop fuel k ent wc st := by
  intro fuel
  induction fuel with
  | zero => intro k ent wc st; rfl
  | succ fuel ih =>
    intro k ent wc st
    rw [walk, walk]
    dsimp only
    generalize hs0 : (if ent.next < cfg.bcnt * cfg.bsz then ent.next else 0) = s0
    have hb0 : s0 < 2147483648 := by
      rw [← hs0]
      split <;> omega
    have hst := entry_get_info_start cfg k
      { start := s0, next := ent.next, he_hdr := ent.he_hdr }
    generalize entry_get_info cfg k { start := s0, next := ent.next, he_hdr := ent.he_hdr }
      = gi at hst
    obtain ⟨rc0, ent1⟩ := gi
    dsimp only at hst ⊢
    by_cases h1 : s0 = stop
    · rw [if_pos h1, if_pos h1]
    rw [if_neg h1, if_neg h1]
    by_cases h2 : rc0 ≠ 0
    · rw [if_pos h2, if_pos h2, ih]
    rw [if_neg h2, if_neg h2]
    generalize (if ent1.start &&& (cfg.bsz - 1) = 0 then entry_get_wrapcnt k ent1 wc
      else wc) = wc1
    by_cases h3 : ent1.start &&& (cfg.bsz - 1) = 0 ∧ u32 (wc1 + 1) < k.wrapcnt
    · rw [if_pos h3, if_pos h3, ih]
    rw [if_neg h3, if_neg h3]
    by_cases h5 : differ k { ctx := .ent ent1, off := 0, len := rdkey.len } rdkey = true ∨
        ¬ entry_kvcrc_ok k ent1 = true
    · rw [if_pos h5, if_pos h5, ih]
    rw [if_neg h5, if_neg h5]
    have hcrc : entry_kvcrc_ok k ent1 = true := by
      by_contra hn
      exact h5 (Or.inr hn)
    have hg : crcGuard cb k ent1 st = cb k ent1 st := by
      unfold crcGuard
      rw [if_pos ((entry_kvcrc_ok_iff k ent1 (by rw [hst]; exact hb0)).1 hcrc)]
    rw [hg]
    cases cb k ent1 st with
    | none => rfl
    | some r =>
      obtain ⟨rc, k1, st1⟩ := r
      dsimp only
      rw [ih]

/-! ### Scans depend on the store through the device and the wrap counter only -/

theorem kvs_dev_read_dev (k k2 : Kvs) (hd : k2.dev = k.dev) (off len : Nat) :
    kvs_dev_read k2 off len = kvs_dev_read k off len := by
  unfold kvs_dev_read
  rw [hd]

theorem entry_read_dev (k k2 : Kvs) (hd : k2.dev = k.dev) (e : Ent) (off len : Nat) :
    entry_read k2 e off len = entry_read k e off len := by
  unfold entry_read
  rw [kvs_dev_read_dev k k2 hd]

theorem entry_data_read_dev (k k2 : Kvs) (hd : k2.dev = k.dev) (e : Ent) (off len : Nat) :
    entry_data_read k2 e off len = entry_data_read k e off len := by
  unfold entry_data_read
  rw [entry_read_dev k k2 hd]

theorem entry_get_info_dev (cfg : Cfg) (k k2 : Kvs) (hd : k2.dev = k.dev) (e : Ent) :
    entry_get_info cfg k2 e = entry_get_info cfg k e := by
  unfold entry_get_info
  dsimp only
  rw [entry_read_dev k k2 hd]

theorem entry_get_wrapcnt_dev (k k2 : Kvs) (hd : k2.dev = k.dev) (e : Ent) (wc : Nat) :
    entry_get_wrapcnt k2 e wc = entry_get_wrapcnt k e wc := by
  unfold entry_get_wrapcnt
  rw [entry_data_read_dev k k2 hd]

theorem kvcrc_loop_dev (k k2 : Kvs) (hd : k2.dev = k.dev) (e : Ent) :
    ∀ (fuel crc off len : Nat), kvcrc_loop k2 e fuel crc off len = kvcrc_loop k e fuel crc off len := by
  intro fuel
  induction fuel with
  | zero => intro crc off len; rfl
  | succ fuel ih =>
    intro crc off len
    rw [kvcrc_loop, kvcrc_loop]
    by_cases h0 : len = 0
    · rw [if_pos h0, if_pos h0]
    · rw [if_neg h0, if_neg h0]
      dsimp only
      rw [entry_data_read_dev k k2 hd]
      cases entry_data_read k e off (KVS_MIN len KVS_BUFSIZE) with
      | error _ => rfl
      | ok buf => exact ih _ _ _

theorem entry_kvcrc_ok_dev (k k2 : Kvs) (hd : k2.dev = k.dev) (e : Ent) :
    entry_kvcrc_ok k2 e = entry_kvcrc_ok k e := by
  unfold entry_kvcrc_ok
  dsimp only
  rw [kvcrc_loop_dev k k2 hd]
  cases kvcrc_loop k e (entry_get_klen e + entry_get_vlen e) KVS_KVCRCINIT 0
      (entry_get_klen e + entry_get_vlen e) with
  | none => rfl
  | some r =>
    obtain ⟨c, o⟩ := r
    dsimp only
    rw [entry_data_read_dev k k2 hd]

theorem read_cb_dev (k k2 : Kvs) (hd : k2.dev = k.dev) (r : ReadCb) (off len : Nat) :
    r.read k2 off len = r.read k off len := by
  unfold ReadCb.read
  cases r.ctx with
  | ptr b => rfl
  | ent e => exact entry_data_read_dev k k2 hd e off len

theorem differ_loop_dev (k k2 : Kvs) (hd : k2.dev = k.dev) (rda rdb : ReadCb) :
    ∀ (fuel len off : Nat), differ_loop k2 rda rdb fuel len off = differ_loop k rda rdb fuel len off := by
  intro fuel
  induction fuel with
  | zero => intro len off; rfl
  | succ fuel ih =>
    intro len off
    rw [differ_loop, differ_loop]
    by_cases h0 : len = 0
    · rw [if_pos h0, if_pos h0]
    · rw [if_neg h0, if_neg h0]
      dsimp only
      rw [read_cb_dev k k2 hd rda, read_cb_dev k k2 hd rdb]
      cases rda.read k (rda.off + off) (KVS_MIN len KVS_BUFSIZE) with
      | error _ => rfl
      | ok bufa =>
        dsimp only
        cases rdb.read k (rdb.off + off) (KVS_MIN len KVS_BUFSIZE) with
        | error _ => rfl
        | ok bufb =>
          dsimp only
          by_cases hb : bufa ≠ bufb
          · rw [if_pos hb, if_pos hb]
          · rw [if_neg hb, if_neg hb]
            exact ih _ _

theorem differ_dev (k k2 : Kvs) (hd : k2.dev = k.dev) (rda rdb : ReadCb) :
    differ k2 rda rdb = differ k rda rdb := by
  unfold differ
  rw [differ_loop_dev k k2 hd]

/-- Two stores with the same device and wrap counter give the same scan when the
callback does not look at the rest of the store. -/
theorem walk_dev {σ : Type} (cfg : Cfg) (rdkey : ReadCb) (cb : Cb σ) (stop : Nat)
    (k k2 : Kvs) (hd : k2.dev = k.dev) (hw : k2.wrapcnt = k.wrapcnt)
    (hcb : ∀ e st, ∃ rc st2, cb k e st = some (rc, k, st2) ∧ cb k2 e st = some (rc, k2, st2)) :
    ∀ (fuel : Nat) (ent : Ent) (wc : Nat) (st : σ),
      (walk cfg rdkey cb stop fuel k2 ent wc st).rc = (walk cfg rdkey cb stop fuel k ent wc st).rc ∧
      (walk cfg rdkey cb stop fuel k2 ent wc st).st = (walk cfg rdkey cb stop fuel k ent wc st).st := by
  intro fuel
  induction fuel with
  | zero => intro ent wc st; exact ⟨rfl, rfl⟩
  | succ fuel ih =>
    intro ent wc st
    rw [walk, walk]
    dsimp only
    generalize (if ent.next < cfg.bcnt * cfg.bsz then ent.next else 0) = s0
    rw [entry_get_info_dev cfg k k2 hd]
    generalize entry_get_info cfg k { start := s0, next := ent.next, he_hdr := ent.he_hdr } = gi
    obtain ⟨rc0, ent1⟩ := gi
    dsimp only
    by_cases h1 : s0 = stop
    · rw [if_pos h1, if_pos h1]
      exact ⟨rfl, rfl⟩
    rw [if_neg h1, if_neg h1]
    by_cases h2 : rc0 ≠ 0
    · rw [if_pos h2, if_pos h2]
      by_cases h6 : ent1.next ≠ stop
      · rw [if_pos h6, if_pos h6]; exact ih _ _ _
      · rw [if_neg h6, if_neg h6]; exact ⟨rfl, rfl⟩
    rw [if_neg h2, if_neg h2, entry_get_wrapcnt_dev k k2 hd, hw]
    generalize (if ent1.start &&& (cfg.bsz - 1) = 0 then entry_get_wrapcnt k ent1 wc
      else wc) = wc1
    by_cases h3 : ent1.start &&& (cfg.bsz - 1) = 0 ∧ u32 (wc1 + 1) < k.wrapcnt
    · rw [if_pos h3, if_pos h3]
      by_cases h4 : u32 (ent1.start + cfg.bsz) ≠ stop
      · rw [if_pos h4, if_pos h4]; exact ih _ _ _
      · rw [if_neg h4, if_neg h4]; exact ⟨rfl, rfl⟩
    rw [if_neg h3, if_neg h3, differ_dev k k2 hd, entry_kvcrc_ok_dev k k2 hd]
    by_cases h5 : differ k { ctx := .ent ent1, off := 0, len := rdkey.len } rdkey = true ∨
        ¬ entry_kvcrc_ok k ent1 = true
    · rw [if_pos h5, if_pos h5]
      by_cases h6 : ent1.next ≠ stop
      · rw [if_pos h6, if_pos h6]; exact ih _ _ _
      · rw [if_neg h6, if_neg h6]; exact ⟨rfl, rfl⟩
    rw [if_neg h5, if_neg h5]
    obtain ⟨rc, st2, c1, c2⟩ := hcb ent1 st
    rw [c1, c2]
    dsimp only
    by_cases h7 : rc ≠ 0
    · rw [if_pos h7, if_pos h7]; exact ⟨rfl, rfl⟩
    · rw [if_neg h7, if_neg h7]
      by_cases h6 : ent1.next ≠ stop
      · rw [if_pos h6, if_pos h6]; exact ih _ _ _
      · rw [if_neg h6, if_neg h6]; exact ⟨rfl, rfl⟩

theorem entry_get_loop_dev (cfg : Cfg) (k k2 : Kvs) (hd : k2.dev = k.dev)
    (hw : k2.wrapcnt = k.wrapcnt) (rdkey : ReadCb) (fuel : Nat) :
    ∀ (n : Nat) (wlk : Ent) (stop start : Nat) (arg : EntryGetArg),
      entry_get_loop cfg k2 rdkey fuel n wlk stop start arg
        = entry_get_loop cfg k rdkey fuel n wlk stop start arg := by
  intro n
  induction n with
  | zero => intro wlk stop start arg; rfl
  | succ n ih =>
    intro wlk stop start arg
    rw [entry_get_loop, entry_get_loop]
    dsimp only
    obtain ⟨w1, w2⟩ := walk_dev cfg rdkey (entry_get_cb rdkey.len) stop k k2 hd hw
      (fun e st => ⟨0, entry_get_f rdkey.len e st, entry_get_cb_eq _ k e st,
        entry_get_cb_eq _ k2 e st⟩) fuel { wlk with next := start } cfg.uninit arg
    rw [w1, w2]
    cases (walk cfg rdkey (entry_get_cb rdkey.len) stop fuel k { wlk with next := start }
        cfg.uninit arg).rc with
    | none => rfl
    | some rc =>
      dsimp only
      split
      · rfl
      · exact ih _ _ _ _

theorem ChainL.snoc_inv {cfg : Cfg} {k : Kvs} {e : Ent} :
    ∀ {es : List Ent} {a b : Nat}, ChainL cfg k a (es ++ [e]) b →
      ChainL cfg k a es e.start ∧ DecodesAt cfg k e ∧ e.start + 8 ≤ e.next ∧ e.next = b := by
  intro es
  induction es with
  | nil =>
    intro a b h
    obtain ⟨c1, c2, c3, c4⟩ := (show ChainL cfg k a (e :: []) b from h).cons_inv
    rw [c1]
    exact ⟨ChainL.nil _, c2, c3, c4.eq_of_nil⟩
  | cons e0 t ih =>
    intro a b h
    obtain ⟨c1, c2, c3, c4⟩ := (show ChainL cfg k a (e0 :: (t ++ [e])) b from h).cons_inv
    obtain ⟨d1, d2, d3, d4⟩ := ih c4
    rw [c1]
    exact ⟨ChainL.cons e0 t _ c2 c3 d1, d2, d3, d4⟩

/-- The first round of `entry_get` on a store whose newest entry `e` has a bad CRC-32
gives what it gives on the store that ends before `e`. -/
theorem entry_get_loop_corrupt {cfg : Cfg} {k k2 : Kvs} (hc : CfgOk cfg) (hi : Inv cfg k)
    (hw : k.wrapcnt < 4294967295) (es : List Ent) (e : Ent)
    (hch : ChainL cfg k (k.bend - cfg.bsz) (es ++ [e]) k.pos) (hho : HeadOk k (es ++ [e]))
    (hbad : entry_kvcrc_ok k e = false) (hd : k2.dev = k.dev) (hw2 : k2.wrapcnt = k.wrapcnt)
    (rdkey : ReadCb) (fuel : Nat) (hf : es.length + 2 ≤ fuel) (n : Nat) (wlk : Ent)
    (arg : EntryGetArg) :
    entry_get_loop cfg k2 rdkey fuel n wlk e.start (k.bend - cfg.bsz) arg
      = entry_get_loop cfg k rdkey fuel n wlk k.pos (k.bend - cfg.bsz) arg := by
  cases n with
  | zero => rfl
  | succ n =>
    have hbl := hi.bend_le
    have hge := hi.bend_ge
    have hpl := hi.pos_le
    obtain ⟨jb, hjb, hb⟩ := hc.bsz_pow
    have hb0 : 0 < cfg.bsz := by rw [hb]; exact Nat.pow_pos (by norm_num)
    have hns := noskip_of_inv hc hi hw _ hch hho
    obtain ⟨s1, s2, s3, s4⟩ := hch.snoc_inv
    have hle1 := s1.le
    have hwalk1 := walk_chain cfg k rdkey (entry_get_cb rdkey.len) (entry_get_f rdkey.len) k.pos
      (fun e st => entry_get_cb_eq rdkey.len k e st)
      (by rw [Nat.mul_comm]; omega) (es ++ [e]) (k.bend - cfg.bsz) fuel
      { start := wlk.start, next := k.bend - cfg.bsz, he_hdr := wlk.he_hdr } cfg.uninit arg hch
      hns (by simp) rfl (by simp; omega)
    have hwalk2 := walk_chain cfg k rdkey (entry_get_cb rdkey.len) (entry_get_f rdkey.len)
      e.start (fun e st => entry_get_cb_eq rdkey.len k e st)
      (by rw [Nat.mul_comm]; omega) es (k.bend - cfg.bsz) fuel
      { start := wlk.start, next := k.bend - cfg.bsz, he_hdr := wlk.he_hdr } cfg.uninit arg s1
      (fun x hx => hns x (by simp [hx])) (fun _ => by rw [Nat.mul_comm]; omega) rfl (by omega)
    obtain ⟨w1, w2⟩ := walk_dev cfg rdkey (entry_get_cb rdkey.len) e.start k k2 hd hw2
      (fun e st => ⟨0, entry_get_f rdkey.len e st, entry_get_cb_eq _ k e st,
        entry_get_cb_eq _ k2 e st⟩) fuel
      { start := wlk.start, next := k.bend - cfg.bsz, he_hdr := wlk.he_hdr } cfg.uninit arg
    rw [hwalk2] at w1 w2
    dsimp only at w1 w2
    have hvis : ∀ st, visit k rdkey (entry_get_f rdkey.len) e st = st := by
      intro st
      unfold visit
      rw [if_pos (Or.inr (by simp [hbad]))]
    rw [entry_get_loop, entry_get_loop]
    dsimp only
    rw [hwalk1, w1, w2]
    dsimp only
    rw [List.foldl_append]
    simp only [List.foldl_cons, List.foldl_nil]
    rw [hvis]
    split
    · rfl
    · exact entry_get_loop_dev cfg k k2 hd hw2 rdkey fuel _ _ _ _ _

/-- A newest entry with a bad CRC-32 does not change what `kvs_read` returns. -/
theorem kvs_read_corrupt_last {cfg : Cfg} {k : Kvs} (hc : CfgOk cfg) (hi : Inv cfg k)
    (hw : k.wrapcnt < 4294967295) (es : List Ent) (e : Ent)
    (hch : ChainL cfg k (k.bend - cfg.bsz) (es ++ [e]) k.pos) (hho : HeadOk k (es ++ [e]))
    (hbad : entry_kvcrc_ok k e = false) (key : List Nat) (len fuel : Nat)
    (hf : es.length + 2 ≤ fuel) :
    kvs_read cfg k key len fuel = kvs_read cfg { k with pos := e.start } key len fuel := by
  have hbl := hi.bend_le
  have hge := hi.bend_ge
  have hsm := hc.small
  generalize hk2 : ({ k with pos := e.start } : Kvs) = k2
  have hd : k2.dev = k.dev := by rw [← hk2]
  have hw2 : k2.wrapcnt = k.wrapcnt := by rw [← hk2]
  have hr2 : k2.ready = k.ready := by rw [← hk2]
  have hb2 : k2.bend = k.bend := by rw [← hk2]
  have hp2 : k2.pos = e.start := by rw [← hk2]
  have e2 : u32 (k.bend + 4294967296 - cfg.bsz) = k.bend - cfg.bsz := by
    unfold u32; omega
  have hget : kvs_entry_get cfg k2 wlk0 key fuel = kvs_entry_get cfg k wlk0 key fuel := by
    unfold kvs_entry_get
    rw [hr2]
    by_cases hr : ¬ k.ready = true
    · rw [if_pos hr, if_pos hr]
    · rw [if_neg hr, if_neg hr]
      unfold entry_get
      dsimp only
      rw [hb2, hp2, e2, entry_get_loop_corrupt hc hi hw es e hch hho hbad hd hw2 _ fuel hf]
  unfold kvs_read
  rw [hget]
  cases kvs_entry_get cfg k wlk0 key fuel with
  | none => rfl
  | some r =>
    obtain ⟨rc, ent⟩ := r
    dsimp only
    rw [entry_data_read_dev k k2 hd]

set_option maxRecDepth 100000 in
theorem crS_chain : ChainL exCfg crS (crS.bend - exCfg.bsz)
    ([{ start := 0, next := 12, he_hdr := 2868904960 },
      { start := 12, next := 24, he_hdr := 2097152257 }] ++
      [{ start := 24, next := 36, he_hdr := 3221225985 }]) crS.pos := by
  have d1 : DecodesAt exCfg crS { start := 0, next := 12, he_hdr := 2868904960 } :=
    decodes_of_header exCfg crS 0 0 4 2 6 rfl (by decide) rfl (by decide) (by decide)
      (by decide) (by decide) (by decide) (by decide) (by decide) (by decide)
  have d2 : DecodesAt exCfg crS { start := 12, next := 24, he_hdr := 2097152257 } :=
    decodes_of_header exCfg crS 12 1 1 2 6 rfl (by decide) rfl (by decide) (by decide)
      (by decide) (by decide) (by decide) (by decide) (by decide) (by decide)
  have d3 : DecodesAt exCfg crS { start := 24, next := 36, he_hdr := 3221225985 } :=
    decodes_of_header exCfg crS 24 1 2 2 6 rfl (by decide) rfl (by decide) (by decide)
      (by decide) (by decide) (by decide) (by decide) (by decide) (by decide)
  exact ChainL.cons _ _ _ d1 (by decide) (ChainL.cons _ _ _ d2 (by decide)
    (ChainL.cons _ _ _ d3 (by decide) (ChainL.nil 36)))

set_option maxRecDepth 100000 in
theorem crS_head : HeadOk crS
    ([{ start := 0, next := 12, he_hdr := 2868904960 },
      { start := 12, next := 24, he_hdr := 2097152257 }] ++
      [{ start := 24, next := 36, he_hdr := 3221225985 }]) := by
  intro e he
  simp at he
  subst he
  exact ⟨by decide, by decide⟩

set_option maxRecDepth 100000 in
theorem crS_inv : Inv exCfg crS where
  ready := rfl
  devlen := by decide
  pbuf := by decide
  cookie := rfl
  csz := by decide
  bend_mod := by decide
  bend_ge := by decide
  bend_le := by decide
  pos_ge := by decide
  pos_le := by decide
  pos_mod := by decide
  wrap := by decide
  chain := ⟨_, crS_chain, crS_head⟩

/-- A header of four erased bytes does not decode: the scan goes on at the end of the
block. -/
theorem entry_get_info_ff (cfg : Cfg) (k : Kvs) (e0 : Ent)
    (hff : seg k.dev e0.start 4 = [255, 255, 255, 255]) (hst : e0.start < 2147483648) :
    entry_get_info cfg k e0
      = (-KVS_ENOENT, { e0 with next := KVS_ALIGNDOWN e0.start cfg.bsz + cfg.bsz }) := by
  unfold entry_get_info
  dsimp only
  cases h : entry_read k { e0 with next := KVS_ALIGNDOWN e0.start cfg.bsz + cfg.bsz } 0
      KVS_HDRSIZE with
  | error e => rfl
  | ok hdr =>
    have hh : hdr = [255, 255, 255, 255] := by
      have e1 : u32 (e0.start + 0) = e0.start := u32_of_lt _ (by omega)
      unfold entry_read at h
      split at h
      · cases h
      · unfold kvs_dev_read at h
        split at h
        · cases h
        · injection h with h
          dsimp only at h
          rw [e1] at h
          rw [← h, ← hff]
          rfl
    subst hh
    dsimp only
    rw [entry_get_param_erased]
    dsimp only
    rw [if_pos (show (-KVS_EINVAL : Int) ≠ 0 by decide)]

/-- A round of `walk` on a header that does not decode. -/
theorem walk_step_fail {σ : Type} (cfg : Cfg) (rdkey : ReadCb) (cb : Cb σ) (stop fuel : Nat)
    (k : Kvs) (ent : Ent) (wc : Nat) (st : σ) (rc0 : Int) (e1 : Ent)
    (hs : scanPos cfg ent.next ≠ stop)
    (hdec : entry_get_info cfg k { ent with start := scanPos cfg ent.next } = (rc0, e1))
    (hrc : rc0 ≠ 0) (hn : e1.next ≠ stop) :
    walk cfg rdkey cb stop (fuel + 1) k ent wc st = walk cfg rdkey cb stop fuel k e1 wc st := by
  unfold scanPos at hs hdec
  rw [walk]
  dsimp only
  rw [if_neg hs, hdec]
  dsimp only
  rw [if_pos hrc, if_pos hn]

/-- A round of `walk` on the header of a block that it takes for stale. -/
theorem walk_step_skip {σ : Type} (cfg : Cfg) (rdkey : ReadCb) (cb : Cb σ) (stop fuel : Nat)
    (k : Kvs) (ent : Ent) (wc : Nat) (st : σ) (e1 : Ent)
    (hs : scanPos cfg ent.next ≠ stop)
    (hdec : entry_get_info cfg k { ent with start := scanPos cfg ent.next } = (0, e1))
    (hal : e1.start &&& (cfg.bsz - 1) = 0)
    (hstale : u32 (entry_get_wrapcnt k e1 wc + 1) < k.wrapcnt)
    (hn : u32 (e1.start + cfg.bsz) ≠ stop) :
    walk cfg rdkey cb stop (fuel + 1) k ent wc st
      = walk cfg rdkey cb stop fuel k { e1 with next := u32 (e1.start + cfg.bsz) }
          (entry_get_wrapcnt k e1 wc) st := by
  unfold scanPos at hs hdec
  rw [walk]
  dsimp only
  rw [if_neg hs, hdec]
  dsimp only
  rw [if_neg (fun h => h rfl), if_pos hal, if_pos ⟨hal, hstale⟩, if_pos hn]

set_option maxRecDepth 100000 in
/-- On the store `tornS` a scan to the write position 12 that is at a block base stays at
the block bases: block 0 is taken for stale, block 1 is erased. -/
theorem tornS_walk_loops {σ : Type} (rdkey : ReadCb) (cb : Cb σ) :
    ∀ (fuel : Nat) (ent : Ent) (wc : Nat) (st : σ),
      (ent.next = 0 ∨ ent.next = 64 ∨ ent.next = 128) →
      (walk exCfg rdkey cb 12 fuel tornS ent wc st).rc = none := by
  have d1 : DecodesAt exCfg tornS { start := 0, next := 12, he_hdr := 2868904960 } :=
    decodes_of_header exCfg tornS 0 0 4 2 6 rfl (by decide) rfl (by decide) (by decide)
      (by decide) (by decide) (by decide) (by decide) (by decide) (by decide)
  have hwc : ∀ wc, entry_get_wrapcnt tornS { start := 0, next := 12, he_hdr := 2868904960 } wc
      = 4294967295 :=
    fun wc => entry_get_wrapcnt_head tornS _ wc (by decide) (by decide) (by decide) (by decide)
      (by decide) (by decide)
  have hz : ∀ n, (n = 0 ∨ n = 128) → scanPos exCfg n = 0 := by
    intro n hn
    rcases hn with rfl | rfl <;> decide
  intro fuel
  induction fuel with
  | zero => intro ent wc st _; rfl
  | succ fuel ih =>
    intro ent wc st hn
    obtain ⟨s, n, h⟩ := ent
    dsimp only at hn
    by_cases h64 : n = 64
    · subst h64
      have hdec : entry_get_info exCfg tornS
          { start := scanPos exCfg 64, next := 64, he_hdr := h }
          = (-KVS_ENOENT, { start := 64, next := 128, he_hdr := h }) := by
        have hP : scanPos exCfg 64 = 64 := by decide
        have hA : KVS_ALIGNDOWN 64 exCfg.bsz + exCfg.bsz = 128 := by decide
        rw [entry_get_info_ff exCfg tornS { start := scanPos exCfg 64, next := 64, he_hdr := h }
          (show seg tornS.dev 64 4 = _ by decide) (show (64 : Nat) < 2147483648 by decide)]
        dsimp only
        rw [hP, hA]
      rw [walk_step_fail exCfg rdkey cb 12 fuel tornS _ wc st (-KVS_ENOENT)
        { start := 64, next := 128, he_hdr := h } (show scanPos exCfg 64 ≠ 12 by decide) hdec
        (by decide) (show (128 : Nat) ≠ 12 by decide)]
      exact ih _ _ _ (Or.inr (Or.inr rfl))
    · have hsp : scanPos exCfg n = 0 := hz n (by omega)
      rw [walk_step_skip exCfg rdkey cb 12 fuel tornS _ wc st
        { start := 0, next := 12, he_hdr := 2868904960 } (by rw [hsp]; decide)
        (d1 _ hsp) (by decide) (by rw [hwc]; decide) (by decide)]
      exact ih _ _ _ (Or.inr (Or.inl (by decide)))

set_option maxRecDepth 100000 in
/-- On the store `tornS` no `kvs_read` returns, whatever the number of rounds. -/
theorem tornS_read_loops (key : List Nat) (len fuel : Nat) :
    kvs_read exCfg tornS key len fuel = none := by
  have hN : u32 (exCfg.bcnt + 4294967296 - exCfg.bspr) = 0 + 1 := by decide
  have hS : u32 (tornS.bend + 4294967296 - exCfg.bsz) = 0 := by decide
  have hp : tornS.pos = 12 := rfl
  unfold kvs_read kvs_entry_get
  rw [if_neg (by decide)]
  unfold entry_get
  dsimp only
  rw [hN, hS, hp, entry_get_loop]
  dsimp only
  rw [tornS_walk_loops _ _ fuel _ _ _ (Or.inl rfl)]

set_option maxRecDepth 100000 in
/-- On the store `tornS` no `kvs_write` returns: it looks for the key first. -/
theorem tornS_write_loops (key value : List Nat) (fuel : Nat) :
    kvs_write exCfg tornS key value fuel = none := by
  have hN : u32 (exCfg.bcnt + 4294967296 - exCfg.bspr) = 0 + 1 := by decide
  have hS : u32 (tornS.bend + 4294967296 - exCfg.bsz) = 0 := by decide
  have hp : tornS.pos = 12 := rfl
  unfold kvs_write kvs_entry_get
  rw [if_neg (by decide), if_neg (by decide)]
  unfold entry_get
  dsimp only
  rw [hN, hS, hp, entry_get_loop]
  dsimp only
  rw [tornS_walk_loops _ _ fuel _ _ _ (Or.inl rfl)]

/-- A step of a scan to a block base or the region end, to a position up to the end of
the block it is in. -/
theorem ring_move (cfg : Cfg) (stop : Nat) (hb0 : 0 < cfg.bsz) (hbc : 0 < cfg.bcnt)
    (hsm : stop % cfg.bsz = 0) (hsl : stop ≤ cfg.bcnt * cfg.bsz) (p p2 : Nat)
    (hne : scanPos cfg p ≠ stop) (h1 : scanPos cfg p < p2)
    (h2 : p2 ≤ scanPos cfg p / cfg.bsz * cfg.bsz + cfg.bsz) (hn : p2 ≠ stop) :
    ringDist cfg stop p2 < ringDist cfg stop p := by
  have hfinmod : (cfg.bcnt * cfg.bsz) % cfg.bsz = 0 := Nat.mul_mod_left _ _
  have hfin0 : 0 < cfg.bcnt * cfg.bsz := Nat.mul_pos hbc hb0
  have hslt : scanPos cfg p < cfg.bcnt * cfg.bsz := by
    unfold scanPos
    split
    · assumption
    · omega
  unfold ringDist
  rw [if_neg hne]
  generalize scanPos cfg p = s at hne h1 h2 hslt
  have hA1 : s / cfg.bsz * cfg.bsz + cfg.bsz ≤ cfg.bcnt * cfg.bsz :=
    block_end_le cfg.bsz s _ hfinmod hslt
  by_cases hf : p2 < cfg.bcnt * cfg.bsz
  · have hp2 : scanPos cfg p2 = p2 := by
      unfold scanPos
      rw [if_pos hf]
    rw [hp2, if_neg hn]
    by_cases hlt : s < stop
    · have hA2 := block_end_le cfg.bsz s stop hsm hlt
      rw [if_pos hlt, if_pos (by omega)]
      omega
    · rw [if_neg hlt, if_neg (by omega)]
      omega
  · have hp2 : scanPos cfg p2 = 0 := by
      unfold scanPos
      rw [if_neg hf]
    rw [hp2]
    have hlt : ¬ s < stop := by
      intro hlt
      have hA2 := block_end_le cfg.bsz s stop hsm hlt
      omega
    rw [if_neg hlt]
    by_cases h0 : 0 = stop
    · rw [if_pos h0]
      omega
    · rw [if_neg h0, if_pos (by omega)]
      omega

/-- A scan to a block base or to the end of the region ends whatever the device holds
and whatever the callback does to the store, when the callback returns. -/
theorem walk_to_boundary {σ : Type} (cfg : Cfg) (hc : SizeOk cfg) (hbc : 0 < cfg.bcnt)
    (rdkey : ReadCb) (cb : Cb σ) (stop : Nat)
    (hret : ∀ (k : Kvs) (e : Ent) (st : σ), ∃ r, cb k e st = some r)
    (hsm : stop % cfg.bsz = 0) (hsl : stop ≤ cfg.bsz * cfg.bcnt) :
    ∀ (fuel : Nat) (k : Kvs) (ent : Ent) (wc : Nat) (st : σ), cfg.bsz * cfg.bcnt < fuel →
      ∃ rc, (walk cfg rdkey cb stop fuel k ent wc st).rc = some rc := by
  obtain ⟨jp, hjp, hp⟩ := hc.psz_pow
  obtain ⟨jb, hjb, hbs⟩ := hc.bsz_pow
  have hsmall := hc.small
  have hfin : cfg.bcnt * cfg.bsz = cfg.bsz * cfg.bcnt := Nat.mul_comm _ _
  have hb0 : 0 < cfg.bsz := by rw [hbs]; exact Nat.pow_pos (by norm_num)
  have hbb : cfg.bsz ≤ cfg.bsz * cfg.bcnt := Nat.le_mul_of_pos_right _ hbc
  have hps : cfg.psz ≤ 1073741824 :=
    Nat.le_trans hc.psz_le (pow_le_pow30 cfg.bsz jb hbs (by omega))
  have hfin0 : 0 < cfg.bcnt * cfg.bsz := by omega
  have key := walk_inv cfg rdkey cb stop (ringDist cfg stop)
    (fun _ _ _ => True) (fun _ _ _ => True) (fun _ _ _ _ _ => trivial)
    (by
      intro p k e0 st _ hs0 hst
      change e0.start = scanPos cfg p at hs0
      have hslt : e0.start < cfg.bcnt * cfg.bsz := by
        rw [hs0]
        unfold scanPos
        split
        · assumption
        · exact hfin0
      obtain ⟨a1, a2, a3⟩ := entry_get_info_bounds cfg k e0 jp jb hp hjp hbs hjb hps (by omega)
      have hmv := fun p2 h1 h2 hn =>
        ring_move cfg stop hb0 hbc hsm (by omega) p p2 (by rw [← hs0]; exact hst) h1 h2 hn
      rw [← hs0] at hmv
      have hcb := hret k (entry_get_info cfg k e0).2 st
      generalize entry_get_info cfg k e0 = r at a1 a2 a3 hcb ⊢
      obtain ⟨rc0, e1⟩ := r
      dsimp only at a1 a2 a3 hcb ⊢
      have hnext : e0.start < e1.next ∧ e1.next ≤ e0.start / cfg.bsz * cfg.bsz + cfg.bsz := by
        by_cases hrc : rc0 ≠ 0
        · rw [a2 hrc]
          exact ⟨lt_block_end cfg.bsz e0.start hb0, Nat.le_refl _⟩
        · have h0 : rc0 = 0 := by
            by_contra hx; exact hrc hx
          obtain ⟨b1, b2⟩ := a3 h0
          exact ⟨by omega, b2⟩
      refine ⟨?_, ?_, ?_⟩
      · intro _
        exact ⟨fun hn => ⟨trivial, hmv e1.next hnext.1 hnext.2 hn⟩, fun _ => trivial⟩
      · intro wc h0 hal _
        rw [and_bsz_mask cfg jb _ hbs, a1] at hal
        have hd := div_mul_add_mod e0.start cfg.bsz
        rw [a1, u32_of_lt _ (by omega)]
        exact ⟨fun hn => ⟨trivial, hmv (e0.start + cfg.bsz) (by omega) (by omega) hn⟩,
          fun _ => trivial⟩
      · intro _ _ _
        obtain ⟨⟨rc, k2, st2⟩, hcall⟩ := hcb
        exact ⟨rc, k2, st2, hcall, fun _ => trivial,
          fun _ hn => ⟨trivial, hmv e1.next hnext.1 hnext.2 hn⟩, fun _ _ => trivial⟩)
  intro fuel k ent wc st hf
  have hd : ringDist cfg stop ent.next ≤ cfg.bsz * cfg.bcnt := by
    have hs : scanPos cfg ent.next < cfg.bcnt * cfg.bsz := by
      unfold scanPos
      split
      · assumption
      · exact hfin0
    unfold ringDist
    generalize scanPos cfg ent.next = s at hs
    split
    · omega
    · split <;> omega
  obtain ⟨rc, h1, -⟩ := key fuel k ent wc st trivial (by omega)
  exact ⟨rc, h1⟩

/-- A scan that starts at a block base, with a callback that returns and leaves the store
alone, to an offset that a chain of entries reaches from the base of its block, none of
them taken for the header of a stale block, ends. -/
theorem walk_to_chain_end {σ : Type} (cfg : Cfg) (hc : SizeOk cfg) (k : Kvs)
    (base stop : Nat) (es : List Ent) (hbm : base % cfg.bsz = 0)
    (hbe : base + cfg.bsz ≤ cfg.bsz * cfg.bcnt) (hch : ChainL cfg k base es stop)
    (hse : stop ≤ base + cfg.bsz) (hns : ∀ e ∈ es, NoSkip cfg k e) (rdkey : ReadCb)
    (cb : Cb σ) (hcb : ∀ (e : Ent) (st : σ), ∃ rc st2, cb k e st = some (rc, k, st2))
    (fuel : Nat) (ent : Ent) (wc : Nat) (st : σ)
    (hstart : scanPos cfg ent.next % cfg.bsz = 0)
    (hf : cfg.bsz * cfg.bcnt + cfg.bsz + 2 < fuel) :
    ∃ rc, (walk cfg rdkey cb stop fuel k ent wc st).rc = some rc ∧
      (walk cfg rdkey cb stop fuel k ent wc st).kvs = k := by
  by_cases hst : scanPos cfg ent.next = stop
  · cases fuel with
    | zero => omega
    | succ fuel =>
      unfold scanPos at hst
      rw [walk]
      dsimp only
      rw [if_pos hst]
      exact ⟨0, rfl, rfl⟩
  · obtain ⟨rc, h1, h2, -⟩ := walk_from_base cfg hc k base stop es hbm hbe hch hse hns rdkey cb
      (fun _ => True) (fun _ _ => True)
      (fun e st _ => by
        obtain ⟨rc, st2, h⟩ := hcb e st
        exact ⟨rc, st2, h, fun _ => trivial, fun _ => trivial⟩)
      (fun _ _ _ => trivial) (fun _ _ _ _ => ⟨fun _ => trivial, fun _ _ _ _ => trivial⟩)
      fuel ent wc st (scanAt_of_base cfg k base stop es hbm hch ent.next hstart (Or.inl hst))
      trivial hf
    exact ⟨rc, h1, h2⟩

/-- Where scans do terminate.  On a region of `bsz * bcnt < 2^31` bytes with power-of-two
sizes, `psz ≤ bsz` and `bcnt ≥ 1`, for every device content: an entry that
`entry_get_info` decodes has `next > start`; `walk` from any offset to a stop offset that
is a block base or the end of the region returns within `bsz * bcnt + 1` rounds (each
round moves on, so no block is visited twice), whatever its callback does to the store,
provided the callback returns; `walk` from a block base to a stop offset reached by a
chain of entries from the base of its block returns within `bsz * bcnt + bsz + 3` rounds
when none of these entries is taken for the header of a stale block and the callback
returns and leaves the store alone; this holds for the write position of a store that
satisfies the invariant `Inv` with a wrap counter below `0xFFFFFFFF`. -/
theorem scans_terminate (cfg : Cfg) (hc : SizeOk cfg) (hbc : 0 < cfg.bcnt) :
    (∀ (k : Kvs) (e0 : Ent), e0.start < cfg.bsz * cfg.bcnt →
      (entry_get_info cfg k e0).1 = 0 →
      e0.start < (entry_get_info cfg k e0).2.next ∧
      (entry_get_info cfg k e0).2.start = e0.start ∧
      (entry_get_info cfg k e0).2.next ≤ e0.start / cfg.bsz * cfg.bsz + cfg.bsz) ∧
    (∀ (σ : Type) (rdkey : ReadCb) (cb : Cb σ) (stop : Nat),
      (∀ (k : Kvs) (e : Ent) (st : σ), ∃ r, cb k e st = some r) →
      stop % cfg.bsz = 0 → stop ≤ cfg.bsz * cfg.bcnt →
      ∀ (fuel : Nat) (k : Kvs) (ent : Ent) (wc : Nat) (st : σ), cfg.bsz * cfg.bcnt < fuel →
        ∃ rc, (walk cfg rdkey cb stop fuel k ent wc st).rc = some rc) ∧
    (∀ (σ : Type) (rdkey : ReadCb) (cb : Cb σ) (k : Kvs) (base stop : Nat) (es : List Ent),
      base % cfg.bsz = 0 → base + cfg.bsz ≤ cfg.bsz * cfg.bcnt →
      ChainL cfg k base es stop → stop ≤ base + cfg.bsz → (∀ e ∈ es, NoSkip cfg k e) →
      (∀ (e : Ent) (st : σ), ∃ rc st2, cb k e st = some (rc, k, st2)) →
      ∀ (fuel : Nat) (ent : Ent) (wc : Nat) (st : σ),
        scanPos cfg ent.next % cfg.bsz = 0 → cfg.bsz * cfg.bcnt + cfg.bsz + 2 < fuel →
        ∃ rc, (walk cfg rdkey cb stop fuel k ent wc st).rc = some rc ∧
          (walk cfg rdkey cb stop fuel k ent wc st).kvs = k) ∧
    (∀ (σ : Type) (rdkey : ReadCb) (cb : Cb σ) (k : Kvs), CfgOk cfg → Inv cfg k →
      k.wrapcnt < 4294967295 →
      (∀ (e : Ent) (st : σ), ∃ rc st2, cb k e st = some (rc, k, st2)) →
      ∀ (fuel : Nat) (ent : Ent) (wc : Nat) (st : σ),
        cfg.bsz * cfg.bcnt + cfg.bsz + 2 < fuel →
        ∃ rc, (walk cfg rdkey cb k.pos fuel k ent wc st).rc = some rc ∧
          (walk cfg rdkey cb k.pos fuel k ent wc st).kvs = k) := by
  obtain ⟨jp, hjp, hp⟩ := hc.psz_pow
  obtain ⟨jb, hjb, hbs⟩ := hc.bsz_pow
  have hsmall := hc.small
  have hb0 : 0 < cfg.bsz := by rw [hbs]; exact Nat.pow_pos (by norm_num)
  have hbb : cfg.bsz ≤ cfg.bsz * cfg.bcnt := Nat.le_mul_of_pos_right _ hbc
  have hps : cfg.psz ≤ 1073741824 :=
    Nat.le_trans hc.psz_le (pow_le_pow30 cfg.bsz jb hbs (by omega))
  refine ⟨?_, ?_, ?_, ?_⟩
  · intro k e0 hs h0
    obtain ⟨a1, -, a3⟩ := entry_get_info_bounds cfg k e0 jp jb hp hjp hbs hjb hps (by omega)
    obtain ⟨b1, b2⟩ := a3 h0
    exact ⟨by omega, a1, b2⟩
  · intro σ rdkey cb stop hret hsm hsl fuel k ent wc st hf
    exact walk_to_boundary cfg hc hbc rdkey cb stop hret hsm hsl fuel k ent wc st hf
  · intro σ rdkey cb k base stop es hbm hbe hch hse hns hcb fuel ent wc st hstart hf
    exact walk_to_chain_end cfg hc k base stop es hbm hbe hch hse hns rdkey cb hcb fuel ent wc
      st hstart hf
  · intro σ rdkey cb k hco hi hw hcb fuel ent wc st hf
    exact walk_to_pos_ends cfg hco k hi hw rdkey cb hcb fuel ent wc st hf

set_option maxRecDepth 100000 in
/-- An instance on `exCfg`: a scan of the store `exK1` from offset 0 to the block base
64 returns. -/
theorem scans_terminate_instance :
    (0 < exCfg.bcnt ∧ exCfg.bsz * exCfg.bcnt < 129) ∧
    ∃ rc, (walk exCfg { ctx := .ptr [], off := 0, len := 0 } (logCb fun _ _ _ => 0) 64 129
      exK1 wlk0 0 []).rc = some rc :=
  ⟨by decide, (scans_terminate exCfg
    ⟨⟨2, by decide, by decide⟩, ⟨6, by decide, by decide⟩, by decide, by decide⟩
    (by decide)).2.1 _ { ctx := .ptr [], off := 0, len := 0 } (logCb fun _ _ _ => 0) 64
    (fun _ _ _ => ⟨_, rfl⟩) (by decide) (by decide) 129 exK1 wlk0 0 [] (by decide)⟩

/-! ### The writer leaves the wrap counter alone -/

theorem kvs_dev_prog_wrap (cfg : Cfg) (k : Kvs) (off : Nat) (data : List Nat) :
    (kvs_dev_prog cfg k off data).2.wrapcnt = k.wrapcnt := by
  unfold kvs_dev_prog
  split
  · rfl
  · split
    · rfl
    · split <;> rfl

theorem prog_comp_wrap (cfg : Cfg) (k : Kvs) (off : Nat) (data : List Nat) :
    (prog_comp cfg k off data).2.wrapcnt = k.wrapcnt := by
  unfold prog_comp
  have h := kvs_dev_prog_wrap cfg k off data
  generalize kvs_dev_prog cfg k off data = r at h ⊢
  obtain ⟨rc, k1⟩ := r
  dsimp only at h ⊢
  split <;> exact h

theorem kvs_dev_sync_wrap (cfg : Cfg) (k : Kvs) :
    (kvs_dev_sync cfg k).2.wrapcnt = k.wrapcnt := by
  unfold kvs_dev_sync
  split
  · rfl
  · split
    · rfl
    · split <;> rfl

theorem entry_write_rem_wrap (cfg : Cfg) (k : Kvs) (off rem : Nat) (data : List Nat) :
    (entry_write_rem cfg k off rem data).2.1.wrapcnt = k.wrapcnt := by
  unfold entry_write_rem
  split
  · dsimp only
    generalize memWrite k.pbuf (cfg.psz - rem) (data.take (KVS_MIN data.length rem)) = pb
    split
    · have h := prog_comp_wrap cfg { k with pbuf := pb } off (pb.take cfg.psz)
      generalize prog_comp cfg { k with pbuf := pb } off (pb.take cfg.psz) = r at h ⊢
      obtain ⟨rc, k2⟩ := r
      dsimp only at h ⊢
      split <;> exact h
    · rfl
  · rfl

theorem entry_write_direct_wrap (cfg : Cfg) (k : Kvs) (off : Nat) (data : List Nat) :
    (entry_write_direct cfg k off data).2.1.wrapcnt = k.wrapcnt := by
  unfold entry_write_direct
  split
  · dsimp only
    have h := prog_comp_wrap cfg k off (data.take (KVS_ALIGNDOWN data.length cfg.psz))
    generalize prog_comp cfg k off (data.take (KVS_ALIGNDOWN data.length cfg.psz)) = r at h ⊢
    obtain ⟨rc, k2⟩ := r
    dsimp only at h ⊢
    split <;> exact h
  · rfl

theorem entry_write_tail_wrap (k : Kvs) (data : List Nat) :
    (entry_write_tail k data).wrapcnt = k.wrapcnt := by
  unfold entry_write_tail
  split <;> rfl

theorem entry_write_wrap (cfg : Cfg) (k : Kvs) (ent : Ent) (off : Nat) (data : List Nat) :
    (entry_write cfg k ent off data).2.wrapcnt = k.wrapcnt := by
  unfold entry_write
  dsimp only
  split
  · rfl
  · split
    · rfl
    · have h1 := entry_write_rem_wrap cfg k (ent.start + KVS_ALIGNDOWN off cfg.psz)
        (KVS_ALIGNUP off cfg.psz - off) data
      generalize entry_write_rem cfg k (ent.start + KVS_ALIGNDOWN off cfg.psz)
        (KVS_ALIGNUP off cfg.psz - off) data = r at h1 ⊢
      obtain ⟨rc1, k1, off2, data2⟩ := r
      dsimp only at h1 ⊢
      split
      · exact h1
      · have h2 := entry_write_direct_wrap cfg k1 off2 data2
        generalize entry_write_direct cfg k1 off2 data2 = r2 at h2 ⊢
        obtain ⟨rc2, k2, data3⟩ := r2
        dsimp only at h2 ⊢
        split
        · exact h2.trans h1
        · exact (entry_write_tail_wrap k2 data3).trans (h2.trans h1)

theorem entry_write_fill_wrap (cfg : Cfg) (k : Kvs) (ent : Ent) (off : Nat) :
    (entry_write_fill cfg k ent off).2.wrapcnt = k.wrapcnt := by
  unfold entry_write_fill
  dsimp only
  split
  · rfl
  · split
    · rfl
    · generalize memWrite k.pbuf (cfg.psz - (KVS_ALIGNUP off cfg.psz - off))
        (List.replicate (KVS_ALIGNUP off cfg.psz - off) KVS_FILLCHAR) = pb
      have h := kvs_dev_prog_wrap cfg { k with pbuf := pb }
        (ent.start + KVS_ALIGNDOWN off cfg.psz) (pb.take cfg.psz)
      generalize kvs_dev_prog cfg { k with pbuf := pb }
        (ent.start + KVS_ALIGNDOWN off cfg.psz) (pb.take cfg.psz) = r at h ⊢
      obtain ⟨rc, k2⟩ := r
      dsimp only at h ⊢
      split <;> exact h

theorem entry_write_data_loop_wrap (cfg : Cfg) (ent : Ent) (dstart : Nat) (rd : ReadCb) :
    ∀ (fuel : Nat) (k : Kvs) (crc off len : Nat),
      (entry_write_data_loop cfg ent dstart rd fuel k crc off len).2.1.wrapcnt = k.wrapcnt := by
  intro fuel
  induction fuel with
  | zero => intro k crc off len; rfl
  | succ fuel ih =>
    intro k crc off len
    rw [entry_write_data_loop]
    split
    · rfl
    · dsimp only
      split
      · rfl
      · rename_i buf _
        have h := entry_write_wrap cfg k ent (dstart + off) buf
        generalize entry_write cfg k ent (dstart + off) buf = r at h ⊢
        obtain ⟨rc, k1⟩ := r
        dsimp only at h ⊢
        split
        · exact h
        · exact (ih _ _ _ _).trans h

theorem entry_write_data_wrap (cfg : Cfg) (k : Kvs) (ent : Ent) (dstart : Nat) (rd : ReadCb)
    (crc : Nat) : (entry_write_data cfg k ent dstart rd crc).2.1.wrapcnt = k.wrapcnt :=
  entry_write_data_loop_wrap cfg ent dstart rd _ k crc 0 _

theorem entry_write_crc_wrap (cfg : Cfg) (k : Kvs) (ent : Ent) (off crc : Nat) :
    (entry_write_crc cfg k ent off crc).2.wrapcnt = k.wrapcnt := by
  unfold entry_write_crc
  have h := entry_write_wrap cfg k ent off (put_le32 crc)
  generalize entry_write cfg k ent off (put_le32 crc) = r at h ⊢
  obtain ⟨rc, k1⟩ := r
  dsimp only at h ⊢
  split
  · exact h
  · exact (entry_write_fill_wrap cfg k1 ent _).trans h

theorem entry_set_info_wrap (cfg : Cfg) (k : Kvs) (ent : Ent) (kl vl : Nat) :
    (entry_set_info cfg k ent kl vl).2.1.wrapcnt = k.wrapcnt := by
  unfold entry_set_info
  dsimp only
  split <;> rfl

theorem entry_write_hdr_wrap (cfg : Cfg) (k : Kvs) (ent : Ent) (kl vl : Nat) :
    (entry_write_hdr cfg k ent kl vl).2.1.wrapcnt = k.wrapcnt := by
  unfold entry_write_hdr
  have h1 := entry_set_info_wrap cfg k ent kl vl
  generalize entry_set_info cfg k ent kl vl = r at h1 ⊢
  obtain ⟨rc, k1, ent1, hdr⟩ := r
  dsimp only at h1 ⊢
  split
  · exact h1
  · have h2 := entry_write_wrap cfg k1 ent1 0 hdr
    generalize entry_write cfg k1 ent1 0 hdr = r2 at h2 ⊢
    obtain ⟨rc1, k2⟩ := r2
    exact h2.trans h1

theorem kvs_meta_write_cookie_wrap (cfg : Cfg) (k : Kvs) (e : Ent) (off crc : Nat) :
    (kvs_meta_write_cookie cfg k e off crc).2.wrapcnt = k.wrapcnt := by
  unfold kvs_meta_write_cookie
  split
  · split
    · rename_i cookie _ _
      have h := entry_write_wrap cfg k e off (cookie.take k.csz)
      generalize entry_write cfg k e off (cookie.take k.csz) = r at h ⊢
      obtain ⟨rc, k1⟩ := r
      dsimp only at h ⊢
      split
      · exact h
      · exact (entry_write_crc_wrap cfg k1 e _ _).trans h
    · exact entry_write_crc_wrap cfg k e _ _
  · exact entry_write_crc_wrap cfg k e _ _

theorem kvs_meta_write_wrap (cfg : Cfg) (k : Kvs) :
    (kvs_meta_write cfg k).2.wrapcnt = k.wrapcnt := by
  unfold kvs_meta_write
  split
  · rfl
  · have h1 := entry_write_hdr_wrap cfg k { start := 0, next := 0, he_hdr := 0 } 0
      (KVS_WRAPCNTSIZE + k.csz)
    generalize entry_write_hdr cfg k { start := 0, next := 0, he_hdr := 0 } 0
      (KVS_WRAPCNTSIZE + k.csz) = r at h1 ⊢
    obtain ⟨rc, k1, e⟩ := r
    dsimp only at h1 ⊢
    split
    · exact h1
    · have h2 := entry_write_wrap cfg k1 e KVS_HDRSIZE (put_le32 k.wrapcnt)
      generalize entry_write cfg k1 e KVS_HDRSIZE (put_le32 k.wrapcnt) = r2 at h2 ⊢
      obtain ⟨rc1, k2⟩ := r2
      dsimp only at h2 ⊢
      split
      · exact h2.trans h1
      · exact (kvs_meta_write_cookie_wrap cfg k2 e _ _).trans (h2.trans h1)

theorem entry_append_body_wrap (cfg : Cfg) (k : Kvs) (ent : Ent) (krd vrd : ReadCb) :
    (entry_append_body cfg k ent krd vrd).2.1.wrapcnt = k.wrapcnt := by
  unfold entry_append_body
  have h1 := entry_write_hdr_wrap cfg k ent krd.len vrd.len
  generalize entry_write_hdr cfg k ent krd.len vrd.len = r at h1 ⊢
  obtain ⟨rc, k1, ent1⟩ := r
  dsimp only at h1 ⊢
  split
  · exact h1
  · have h2 := entry_write_data_wrap cfg k1 ent1 KVS_HDRSIZE krd KVS_KVCRCINIT
    generalize entry_write_data cfg k1 ent1 KVS_HDRSIZE krd KVS_KVCRCINIT = r2 at h2 ⊢
    obtain ⟨rc1, k2, crc1⟩ := r2
    dsimp only at h2 ⊢
    split
    · exact h2.trans h1
    · have h3 := entry_write_data_wrap cfg k2 ent1 (KVS_HDRSIZE + entry_get_klen ent1) vrd crc1
      generalize entry_write_data cfg k2 ent1 (KVS_HDRSIZE + entry_get_klen ent1) vrd crc1
        = r3 at h3 ⊢
      obtain ⟨rc2, k3, crc2⟩ := r3
      dsimp only at h3 ⊢
      split
      · exact h3.trans (h2.trans h1)
      · have h4 := entry_write_crc_wrap cfg k3 ent1
          (KVS_HDRSIZE + entry_get_klen ent1 + entry_get_vlen ent1) crc2
        generalize entry_write_crc cfg k3 ent1
          (KVS_HDRSIZE + entry_get_klen ent1 + entry_get_vlen ent1) crc2 = r4 at h4 ⊢
        obtain ⟨rc3, k4⟩ := r4
        dsimp only at h4 ⊢
        split
        · exact h4.trans (h3.trans (h2.trans h1))
        · have h5 := kvs_dev_sync_wrap cfg k4
          generalize kvs_dev_sync cfg k4 = r5 at h5 ⊢
          obtain ⟨rc4, k5⟩ := r5
          exact h5.trans (h4.trans (h3.trans (h2.trans h1)))

/-- `entry_append` leaves the wrap counter alone. -/
theorem entry_append_wrap (cfg : Cfg) (k : Kvs) (ent : Ent) (krd vrd : ReadCb) :
    (entry_append cfg k ent krd vrd).2.1.wrapcnt = k.wrapcnt := by
  unfold entry_append
  have h1 := kvs_meta_write_wrap cfg k
  generalize kvs_meta_write cfg k = r at h1 ⊢
  obtain ⟨rc, k1⟩ := r
  dsimp only at h1 ⊢
  split
  · exact h1
  · exact (entry_append_body_wrap cfg k1 ent krd vrd).trans h1

theorem entry_copy_wrap (cfg : Cfg) (k : Kvs) (e : Ent) :
    (entry_copy cfg k e).2.wrapcnt = k.wrapcnt := by
  unfold entry_copy
  exact entry_append_wrap cfg k _ _ _

/-- What `wblock_advance` does to the cursor and the wrap counter. -/
theorem wblock_advance_spec (cfg : Cfg) (k : Kvs) (hbl : k.bend ≤ cfg.bsz * cfg.bcnt) :
    (wblock_advance cfg k).bend
      = (if k.bend = cfg.bsz * cfg.bcnt then cfg.bsz else k.bend + cfg.bsz) ∧
    (wblock_advance cfg k).pos = (wblock_advance cfg k).bend - cfg.bsz ∧
    (wblock_advance cfg k).wrapcnt
      = (if (wblock_advance cfg k).pos = 0 then (k.wrapcnt + 1) % 4294967296
         else k.wrapcnt) := by
  unfold wblock_advance
  dsimp only
  rw [block_advance_one]
  refine ⟨?_, rfl, rfl⟩
  by_cases hfin : k.bend = cfg.bsz * cfg.bcnt
  · rw [if_pos hfin, if_pos (by omega)]
    omega
  · rw [if_neg hfin, if_neg (by omega)]

/-- Below its last value the wrap counter goes up by at most one in `wblock_advance`. -/
theorem wblock_advance_wrap (cfg : Cfg) (k : Kvs) (hw : k.wrapcnt + 1 < 4294967296) :
    k.wrapcnt ≤ (wblock_advance cfg k).wrapcnt ∧
    (wblock_advance cfg k).wrapcnt ≤ k.wrapcnt + 1 := by
  unfold wblock_advance
  dsimp only
  split
  · rw [u32_of_lt _ hw]
    omega
  · omega

theorem copy_loop_wrap (cfg : Cfg) (e : Ent) :
    ∀ (n : Nat) (k : Kvs) (rc : Int), k.wrapcnt + n < 4294967296 →
      k.wrapcnt ≤ (copy_loop cfg e n k rc).2.wrapcnt ∧
      (copy_loop cfg e n k rc).2.wrapcnt ≤ k.wrapcnt + n := by
  intro n
  induction n with
  | zero => intro k rc _; exact ⟨Nat.le_refl _, Nat.le_refl _⟩
  | succ n ih =>
    intro k rc hw
    rw [copy_loop]
    have h1 := entry_copy_wrap cfg k e
    generalize entry_copy cfg k e = r at h1 ⊢
    obtain ⟨rc1, k1⟩ := r
    dsimp only at h1 ⊢
    split
    · dsimp only
      omega
    · obtain ⟨a1, a2⟩ := wblock_advance_wrap cfg k1 (by omega)
      obtain ⟨b1, b2⟩ := ih (wblock_advance cfg k1) rc1 (by omega)
      omega

theorem copy_cb_wrap (cfg : Cfg) (k : Kvs) (e : Ent) (st : Unit) (rc : Int) (k2 : Kvs)
    (st2 : Unit) (hw : k.wrapcnt + cfg.bspr < 4294967296)
    (hcall : copy_cb cfg k e st = some (rc, k2, st2)) :
    k.wrapcnt ≤ k2.wrapcnt ∧ k2.wrapcnt ≤ k.wrapcnt + cfg.bspr := by
  unfold copy_cb at hcall
  split at hcall
  · injection hcall with hcall
    injection hcall with _ hcall
    injection hcall with hcall _
    rw [← hcall]
    omega
  · have h1 := copy_loop_wrap cfg e cfg.bspr k 0 hw
    generalize copy_loop cfg e cfg.bspr k 0 = r at h1 hcall
    obtain ⟨rc1, k1⟩ := r
    dsimp only at h1 hcall
    injection hcall with hcall
    injection hcall with _ hcall
    injection hcall with hcall _
    rw [← hcall]
    exact h1

/-- A property with a budget that every call of the callback lowers by one holds after a
scan of `fuel` rounds that starts with the budget `fuel`. -/
theorem walk_budget {σ : Type} (cfg : Cfg) (rdkey : ReadCb) (cb : Cb σ) (stop : Nat)
    (P : Nat → Kvs → Prop) (hmono : ∀ n n2 k, n2 ≤ n → P n k → P n2 k)
    (hcb : ∀ (n : Nat) (k : Kvs) (e : Ent) (st : σ) (rc : Int) (k2 : Kvs) (st2 : σ),
      P (n + 1) k → cb k e st = some (rc, k2, st2) → P n k2) :
    ∀ (fuel : Nat) (k : Kvs) (ent : Ent) (wc : Nat) (st : σ), P fuel k →
      P 0 (walk cfg rdkey cb stop fuel k ent wc st).kvs := by
  intro fuel
  induction fuel with
  | zero => intro k ent wc st hP; exact hP
  | succ fuel ih =>
    intro k ent wc st hP
    have hP0 : P 0 k := hmono _ _ k (Nat.zero_le _) hP
    have hPf : P fuel k := hmono _ _ k (Nat.le_succ _) hP
    rw [walk]
    dsimp only
    generalize (if ent.next < cfg.bcnt * cfg.bsz then ent.next else 0) = s0
    generalize entry_get_info cfg k { start := s0, next := ent.next, he_hdr := ent.he_hdr } = gi
    obtain ⟨rc0, ent1⟩ := gi
    dsimp only
    by_cases h1 : s0 = stop
    · rw [if_pos h1]; exact hP0
    rw [if_neg h1]
    by_cases h2 : rc0 ≠ 0
    · rw [if_pos h2]
      split
      · exact ih _ _ _ _ hPf
      · exact hP0
    rw [if_neg h2]
    generalize (if ent1.start &&& (cfg.bsz - 1) = 0 then entry_get_wrapcnt k ent1 wc
      else wc) = wc1
    by_cases h3 : ent1.start &&& (cfg.bsz - 1) = 0 ∧ u32 (wc1 + 1) < k.wrapcnt
    · rw [if_pos h3]
      by_cases h4 : u32 (ent1.start + cfg.bsz) ≠ stop
      · rw [if_pos h4]; exact ih _ _ _ _ hPf
      · rw [if_neg h4]; exact hP0
    rw [if_neg h3]
    by_cases h5 : differ k { ctx := .ent ent1, off := 0, len := rdkey.len } rdkey = true ∨
        ¬ entry_kvcrc_ok k ent1 = true
    · rw [if_pos h5]
      by_cases h6 : ent1.next ≠ stop
      · rw [if_pos h6]; exact ih _ _ _ _ hPf
      · rw [if_neg h6]; exact hP0
    rw [if_neg h5]
    cases hcall : cb k ent1 st with
    | none => exact hP0
    | some r =>
      obtain ⟨rc, k1, st1⟩ := r
      have hP1 := hcb fuel k ent1 st rc k1 st1 hP hcall
      dsimp only
      by_cases h7 : rc ≠ 0
      · rw [if_pos h7]; exact hmono _ _ k1 (Nat.zero_le _) hP1
      · rw [if_neg h7]
        by_cases h6 : ent1.next ≠ stop
        · rw [if_pos h6]; exact ih _ _ _ _ hP1
        · rw [if_neg h6]; exact hmono _ _ k1 (Nat.zero_le _) hP1

theorem unique_cb_budget {σ : Type} (cfg : Cfg) (fuel : Nat) (cb : Cb σ) (P Q : Kvs → Prop)
    (hPQ : ∀ k, P k → Q k)
    (hcb : ∀ (k : Kvs) (e : Ent) (st : σ) (rc : Int) (k2 : Kvs) (st2 : σ), P k →
      cb k e st = some (rc, k2, st2) → Q k2)
    (k : Kvs) (e : Ent) (st : σ) (rc : Int) (k2 : Kvs) (st2 : σ) (hP : P k)
    (h : unique_cb cfg fuel cb k e st = some (rc, k2, st2)) : Q k2 := by
  unfold unique_cb at h
  split at h
  · injection h with h; injection h with _ h; injection h with h _; rw [← h]; exact hPQ k hP
  · dsimp only at h
    split at h
    · cases h
    · split at h
      · exact hcb k e st rc k2 st2 hP h
      · injection h with h; injection h with _ h; injection h with h _; rw [← h]
        exact hPQ k hP

/-- `compact` raises the wrap counter by at most `1 + fuel * bspr` and does not lower it
as long as it stays below `2^32`. -/
theorem compact_wrap (cfg : Cfg) (k : Kvs) (stop fuel : Nat) (rc : Int) (k2 : Kvs)
    (hw : k.wrapcnt + (1 + fuel * cfg.bspr) < 4294967296)
    (hr : compact cfg k stop fuel = some (rc, k2)) :
    k.wrapcnt ≤ k2.wrapcnt ∧ k2.wrapcnt ≤ k.wrapcnt + (1 + fuel * cfg.bspr) := by
  unfold compact walk_unique at hr
  dsimp only at hr
  obtain ⟨a1, a2⟩ := wblock_advance_wrap cfg k (by omega)
  have hwalk := walk_budget cfg { ctx := .ptr [], off := 0, len := 0 }
    (unique_cb cfg fuel (copy_cb cfg)) stop
    (fun n k1 => k.wrapcnt ≤ k1.wrapcnt ∧
      k1.wrapcnt + n * cfg.bspr ≤ k.wrapcnt + (1 + fuel * cfg.bspr))
    (by
      intro n n2 k1 hle h
      have : n2 * cfg.bspr ≤ n * cfg.bspr := Nat.mul_le_mul_right _ hle
      exact ⟨h.1, by omega⟩)
    (by
      intro n k1 e st rc1 k3 st3 hP hcall
      have hs : (n + 1) * cfg.bspr = n * cfg.bspr + cfg.bspr := by
        rw [Nat.add_mul, Nat.one_mul]
      exact unique_cb_budget cfg fuel (copy_cb cfg)
        (fun k1 => k.wrapcnt ≤ k1.wrapcnt ∧
          k1.wrapcnt + (n + 1) * cfg.bspr ≤ k.wrapcnt + (1 + fuel * cfg.bspr))
        (fun k1 => k.wrapcnt ≤ k1.wrapcnt ∧
          k1.wrapcnt + n * cfg.bspr ≤ k.wrapcnt + (1 + fuel * cfg.bspr))
        (fun k1 h => ⟨h.1, by omega⟩)
        (fun k1 e st rc1 k3 st3 h hc => by
          obtain ⟨c1, c2⟩ := copy_cb_wrap cfg k1 e st rc1 k3 st3 (by omega) hc
          exact ⟨by omega, by omega⟩)
        k1 e st rc1 k3 st3 hP hcall)
    fuel (wblock_advance cfg k)
    { start := 0, next := block_advance_n cfg k.bend cfg.bspr, he_hdr := 0 } cfg.uninit ()
    ⟨a1, by omega⟩
  split at hr
  · cases hr
  · injection hr with hr
    injection hr with _ hr
    rw [← hr]
    exact ⟨hwalk.1, by have := hwalk.2; omega⟩

theorem kvs_write_loop_wrap (cfg : Cfg) (key value : List Nat) (fuel : Nat) :
    ∀ (cnt : Nat) (k : Kvs) (ent : Ent) (rc : Int) (k2 : Kvs),
      k.wrapcnt + cnt * (1 + fuel * cfg.bspr) < 4294967296 →
      kvs_write_loop cfg key value fuel cnt k ent = some (rc, k2) →
      k.wrapcnt ≤ k2.wrapcnt := by
  intro cnt
  induction cnt with
  | zero =>
    intro k ent rc k2 _ hr
    simp only [kvs_write_loop, Option.some.injEq, Prod.mk.injEq] at hr
    rw [← hr.2]
  | succ cnt ih =>
    intro k ent rc k2 hw hr
    have hs : (cnt + 1) * (1 + fuel * cfg.bspr)
        = cnt * (1 + fuel * cfg.bspr) + (1 + fuel * cfg.bspr) := by
      rw [Nat.add_mul, Nat.one_mul]
    rw [kvs_write_loop] at hr
    have h1 : (entry_add cfg k ent key value).2.1.wrapcnt = k.wrapcnt := by
      unfold entry_add
      exact entry_append_wrap cfg k _ _ _
    generalize entry_add cfg k ent key value = r at h1 hr
    obtain ⟨rc1, k1, ent1⟩ := r
    dsimp only at h1 hr
    by_cases h0 : rc1 = 0
    · rw [if_pos h0] at hr
      simp only [Option.some.injEq, Prod.mk.injEq] at hr
      rw [← hr.2, h1]
    · rw [if_neg h0] at hr
      cases hc : compact cfg k1 (block_advance_n cfg k1.bend (cfg.bspr + 1)) fuel with
      | none => rw [hc] at hr; cases hr
      | some r2 =>
        obtain ⟨rc2, k3⟩ := r2
        rw [hc] at hr
        obtain ⟨c1, c2⟩ := compact_wrap cfg k1 _ fuel rc2 k3 (by omega) hc
        have := ih k3 ent1 rc k2 (by omega) hr
        omega

/-- `kvs_write` does not lower the wrap counter as long as it stays below `2^32`. -/
theorem kvs_write_wrap (cfg : Cfg) (k : Kvs) (key value : List Nat) (fuel : Nat) (rc : Int)
    (k2 : Kvs) (hw : k.wrapcnt + cfg.bcnt * (1 + fuel * cfg.bspr) < 4294967296)
    (hr : kvs_write cfg k key value fuel = some (rc, k2)) : k.wrapcnt ≤ k2.wrapcnt := by
  unfold kvs_write at hr
  split at hr
  · simp only [Option.some.injEq, Prod.mk.injEq] at hr
    rw [← hr.2]
  · split at hr
    · cases hr
    · rcases ite_bool_cases _ _ _ _ hr with h1 | h1
      · simp only [Option.some.injEq, Prod.mk.injEq] at h1
        rw [← h1.2]
      · exact kvs_write_loop_wrap cfg key value fuel _ _ _ _ _ hw h1

theorem kvs_compact_wrap (cfg : Cfg) (k : Kvs) (fuel : Nat) (rc : Int) (k2 : Kvs)
    (hw : k.wrapcnt + (1 + fuel * cfg.bspr) < 4294967296)
    (hr : kvs_compact cfg k fuel = some (rc, k2)) : k.wrapcnt ≤ k2.wrapcnt := by
  unfold kvs_compact at hr
  split at hr
  · simp only [Option.some.injEq, Prod.mk.injEq] at hr
    rw [← hr.2]
  · exact (compact_wrap cfg k _ fuel rc k2 hw hr).1

/-- C31: header decode.  On a region of `bsz * bcnt < 2^31` bytes with power-of-two sizes,
for every offset `start` at which four header bytes can be read, with `w` the
little-endian word of these bytes: `entry_get_info` returns 0 if and only if the top byte
of `w` is the CRC-8 of its low 24 bits and
`round_up(start + 4 + key_len + val_len + 4, psz)` is at most the end of the block of
`start`; then the entry it returns has this `next`, the header word `w`, key length
`w % 256` (byte 0), value length `w / 256 % 65536` (bytes 1 and 2) and
`start < next ≤ block end`; otherwise it returns `-KVS_ENOENT`. -/
theorem header_decode_iff (cfg : Cfg) (k : Kvs) (e0 : Ent) (hc : SizeOk cfg)
    (hd : k.dev.length = cfg.bsz * cfg.bcnt) (hrd : e0.start + 4 ≤ k.dev.length) :
    ((entry_get_info cfg k e0).1 = 0 ↔
      HdrCrcOk (get_le32 (seg k.dev e0.start 4)) ∧
      specNext cfg e0.start (get_le32 (seg k.dev e0.start 4))
        ≤ e0.start / cfg.bsz * cfg.bsz + cfg.bsz) ∧
    ((entry_get_info cfg k e0).1 = 0 →
      (entry_get_info cfg k e0).2 = specEnt cfg e0.start (get_le32 (seg k.dev e0.start 4)) ∧
      entry_get_klen (entry_get_info cfg k e0).2 = get_le32 (seg k.dev e0.start 4) % 256 ∧
      entry_get_vlen (entry_get_info cfg k e0).2
        = get_le32 (seg k.dev e0.start 4) / 256 % 65536 ∧
      e0.start < (entry_get_info cfg k e0).2.next ∧
      (entry_get_info cfg k e0).2.next ≤ e0.start / cfg.bsz * cfg.bsz + cfg.bsz) ∧
    ((entry_get_info cfg k e0).1 ≠ 0 → (entry_get_info cfg k e0).1 = -KVS_ENOENT) := by
  obtain ⟨jp, hjp, hp⟩ := hc.psz_pow
  obtain ⟨jb, hjb, hb⟩ := hc.bsz_pow
  have hp0 := psz_pos cfg jp hp
  have hsm := hc.small
  have hple := hc.psz_le
  have hbc : 0 < cfg.bcnt := by
    rcases Nat.eq_zero_or_pos cfg.bcnt with h | h
    · rw [h, Nat.mul_zero] at hd; omega
    · exact h
  have hbb : cfg.bsz ≤ cfg.bsz * cfg.bcnt := Nat.le_mul_of_pos_right _ hbc
  have hps : cfg.psz ≤ 1073741824 :=
    Nat.le_trans hple (pow_le_pow30 cfg.bsz jb hb (by omega))
  have hA := alignDown_bsz cfg jb e0.start hb hjb (by omega)
  have hgt := specNext_gt cfg e0.start (get_le32 (seg k.dev e0.start 4)) hp0
  unfold entry_get_info
  dsimp only
  rw [hA]
  generalize hE : ({ e0 with next := e0.start / cfg.bsz * cfg.bsz + cfg.bsz } : Ent) = e1
  have hs1 : e1.start = e0.start := by rw [← hE]
  have hn1 : e1.next = e0.start / cfg.bsz * cfg.bsz + cfg.bsz := by rw [← hE]
  by_cases hblk : e0.start + 4 ≤ e0.start / cfg.bsz * cfg.bsz + cfg.bsz
  · rw [entry_read_ok k e1 0 KVS_HDRSIZE (by unfold KVS_HDRSIZE; omega)
      (by unfold KVS_HDRSIZE; omega) (by unfold KVS_HDRSIZE; omega)]
    dsimp only
    rw [hs1, Nat.add_zero]
    unfold KVS_HDRSIZE
    generalize hH : seg k.dev e0.start 4 = hdr at hgt ⊢
    obtain ⟨a1, a2, a3⟩ := entry_get_param_decode cfg e1 hdr jp hp hjp hps (by omega)
    rw [hs1, hn1] at a1 a2
    rw [hs1] at a3
    by_cases hok : HdrCrcOk (get_le32 hdr) ∧
        specNext cfg e0.start (get_le32 hdr) ≤ e0.start / cfg.bsz * cfg.bsz + cfg.bsz
    · rw [a1 hok]
      dsimp only
      rw [if_neg (fun h => h rfl)]
      dsimp only
      refine ⟨⟨fun _ => hok, fun _ => rfl⟩, fun _ => ⟨rfl, ?_, ?_, ?_, hok.2⟩,
        fun h => absurd rfl h⟩
      · rw [entry_get_klen_eq]; rfl
      · rw [entry_get_vlen_eq]; rfl
      · exact a3
    · have hr := a2 hok
      generalize entry_get_param cfg e1 hdr = r at hr
      obtain ⟨rc, e2⟩ := r
      dsimp only at hr ⊢
      rw [hr, if_pos (show (-KVS_EINVAL : Int) ≠ 0 by decide)]
      dsimp only
      refine ⟨⟨fun h => absurd h (show ¬ (-KVS_ENOENT : Int) = 0 by decide),
        fun h => absurd h hok⟩,
        fun h => absurd h (show ¬ (-KVS_ENOENT : Int) = 0 by decide), fun _ => rfl⟩
  · have hrd2 : entry_read k e1 0 KVS_HDRSIZE = .error (-KVS_EINVAL) := by
      unfold entry_read KVS_HDRSIZE
      rw [u32_of_lt (e1.start + 0 + 4) (by omega), if_pos (by omega)]
    rw [hrd2]
    dsimp only
    refine ⟨⟨fun h => absurd h (show ¬ (-KVS_ENOENT : Int) = 0 by decide),
      fun h => ?_⟩,
      fun h => absurd h (show ¬ (-KVS_ENOENT : Int) = 0 by decide), fun _ => rfl⟩
    have := h.2
    omega

set_option maxRecDepth 100000 in
/-- Witness of C31 on the store `exK1`: the header of the entry `"a" = [1]` at offset 12. -/
theorem header_decode_iff_witness :
    ((entry_get_info exCfg exK1 { start := 12, next := 0, he_hdr := 0 }).1 = 0 ↔
      HdrCrcOk (get_le32 (seg exK1.dev 12 4)) ∧
      specNext exCfg 12 (get_le32 (seg exK1.dev 12 4)) ≤ 12 / 64 * 64 + 64) ∧
    (entry_get_info exCfg exK1 { start := 12, next := 0, he_hdr := 0 }).1 = 0 ∧
    specEnt exCfg 12 (get_le32 (seg exK1.dev 12 4))
      = { start := 12, next := 24, he_hdr := 2097152257 } :=
  ⟨(header_decode_iff exCfg exK1 { start := 12, next := 0, he_hdr := 0 }
      ⟨⟨2, by decide, by decide⟩, ⟨6, by decide, by decide⟩, by decide, by decide⟩
      (by decide) (by decide)).1, by decide, by decide⟩

/-- A corrupt newest entry away from the last value of the wrap counter.  For every device
content and every callback, `walk` gives the same result with the callback
`crcGuard cb`, which does not return on an entry whose stored CRC-32 is not there or is
not the CRC-32 of its key and value bytes.  On a store with the invariant `Inv` and a
wrap counter below `0xFFFFFFFF` whose newest entry `e` has a header that decodes and a
CRC-32 that does not fit, `kvs_read` of every key is what it is on the store as it was
before `e` was appended (write position at the start of `e`). -/
theorem bad_crc_last_entry {cfg : Cfg} {k : Kvs} (hc : CfgOk cfg) (hi : Inv cfg k)
    (hw : k.wrapcnt < 4294967295) (es : List Ent) (e : Ent)
    (hch : ChainL cfg k (k.bend - cfg.bsz) (es ++ [e]) k.pos) (hho : HeadOk k (es ++ [e]))
    (hbad : entry_kvcrc_ok k e = false) (key : List Nat) (len fuel : Nat)
    (hf : es.length + 2 ≤ fuel) :
    (∀ (σ : Type) (rdkey : ReadCb) (cb : Cb σ) (stop fuel2 : Nat) (k1 : Kvs) (ent : Ent)
      (wc : Nat) (st : σ), walk cfg rdkey (crcGuard cb) stop fuel2 k1 ent wc st
        = walk cfg rdkey cb stop fuel2 k1 ent wc st) ∧
    (∀ (k1 : Kvs) (e1 : Ent), e1.start < 2147483648 →
      (entry_kvcrc_ok k1 e1 = true ↔ CrcGood k1 e1)) ∧
    ¬ CrcGood k e ∧
    kvs_read cfg k key len fuel = kvs_read cfg { k with pos := e.start } key len fuel := by
  have hes : e.start < 2147483648 := by
    have h1 := hch.bounds e (by simp)
    have h2 := hc.small
    have h3 := hi.bend_le
    have h4 := hi.pos_le
    omega
  refine ⟨fun σ rdkey cb stop fuel2 k1 ent wc st =>
    walk_crc_guard cfg (by have := hc.small; rw [Nat.mul_comm]; exact this) rdkey cb stop
      fuel2 k1 ent wc st,
    entry_kvcrc_ok_iff, ?_,
    kvs_read_corrupt_last hc hi hw es e hch hho hbad key len fuel hf⟩
  intro hg
  rw [(entry_kvcrc_ok_iff k e hes).2 hg] at hbad
  exact absurd hbad (by simp)

set_option maxRecDepth 100000 in
/-- The store `crS`, the store `exK2` with a changed byte in the value of its newest entry
`"a" = [2, 3]`: `kvs_read("a")` returns the value `[1]` written before. -/
theorem bad_crc_last_entry_witness :
    crS.dev = exK2.dev.set 29 0 ∧
    entry_kvcrc_ok crS { start := 24, next := 36, he_hdr := 3221225985 } = false ∧
    kvs_read exCfg exK2 [97] 2 8 = some (0, [2, 3]) ∧
    kvs_read exCfg crS [97] 1 8 = some (0, [1]) ∧
    kvs_read exCfg crS [97] 1 8 = kvs_read exCfg { crS with pos := 24 } [97] 1 8 :=
  ⟨by decide, by decide, by decide, by decide,
    (bad_crc_last_entry exCfg_ok crS_inv (by decide) _ _ crS_chain crS_head (by decide) [97] 1 8
      (by decide)).2.2.2⟩

set_option maxRecDepth 100000 in
/-- C34: head block discovery.  On the region `hbRaw` block 0 starts with a block header
entry (key length 0) that carries the wrap counter 5 and block 1 starts with a valid
entry of key length 1; `kvs_set_data_bend` selects block 1 (`pos = 64`, `bend = 128`),
which has no block header, with the counter 5 of block 0.  On the region `nhRaw`, which
has no block header at all, it leaves in `wrapcnt` what the uninitialised local
`wrapcnt` held: 0 with `exCfg`, 7 with `exCfg7`. -/
theorem head_block_without_header :
    entry_get_info exCfg hbRaw { start := 0, next := 0, he_hdr := 0 }
      = (0, { start := 0, next := 12, he_hdr := 2868904960 }) ∧
    entry_get_klen { start := 0, next := 12, he_hdr := 2868904960 } = 0 ∧
    entry_get_wrapcnt hbRaw { start := 0, next := 12, he_hdr := 2868904960 } 0 = 5 ∧
    entry_get_info exCfg hbRaw { start := 64, next := 0, he_hdr := 0 }
      = (0, { start := 64, next := 76, he_hdr := 2097152257 }) ∧
    entry_get_klen { start := 64, next := 76, he_hdr := 2097152257 } = 1 ∧
    ((kvs_set_data_bend exCfg hbRaw).pos, (kvs_set_data_bend exCfg hbRaw).bend,
      (kvs_set_data_bend exCfg hbRaw).wrapcnt) = (64, 128, 5) ∧
    entry_get_info exCfg nhRaw { start := 0, next := 0, he_hdr := 0 }
      = (0, { start := 0, next := 12, he_hdr := 2097152257 }) ∧
    (entry_get_info exCfg nhRaw { start := 64, next := 0, he_hdr := 0 }).1 = -KVS_ENOENT ∧
    ((kvs_set_data_bend exCfg nhRaw).pos, (kvs_set_data_bend exCfg nhRaw).bend,
      (kvs_set_data_bend exCfg nhRaw).wrapcnt) = (0, 64, 0) ∧
    ((kvs_set_data_bend exCfg7 nhRaw).pos, (kvs_set_data_bend exCfg7 nhRaw).bend,
      (kvs_set_data_bend exCfg7 nhRaw).wrapcnt) = (0, 64, 7) := by
  refine ⟨?_, ?_, ?_, ?_, ?_, ?_, ?_, ?_, ?_, ?_⟩ <;> decide

set_option maxRecDepth 100000 in
/-- Counterexample to C35: on the store `wrapMax` (write block at the region end, wrap
counter `0xFFFFFFFF`) `wblock_advance` wraps the cursor to offset 0 and the counter to 0,
and `kvs_compact` returns 0 with the wrap counter 0: the counter has decreased. -/
theorem wrap_counter_overflows :
    (wrapMax.bend, wrapMax.pos, wrapMax.wrapcnt) = (128, 64, 4294967295) ∧
    ((wblock_advance exCfg wrapMax).bend, (wblock_advance exCfg wrapMax).pos,
      (wblock_advance exCfg wrapMax).wrapcnt) = (64, 0, 0) ∧
    (kvs_compact exCfg wrapMax 20).map (fun r => (r.1, r.2.pos, r.2.bend, r.2.wrapcnt))
      = some (0, 0, 64, 0) := by
  refine ⟨?_, ?_, ?_⟩ <;> decide

/-- C35 (amended): for every state with `bend` in `[bsz, bsz * bcnt]` and a wrap counter
below `2^32 - 1`, `wblock_advance` sets `bend` to the old `bend + bsz`, or to `bsz` when
the old `bend` is the region end, sets `pos` to the new `bend - bsz`, and increments
`wrapcnt` by exactly one if the new `pos` is 0 and leaves it unchanged otherwise; the new
`pos` is 0 exactly when the old `bend` is the region end, and `entry_append` never changes
`wrapcnt`.  Hence `wrapcnt` does not decrease under `kvs_write`, `kvs_delete` and
`kvs_compact` as long as it cannot pass `2^32 - 1` in the call, which
`wrapcnt + (bcnt + 1) * (1 + fuel * bspr) < 2^32` ensures for a call of at most `fuel`
scan rounds. -/
theorem wrap_counter_advance (cfg : Cfg) (k : Kvs) (hb0 : 0 < cfg.bsz)
    (hbg : cfg.bsz ≤ k.bend) (hbl : k.bend ≤ cfg.bsz * cfg.bcnt)
    (hw : k.wrapcnt < 4294967295) :
    (wblock_advance cfg k).bend
      = (if k.bend = cfg.bsz * cfg.bcnt then cfg.bsz else k.bend + cfg.bsz) ∧
    (wblock_advance cfg k).pos = (wblock_advance cfg k).bend - cfg.bsz ∧
    (wblock_advance cfg k).wrapcnt
      = (if (wblock_advance cfg k).pos = 0 then k.wrapcnt + 1 else k.wrapcnt) ∧
    ((wblock_advance cfg k).pos = 0 ↔ k.bend = cfg.bsz * cfg.bcnt) ∧
    (∀ (e : Ent) (krd vrd : ReadCb),
      (entry_append cfg k e krd vrd).2.1.wrapcnt = k.wrapcnt) ∧
    (∀ (key value : List Nat) (fuel : Nat) (rc : Int) (k2 : Kvs),
      k.wrapcnt + (cfg.bcnt + 1) * (1 + fuel * cfg.bspr) < 4294967296 →
      kvs_write cfg k key value fuel = some (rc, k2) → k.wrapcnt ≤ k2.wrapcnt) ∧
    (∀ (key : List Nat) (fuel : Nat) (rc : Int) (k2 : Kvs),
      k.wrapcnt + (cfg.bcnt + 1) * (1 + fuel * cfg.bspr) < 4294967296 →
      kvs_delete cfg k key fuel = some (rc, k2) → k.wrapcnt ≤ k2.wrapcnt) ∧
    (∀ (fuel : Nat) (rc : Int) (k2 : Kvs),
      k.wrapcnt + (cfg.bcnt + 1) * (1 + fuel * cfg.bspr) < 4294967296 →
      kvs_compact cfg k fuel = some (rc, k2) → k.wrapcnt ≤ k2.wrapcnt) := by
  have hs : ∀ fuel : Nat, (cfg.bcnt + 1) * (1 + fuel * cfg.bspr)
      = cfg.bcnt * (1 + fuel * cfg.bspr) + (1 + fuel * cfg.bspr) := by
    intro fuel
    rw [Nat.add_mul, Nat.one_mul]
  obtain ⟨h1, h2, h3⟩ := wblock_advance_spec cfg k hbl
  have h4 : (wblock_advance cfg k).pos = 0 ↔ k.bend = cfg.bsz * cfg.bcnt := by
    rw [h2, h1]
    by_cases hfin : k.bend = cfg.bsz * cfg.bcnt
    · rw [if_pos hfin]
      exact ⟨fun _ => hfin, fun _ => Nat.sub_self _⟩
    · rw [if_neg hfin]
      exact ⟨fun h => absurd h (by omega), fun h => absurd h hfin⟩
  refine ⟨h1, h2, ?_, h4, fun e krd vrd => entry_append_wrap cfg k e krd vrd,
    fun key value fuel rc k2 hb hr =>
      kvs_write_wrap cfg k key value fuel rc k2 (by have := hs fuel; omega) hr,
    fun key fuel rc k2 hb hr =>
      kvs_write_wrap cfg k key [] fuel rc k2 (by have := hs fuel; omega) hr,
    fun fuel rc k2 hb hr =>
      kvs_compact_wrap cfg k fuel rc k2 (by have := hs fuel; omega) hr⟩
  rw [h3, Nat.mod_eq_of_lt (by omega)]

set_option maxRecDepth 100000 in
/-- Witness of C35 on the store `reS`, whose cursor is at the region end with wrap counter
0: `wblock_advance` moves to block 0 and the counter becomes 1, and so it does in the
write of a new key, which compacts first. -/
theorem wrap_counter_advance_witness :
    (wblock_advance exCfg reS).bend = 64 ∧ (wblock_advance exCfg reS).pos = 0 ∧
    (wblock_advance exCfg reS).wrapcnt = reS.wrapcnt + 1 ∧
    (∃ k2, kvs_write exCfg reS [98] [1] 20 = some (0, k2) ∧ k2.wrapcnt = 1 ∧
      reS.wrapcnt ≤ k2.wrapcnt) :=
  ⟨by decide, by decide, by decide, stOf (kvs_write exCfg reS [98] [1] 20), by decide,
    by decide,
    (wrap_counter_advance exCfg reS (by decide) (by decide) (by decide)
      (by decide)).2.2.2.2.2.1 [98] [1] 20 0 _ (by decide) (by decide)⟩

/-- C36: header encode/decode round trip.  On a store whose cursor satisfies the cursor
invariant (so `pos` is a multiple of `psz`), for key length `kl < 256` and value length
`vl < 65536` for which `entry_set_info` returns 0: `entry_get_param`, applied at the same
start (`e1.start = pos`, with `e1.next` the end of the write block as `entry_get_info`
sets it) to the four header bytes that `entry_set_info` produced, returns 0 and the very
entry of `entry_set_info`: key length `kl`, value length `vl` and
`next = pos + round_up(8 + kl + vl, psz)`. -/
theorem header_round_trip (cfg : Cfg) (k : Kvs) (ent : Ent) (kl vl : Nat) (hc : SizeOk cfg)
    (hcur : CursorOk cfg k) (hk : kl < 256) (hv : vl < 65536)
    (hrc : (entry_set_info cfg k ent kl vl).1 = 0) (e1 : Ent) (hs : e1.start = k.pos)
    (hn : e1.next = k.bend) :
    entry_get_param cfg e1 (entry_set_info cfg k ent kl vl).2.2.2
      = (0, (entry_set_info cfg k ent kl vl).2.2.1) ∧
    entry_get_klen (entry_set_info cfg k ent kl vl).2.2.1 = kl ∧
    entry_get_vlen (entry_set_info cfg k ent kl vl).2.2.1 = vl ∧
    (entry_set_info cfg k ent kl vl).2.2.1.next
      = k.pos + (8 + kl + vl + cfg.psz - 1) / cfg.psz * cfg.psz := by
  obtain ⟨jp, hjp, hp⟩ := hc.psz_pow
  obtain ⟨jb, hjb, hb⟩ := hc.bsz_pow
  have hp0 := psz_pos cfg jp hp
  have hsm := hc.small
  have hple := hc.psz_le
  have hb0 : 0 < cfg.bsz := Nat.lt_of_lt_of_le hp0 hple
  have h1 := hcur.bend_ge
  have h2 := hcur.bend_le
  have h3 := hcur.pos_le
  have hbc : 0 < cfg.bcnt := by
    rcases Nat.eq_zero_or_pos cfg.bcnt with h | h
    · rw [h, Nat.mul_zero] at h2; omega
    · exact h
  have hbb : cfg.bsz ≤ cfg.bsz * cfg.bcnt := Nat.le_mul_of_pos_right _ hbc
  have hps : cfg.psz ≤ 1073741824 :=
    Nat.le_trans hple (pow_le_pow30 cfg.bsz jb hb (by omega))
  have hspec := entry_set_info_spec cfg k ent kl vl hk hv h3 (by omega)
  have hsz : entry_size cfg kl vl = (8 + kl + vl + cfg.psz - 1) / cfg.psz * cfg.psz := by
    rw [entry_size_round_up cfg jp kl vl hp hjp hk hv]
    have : 4 + kl + vl + 4 + cfg.psz - 1 = 8 + kl + vl + cfg.psz - 1 := by omega
    rw [this]
  by_cases hfit : entry_size cfg kl vl > k.bend - k.pos
  · rw [hspec, if_pos hfit] at hrc
    exact absurd hrc (show ¬ (-KVS_ENOSPC : Int) = 0 by decide)
  · rw [hspec, if_neg hfit]
    dsimp only
    obtain ⟨w1, w2, w3, w4⟩ := hdrWord_facts kl vl hk hv
    obtain ⟨a1, -, -⟩ := entry_get_param_decode cfg e1 (put_le32 (hdrWord kl vl)) jp hp hjp hps
      (by omega)
    rw [get_put_le32 _ w1, hs, specNext_aligned cfg k.pos _ hp0 hcur.pos_mod, w3, w4,
      ← hsz, hn] at a1
    refine ⟨?_, hdrWord_klen kl vl _ _ hk hv, hdrWord_vlen kl vl _ _ hk hv, by rw [hsz]⟩
    rw [a1 ⟨(hdr_check_iff _).1 w2, by omega⟩]
    unfold specEnt
    rw [specNext_aligned cfg k.pos _ hp0 hcur.pos_mod, w3, w4, ← hsz]

set_option maxRecDepth 100000 in
/-- Witness of C36: the header of `"a" = [2, 3]` reserved at the write position 24 of the
store `exK1`. -/
theorem header_round_trip_witness :
    (entry_set_info exCfg exK1 wlk0 1 2).1 = 0 ∧
    entry_get_param exCfg { start := 24, next := 64, he_hdr := 0 }
      (entry_set_info exCfg exK1 wlk0 1 2).2.2.2
      = (0, (entry_set_info exCfg exK1 wlk0 1 2).2.2.1) ∧
    entry_get_klen (entry_set_info exCfg exK1 wlk0 1 2).2.2.1 = 1 ∧
    entry_get_vlen (entry_set_info exCfg exK1 wlk0 1 2).2.2.1 = 2 ∧
    (entry_set_info exCfg exK1 wlk0 1 2).2.2.1.next = exK1.pos + (8 + 1 + 2 + 4 - 1) / 4 * 4 :=
  ⟨by decide, header_round_trip exCfg exK1 wlk0 1 2
    ⟨⟨2, by decide, by decide⟩, ⟨6, by decide, by decide⟩, by decide, by decide⟩
    ⟨by decide, by decide, by decide, by decide, by decide, by decide⟩
    (by decide) (by decide) (by decide) { start := 24, next := 64, he_hdr := 0 }
    (by decide) (by decide)⟩

set_option maxRecDepth 100000 in
/-- C38: `kvs_walk_unique` and deleted keys.  The six calls `reOps` on the mounted empty
flash store all return 0 and lead to the store `reS`, whose write position is the end of
the region.  Its newest entry is the tombstone of "a" at `[116, 128)`: `kvs_walk` hands
it to the callback and `kvs_read("a")` returns `-KVS_ENOENT`, but `kvs_walk_unique`
returns 0 without a single call of the callback, for the empty prefix and for the prefix
"a": the scan for later entries that `unique_cb` starts behind the tombstone begins at
offset 0 again, finds the older entry of "a" at offset 76 and ends with `duplicate` set.
On the store `exK3`, whose tombstone of "a" does not end at the end of the region,
`kvs_walk_unique` hands the tombstone to the callback. -/
theorem walk_unique_misses_region_end :
    writeAll exCfg 20 reOps exK0 = some reS ∧
    (reS.pos, reS.bend, exCfg.bsz * exCfg.bcnt) = (128, 128, 128) ∧
    (kvs_walk exCfg reS [] (logCb fun _ _ _ => 0) [] 20).st
      = [({ start := 64, next := 76, he_hdr := 2868904960 }, 0),
         ({ start := 76, next := 116, he_hdr := 4076871425 }, 0),
         ({ start := 116, next := 128, he_hdr := 369098753 }, 0)] ∧
    entry_get_klen { start := 116, next := 128, he_hdr := 369098753 } = 1 ∧
    entry_get_vlen { start := 116, next := 128, he_hdr := 369098753 } = 0 ∧
    seg reS.dev 120 1 = [97] ∧
    kvs_read exCfg reS [97] 1 20 = some (-KVS_ENOENT, []) ∧
    (kvs_walk_unique exCfg reS [] (logCb fun _ _ _ => 0) [] 20).rc = some 0 ∧
    (kvs_walk_unique exCfg reS [] (logCb fun _ _ _ => 0) [] 20).st = [] ∧
    (kvs_walk_unique exCfg reS [97] (logCb fun _ _ _ => 0) [] 20).rc = some 0 ∧
    (kvs_walk_unique exCfg reS [97] (logCb fun _ _ _ => 0) [] 20).st = [] ∧
    (walk exCfg
      { ctx := .ent { start := 116, next := 128, he_hdr := 369098753 }, off := 0, len := 1 }
      (entry_dup_cb { start := 116, next := 128, he_hdr := 369098753 }) reS.pos 20 reS
      { start := 0, next := 128, he_hdr := 0 } 0 false).st = true ∧
    kvs_delete exCfg exK1 [97] 8 = some (0, exK3) ∧
    (exK3.pos, exK3.bend) = (36, 64) ∧
    (kvs_walk_unique exCfg exK3 [97] (logCb fun _ _ _ => 0) [] 20).st
      = [({ start := 24, next := 36, he_hdr := 369098753 }, 0)] ∧
    entry_get_vlen { start := 24, next := 36, he_hdr := 369098753 } = 0 := by
  refine ⟨by decide!, by decide!, by decide!, by decide!, by decide!, by decide!, by decide!,
    by decide!, by decide!, by decide!, by decide!, by decide!, exK3_delete, by decide!,
    by decide!, by decide!⟩

set_option maxRecDepth 100000 in
/-- C39: an all-zero header is a valid header.  The bytes `00 00 00 00` pass the check
of the header CRC, and for a start that is a multiple of the power-of-two `psz` they
decode, when `start + round_up(8, psz)` is inside the bounds handed in, to the entry with
key length 0, value length 0 and `next = start + round_up(8, psz)`; the bytes
`FF FF FF FF` fail the check of the header CRC.  On the EEPROM store `eeW1`, which is what
`kvs_write` makes of the mounted empty region, the four bytes at the write position 28 are
the end mark `00 00 00 00`: `entry_get_info` decodes them to the entry `[28, 36)`,
`kvs_set_data_pos` moves the write position over them to 36, and `walk` from 28 reaches 36
in one round. -/
theorem zero_header_is_entry (cfg : Cfg) (e1 : Ent) (jp : Nat) (hp : cfg.psz = 2 ^ jp)
    (hjp : jp ≤ 30) (hs : e1.start < 2147483648) (hal : e1.start % cfg.psz = 0)
    (hfit : e1.start + (8 + cfg.psz - 1) / cfg.psz * cfg.psz ≤ e1.next) :
    get_le32 [0, 0, 0, 0] = entry_hdr_add_crc (hdr_get_data (get_le32 [0, 0, 0, 0])) ∧
    entry_get_param cfg e1 [0, 0, 0, 0] = (0, specEnt cfg e1.start 0) ∧
    (specEnt cfg e1.start 0).next = e1.start + (8 + cfg.psz - 1) / cfg.psz * cfg.psz ∧
    entry_get_klen (specEnt cfg e1.start 0) = 0 ∧
    entry_get_vlen (specEnt cfg e1.start 0) = 0 ∧
    get_le32 [255, 255, 255, 255]
      ≠ entry_hdr_add_crc (hdr_get_data (get_le32 [255, 255, 255, 255])) ∧
    (∀ e : Ent, entry_get_param cfg e [255, 255, 255, 255] = (-KVS_EINVAL, e)) ∧
    kvs_write eeCfg eeK0 [47, 99, 110, 116] [0, 0, 0, 0] 20 = some (0, eeW1) ∧
    eeW1.pos = 28 ∧ seg eeW1.dev 28 4 = [0, 0, 0, 0] ∧
    entry_get_info eeCfg eeW1 { start := 28, next := 0, he_hdr := 0 }
      = (0, { start := 28, next := 36, he_hdr := 0 }) ∧
    (kvs_set_data_pos eeCfg 5 (kvs_set_data_bend eeCfg eeW1)).map (fun k => k.pos) = some 36 ∧
    (walk eeCfg { ctx := .ptr [], off := 0, len := 0 } (logCb fun _ _ _ => 0) 36 1 eeW1
      { start := 0, next := 28, he_hdr := 0 } 0 []).rc = some 0 := by
  have hp0 := psz_pos cfg jp hp
  have hps : cfg.psz ≤ 1073741824 := by
    rw [hp]
    calc 2 ^ jp ≤ 2 ^ 30 := Nat.pow_le_pow_right (by norm_num) hjp
      _ = 1073741824 := by norm_num
  have hn : specNext cfg e1.start 0 = e1.start + (8 + cfg.psz - 1) / cfg.psz * cfg.psz := by
    rw [specNext_aligned cfg e1.start 0 hp0 hal]
  obtain ⟨a1, -, -⟩ := entry_get_param_decode cfg e1 [0, 0, 0, 0] jp hp (by omega) hps hs
  rw [zero_header_word] at a1
  refine ⟨by decide, a1 ⟨by decide, by rw [hn]; exact hfit⟩, ?_, ?_, ?_,
    by decide, entry_get_param_erased cfg, by decide!, by decide, by decide, by decide,
    by decide, by decide⟩
  · unfold specEnt
    exact hn
  · rw [entry_get_klen_eq]
    show 0 % 256 = 0
    decide
  · rw [entry_get_vlen_eq]
    show 0 / 256 % 65536 = 0
    decide

set_option maxRecDepth 100000 in
/-- Witness of C39: the zero header at offset 24 of a block of `exCfg` that ends at 64. -/
theorem zero_header_is_entry_witness :
    entry_get_param exCfg { start := 24, next := 64, he_hdr := 5 } [0, 0, 0, 0]
      = (0, specEnt exCfg 24 0) ∧
    specEnt exCfg 24 0 = { start := 24, next := 32, he_hdr := 0 } :=
  ⟨(zero_header_is_entry exCfg { start := 24, next := 64, he_hdr := 5 } 2 (by decide)
    (by decide) (by decide) (by decide) (by decide)).2.1, by decide⟩

set_option maxRecDepth 100000 in
/-- C40: scans terminate.  The region `tornRaw` is the erased region with the four header
bytes of the first block header entry programmed (a power cut behind the first program
unit of the first write).  `kvs_mount` returns 0 and gives the store `tornS` with the
wrap counter `0xFFFFFFFF`, whose write position 12 is reached by the entry at offset 0
from the base of block 0.  `walk` takes the header of block 0 for the header of a stale
block (`0xFFFFFFFF + 1 = 0 < 0xFFFFFFFF` in 32 bits) and jumps to offset 64, from there
to the end of the region and to offset 0 again: a scan to the write position that is at a
block base never returns, so no `kvs_read`, no `kvs_write` and no `kvs_walk` returns,
whatever the number of rounds. -/
theorem stale_block_scan_never_ends :
    kvs_mount exCfg tornRaw 10 = some (0, tornS) ∧
    (tornS.pos, tornS.bend, tornS.wrapcnt) = (12, 64, 4294967295) ∧
    entry_get_info exCfg tornS { start := 0, next := 0, he_hdr := 0 }
      = (0, { start := 0, next := 12, he_hdr := 2868904960 }) ∧
    entry_kvcrc_ok tornS { start := 0, next := 12, he_hdr := 2868904960 } = true ∧
    (∀ (σ : Type) (rdkey : ReadCb) (cb : Cb σ) (fuel : Nat) (ent : Ent) (wc : Nat) (st : σ),
      ent.next = 0 ∨ ent.next = 64 ∨ ent.next = 128 →
      (walk exCfg rdkey cb tornS.pos fuel tornS ent wc st).rc = none) ∧
    (∀ (key : List Nat) (len fuel : Nat), kvs_read exCfg tornS key len fuel = none) ∧
    (∀ (key value : List Nat) (fuel : Nat), kvs_write exCfg tornS key value fuel = none) ∧
    (∀ (key : List Nat) (fuel : Nat),
      (kvs_walk exCfg tornS key (logCb fun _ _ _ => 0) [] fuel).rc = none) := by
  refine ⟨by decide, by decide, by decide, by decide,
    fun σ rdkey cb fuel ent wc st h => tornS_walk_loops rdkey cb fuel ent wc st h,
    tornS_read_loops, tornS_write_loops, ?_⟩
  intro key fuel
  have ha : block_advance_n exCfg tornS.bend exCfg.bspr = 128 := by decide
  have hp : tornS.pos = 12 := rfl
  unfold kvs_walk
  rw [if_neg (by decide)]
  dsimp only
  rw [ha, hp]
  exact tornS_walk_loops _ _ fuel _ _ _ (Or.inr (Or.inr rfl))

/-! ## Scans that stay at the block bases -/

/-- A header that is rejected leaves the end of the scanner's entry as it was. -/
theorem entry_get_param_fail_next (cfg : Cfg) (e : Ent) (hdr : List Nat)
    (h : (entry_get_param cfg e hdr).1 ≠ 0) : (entry_get_param cfg e hdr).2.next = e.next := by
  unfold entry_get_param at h ⊢
  dsimp only at h ⊢
  split
  · rfl
  · rename_i h1
    rw [if_neg h1] at h
    split
    · rfl
    · rename_i h2
      rw [if_neg h2] at h
      exact absurd rfl h

/-- A header that does not decode leaves the scanner's entry at the end of the block. -/
theorem entry_get_info_fail_next (cfg : Cfg) (k : Kvs) (e0 : Ent)
    (h : (entry_get_info cfg k e0).1 ≠ 0) :
    (entry_get_info cfg k e0).2.next = KVS_ALIGNDOWN e0.start cfg.bsz + cfg.bsz := by
  unfold entry_get_info at h ⊢
  dsimp only at h ⊢
  generalize entry_read k { e0 with next := KVS_ALIGNDOWN e0.start cfg.bsz + cfg.bsz } 0
      KVS_HDRSIZE = rd at h ⊢
  cases rd with
  | error _ => rfl
  | ok hdr =>
    dsimp only at h ⊢
    have hp := entry_get_param_fail_next cfg
      { e0 with next := KVS_ALIGNDOWN e0.start cfg.bsz + cfg.bsz } hdr
    generalize entry_get_param cfg
      { e0 with next := KVS_ALIGNDOWN e0.start cfg.bsz + cfg.bsz } hdr = r at h hp ⊢
    obtain ⟨rc, e2⟩ := r
    dsimp only at h hp ⊢
    by_cases hrc : rc ≠ 0
    · rw [if_pos hrc]
      exact hp hrc
    · rw [if_neg hrc] at h
      exact absurd rfl h

/-- The wrap counter read from an entry does not depend on the value the scanner held
before, when it does not for the values 0 and 1. -/
theorem entry_get_wrapcnt_const (k : Kvs) (e : Ent)
    (h : entry_get_wrapcnt k e 0 = entry_get_wrapcnt k e 1) (wc : Nat) :
    entry_get_wrapcnt k e wc = entry_get_wrapcnt k e 0 := by
  unfold entry_get_wrapcnt at h ⊢
  split
  · rename_i hk
    rw [if_pos hk, if_pos hk] at h
    exact absurd h (by decide)
  · rename_i hk
    rw [if_neg hk, if_neg hk] at h
    cases hr : entry_data_read k e 0 KVS_WRAPCNTSIZE with
    | error _ =>
      rw [hr] at h
      exact absurd h (show ¬ (0 : Nat) = 1 by decide)
    | ok buf => rfl

/-- A scan that is at a block base and whose stop offset is no block base stays at the
block bases when every block base is passed: it does not return, whatever the number of
rounds. -/
theorem walk_ring_dead {σ : Type} (cfg : Cfg) (k : Kvs) (rdkey : ReadCb) (cb : Cb σ)
    (stop : Nat) (hb : 0 < cfg.bcnt)
    (hd : ∀ i, i < cfg.bcnt → deadBase cfg k (i * cfg.bsz) = true)
    (hstop : ∀ i, i < cfg.bcnt + 1 → stop ≠ i * cfg.bsz) :
    ∀ (fuel : Nat) (ent : Ent) (wc : Nat) (st : σ),
      (∃ i, i < cfg.bcnt + 1 ∧ ent.next = i * cfg.bsz) →
      (walk cfg rdkey cb stop fuel k ent wc st).rc = none := by
  intro fuel
  induction fuel with
  | zero => intro ent wc st _; rfl
  | succ fuel ih =>
    intro ent wc st hn
    obtain ⟨i, hi, hin⟩ := hn
    have hj : ∃ j, j < cfg.bcnt ∧ scanPos cfg ent.next = j * cfg.bsz := by
      unfold scanPos
      by_cases hlt : ent.next < cfg.bcnt * cfg.bsz
      · rw [if_pos hlt]
        refine ⟨i, ?_, hin⟩
        rw [hin] at hlt
        exact Nat.lt_of_mul_lt_mul_right hlt
      · rw [if_neg hlt]
        exact ⟨0, hb, (Nat.zero_mul _).symm⟩
    obtain ⟨j, hjb, hsp⟩ := hj
    have hdj := hd j hjb
    unfold deadBase at hdj
    simp only [Bool.and_eq_true, Bool.or_eq_true, decide_eq_true_eq] at hdj
    obtain ⟨⟨hA, hU⟩, hcase⟩ := hdj
    have hs : scanPos cfg ent.next ≠ stop := by
      rw [hsp]
      exact fun h => hstop j (by omega) h.symm
    have hnx : j * cfg.bsz + cfg.bsz = (j + 1) * cfg.bsz := by
      rw [Nat.add_mul, Nat.one_mul]
    have hst := entry_get_info_start cfg k { ent with start := scanPos cfg ent.next }
    have hfn := entry_get_info_fail_next cfg k { ent with start := scanPos cfg ent.next }
    have hcan := entry_get_info_canon cfg k { ent with start := scanPos cfg ent.next }
    generalize hr : entry_get_info cfg k { ent with start := scanPos cfg ent.next } = r
      at hst hfn hcan
    obtain ⟨rc0, e1⟩ := r
    simp only [hsp] at hst hfn hcan
    by_cases hrc : rc0 ≠ 0
    · have hn1 : e1.next = (j + 1) * cfg.bsz := by
        rw [hfn hrc, hA, hnx]
      rw [walk_step_fail cfg rdkey cb stop fuel k ent wc st rc0 e1 hs hr hrc
        (by rw [hn1]; exact fun h => hstop (j + 1) (by omega) h.symm)]
      exact ih e1 wc st ⟨j + 1, by omega, hn1⟩
    · have h0 : rc0 = 0 := by
        by_contra hx; exact hrc hx
      subst h0
      have hc := hcan e1 rfl
      rw [hc] at hcase
      dsimp only at hcase
      rcases hcase with hx | ⟨⟨hal, hwc⟩, hstale⟩
      · exact absurd rfl hx
      · have hn1 : u32 (e1.start + cfg.bsz) = (j + 1) * cfg.bsz := by
          rw [hst, hU, hnx]
        rw [walk_step_skip cfg rdkey cb stop fuel k ent wc st e1 hs hr
          (by rw [hst]; exact hal)
          (by rw [entry_get_wrapcnt_const k e1 hwc wc]; exact hstale)
          (by rw [hn1]; exact fun h => hstop (j + 1) (by omega) h.symm)]
        exact ih _ _ st ⟨j + 1, by omega, hn1⟩

/-- On a store with `scanStuck` the search of `entry_get` does not return, whatever the
number of rounds: its first scan runs to the write position. -/
theorem entry_get_stuck (cfg : Cfg) (k : Kvs) (h : scanStuck cfg k = true) (ent : Ent)
    (rdkey : ReadCb) (fuel : Nat) : entry_get cfg k ent rdkey fuel = none := by
  unfold scanStuck at h
  simp only [Bool.and_eq_true, decide_eq_true_eq, List.all_eq_true, List.any_eq_true,
    List.mem_range] at h
  obtain ⟨⟨⟨⟨hb, hd⟩, hstop⟩, hn⟩, i, hi, hs⟩ := h
  obtain ⟨n, hn1⟩ := Nat.exists_eq_succ_of_ne_zero hn
  unfold entry_get
  dsimp only
  rw [hn1, entry_get_loop]
  dsimp only
  rw [walk_ring_dead cfg k rdkey _ k.pos hb hd hstop fuel _ _ _ ⟨i, hi, hs⟩]

/-- On a mounted store with `scanStuck` no `kvs_read` returns. -/
theorem kvs_read_stuck (cfg : Cfg) (k : Kvs) (hr : k.ready = true)
    (h : scanStuck cfg k = true) (key : List Nat) (len fuel : Nat) :
    kvs_read cfg k key len fuel = none := by
  unfold kvs_read kvs_entry_get
  rw [if_neg (by rw [hr]; decide), entry_get_stuck cfg k h]

/-- On a mounted store with `scanStuck` no `kvs_write` returns: it looks for the key
first. -/
theorem kvs_write_stuck (cfg : Cfg) (k : Kvs) (hr : k.ready = true)
    (h : scanStuck cfg k = true) (key value : List Nat) (fuel : Nat) :
    kvs_write cfg k key value fuel = none := by
  unfold kvs_write kvs_entry_get
  rw [if_neg (by rw [hr]; decide), if_neg (by rw [hr]; decide), entry_get_stuck cfg k h]

/-! ## The contract at the last value of the wrap counter -/

set_option maxRecDepth 100000 in
/-- The way to the wrap counter `0xFFFFFFFF` through the public API, on the EEPROM region
`eeRaw4`: `kvs_mount`, a `kvs_write` that fills block 0 to its last byte (the end mark
of the EEPROM backend is written to the first four bytes of block 1), `kvs_unmount` and
`kvs_mount` (the end mark is taken for the block header entry of block 1, the erased
bytes behind it for the wrap counter `0xFFFFFFFF`), and `kvs_compact` (the write
position moves to the base of block 2).  All calls return 0. -/
theorem wrap_max_reached :
    kvs_mount eeCfg4 eeRaw4 20 = some (0, wpK0) ∧
    kvs_write eeCfg4 wpK0 [102] (List.replicate 43 7) 20 = some (0, wpK1) ∧
    kvs_unmount eeCfg4 wpK1 = (0, { wpK1 with ready := false }) ∧
    kvs_mount eeCfg4 { wpK1 with ready := false } 20 = some (0, wpM) ∧
    (wpM.ready, wpM.pos, wpM.bend, wpM.wrapcnt) = (true, 72, 128, 4294967295) ∧
    kvs_compact eeCfg4 wpM 20 = some (0, wpC) ∧
    (wpC.ready, wpC.pos, wpC.bend, wpC.wrapcnt) = (true, 128, 192, 4294967295) := by
  decide

set_option maxRecDepth 100000 in
/-- The writes on the store `wpC`: a write that fills block 2 to its last byte, and a
write or a delete of the same key behind it, in block 3.  All calls return 0. -/
theorem wrap_max_writes :
    kvs_write eeCfg4 wpC [107] [1] 20 = some (0, wpW) ∧
    kvs_write eeCfg4 wpC [107] (List.replicate 43 7) 20 = some (0, wpF) ∧
    kvs_write eeCfg4 wpF [107] [2] 20 = some (0, wpN) ∧
    kvs_delete eeCfg4 wpF [107] 20 = some (0, wpD) := by
  decide

set_option maxRecDepth 100000 in
/-- On the stores at the wrap counter `0xFFFFFFFF` whose write position is inside a
block, every block base is passed by the scans: the block header entries carry a wrap
counter `c` with `c + 1 < 0xFFFFFFFF` in 32 bits (0 in block 0, `0xFFFFFFFF` itself in
the other blocks), the other blocks are erased. -/
theorem wrap_max_stuck :
    scanStuck eeCfg4 wpM = true ∧ scanStuck eeCfg4 wpW = true ∧
    scanStuck eeCfg4 wpN = true ∧ scanStuck eeCfg4 wpD = true ∧
    scanStuck eeCfg4 wpX = true := by
  decide

set_option maxRecDepth 100000 in
/-- C1: read-after-write round trip.  On the EEPROM region `eeRaw4` (four blocks of 64
bytes) the calls `kvs_mount`, `kvs_write("f", v)` with a value of 43 bytes (block 0 is
filled to its last byte), `kvs_unmount`, `kvs_mount` and `kvs_compact` all return 0
and lead to the mounted store `wpC` with the wrap counter `0xFFFFFFFF`.  There
`kvs_write("k", [1])` returns 0, and the following `kvs_read("k", buf, 1)` does not
return, whatever the number of rounds of its scan.  `kvs_write("k", v)` with a value of
43 bytes returns 0 as well, and the following `kvs_read("k", buf, 43)` returns
`-KVS_ENOENT`. -/
theorem read_after_write_at_wrap_max :
    kvs_mount eeCfg4 eeRaw4 20 = some (0, wpK0) ∧
    kvs_write eeCfg4 wpK0 [102] (List.replicate 43 7) 20 = some (0, wpK1) ∧
    kvs_unmount eeCfg4 wpK1 = (0, { wpK1 with ready := false }) ∧
    kvs_mount eeCfg4 { wpK1 with ready := false } 20 = some (0, wpM) ∧
    kvs_compact eeCfg4 wpM 20 = some (0, wpC) ∧
    (wpC.ready, wpC.wrapcnt) = (true, 4294967295) ∧
    kvs_write eeCfg4 wpC [107] [1] 20 = some (0, wpW) ∧
    (∀ fuel, kvs_read eeCfg4 wpW [107] 1 fuel = none) ∧
    kvs_write eeCfg4 wpC [107] (List.replicate 43 7) 20 = some (0, wpF) ∧
    kvs_read eeCfg4 wpF [107] 43 20 = some (-KVS_ENOENT, []) :=
  ⟨wrap_max_reached.1, wrap_max_reached.2.1, wrap_max_reached.2.2.1,
    wrap_max_reached.2.2.2.1, wrap_max_reached.2.2.2.2.2.1, by decide, wrap_max_writes.1,
    fun fuel => kvs_read_stuck eeCfg4 wpW rfl wrap_max_stuck.2.1 [107] 1 fuel,
    wrap_max_writes.2.1, by decide⟩

/-- C2: the newest version wins.  On the mounted store `wpC`, which the calls
`kvs_mount`, `kvs_write`, `kvs_unmount`, `kvs_mount` and `kvs_compact` make of the
EEPROM region `eeRaw4`, `kvs_write("k", v1)` with a value of 43 bytes returns 0 (block
2 is filled to its last byte) and the following `kvs_write("k", [2])` returns 0 (the
entry is appended in block 3); the `kvs_read("k", buf, 1)` behind them does not return,
whatever the number of rounds of its scan. -/
theorem newest_version_at_wrap_max :
    kvs_mount eeCfg4 eeRaw4 20 = some (0, wpK0) ∧
    kvs_write eeCfg4 wpK0 [102] (List.replicate 43 7) 20 = some (0, wpK1) ∧
    kvs_unmount eeCfg4 wpK1 = (0, { wpK1 with ready := false }) ∧
    kvs_mount eeCfg4 { wpK1 with ready := false } 20 = some (0, wpM) ∧
    kvs_compact eeCfg4 wpM 20 = some (0, wpC) ∧
    kvs_write eeCfg4 wpC [107] (List.replicate 43 7) 20 = some (0, wpF) ∧
    kvs_write eeCfg4 wpF [107] [2] 20 = some (0, wpN) ∧
    (wpN.ready, wpN.wrapcnt) = (true, 4294967295) ∧
    ∀ fuel, kvs_read eeCfg4 wpN [107] 1 fuel = none :=
  ⟨wrap_max_reached.1, wrap_max_reached.2.1, wrap_max_reached.2.2.1,
    wrap_max_reached.2.2.2.1, wrap_max_reached.2.2.2.2.2.1, wrap_max_writes.2.1,
    wrap_max_writes.2.2.1, by decide,
    fun fuel => kvs_read_stuck eeCfg4 wpN rfl wrap_max_stuck.2.2.1 [107] 1 fuel⟩

/-- C3: delete.  `kvs_delete(key)` is `kvs_write(key, empty value)`.  On the mounted
store `wpC`, which the calls `kvs_mount`, `kvs_write`, `kvs_unmount`, `kvs_mount` and
`kvs_compact` make of the EEPROM region `eeRaw4`, `kvs_write("k", v)` with a value of
43 bytes returns 0 and the following `kvs_delete("k")` returns 0; the `kvs_read("k")`
behind them does not return, whatever the length asked for and the number of rounds of
its scan. -/
theorem delete_at_wrap_max :
    (∀ (c : Cfg) (s : Kvs) (ky : List Nat) (fl : Nat),
      kvs_delete c s ky fl = kvs_write c s ky [] fl) ∧
    kvs_mount eeCfg4 eeRaw4 20 = some (0, wpK0) ∧
    kvs_write eeCfg4 wpK0 [102] (List.replicate 43 7) 20 = some (0, wpK1) ∧
    kvs_unmount eeCfg4 wpK1 = (0, { wpK1 with ready := false }) ∧
    kvs_mount eeCfg4 { wpK1 with ready := false } 20 = some (0, wpM) ∧
    kvs_compact eeCfg4 wpM 20 = some (0, wpC) ∧
    kvs_write eeCfg4 wpC [107] (List.replicate 43 7) 20 = some (0, wpF) ∧
    kvs_delete eeCfg4 wpF [107] 20 = some (0, wpD) ∧
    (wpD.ready, wpD.wrapcnt) = (true, 4294967295) ∧
    ∀ len fuel, kvs_read eeCfg4 wpD [107] len fuel = none :=
  ⟨fun _ _ _ _ => rfl, wrap_max_reached.1, wrap_max_reached.2.1, wrap_max_reached.2.2.1,
    wrap_max_reached.2.2.2.1, wrap_max_reached.2.2.2.2.2.1, wrap_max_writes.2.1,
    wrap_max_writes.2.2.2, by decide,
    fun len fuel => kvs_read_stuck eeCfg4 wpD rfl wrap_max_stuck.2.2.2.1 [107] len fuel⟩

/-- C21: NoSpace.  On the mounted store `wpM`, which the calls `kvs_mount`,
`kvs_write`, `kvs_unmount` and `kvs_mount` make of the EEPROM region `eeRaw4`, the
entry of a key of 1 byte and a value of 60 bytes does not fit in a block next to the
block header entry (69 bytes against 64 - 12), and `kvs_write` of this entry does not
return, whatever the number of rounds of its scans: it does not get as far as the first
append. -/
theorem nospace_at_wrap_max :
    kvs_mount eeCfg4 eeRaw4 20 = some (0, wpK0) ∧
    kvs_write eeCfg4 wpK0 [102] (List.replicate 43 7) 20 = some (0, wpK1) ∧
    kvs_unmount eeCfg4 wpK1 = (0, { wpK1 with ready := false }) ∧
    kvs_mount eeCfg4 { wpK1 with ready := false } 20 = some (0, wpM) ∧
    (wpM.ready, wpM.wrapcnt) = (true, 4294967295) ∧
    entry_size eeCfg4 [107].length (List.replicate 60 1).length
      > eeCfg4.bsz - entry_size eeCfg4 0 (4 + wpM.csz) ∧
    (entry_size eeCfg4 [107].length (List.replicate 60 1).length,
      eeCfg4.bsz - entry_size eeCfg4 0 (4 + wpM.csz)) = (69, 52) ∧
    ∀ fuel, kvs_write eeCfg4 wpM [107] (List.replicate 60 1) fuel = none :=
  ⟨wrap_max_reached.1, wrap_max_reached.2.1, wrap_max_reached.2.2.1,
    wrap_max_reached.2.2.2.1, by decide, by decide, by decide,
    fun fuel => kvs_write_stuck eeCfg4 wpM rfl wrap_max_stuck.1 [107] _ fuel⟩

set_option maxRecDepth 100000 in
/-- C32: entries with a bad payload CRC are invisible.  On every region of less than
`2^31` bytes, for every device content and every callback, `walk` gives the same result
with the callback `crcGuard cb`, which does not return on an entry whose stored CRC-32
is not there or is not the CRC-32 of its key and value bytes: `walk` never hands such an
entry to its callback.  On the store `wpX`, the store `wpN` with a changed value byte in
its newest entry `"k" = [2]` at `[204, 214)`, the header of that entry decodes and its
CRC-32 does not fit, the previous version of "k" at `[140, 192)` is intact, and
`kvs_read("k")` does not return, whatever the length asked for and the number of rounds
of its scan: it returns neither the previous version nor `-KVS_ENOENT`. -/
theorem bad_crc_at_wrap_max :
    (∀ (cfg : Cfg), cfg.bcnt * cfg.bsz < 2147483648 →
      ∀ (σ : Type) (rdkey : ReadCb) (cb : Cb σ) (stop fuel : Nat) (k : Kvs) (ent : Ent)
        (wc : Nat) (st : σ), walk cfg rdkey (crcGuard cb) stop fuel k ent wc st
          = walk cfg rdkey cb stop fuel k ent wc st) ∧
    (∀ (k : Kvs) (e : Ent), e.start < 2147483648 →
      (entry_kvcrc_ok k e = true ↔ CrcGood k e)) ∧
    kvs_write eeCfg4 wpF [107] [2] 20 = some (0, wpN) ∧
    wpX = { wpN with dev := wpN.dev.set 209 3 } ∧
    (wpX.ready, wpX.pos, wpX.wrapcnt) = (true, 214, 4294967295) ∧
    entry_get_info eeCfg4 wpX { start := 204, next := 0, he_hdr := 0 }
      = (0, { start := 204, next := 214, he_hdr := 2097152257 }) ∧
    seg wpX.dev 208 2 = [107, 3] ∧
    entry_kvcrc_ok wpX { start := 204, next := 214, he_hdr := 2097152257 } = false ∧
    entry_get_info eeCfg4 wpX { start := 140, next := 0, he_hdr := 0 }
      = (0, { start := 140, next := 192, he_hdr := 3103795969 }) ∧
    seg wpX.dev 144 44 = 107 :: List.replicate 43 7 ∧
    entry_kvcrc_ok wpX { start := 140, next := 192, he_hdr := 3103795969 } = true ∧
    ∀ len fuel, kvs_read eeCfg4 wpX [107] len fuel = none :=
  ⟨fun cfg hsm σ rdkey cb stop fuel k ent wc st =>
      walk_crc_guard cfg hsm rdkey cb stop fuel k ent wc st,
    entry_kvcrc_ok_iff, wrap_max_writes.2.2.1, rfl, by decide, by decide, by decide,
    by decide, by decide, by decide, by decide,
    fun len fuel => kvs_read_stuck eeCfg4 wpX rfl wrap_max_stuck.2.2.2.2 [107] len fuel⟩

end KVS
